import Mathlib

/-!
# Gate bootstrapping layer of the binary FHE scheme

A shallow embedding of `src/binfhe/lib/binfhe-base-scheme.cpp`.

Conventions of the embedding.

* `NativeInteger` values are natural numbers.  Every modulus handled here is taken to
  have passed the `MAX_MODULUS_SIZE` check of the `NativeVector` constructor, so the
  sums and products of reduced values formed below stay under the 64-bit word size
  and are computed exactly; the size check itself is not modelled.
* A `std::shared_ptr<LWECiphertextImpl>` is an address together with the object it
  points to; `std::make_shared` takes the next free address of the machine state.
* Code that can throw returns an `Except Error`; the machine state is kept on both
  outcomes, because the gadget base of the shared ring parameters is mutated in place.
* A read outside a table is the outcome `none` or `Error.out_of_bounds`; a write
  outside a vector is dropped.
* The collaborators that are not part of this translation unit (blind rotation, key
  switching, modulus switching, polynomial transposition) are the fields of
  `Collaborators`; every call of the blind rotation is recorded in the machine.
* `EvalFunc` receives the bootstrap it calls as an argument, so that the same body runs
  on `BootstrapFunc` and on a bootstrap without noise.
-/

namespace lbcrypto

/-! ## Integers -/

/-- Modelled from the spec: `NativeInteger::ModAddFast` (the integer class is not part
of the sources).  Modular addition of operands that are already reduced: one
conditional subtraction of the modulus. -/
def ModAddFast (a b modulus : Nat) : Nat :=
  if a + b ≥ modulus then a + b - modulus else a + b

/-- Modelled from the spec: `NativeInteger::ModSubFast` (the integer class is not part
of the sources).  Modular subtraction of operands that are already reduced: one
conditional addition of the modulus. -/
def ModSubFast (a b modulus : Nat) : Nat :=
  if a ≥ b then a - b else a + modulus - b

/-- Modelled from the spec: `NativeInteger::ModSub` (the integer class is not part of
the sources).  Modular subtraction that first reduces both operands. -/
def ModSub (a b modulus : Nat) : Nat :=
  ModSubFast (a % modulus) (b % modulus) modulus

/-! ## Data model -/

/-- The exception classes raised through `OPENFHE_THROW`, with their message.
`out_of_bounds` and `undefined_shift` are not exceptions of the program: they mark a read
outside a table and a shift whose result does not fit its type, which the source leaves
undefined. -/
inductive Error where
  | config_error (msg : String)
  | not_implemented_error (msg : String)
  | openfhe_error (msg : String)
  | math_error (msg : String)
  | not_available_error (msg : String)
  | out_of_bounds
  | undefined_shift
  deriving DecidableEq

/-- The gate identifiers dispatched on by `EvalBinGate`; their numbering is not used. -/
inductive BINGATE where
  | OR | AND | NOR | NAND | XOR_FAST | XNOR_FAST | XOR | XNOR
  deriving DecidableEq

/-- A `NativeVector`: the host data and the modulus it carries. -/
structure NativeVector where
  data : List Nat
  modulus : Nat
  deriving DecidableEq

/-- An LWE ciphertext `(a, b)`; `GetModulus` is the modulus carried by the vector `a`
and `GetLength` its length. -/
structure LWECiphertextImpl where
  a : NativeVector
  b : Nat
  deriving DecidableEq

/-- A `std::shared_ptr<LWECiphertextImpl>`: `ptr` is the address compared by `==`,
`obj` the object it points to.  A parameter that is only dereferenced is passed as
the object itself. -/
structure LWECiphertext where
  ptr : Nat
  obj : LWECiphertextImpl
  deriving DecidableEq

/-- An RLWE ciphertext: the two ring elements `GetElements()[0]` and
`GetElements()[1]`, each given by its coefficient values (a change of `Format` does
not change the polynomial and is not modelled). -/
structure RLWECiphertextImpl where
  elem0 : List Nat
  elem1 : List Nat
  deriving DecidableEq

/-- The accumulator key `RingGSWACCKey`, a shared pointer that may be null; the key
data is opaque to the core. -/
abbrev RingGSWACCKey := Option (List Nat)

/-- The key switching key, opaque to the core. -/
abbrev LWESwitchingKey := List Nat

/-- The bootstrapping key bundle `RingGSWBTKey`. -/
structure RingGSWBTKey where
  BSkey : RingGSWACCKey
  KSkey : LWESwitchingKey
  deriving DecidableEq

/-- The parameters read by the core: LWE dimension `n`, ring dimension `N`, moduli
`q`, `Q`, `qKS`, and the per-gate constants `GetGateConst()[gate]`, which are not
defined in the sources and are taken as given.  The gadget base, the one mutable field,
lives in `Machine`. -/
structure BinFHECryptoParams where
  n : Nat
  N : Nat
  q : Nat
  Q : Nat
  qKS : Nat
  gateConst : BINGATE → Nat

/-- One invocation of the external blind rotation `EvalAcc`: the gadget base in force,
the accumulator key, the initial accumulator and the rotation vector. -/
structure AccCall where
  baseG : Nat
  ek : List Nat
  acc : RLWECiphertextImpl
  a : NativeVector
  deriving DecidableEq

/-- The mutable state around the core: the next free address for `std::make_shared`,
the gadget base of the shared ring parameters, and the blind rotations done so far. -/
structure Machine where
  nextPtr : Nat
  baseG : Nat
  accCalls : List AccCall
  deriving DecidableEq

/-- The collaborators outside this translation unit.  `EvalAcc` returns the accumulator
it was given after the blind rotation; `Transpose` acts on the coefficient values of
a polynomial with the given modulus. -/
structure Collaborators where
  EvalAcc : BinFHECryptoParams → Nat → List Nat → RLWECiphertextImpl → NativeVector →
    RLWECiphertextImpl
  Transpose : Nat → List Nat → List Nat
  ModSwitch : Nat → LWECiphertextImpl → LWECiphertextImpl
  KeySwitch : BinFHECryptoParams → LWESwitchingKey → LWECiphertextImpl → LWECiphertextImpl

/-! ## Computations with state and exceptions -/

/-- A computation that reads and updates the machine and either returns or throws. -/
def M (α : Type) : Type := Machine → Except Error α × Machine

/-- Return a value. -/
def M.pure {α : Type} (x : α) : M α := fun s => (Except.ok x, s)

/-- Sequence two computations; an exception skips the second one. -/
def M.bind {α β : Type} (x : M α) (f : α → M β) : M β := fun s =>
  match x s with
  | (Except.ok v, s1) => f v s1
  | (Except.error e, s1) => (Except.error e, s1)

instance : Monad M where
  pure := M.pure
  bind := M.bind

/-- The statement `OPENFHE_THROW(e)`. -/
def throwErr {α : Type} (e : Error) : M α := fun s => (Except.error e, s)

/-- Run a step that does not touch the machine. -/
def liftExcept {α : Type} (x : Except Error α) : M α := fun s => (x, s)

/-- The call `std::make_shared<LWECiphertextImpl>(obj)` for a ciphertext whose handle
is returned to the caller. -/
def make_shared (obj : LWECiphertextImpl) : M LWECiphertext := fun s =>
  (Except.ok ⟨s.nextPtr, obj⟩, { s with nextPtr := s.nextPtr + 1 })

/-! ## Vector and LWE primitives -/

/-- The method `NativeVector::ModAddEq(const NativeVector&)`. -/
def NativeVector.ModAddEq (x b : NativeVector) : Except Error NativeVector :=
  if x.data.length ≠ b.data.length ∨ x.modulus ≠ b.modulus then
    Except.error (Error.math_error "ModAddEq called on NativeVectorT's with different parameters.")
  else
    Except.ok { x with data := List.zipWith (fun u v => ModAddFast u v x.modulus) x.data b.data }

/-- The method `NativeVector::ModSubEq(const NativeVector&)`. -/
def NativeVector.ModSubEq (x b : NativeVector) : Except Error NativeVector :=
  if x.data.length ≠ b.data.length ∨ x.modulus ≠ b.modulus then
    Except.error (Error.math_error "ModSubEq called on NativeVectorT's with different parameters.")
  else
    Except.ok { x with data := List.zipWith (fun u v => ModSubFast u v x.modulus) x.data b.data }

/-- The method `NativeVector::ModSub(const NativeVector&)`. -/
def NativeVector.ModSub (x b : NativeVector) : Except Error NativeVector :=
  if x.data.length ≠ b.data.length ∨ x.modulus ≠ b.modulus then
    Except.error (Error.math_error "ModSub called on NativeVectorT's with different parameters.")
  else
    Except.ok { x with data := List.zipWith (fun u v => ModSubFast u v x.modulus) x.data b.data }

/-- Modelled from the spec: `LWEscheme->EvalAddEq(ct1, ct2)` of the LWE primitive scheme
(not among the sources), the elementwise in-place sum `ct1 += ct2`. -/
def EvalAddEq (ct1 ct2 : LWECiphertextImpl) : Except Error LWECiphertextImpl :=
  match ct1.a.ModAddEq ct2.a with
  | Except.error e => Except.error e
  | Except.ok a => Except.ok ⟨a, ModAddFast ct1.b ct2.b ct1.a.modulus⟩

/-- Modelled from the spec: `LWEscheme->EvalSubEq(ct1, ct2)` of the LWE primitive scheme
(not among the sources), the elementwise in-place difference `ct1 -= ct2`. -/
def EvalSubEq (ct1 ct2 : LWECiphertextImpl) : Except Error LWECiphertextImpl :=
  match ct1.a.ModSubEq ct2.a with
  | Except.error e => Except.error e
  | Except.ok a => Except.ok ⟨a, ModSubFast ct1.b ct2.b ct1.a.modulus⟩

/-- Modelled from the spec: `LWEscheme->EvalSubEq2(ct1, ct2)` of the LWE primitive scheme
(not among the sources), the elementwise difference stored in the second operand,
`ct2 = ct1 - ct2`; the result is the new value of `ct2`. -/
def EvalSubEq2 (ct1 ct2 : LWECiphertextImpl) : Except Error LWECiphertextImpl :=
  match ct1.a.ModSub ct2.a with
  | Except.error e => Except.error e
  | Except.ok a => Except.ok ⟨a, ModSubFast ct1.b ct2.b ct1.a.modulus⟩

/-- Modelled from the spec: `LWEscheme->EvalAddConstEq(ct, cnst)` of the LWE primitive
scheme (not among the sources): the constant is added to `b`. -/
def EvalAddConstEq (ct : LWECiphertextImpl) (cnst : Nat) : LWECiphertextImpl :=
  { ct with b := ModAddFast ct.b cnst ct.a.modulus }

/-- Modelled from the spec: `LWEscheme->EvalSubConstEq(ct, cnst)` of the LWE primitive
scheme (not among the sources): the constant is subtracted from `b`. -/
def EvalSubConstEq (ct : LWECiphertextImpl) (cnst : Nat) : LWECiphertextImpl :=
  { ct with b := ModSubFast ct.b cnst ct.a.modulus }

/-- The method `NativeVector::SetModulus`: the modulus is replaced, the data is kept. -/
def NativeVector.SetModulus (x : NativeVector) (value : Nat) : NativeVector :=
  { x with modulus := value }

/-- Modelled from the spec: `LWECiphertextImpl::SetModulus` (the class is not among the
sources): the ciphertext is reduced to the new modulus, which the vector then carries. -/
def LWECiphertextImpl.SetModulus (ct : LWECiphertextImpl) (mod : Nat) : LWECiphertextImpl :=
  ⟨⟨ct.a.data.map (fun x => x % mod), mod⟩, ct.b % mod⟩

/-! ## NOT -/

/-- The method `BinFHEScheme::EvalNOT`. -/
def EvalNOT (_params : BinFHECryptoParams) (ct : LWECiphertextImpl) : M LWECiphertext :=
  let q := ct.a.modulus
  let a : NativeVector := ⟨ct.a.data.map (fun x => if x = 0 then 0 else q - x), q⟩
  let b := ModSubFast (q >>> 2) ct.b q
  make_shared ⟨a, b⟩

/-! ## Test vectors and blind rotation -/

/-- The vector `m` filled by the loop of `BootstrapGateCore`.  A write outside the
vector is dropped. -/
def gateTestVector (params : BinFHECryptoParams) (gate : BINGATE) (ct : LWECiphertextImpl) :
    List Nat :=
  let q := ct.a.modulus
  let qHalf := q >>> 1
  let q1 := params.gateConst gate
  let q2 := ModAddFast q1 qHalf q
  let Q := params.Q
  let Q8 := Q / 8 + 1
  let Q8Neg := Q - Q8
  let N := params.N
  let factor := 2 * N / q
  (List.range qHalf).foldl
    (fun m j =>
      let temp := ModSub ct.b j q
      if q1 < q2 then
        m.set (j * factor) (if temp ≥ q1 ∧ temp < q2 then Q8Neg else Q8)
      else
        m.set (j * factor) (if temp ≥ q2 ∧ temp < q1 then Q8 else Q8Neg))
    (List.replicate N 0)

/-- The method `BinFHEScheme::BootstrapGateCore`. -/
def BootstrapGateCore (ext : Collaborators) (params : BinFHECryptoParams) (gate : BINGATE)
    (ek : RingGSWACCKey) (ct : LWECiphertextImpl) : M RLWECiphertextImpl :=
  match ek with
  | none =>
    throwErr (Error.config_error
      "Bootstrapping keys have not been generated. Please call BTKeyGen before calling bootstrapping.")
  | some key => fun s =>
    let m := gateTestVector params gate ct
    let acc : RLWECiphertextImpl := ⟨List.replicate params.N 0, m⟩
    (Except.ok (ext.EvalAcc params s.baseG key acc ct.a),
      { s with accCalls := s.accCalls ++ [⟨s.baseG, key, acc, ct.a⟩] })

/-- The vector `m` filled by the loop of `BootstrapFuncCore`.  A write outside the
vector is dropped. -/
def funcTestVector (params : BinFHECryptoParams) (ct : LWECiphertextImpl)
    (f : Nat → Nat → Nat → Nat) (fmod : Nat) : List Nat :=
  let Q := params.Q
  let N := params.N
  let ctMod := ct.a.modulus
  let factor := 2 * N / ctMod
  (List.range (ctMod >>> 1)).foldl
    (fun m j =>
      let temp := ModSub ct.b j ctMod
      m.set (j * factor) (Q / fmod * f temp ctMod fmod))
    (List.replicate N 0)

/-- The method `BinFHEScheme::BootstrapFuncCore`. -/
def BootstrapFuncCore (ext : Collaborators) (params : BinFHECryptoParams)
    (ek : RingGSWACCKey) (ct : LWECiphertextImpl) (f : Nat → Nat → Nat → Nat) (fmod : Nat) :
    M RLWECiphertextImpl :=
  match ek with
  | none =>
    throwErr (Error.config_error
      "Bootstrapping keys have not been generated. Please call BTKeyGen before calling bootstrapping.")
  | some key => fun s =>
    let m := funcTestVector params ct f fmod
    let acc : RLWECiphertextImpl := ⟨List.replicate params.N 0, m⟩
    (Except.ok (ext.EvalAcc params s.baseG key acc ct.a),
      { s with accCalls := s.accCalls ++ [⟨s.baseG, key, acc, ct.a⟩] })

/-- The type of `BootstrapFunc`: parameters, key bundle, ciphertext, function,
output modulus. -/
abbrev BootstrapFuncT : Type :=
  BinFHECryptoParams → RingGSWBTKey → LWECiphertextImpl → (Nat → Nat → Nat → Nat) → Nat →
    M LWECiphertext

/-- The method `BinFHEScheme::BootstrapFunc`. -/
def BootstrapFunc (ext : Collaborators) : BootstrapFuncT := fun params EK ct f fmod => do
  let acc ← BootstrapFuncCore ext params EK.BSkey ct f fmod
  let accVec0 := ext.Transpose params.Q acc.elem0
  let ctExt : LWECiphertextImpl := ⟨⟨accVec0, params.Q⟩, acc.elem1.getD 0 0⟩
  let ctMS := ext.ModSwitch params.qKS ctExt
  let ctKS := ext.KeySwitch params EK.KSkey ctMS
  make_shared (ext.ModSwitch fmod ctKS)

/-! ## Gates -/

/-- The method `BinFHEScheme::EvalBinGate`. -/
def EvalBinGate (ext : Collaborators) (params : BinFHECryptoParams) (gate : BINGATE)
    (EK : RingGSWBTKey) (ct1 ct2 : LWECiphertext) : M LWECiphertext :=
  if ct1.ptr = ct2.ptr then
    throwErr (Error.config_error "Input ciphertexts should be independant")
  else if h : gate = BINGATE.XOR ∨ gate = BINGATE.XNOR then do
    let ct1NOT ← EvalNOT params ct1.obj
    let ct2NOT ← EvalNOT params ct2.obj
    let ctAND1 ← EvalBinGate ext params BINGATE.AND EK ct1 ct2NOT
    let ctAND2 ← EvalBinGate ext params BINGATE.AND EK ct1NOT ct2
    let ctOR ← EvalBinGate ext params BINGATE.OR EK ctAND1 ctAND2
    if gate = BINGATE.XOR then pure ctOR else EvalNOT params ctOR.obj
  else do
    let ctprep ←
      if gate = BINGATE.XOR_FAST ∨ gate = BINGATE.XNOR_FAST then
        liftExcept (do
          let d ← EvalSubEq ct1.obj ct2.obj
          EvalAddEq d d)
      else
        liftExcept (EvalAddEq ct1.obj ct2.obj)
    let acc ← BootstrapGateCore ext params gate EK.BSkey ctprep
    let accVec0 := ext.Transpose params.Q acc.elem0
    let Q := params.Q
    let b := ModAddFast (Q / 8 + 1) (acc.elem1.getD 0 0) Q
    let ctExt : LWECiphertextImpl := ⟨⟨accVec0, Q⟩, b⟩
    let ctMS := ext.ModSwitch params.qKS ctExt
    let ctKS := ext.KeySwitch params EK.KSkey ctMS
    make_shared (ext.ModSwitch ct1.obj.a.modulus ctKS)
termination_by (if gate = BINGATE.XOR ∨ gate = BINGATE.XNOR then 1 else 0)
decreasing_by
  all_goals simp_wf
  all_goals simp [h]

/-- The method `BinFHEScheme::Bootstrap`. -/
def Bootstrap (ext : Collaborators) (params : BinFHECryptoParams) (EK : RingGSWBTKey)
    (ct : LWECiphertextImpl) : M LWECiphertext := do
  let ctprep := EvalAddConstEq ct (ct.a.modulus >>> 2)
  let acc ← BootstrapGateCore ext params BINGATE.AND EK.BSkey ctprep
  let accVec0 := ext.Transpose params.Q acc.elem0
  let Q := params.Q
  let b := ModAddFast (Q / 8 + 1) (acc.elem1.getD 0 0) Q
  let ctExt : LWECiphertextImpl := ⟨⟨accVec0, Q⟩, b⟩
  let ctMS := ext.ModSwitch params.qKS ctExt
  let ctKS := ext.KeySwitch params EK.KSkey ctMS
  make_shared (ext.ModSwitch ct.a.modulus ctKS)


/-! ## Summaries used in the proofs about gates -/

/-- The object `EvalNOT` allocates. -/
def notObj (ct : LWECiphertextImpl) : LWECiphertextImpl :=
  ⟨⟨ct.a.data.map (fun x => if x = 0 then 0 else ct.a.modulus - x), ct.a.modulus⟩,
    ModSubFast (ct.a.modulus >>> 2) ct.b ct.a.modulus⟩

/-- The ciphertext `ctprep` that the primitive path of `EvalBinGate` hands to
`BootstrapGateCore`. -/
def gatePrep (gate : BINGATE) (o1 o2 : LWECiphertextImpl) : Except Error LWECiphertextImpl :=
  if gate = BINGATE.XOR_FAST ∨ gate = BINGATE.XNOR_FAST then
    match EvalSubEq o1 o2 with
    | Except.error e => Except.error e
    | Except.ok d => EvalAddEq d d
  else
    EvalAddEq o1 o2

/-- The primitive path of `EvalBinGate` as a function of the two objects and the
gadget base: the exception it throws, or the object it returns together with the
blind rotation it requested. -/
def gateObj (ext : Collaborators) (params : BinFHECryptoParams) (gate : BINGATE)
    (EK : RingGSWBTKey) (baseG : Nat) (o1 o2 : LWECiphertextImpl) :
    Except Error (LWECiphertextImpl × AccCall) :=
  match gatePrep gate o1 o2 with
  | Except.error e => Except.error e
  | Except.ok ctprep =>
    match EK.BSkey with
    | none =>
      Except.error (Error.config_error
        "Bootstrapping keys have not been generated. Please call BTKeyGen before calling bootstrapping.")
    | some key =>
      let acc0 : RLWECiphertextImpl :=
        ⟨List.replicate params.N 0, gateTestVector params gate ctprep⟩
      let acc := ext.EvalAcc params baseG key acc0 ctprep.a
      let b := ModAddFast (params.Q / 8 + 1) (acc.elem1.getD 0 0) params.Q
      Except.ok
        (ext.ModSwitch o1.a.modulus
          (ext.KeySwitch params EK.KSkey
            (ext.ModSwitch params.qKS ⟨⟨ext.Transpose params.Q acc.elem0, params.Q⟩, b⟩)),
          ⟨baseG, key, acc0, ctprep.a⟩)

/-- XOR as the specification words it, `OR(AND(c1, NOT c2), AND(NOT c1, c2))`,
evaluated innermost first and left to right. -/
def synthXOR (ext : Collaborators) (params : BinFHECryptoParams) (EK : RingGSWBTKey)
    (c1 c2 : LWECiphertext) : M LWECiphertext := do
  let n2 ← EvalNOT params c2.obj
  let and1 ← EvalBinGate ext params BINGATE.AND EK c1 n2
  let n1 ← EvalNOT params c1.obj
  let and2 ← EvalBinGate ext params BINGATE.AND EK n1 c2
  EvalBinGate ext params BINGATE.OR EK and1 and2

/-- XNOR as the specification words it: the negation of the OR result of `synthXOR`. -/
def synthXNOR (ext : Collaborators) (params : BinFHECryptoParams) (EK : RingGSWBTKey)
    (c1 c2 : LWECiphertext) : M LWECiphertext := do
  let r ← synthXOR ext params EK c1 c2
  EvalNOT params r.obj

/-- What a caller observes of a run: the exception or the returned object (without
its address), and the blind rotations recorded. -/
def observe (r : Except Error LWECiphertext × Machine) :
    Except Error LWECiphertextImpl × List AccCall :=
  (match r.1 with
    | Except.ok c => Except.ok c.obj
    | Except.error e => Except.error e,
   r.2.accCalls)



/-! ## Summaries used in the proofs about function evaluation -/

/-- The object `BootstrapFunc` returns when the accumulator key `key` is present and
the gadget base is `baseG`. -/
def funcObj (ext : Collaborators) (params : BinFHECryptoParams) (EK : RingGSWBTKey)
    (baseG : Nat) (key : List Nat) (ct : LWECiphertextImpl) (f : Nat → Nat → Nat → Nat)
    (fmod : Nat) : LWECiphertextImpl :=
  let acc0 : RLWECiphertextImpl := ⟨List.replicate params.N 0, funcTestVector params ct f fmod⟩
  let acc := ext.EvalAcc params baseG key acc0 ct.a
  ext.ModSwitch fmod
    (ext.KeySwitch params EK.KSkey
      (ext.ModSwitch params.qKS ⟨⟨ext.Transpose params.Q acc.elem0, params.Q⟩, acc.elem1.getD 0 0⟩))

/-- The blind rotation `BootstrapFunc` requests. -/
def funcCall (params : BinFHECryptoParams) (baseG : Nat) (key : List Nat)
    (ct : LWECiphertextImpl) (f : Nat → Nat → Nat → Nat) (fmod : Nat) : AccCall :=
  ⟨baseG, key, ⟨List.replicate params.N 0, funcTestVector params ct f fmod⟩, ct.a⟩

/-! ## A small instance for the examples -/

/-- Collaborators that leave their argument as it is, up to the modulus asked for. -/
def plainCollaborators : Collaborators where
  EvalAcc := fun _ _ _ acc _ => acc
  Transpose := fun _ v => v
  ModSwitch := fun q ct => ⟨⟨ct.a.data.map (fun x => x % q), q⟩, ct.b % q⟩
  KeySwitch := fun _ _ ct => ct

/-- Parameters with `n = 2`, `N = 8`, `q = 8`, `Q = 97`, `qKS = 16` and the gate
constants 5, 7, 1, 3, 5, 1 (in units of `q/8`) for OR, AND, NOR, NAND, XOR_FAST,
XNOR_FAST. -/
def smallParams : BinFHECryptoParams where
  n := 2
  N := 8
  q := 8
  Q := 97
  qKS := 16
  gateConst := fun g =>
    match g with
    | BINGATE.OR => 5
    | BINGATE.AND => 7
    | BINGATE.NOR => 1
    | BINGATE.NAND => 3
    | BINGATE.XOR_FAST => 5
    | BINGATE.XNOR_FAST => 1
    | _ => 0

/-- A key bundle whose accumulator key is present. -/
def smallKey : RingGSWBTKey := ⟨some [1, 0], []⟩

/-- A machine with two ciphertexts allocated. -/
def smallMachine : Machine := ⟨2, 4, []⟩

/-- A first ciphertext, at address 0. -/
def smallCt1 : LWECiphertext := ⟨0, ⟨⟨[1, 2], 8⟩, 3⟩⟩

/-- A second ciphertext, at address 1. -/
def smallCt2 : LWECiphertext := ⟨1, ⟨⟨[5, 0], 8⟩, 2⟩⟩

/-! ## Function classification -/


/-- The loop `for (i = 1; i < lut.size() / 2; ++i) if (lut[i] != g(lut[lut.size() / 2 + i]))
{ ret = 2; break; }` of `checkInputFunction`, with `k` iterations left and loop counter
`i`; `ret` is the value the variable holds when the loop is entered.  A read outside
the table gives `none`. -/
def pairLoop (lut : List Nat) (g : Nat → Nat) (ret : Nat) : Nat → Nat → Option Nat
  | 0, _ => some ret
  | k + 1, i =>
    match lut[i]?, lut[lut.length / 2 + i]? with
    | some x, some y => if x ≠ g y then some 2 else pairLoop lut g ret k (i + 1)
    | _, _ => none

/-- The function `checkInputFunction`: 0 for negacyclic, 1 for periodic, 2 for arbitrary.
A read outside the table gives `none`. -/
def checkInputFunction (lut : List Nat) (mod : Nat) : Option Nat :=
  match lut[0]?, lut[lut.length / 2]? with
  | some l0, some lh =>
    if l0 = mod - lh then
      pairLoop lut (fun y => mod - y) 0 (lut.length / 2 - 1) 1
    else if l0 = lh then
      pairLoop lut (fun y => y) 1 (lut.length / 2 - 1) 1
    else
      some 2
  | _, _ => none


/-! ## Function evaluation -/

/-- The closure `fLUT` of `EvalFunc`: the direct lookup.  An index outside the table
reads 0. -/
def EvalFunc.fLUT (LUT : List Nat) (x _q _Q : Nat) : Nat :=
  LUT.getD x 0

/-- The closure `f0` of `EvalFunc` (both occurrences): the fold step. -/
def EvalFunc.f0 (x q Q : Nat) : Nat :=
  if x < q / 2 then Q - q / 4 else q / 4

/-- The closure `fLUT1` of `EvalFunc`: the fold-adjusted lookup.  An index outside the
table reads 0. -/
def EvalFunc.fLUT1 (LUT : List Nat) (x q Q : Nat) : Nat :=
  if x < q / 2 then LUT.getD x 0 else Q - LUT.getD (x - q / 2) 0

/-- The closure `fLUT2` of `EvalFunc`: the fold-adjusted lookup in the doubled table.
An index outside the table reads 0. -/
def EvalFunc.fLUT2 (LUT2 : List Nat) (x q Q : Nat) : Nat :=
  if x < q / 2 then LUT2.getD x 0 else Q - LUT2.getD (x - q / 2) 0

/-- The method `BinFHEScheme::EvalFunc`.  The bootstrap it calls is the argument
`bootstrapFunc`; the program passes `BootstrapFunc`. -/
def EvalFunc (bootstrapFunc : BootstrapFuncT) (params : BinFHECryptoParams)
    (EK : RingGSWBTKey) (ct : LWECiphertextImpl) (LUT : List Nat) (beta : Nat) :
    M LWECiphertext :=
  let ct1 := ct
  let q := ct.a.modulus
  match checkInputFunction LUT q with
  | none => throwErr Error.out_of_bounds
  | some functionProperty =>
    if functionProperty = 0 then
      let ct1 := EvalAddConstEq ct1 beta
      bootstrapFunc params EK ct1 (EvalFunc.fLUT LUT) q
    else if functionProperty = 2 then
      let N := params.N
      if q > N then
        throwErr (Error.not_implemented_error
          "ERROR: ciphertext modulus q needs to be <= ring dimension for arbitrary function evaluation")
      else do
        let LUT2 := LUT ++ LUT
        let dq := q <<< 1
        let ct1 : LWECiphertextImpl := { ct1 with a := ct1.a.SetModulus dq }
        let ct2 := EvalAddConstEq ct1 beta
        let ct3 ← bootstrapFunc params EK ct2 EvalFunc.f0 dq
        let ct3obj ← liftExcept (EvalSubEq2 ct1 ct3.obj)
        let ct3obj := EvalAddConstEq ct3obj beta
        let ct3obj := EvalSubConstEq ct3obj (q >>> 1)
        let ct4 ← bootstrapFunc params EK ct3obj (EvalFunc.fLUT2 LUT2) dq
        pure { ct4 with obj := ct4.obj.SetModulus q }
    else do
      let ct1 := EvalAddConstEq ct1 beta
      let ct2 ← bootstrapFunc params EK ct1 EvalFunc.f0 q
      let ct2obj ← liftExcept (EvalSubEq2 ct ct2.obj)
      let ct2obj := EvalAddConstEq ct2obj beta
      let ct2obj := EvalSubConstEq ct2obj (q >>> 2)
      bootstrapFunc params EK ct2obj (EvalFunc.fLUT1 LUT) q

/-- The two-bootstrap fold procedure of the periodic case as the specification words
it: shift by `beta`, bootstrap the fold step, subtract the folded result from the
input, add `beta` again, subtract a quarter of the modulus, bootstrap the
fold-adjusted table. -/
def periodicFold (bootstrapFunc : BootstrapFuncT) (params : BinFHECryptoParams)
    (EK : RingGSWBTKey) (ct : LWECiphertextImpl) (LUT : List Nat) (beta : Nat) :
    M LWECiphertext := do
  let q := ct.a.modulus
  let folded ← bootstrapFunc params EK (EvalAddConstEq ct beta) EvalFunc.f0 q
  let diff ← liftExcept (EvalSubEq2 ct folded.obj)
  let input := EvalSubConstEq (EvalAddConstEq diff beta) (q / 4)
  bootstrapFunc params EK input (EvalFunc.fLUT1 LUT) q

/-! ## What a ciphertext encrypts -/

/-- The inner product of two integer vectors. -/
def dot (a s : List Nat) : Nat :=
  (List.zipWith (fun x y => x * y) a s).sum

/-- Modelled from the spec: the value `b - <a, sk> mod q` that a ciphertext encrypts
under the secret `sk` (decryption is not among the sources). -/
def phase (sk : List Nat) (ct : LWECiphertextImpl) : Nat :=
  (((ct.b : Int) - (dot ct.a.data sk : Int)) % (ct.a.modulus : Int)).toNat


/-- The modelling assumption of an exact, noise-free bootstrap under the secret `sk`:
on every ciphertext with `n` entries and for every positive output modulus `fmod` the
bootstrap returns a reduced ciphertext with `n` entries and modulus `fmod` which
encrypts the step function applied to the value the input encrypts. -/
def ExactBootstrap (bootstrapFunc : BootstrapFuncT) (sk : List Nat) (n : Nat) : Prop :=
  ∀ (params : BinFHECryptoParams) (EK : RingGSWBTKey) (ct : LWECiphertextImpl)
    (f : Nat → Nat → Nat → Nat) (fmod : Nat) (s : Machine),
    ct.a.data.length = n → 0 < fmod →
    ∃ (r : LWECiphertext) (s1 : Machine),
      bootstrapFunc params EK ct f fmod s = (Except.ok r, s1) ∧
      r.obj.a.modulus = fmod ∧ r.obj.a.data.length = n ∧
      (∀ x ∈ r.obj.a.data, x < fmod) ∧ r.obj.b < fmod ∧
      phase sk r.obj = f (phase sk ct) ct.a.modulus fmod % fmod

/-- Modelled from the spec: a bootstrap without noise.  It returns the encryption with
zero vector `a` of the step function applied to the value the input encrypts under
`sk`, reduced to the output modulus. -/
def idealBootstrapFunc (sk : List Nat) : BootstrapFuncT := fun _ _ ct f fmod =>
  make_shared ⟨⟨List.replicate ct.a.data.length 0, fmod⟩, f (phase sk ct) ct.a.modulus fmod % fmod⟩


/-! ## Noise-free collaborators, encryption and decryption -/

/-- Modelled from the spec: the rounding `round(v * q / Q) mod q` used to rescale
a value from modulus `Q` to modulus `q`. -/
def RoundqQ (v q Q : Nat) : Nat :=
  ((2 * v * q + Q) / (2 * Q)) % q

/-- Modelled from the spec: a blind rotation without noise.  The accumulator key stands
for the secret `ek` it encrypts.  The test polynomial `acc.elem1` is multiplied by
`X^(-<a, ek> * 2N/q)` in the ring modulo `X^N + 1` and modulus `Q`, so that its
constant term is the test function at the value hidden in the ciphertext; the other
ring element is zero. -/
def idealEvalAcc (params : BinFHECryptoParams) (_baseG : Nat) (ek : List Nat)
    (acc : RLWECiphertextImpl) (a : NativeVector) : RLWECiphertextImpl :=
  let N := params.N
  let Q := params.Q
  let e := (dot a.data ek % a.modulus) * (2 * N / a.modulus)
  ⟨List.replicate N 0,
    (List.range N).map (fun i =>
      let j := (i + e) % (2 * N)
      if j < N then acc.elem1.getD j 0 else (Q - acc.elem1.getD (j - N) 0) % Q)⟩

/-- Modelled from the spec: the transposition `a(X) ↦ a(1/X)` of a polynomial modulo
`X^N + 1` with coefficients modulo `Q`. -/
def idealTranspose (Q : Nat) (v : List Nat) : List Nat :=
  (List.range v.length).map (fun i =>
    if i = 0 then v.getD 0 0 else (Q - v.getD (v.length - i) 0) % Q)

/-- Modelled from the spec: modulus switching, the rounding `RoundqQ` of `b` and of
every entry of `a`. -/
def idealModSwitch (q : Nat) (ct : LWECiphertextImpl) : LWECiphertextImpl :=
  ⟨⟨ct.a.data.map (fun v => RoundqQ v q ct.a.modulus), q⟩, RoundqQ ct.b q ct.a.modulus⟩

/-- Modelled from the spec: a key switch without noise.  The switching key stands for
the internal secret `ksk` it encrypts; the result encrypts the same value under the
client's secret, with `n` entries. -/
def idealKeySwitch (params : BinFHECryptoParams) (ksk : LWESwitchingKey)
    (ct : LWECiphertextImpl) : LWECiphertextImpl :=
  ⟨⟨List.replicate params.n 0, ct.a.modulus⟩, phase ksk ct⟩

/-- Modelled from the spec: the collaborators of §6 without noise. -/
def idealCollaborators : Collaborators where
  EvalAcc := idealEvalAcc
  Transpose := idealTranspose
  ModSwitch := idealModSwitch
  KeySwitch := idealKeySwitch

/-- Modelled from the spec: encryption of the bit `x` without noise under the secret
`sk`, with mask `a` and modulus `q`; the bit is scaled by `q/4` (plaintext modulus 4). -/
def Encrypt (sk : List Nat) (q : Nat) (a : List Nat) (x : Bool) : LWECiphertextImpl :=
  ⟨⟨a, q⟩, (dot a sk + (if x then q / 4 else 0)) % q⟩

/-- Modelled from the spec: decryption with plaintext modulus 4: the encrypted value is
rounded to the nearest multiple of `q/4`, and the bit is whether that multiple is 1. -/
def Decrypt (sk : List Nat) (ct : LWECiphertextImpl) : Bool :=
  decide ((phase sk ct + ct.a.modulus / 8) % ct.a.modulus * 4 / ct.a.modulus = 1)

/-- The truth tables of the gates. -/
def gateFun (gate : BINGATE) (x y : Bool) : Bool :=
  match gate with
  | BINGATE.OR => x || y
  | BINGATE.AND => x && y
  | BINGATE.NOR => !(x || y)
  | BINGATE.NAND => !(x && y)
  | BINGATE.XOR_FAST => xor x y
  | BINGATE.XNOR_FAST => !(xor x y)
  | BINGATE.XOR => xor x y
  | BINGATE.XNOR => !(xor x y)

/-- Modelled from the spec: the per-gate threshold constants, which the sources read
from the ring parameters but do not define.  In units of `q/8` they are 5 for OR, 7 for
AND, 1 for NOR, 3 for NAND, 5 for XOR_FAST and 1 for XNOR_FAST, which puts the
acceptance intervals where the comments of `EvalBinGate` put them (for AND, sums 2 and
3 map to 1; for OR and XOR_FAST, 1 and 2 map to 1). -/
def StandardGateConst (params : BinFHECryptoParams) : Prop :=
  params.gateConst BINGATE.OR = 5 * (params.q / 8) ∧
  params.gateConst BINGATE.AND = 7 * (params.q / 8) ∧
  params.gateConst BINGATE.NOR = 1 * (params.q / 8) ∧
  params.gateConst BINGATE.NAND = 3 * (params.q / 8) ∧
  params.gateConst BINGATE.XOR_FAST = 5 * (params.q / 8) ∧
  params.gateConst BINGATE.XNOR_FAST = 1 * (params.q / 8)

/-- The parameter conditions under which the noise-free pipeline is exact: `q` is a
positive multiple of 8 that divides `2N`, with `N` positive; `qKS` is a positive
multiple of 4 with `4 qKS < Q`; and the gate constants are the standard ones. -/
def ExactParams (params : BinFHECryptoParams) : Prop :=
  0 < params.q ∧ 8 ∣ params.q ∧ 0 < params.N ∧ params.q ∣ 2 * params.N ∧
  0 < params.qKS ∧ 4 ∣ params.qKS ∧ 4 * params.qKS < params.Q ∧ StandardGateConst params

/-- A reduced ciphertext of modulus `q` with `n` entries that encrypts the bit `x`
exactly, as `x * q/4`. -/
def EncryptsBit (sk : List Nat) (n q : Nat) (ct : LWECiphertextImpl) (x : Bool) : Prop :=
  ct.a.modulus = q ∧ ct.a.data.length = n ∧ (∀ v ∈ ct.a.data, v < q) ∧ ct.b < q ∧
  phase sk ct = (if x then q / 4 else 0)


/-! ## Summaries used in the proofs about the gate test vector -/

/-- The value the loop of `BootstrapGateCore` writes for the loop counter `j`. -/
def gateCoeff (q q1 b Q j : Nat) : Nat :=
  if q1 < ModAddFast q1 (q >>> 1) q then
    (if ModSub b j q ≥ q1 ∧ ModSub b j q < ModAddFast q1 (q >>> 1) q
      then Q - (Q / 8 + 1) else Q / 8 + 1)
  else
    (if ModSub b j q ≥ ModAddFast q1 (q >>> 1) q ∧ ModSub b j q < q1
      then Q / 8 + 1 else Q - (Q / 8 + 1))

/-- Whether the value `t` lies in the acceptance interval `[q1, q1 + q/2)` modulo `q`. -/
def inInterval (q q1 t : Nat) : Prop :=
  (q1 ≤ t ∧ t < q1 + q / 2) ∨ t + q < q1 + q / 2

instance (q q1 t : Nat) : Decidable (inInterval q q1 t) := by
  unfold inInterval
  infer_instance

/-! ## Flooring -/

/-- The closure `f1` of `EvalFloor`. -/
def EvalFloor.f1 (x q Q : Nat) : Nat :=
  if x < q / 2 then Q - q / 4 else q / 4

/-- The closure `f2` of `EvalFloor`. -/
def EvalFloor.f2 (x q Q : Nat) : Nat :=
  if x < q / 4 then Q - q / 2 - x
  else if q / 4 ≤ x ∧ x < 3 * q / 4 then x
  else Q + q / 2 - x

/-- The method `BinFHEScheme::EvalFloor`, with the bootstrap it calls as an argument.
The handle `ct1` is the one returned; the copies `ct1Modq` and `ct2Modq` stay local.
In `beta * 2 * (1 << roundbits)` the `int` literal 1 is shifted by the `uint32_t`
`roundbits`: for `roundbits ≤ 30` the result is `2^roundbits`; at 31 the value `2^31`
overflows `int`, and from 32 on the shift count reaches the width of `int` and the shift
is undefined.  Both are marked by `undefined_shift`. -/
def EvalFloor (bootstrapFunc : BootstrapFuncT) (params : BinFHECryptoParams)
    (EK : RingGSWBTKey) (ct : LWECiphertextImpl) (beta : Nat) (roundbits : Nat) :
    M LWECiphertext :=
  if 31 ≤ roundbits then throwErr Error.undefined_shift
  else do
    let q := if roundbits = 0 then params.q else beta * 2 * (1 <<< roundbits)
    let mod := ct.a.modulus
    let ct1 ← make_shared ct
    let ct1obj := EvalAddConstEq ct1.obj beta
    let ct1Modq := ct1obj.SetModulus q
    let ct2 ← bootstrapFunc params EK ct1Modq EvalFloor.f1 mod
    let ct1obj ← liftExcept (EvalSubEq ct1obj ct2.obj)
    let ct2Modq := ct1obj.SetModulus q
    let ct3 ← bootstrapFunc params EK ct2Modq EvalFloor.f2 mod
    let ct1obj ← liftExcept (EvalSubEq ct1obj ct3.obj)
    pure { ct1 with obj := ct1obj }

/-! ## Sign and decomposition -/

/-- The key map `std::map<uint32_t, RingGSWBTKey>`: its entries, with distinct keys.
`find` is `List.lookup` and `size` is `List.length`. -/
abbrev KeyMap : Type := List (Nat × RingGSWBTKey)

/-- The method `RingGSWCryptoParams::Change_BaseG`, as far as the core sees it: the
gadget base of the shared ring parameters is replaced. -/
def Change_BaseG (base : Nat) : M Unit := fun s =>
  (Except.ok (), { s with baseG := base })

/-- The search for the least `k` with `mod ≤ 2^k`, starting at `k` with `fuel` steps
left. -/
def binLogAux (mod : Nat) : Nat → Nat → Nat
  | 0, k => k
  | fuel + 1, k => if mod ≤ 2 ^ k then k else binLogAux mod fuel (k + 1)

/-- The expression `static_cast<uint32_t>(ceil(log2(mod.ConvertToInt())))` for a 64-bit
`mod`: the least `k` with `mod ≤ 2^k`.  (For `mod = 0` the source leaves the cast
undefined; the value here is 0.) -/
def binLog (mod : Nat) : Nat := binLogAux mod 64 0

/-- A `while (cond) body` loop over the variables `σ`, run for at most `fuel`
iterations: `none` means that the loop is still running when the fuel is used up. -/
def whileLoop {σ : Type} (cond : σ → Bool) (body : σ → M σ) :
    Nat → σ → Machine → Option (Except Error σ × Machine)
  | 0, v, s => if cond v then none else some (Except.ok v, s)
  | fuel + 1, v, s =>
    if cond v then
      match body v s with
      | (Except.ok v1, s1) => whileLoop cond body fuel v1 s1
      | (Except.error e, s1) => some (Except.error e, s1)
    else some (Except.ok v, s)

/-- The closure `f3` of `EvalSign`. -/
def EvalSign.f3 (x q Q : Nat) : Nat :=
  if x < q / 2 then Q / 4 else Q - Q / 4

/-- The variables of the loop of `EvalSign`. -/
structure EvalSign.Vars where
  cttmp : LWECiphertextImpl
  mod : Nat
  curEK : RingGSWBTKey

/-- The body of the loop `while (mod > q)` of `EvalSign`. -/
def EvalSign.body (bootstrapFunc : BootstrapFuncT) (ext : Collaborators)
    (params : BinFHECryptoParams) (EKs : KeyMap) (curBase : Nat) (beta : Nat)
    (v : EvalSign.Vars) : M EvalSign.Vars := do
  let q := params.q
  let cttmp ← EvalFloor bootstrapFunc params v.curEK v.cttmp beta 0
  let mod := v.mod / q * 2 * beta
  let cttmp := ext.ModSwitch mod cttmp.obj
  if EKs.length = 3 then
    let binLog := binLog mod
    let base := if binLog ≤ 17 then 1 <<< 27 else if binLog ≤ 26 then 1 <<< 18 else 0
    if 0 ≠ base then do
      Change_BaseG base
      match EKs.lookup base with
      | none =>
        throwErr (Error.openfhe_error
          ("ERROR: No key [" ++ toString curBase ++ "] found in the map"))
      | some k => pure ⟨cttmp, mod, k⟩
    else pure ⟨cttmp, mod, v.curEK⟩
  else pure ⟨cttmp, mod, v.curEK⟩

/-- The method `BinFHEScheme::EvalSign`, with the bootstrap it calls as an argument and
at most `fuel` iterations of its loop. -/
def EvalSign (bootstrapFunc : BootstrapFuncT) (ext : Collaborators)
    (params : BinFHECryptoParams) (EKs : KeyMap) (ct : LWECiphertextImpl) (beta : Nat)
    (fuel : Nat) (s : Machine) : Option (Except Error LWECiphertext × Machine) :=
  let mod := ct.a.modulus
  let q := params.q
  if mod ≤ q then
    some (Except.error (Error.not_implemented_error
      "ERROR: EvalSign is only for large precision. For small precision, please use bootstrapping directly"), s)
  else
    let curBase := s.baseG
    match EKs.lookup curBase with
    | none =>
      some (Except.error (Error.openfhe_error
        ("ERROR: No key [" ++ toString curBase ++ "] found in the map")), s)
    | some curEK =>
      match whileLoop (fun v => decide (v.mod > q))
          (EvalSign.body bootstrapFunc ext params EKs curBase beta) fuel ⟨ct, mod, curEK⟩ s with
      | none => none
      | some (Except.error e, s1) => some (Except.error e, s1)
      | some (Except.ok v, s1) =>
        some ((do
          let cttmp := EvalAddConstEq v.cttmp beta
          let cttmp ← bootstrapFunc params v.curEK cttmp EvalSign.f3 q
          Change_BaseG curBase
          pure { cttmp with obj := EvalSubConstEq cttmp.obj (q >>> 2) } : M LWECiphertext) s1)

/-- The closure `f3` of `EvalDecomp`. -/
def EvalDecomp.f3 (x q Q : Nat) : Nat :=
  if x < q / 2 then Q / 4 else Q - Q / 4

/-- The variables of the loop of `EvalDecomp`. -/
structure EvalDecomp.Vars where
  cttmp : LWECiphertextImpl
  mod : Nat
  curEK : RingGSWBTKey
  ret : List LWECiphertext

/-- The body of the loop `while (mod > q)` of `EvalDecomp`. -/
def EvalDecomp.body (bootstrapFunc : BootstrapFuncT) (ext : Collaborators)
    (params : BinFHECryptoParams) (EKs : KeyMap) (curBase : Nat) (beta : Nat)
    (v : EvalDecomp.Vars) : M EvalDecomp.Vars := do
  let q := params.q
  let ctq ← make_shared (v.cttmp.SetModulus q)
  let ret := v.ret ++ [ctq]
  let cttmp ← EvalFloor bootstrapFunc params v.curEK v.cttmp beta 0
  let mod := v.mod / q * 2 * beta
  let cttmp := ext.ModSwitch mod cttmp.obj
  if EKs.length = 3 then
    let binLog := binLog mod
    let base := if binLog ≤ 17 then 1 <<< 27 else if binLog ≤ 26 then 1 <<< 18 else 0
    if 0 ≠ base then do
      Change_BaseG base
      match EKs.lookup base with
      | none =>
        throwErr (Error.openfhe_error
          ("ERROR: No key [" ++ toString curBase ++ "] found in the map"))
      | some k => pure ⟨cttmp, mod, k, ret⟩
    else pure ⟨cttmp, mod, v.curEK, ret⟩
  else pure ⟨cttmp, mod, v.curEK, ret⟩

/-- The method `BinFHEScheme::EvalDecomp`, with the bootstrap it calls as an argument
and at most `fuel` iterations of its loop. -/
def EvalDecomp (bootstrapFunc : BootstrapFuncT) (ext : Collaborators)
    (params : BinFHECryptoParams) (EKs : KeyMap) (ct : LWECiphertextImpl) (beta : Nat)
    (fuel : Nat) (s : Machine) : Option (Except Error (List LWECiphertext) × Machine) :=
  let mod := ct.a.modulus
  let q := params.q
  if mod ≤ q then
    some (Except.error (Error.not_implemented_error
      "ERROR: EvalDecomp is only for large precision. For small precision, please use bootstrapping directly"), s)
  else
    let curBase := s.baseG
    match EKs.lookup curBase with
    | none =>
      some (Except.error (Error.openfhe_error
        ("ERROR: No key [" ++ toString curBase ++ "] found in the map")), s)
    | some curEK =>
      match whileLoop (fun v => decide (v.mod > q))
          (EvalDecomp.body bootstrapFunc ext params EKs curBase beta) fuel
          ⟨ct, mod, curEK, []⟩ s with
      | none => none
      | some (Except.error e, s1) => some (Except.error e, s1)
      | some (Except.ok v, s1) =>
        some ((do
          let cttmp := EvalAddConstEq v.cttmp beta
          let cttmp ← bootstrapFunc params v.curEK cttmp EvalDecomp.f3 q
          Change_BaseG curBase
          let cttmp := { cttmp with obj := EvalSubConstEq cttmp.obj (q >>> 2) }
          pure (v.ret ++ [cttmp]) : M (List LWECiphertext)) s1)

/-! ## Summaries used in the proofs about flooring, sign and decomposition -/

/-- What `EvalFloor` does around the bootstraps of this file when the gadget base is
`baseG`: the object it returns or the exception it raises, the number of handles it
allocates, and the blind rotations it requests. -/
def floorRun (ext : Collaborators) (params : BinFHECryptoParams) (EK : RingGSWBTKey)
    (baseG : Nat) (ct : LWECiphertextImpl) (beta : Nat) (roundbits : Nat) :
    Except Error LWECiphertextImpl × Nat × List AccCall :=
  if 31 ≤ roundbits then (Except.error Error.undefined_shift, 0, [])
  else
    let q := if roundbits = 0 then params.q else beta * 2 * (1 <<< roundbits)
    let mod := ct.a.modulus
    let ct1obj := EvalAddConstEq ct beta
    match EK.BSkey with
    | none =>
      (Except.error (Error.config_error
        "Bootstrapping keys have not been generated. Please call BTKeyGen before calling bootstrapping."),
        1, [])
    | some key =>
      let c1 := funcCall params baseG key (ct1obj.SetModulus q) EvalFloor.f1 mod
      match EvalSubEq ct1obj
          (funcObj ext params EK baseG key (ct1obj.SetModulus q) EvalFloor.f1 mod) with
      | Except.error e => (Except.error e, 2, [c1])
      | Except.ok d1 =>
        let c2 := funcCall params baseG key (d1.SetModulus q) EvalFloor.f2 mod
        match EvalSubEq d1
            (funcObj ext params EK baseG key (d1.SetModulus q) EvalFloor.f2 mod) with
        | Except.error e => (Except.error e, 3, [c1, c2])
        | Except.ok d2 => (Except.ok d2, 3, [c1, c2])

/-- The gadget base the specification selects after a rescale to the modulus `mod`:
with exactly three entries in the key map, `2^27` for `mod ≤ 2^17` and `2^18` for
`2^17 < mod ≤ 2^26`; `none` stands for no change. -/
def selectedBase (EKs : KeyMap) (mod : Nat) : Option Nat :=
  if EKs.length = 3 then
    (if mod ≤ 2 ^ 17 then some (2 ^ 27) else if mod ≤ 2 ^ 26 then some (2 ^ 18) else none)
  else none

/-! ## Exact rescaling -/

/-- The modelling assumption of an exact, noise-free modulus switch under the secret
`sk`: on every ciphertext with `n` entries the external `ModSwitch` returns a ciphertext
with `n` entries and the requested modulus which encrypts the rounded rescaled value. -/
def ExactModSwitch (ext : Collaborators) (sk : List Nat) (n : Nat) : Prop :=
  ∀ (q : Nat) (ct : LWECiphertextImpl), ct.a.data.length = n → 0 < q → 0 < ct.a.modulus →
    (ext.ModSwitch q ct).a.modulus = q ∧ (ext.ModSwitch q ct).a.data.length = n ∧
    phase sk (ext.ModSwitch q ct) = RoundqQ (phase sk ct) q ct.a.modulus

/-- Modelled from the spec: a modulus switch without noise.  It returns the encryption
with zero vector `a` of the rounded rescaled value the input encrypts under `sk`. -/
def exactModSwitch (sk : List Nat) (q : Nat) (ct : LWECiphertextImpl) : LWECiphertextImpl :=
  ⟨⟨List.replicate ct.a.data.length 0, q⟩, RoundqQ (phase sk ct) q ct.a.modulus⟩

/-- Modelled from the spec: the noise-free collaborators with the exact modulus
switch. -/
def exactCollaborators (sk : List Nat) : Collaborators :=
  { idealCollaborators with ModSwitch := exactModSwitch sk }

/-- The moduli met by the loop `while (mod > q)` starting from `mod`: the loop makes
exactly `k` iterations, and at each of them the modulus is an even multiple of `q`. -/
def EvenChain (q beta : Nat) : Nat → Nat → Prop
  | 0, mod => mod ≤ q
  | k + 1, mod => q < mod ∧ q ∣ mod ∧ 2 ∣ mod / q ∧ EvenChain q beta k (mod / q * 2 * beta)

/-- A second key bundle. -/
def otherKey : RingGSWBTKey := ⟨some [1], []⟩

/-- A key map with one entry, for the gadget base 4. -/
def staticKeys : KeyMap := [(4, smallKey)]

/-- A key map with three entries: the gadget bases 4, `2^27` and `2^18`. -/
def dynamicKeys : KeyMap := [(4, smallKey), (134217728, otherKey), (262144, smallKey)]

/-- A key map with three entries in which the bases `2^27` and `2^18` are missing. -/
def brokenKeys : KeyMap := [(4, smallKey), (5, otherKey), (6, otherKey)]

/-- A ciphertext with 8 entries and modulus 16. -/
def wideCt : LWECiphertextImpl := ⟨⟨[3, 5, 0, 0, 0, 0, 0, 0], 16⟩, 2⟩

/-- A ciphertext with 8 entries and modulus 64. -/
def widerCt : LWECiphertextImpl := ⟨⟨[3, 5, 0, 0, 0, 0, 0, 0], 64⟩, 2⟩

/-- A ciphertext with 2 entries and modulus 16; under the secret `[1, 0]` it encrypts
15. -/
def largeCt : LWECiphertextImpl := ⟨⟨[3, 5], 16⟩, 2⟩

/-- A ciphertext with 2 entries and modulus 16; under the secret `[1, 0]` it encrypts
13. -/
def largeCt2 : LWECiphertextImpl := ⟨⟨[3, 5], 16⟩, 0⟩

/-- Parameters with `n = 2`, `N = 8`, `q = 8`, `qKS = 64` and `Q = 1024`: every modulus
is a power of two. -/
def signParams : BinFHECryptoParams where
  n := 2
  N := 8
  q := 8
  Q := 1024
  qKS := 64
  gateConst := fun _ => 0

/-- The blind rotations recorded between the machine states `s0` and `s1` all satisfy
`P`. -/
def CallsSince (P : AccCall → Prop) (s0 s1 : Machine) : Prop :=
  ∃ l : List AccCall, s1.accCalls = s0.accCalls ++ l ∧ ∀ c ∈ l, P c

/-- The accumulator key of the blind rotation `c` is the one of the key-map entry for
the gadget base in force at that rotation. -/
def KeyOfBase (EKs : KeyMap) (c : AccCall) : Prop :=
  ∃ K : RingGSWBTKey, EKs.lookup c.baseG = some K ∧ K.BSkey = some c.ek

/-- The bases a run started in `s0` may leave in the shared parameters. -/
def BaseAfter (EKs : KeyMap) (s0 s1 : Machine) : Prop :=
  s1.baseG = s0.baseG ∨ (EKs.length = 3 ∧ (s1.baseG = 2 ^ 27 ∨ s1.baseG = 2 ^ 18))

/-- The invariant of the loops of `EvalSign` and `EvalDecomp` around the bootstraps of
this file: the loaded key is the map entry for the gadget base in force, and so was the
key of every blind rotation so far. -/
def LoopInv (EKs : KeyMap) (s0 : Machine) (curEK : RingGSWBTKey) (s : Machine) : Prop :=
  EKs.lookup s.baseG = some curEK ∧ BaseAfter EKs s0 s ∧
  CallsSince (fun c => KeyOfBase EKs c ∧ (EKs.length ≠ 3 → c.baseG = s0.baseG)) s0 s

/-- What an exception of the loops leaves behind. -/
def LoopErr (EKs : KeyMap) (s0 : Machine) (e : Error) (s : Machine) : Prop :=
  (∀ msg, e ≠ Error.not_implemented_error msg) ∧ BaseAfter EKs s0 s ∧
  CallsSince (fun c => KeyOfBase EKs c ∧ (EKs.length ≠ 3 → c.baseG = s0.baseG)) s0 s

/-- A bootstrap that first checks that the key bundle it is given is the key-map entry
for the gadget base in force; a failed check is marked by `out_of_bounds`. -/
def keyChecked (EKs : KeyMap) (bootstrapFunc : BootstrapFuncT) : BootstrapFuncT :=
  fun params EK ct f fmod s =>
    if EKs.lookup s.baseG = some EK then bootstrapFunc params EK ct f fmod s
    else (Except.error Error.out_of_bounds, s)

/-! ## More instances for the examples on sign and decomposition -/

/-- A ciphertext with 2 entries and modulus `2^21`. -/
def hugeCt : LWECiphertextImpl := ⟨⟨[3, 5], 2097152⟩, 2⟩

/-- A ciphertext with 8 entries and modulus `2^21`. -/
def hugeCt8 : LWECiphertextImpl := ⟨⟨[3, 5, 0, 0, 0, 0, 0, 0], 2097152⟩, 2⟩

/-- A ciphertext with 2 entries and modulus `128 = 8 * 4^2`. -/
def midCt : LWECiphertextImpl := ⟨⟨[3, 5], 128⟩, 2⟩

/-! ## The bootstrap pipeline as the specification words it -/

/-- Stages 2, 4 and 5 of the bootstrap pipeline of the specification, on the first ring
element `a0` of the rotated accumulator and the extracted scalar `b`: transpose, rescale
to the intermediate modulus, key-switch, rescale to the output modulus `outMod`. -/
def extractChain (ext : Collaborators) (params : BinFHECryptoParams) (EK : RingGSWBTKey)
    (a0 : List Nat) (b : Nat) (outMod : Nat) : LWECiphertextImpl :=
  ext.ModSwitch outMod
    (ext.KeySwitch params EK.KSkey
      (ext.ModSwitch params.qKS ⟨⟨ext.Transpose params.Q a0, params.Q⟩, b⟩))

/-- Stages 2 to 5 of the bootstrap pipeline of the specification on the rotated
accumulator `acc`: stage 3 extracts the constant coefficient and adds the offset
`Q/8 + 1` modulo `Q`. -/
def postChain (ext : Collaborators) (params : BinFHECryptoParams) (EK : RingGSWBTKey)
    (acc : RLWECiphertextImpl) (outMod : Nat) : LWECiphertextImpl :=
  extractChain ext params EK acc.elem0
    (ModAddFast (params.Q / 8 + 1) (acc.elem1.getD 0 0) params.Q) outMod

/-- The chain without the offset of stage 3: the constant coefficient is extracted as
it is. -/
def plainChain (ext : Collaborators) (params : BinFHECryptoParams) (EK : RingGSWBTKey)
    (acc : RLWECiphertextImpl) (outMod : Nat) : LWECiphertextImpl :=
  extractChain ext params EK acc.elem0 (acc.elem1.getD 0 0) outMod

/-- Collaborators whose blind rotation returns the accumulator `acc0` whatever it is
given; the others are those of `plainCollaborators`. -/
def fixedAccCollaborators (acc0 : RLWECiphertextImpl) : Collaborators :=
  { plainCollaborators with EvalAcc := fun _ _ _ _ _ => acc0 }

/-! ## The acceptance interval and the rescale loop as the specification words them -/

/-- The value `t` lies in the acceptance interval `[q1, q2)` modulo `q`, which wraps
around when `q1 ≥ q2`. -/
def acceptance (q1 q2 t : Nat) : Prop :=
  if q1 < q2 then q1 ≤ t ∧ t < q2 else q1 ≤ t ∨ t < q2

instance (q1 q2 t : Nat) : Decidable (acceptance q1 q2 t) := by
  unfold acceptance
  infer_instance

/-- The loop that replaces `mod` by `⌊mod/q⌋ * 2 * beta` while `mod > q`, run for at
most `fuel` iterations: the modulus it ends with, or `none` when it is still running. -/
def rescaleLoop (q beta : Nat) : Nat → Nat → Option Nat
  | 0, mod => if mod > q then none else some mod
  | fuel + 1, mod => if mod > q then rescaleLoop q beta fuel (mod / q * 2 * beta) else some mod

/-! ## Summaries used in the proofs about the bootstrap chain -/

/-- The rotated accumulator `BootstrapGateCore` returns for the gate `gate`, the
accumulator key `key` and the ciphertext `ct` when the gadget base is `baseG`. -/
def gateAcc (ext : Collaborators) (params : BinFHECryptoParams) (gate : BINGATE)
    (baseG : Nat) (key : List Nat) (ct : LWECiphertextImpl) : RLWECiphertextImpl :=
  ext.EvalAcc params baseG key ⟨List.replicate params.N 0, gateTestVector params gate ct⟩ ct.a

/-- The rotated accumulator `BootstrapFuncCore` returns for the function `f`, the output
modulus `fmod`, the accumulator key `key` and the ciphertext `ct` when the gadget base is
`baseG`. -/
def funcAcc (ext : Collaborators) (params : BinFHECryptoParams) (baseG : Nat)
    (key : List Nat) (ct : LWECiphertextImpl) (f : Nat → Nat → Nat → Nat) (fmod : Nat) :
    RLWECiphertextImpl :=
  ext.EvalAcc params baseG key ⟨List.replicate params.N 0, funcTestVector params ct f fmod⟩ ct.a

/-- The pre-additive combine as the specification words it: componentwise modulo the
modulus `q` of the first ciphertext, `2 * (ct1 - ct2)` for XOR_FAST and XNOR_FAST and
`ct1 + ct2` for the other gates. -/
def preCombine (gate : BINGATE) (o1 o2 : LWECiphertextImpl) : LWECiphertextImpl :=
  if gate = BINGATE.XOR_FAST ∨ gate = BINGATE.XNOR_FAST then
    ⟨⟨List.zipWith (fun x y => (2 * (x + o1.a.modulus - y)) % o1.a.modulus) o1.a.data o2.a.data,
        o1.a.modulus⟩,
      (2 * (o1.b + o1.a.modulus - o2.b)) % o1.a.modulus⟩
  else
    ⟨⟨List.zipWith (fun x y => (x + y) % o1.a.modulus) o1.a.data o2.a.data, o1.a.modulus⟩,
      (o1.b + o2.b) % o1.a.modulus⟩

/-- The function `f` is negacyclic at `x` for the input modulus `q` and the output
modulus `Q`: `f(x) + f((x + q/2) mod q)` is 0 modulo `Q`. -/
def negacyclicAt (f : Nat → Nat → Nat → Nat) (x q Q : Nat) : Prop :=
  (f x q Q + f ((x + q / 2) % q) q Q) % Q = 0

instance (f : Nat → Nat → Nat → Nat) (x q Q : Nat) : Decidable (negacyclicAt f x q Q) := by
  unfold negacyclicAt
  infer_instance

/-! ## Table reads of the closures of `EvalFunc` -/

/-- The closure `fLUT` of `EvalFunc` with its table read checked: `none` when the index
`x` is outside the table. -/
def EvalFunc.fLUT_checked (LUT : List Nat) (x _q _Q : Nat) : Option Nat :=
  LUT[x]?

/-- The closure `fLUT1` of `EvalFunc` with its table read checked: `none` when the index
it uses, `x` or `x - q/2`, is outside the table. -/
def EvalFunc.fLUT1_checked (LUT : List Nat) (x q Q : Nat) : Option Nat :=
  if x < q / 2 then LUT[x]? else (LUT[x - q / 2]?).map (fun v => Q - v)

/-- The closure `fLUT2` of `EvalFunc` with its table read checked: `none` when the index
it uses, `x` or `x - q/2`, is outside the doubled table. -/
def EvalFunc.fLUT2_checked (LUT2 : List Nat) (x q Q : Nat) : Option Nat :=
  if x < q / 2 then LUT2[x]? else (LUT2[x - q / 2]?).map (fun v => Q - v)

/-! ## The vector class of the accelerated backend -/

/-- Modelled from the spec: `NativeInteger::ModAdd` (the integer class is not part of
the sources).  Modular addition that first reduces both operands. -/
def ModAdd (a b modulus : Nat) : Nat :=
  ModAddFast (a % modulus) (b % modulus) modulus

/-- What `NativeVectorT` takes from outside the sources: the limit `MAX_MODULUS_SIZE`,
the kernels of the library `vkhel` as functions of the contents of the device vectors
they read, and the methods of `NativeInteger` that are applied to single elements. -/
structure VkhelBackend where
  MAX_MODULUS_SIZE : Nat
  GetMSB : Nat → Nat
  ofString : String → Nat
  vector_create : Nat → List Nat
  vector_elemmod : List Nat → Nat → Nat → List Nat
  vector_elemmul : List Nat → List Nat → Nat → List Nat
  vector_elemgtadd : List Nat → Nat → Nat → List Nat
  vector_elemgtsub : List Nat → Nat → Nat → Nat → List Nat
  PrepModMulConst : Nat → Nat → Nat
  ModMulFastConst : Nat → Nat → Nat → Nat → Nat
  ModExp : Nat → Nat → Nat → Nat
  ModInverse : Nat → Nat → Nat
  Mul : Nat → Nat → Nat
  MultiplyAndRound : Nat → Nat → Nat → Nat
  DivideAndRound : Nat → Nat → Nat
  GetDigitAtIndexForBase : Nat → Nat → Nat → Nat

/-- The class `intnatvkhel::NativeVectorT`: the host copy `m_data`, the modulus, the
device copy `m_vkVector` (`none` for `nullptr`) and the two flags.  `m_dirtyVulkan`
says that the host copy was written since the device copy was updated, `m_dirtyHost`
that the device copy was. -/
structure NativeVectorT where
  m_data : List Nat
  m_modulus : Nat
  m_vkVector : Option (List Nat)
  m_dirtyVulkan : Bool
  m_dirtyHost : Bool
  deriving DecidableEq

/-- Modelled from the spec: `NativeVectorT::updateHost` (defined in the class header,
which is not among the sources): when `m_dirtyHost` is set the device copy is copied to
the host, and the flag is cleared. -/
def NativeVectorT.updateHost (v : NativeVectorT) : NativeVectorT :=
  if v.m_dirtyHost then
    { v with m_data := v.m_vkVector.getD v.m_data, m_dirtyHost := false }
  else v

/-- Modelled from the spec: `NativeVectorT::updateVulkan` (defined in the class header,
which is not among the sources): when `m_dirtyVulkan` is set the host copy is copied to
the device, and the flag is cleared. -/
def NativeVectorT.updateVulkan (v : NativeVectorT) : NativeVectorT :=
  if v.m_dirtyVulkan then
    { v with m_vkVector := v.m_vkVector.map (fun _ => v.m_data), m_dirtyVulkan := false }
  else v

/-- Modelled from the spec: `NativeVectorT::updateVkVector` (defined in the class
header, which is not among the sources): the host copy is copied to the device. -/
def NativeVectorT.updateVkVector (v : NativeVectorT) : NativeVectorT :=
  { v with m_vkVector := v.m_vkVector.map (fun _ => v.m_data) }

/-- Modelled from the spec: `NativeVectorT::GetLength` (defined in the class header,
which is not among the sources): the number of elements as a `usint`, an unsigned
32-bit integer. -/
def NativeVectorT.GetLength (v : NativeVectorT) : Nat :=
  v.m_data.length % 2 ^ 32

/-- The invariant of the two flags: they are not both set, so one of the two copies is
authoritative. -/
def NativeVectorT.Coherent (v : NativeVectorT) : Prop :=
  ¬(v.m_dirtyVulkan = true ∧ v.m_dirtyHost = true)

instance (v : NativeVectorT) : Decidable v.Coherent := by
  unfold NativeVectorT.Coherent
  infer_instance

/-- The constructor `NativeVectorT()`. -/
def NativeVectorT.new : NativeVectorT :=
  ⟨[], 0, none, false, false⟩

/-- The constructor `NativeVectorT(usint length)`. -/
def NativeVectorT.ofLength (vk : VkhelBackend) (length : Nat) : NativeVectorT :=
  ⟨List.replicate length 0, 0, some (vk.vector_create length), false, false⟩

/-- The method `NativeVectorT::SetModulus`.  When it throws, the vector is as it was. -/
def NativeVectorT.SetModulus (vk : VkhelBackend) (v : NativeVectorT) (value : Nat) :
    Except Error NativeVectorT :=
  if vk.GetMSB value > vk.MAX_MODULUS_SIZE then
    Except.error (Error.not_available_error
      ("NativeVectorT supports only modulus size <=  " ++ toString vk.MAX_MODULUS_SIZE ++ " bits"))
  else
    Except.ok { v with m_modulus := value }

/-- The constructor `NativeVectorT(usint length, const IntegerType& modulus)`. -/
def NativeVectorT.ofLengthModulus (vk : VkhelBackend) (length modulus : Nat) :
    Except Error NativeVectorT :=
  if vk.GetMSB modulus > vk.MAX_MODULUS_SIZE then
    Except.error (Error.not_available_error
      ("NativeVectorT supports only modulus size <=  " ++ toString vk.MAX_MODULUS_SIZE ++ " bits"))
  else
    match NativeVectorT.SetModulus vk ⟨[], 0, none, false, false⟩ modulus with
    | Except.error e => Except.error e
    | Except.ok v =>
      Except.ok { v with m_data := List.replicate length 0,
                         m_vkVector := some (vk.vector_create length) }

/-- The copy constructor `NativeVectorT(const NativeVectorT& bigVector)`: the source
after its two updates, and the new vector. -/
def NativeVectorT.copy (bigVector : NativeVectorT) : NativeVectorT × NativeVectorT :=
  let src := bigVector.updateHost.updateVulkan
  (src, ⟨src.m_data, src.m_modulus, src.m_vkVector, false, false⟩)

/-- The move constructor `NativeVectorT(NativeVectorT&& bigVector)`: the source it
leaves (a moved-from `std::vector` is taken to be empty), and the new vector. -/
def NativeVectorT.moved (bigVector : NativeVectorT) : NativeVectorT × NativeVectorT :=
  ({ bigVector with m_data := [], m_vkVector := none },
    ⟨bigVector.m_data, bigVector.m_modulus, bigVector.m_vkVector, bigVector.m_dirtyVulkan,
      bigVector.m_dirtyHost⟩)

/-- The constructor `NativeVectorT(usint length, const IntegerType& modulus,
std::initializer_list<std::string> rhs)`. -/
def NativeVectorT.ofStrings (vk : VkhelBackend) (length modulus : Nat) (rhs : List String) :
    Except Error NativeVectorT :=
  match NativeVectorT.SetModulus vk ⟨[], 0, none, false, false⟩ modulus with
  | Except.error e => Except.error e
  | Except.ok v =>
    Except.ok (NativeVectorT.updateVkVector
      { v with m_data := (List.range length).map (fun i =>
                  if i < rhs.length then vk.ofString (rhs.getD i "") % v.m_modulus else 0),
               m_vkVector := some (vk.vector_create length) })

/-- The constructor `NativeVectorT(usint length, const IntegerType& modulus,
std::initializer_list<uint64_t> rhs)`. -/
def NativeVectorT.ofList (vk : VkhelBackend) (length modulus : Nat) (rhs : List Nat) :
    Except Error NativeVectorT :=
  match NativeVectorT.SetModulus vk ⟨[], 0, none, false, false⟩ modulus with
  | Except.error e => Except.error e
  | Except.ok v =>
    Except.ok (NativeVectorT.updateVkVector
      { v with m_data := (List.range length).map (fun i =>
                  if i < rhs.length then rhs.getD i 0 % v.m_modulus else 0),
               m_vkVector := some (vk.vector_create length) })

/-- The operator `operator=(const NativeVectorT& rhs)`; `self` says whether `rhs` is
the vector assigned to.  The vector assigned to and the right-hand side after the
call. -/
def NativeVectorT.assign (v rhs : NativeVectorT) (self : Bool) :
    NativeVectorT × NativeVectorT :=
  if self then (v, rhs)
  else
    let rhs := rhs.updateHost.updateVulkan
    (⟨rhs.m_data, rhs.m_modulus, rhs.m_vkVector, false, false⟩, rhs)

/-- The operator `operator=(NativeVectorT&& rhs)`; `self` says whether `rhs` is the
vector assigned to.  The vector assigned to and the right-hand side it leaves (a
moved-from `std::vector` is taken to be empty). -/
def NativeVectorT.assignMoved (v rhs : NativeVectorT) (self : Bool) :
    NativeVectorT × NativeVectorT :=
  if self then (v, rhs)
  else
    (⟨rhs.m_data, rhs.m_modulus, rhs.m_vkVector, rhs.m_dirtyVulkan, rhs.m_dirtyHost⟩,
      { rhs with m_data := [], m_vkVector := none })

/-- The operator `operator=(std::initializer_list<std::string> rhs)`. -/
def NativeVectorT.assignStrings (vk : VkhelBackend) (v : NativeVectorT) (rhs : List String) :
    NativeVectorT :=
  { v with m_data := (List.range v.m_data.length).map (fun i =>
              if i < rhs.length then
                (if v.m_modulus ≠ 0 then vk.ofString (rhs.getD i "") % v.m_modulus
                  else vk.ofString (rhs.getD i ""))
              else 0),
           m_dirtyVulkan := true }

/-- The operator `operator=(std::initializer_list<uint64_t> rhs)`. -/
def NativeVectorT.assignList (v : NativeVectorT) (rhs : List Nat) : NativeVectorT :=
  { v with m_data := (List.range v.m_data.length).map (fun i =>
              if i < rhs.length then
                (if v.m_modulus ≠ 0 then rhs.getD i 0 % v.m_modulus else rhs.getD i 0)
              else 0),
           m_dirtyVulkan := true }

/-- The method `NativeVectorT::SwitchModulus`: the exception of `SetModulus`, if any,
and the vector after the call (when `SetModulus` throws, the kernel has run and
`m_dirtyHost` is not set). -/
def NativeVectorT.SwitchModulus (vk : VkhelBackend) (v : NativeVectorT) (newModulus : Nat) :
    Option Error × NativeVectorT :=
  let v := v.updateVulkan
  let oldModulus := v.m_modulus
  let oldModulusByTwo := oldModulus >>> 1
  let diff := if oldModulus > newModulus then oldModulus - newModulus
    else newModulus - oldModulus
  let v : NativeVectorT :=
    if newModulus > oldModulus then
      { v with m_vkVector :=
          v.m_vkVector.map (fun d => vk.vector_elemgtadd d oldModulusByTwo diff) }
    else
      { v with m_vkVector :=
          v.m_vkVector.map (fun d =>
            vk.vector_elemgtsub d oldModulusByTwo (diff % newModulus) newModulus) }
  match NativeVectorT.SetModulus vk v newModulus with
  | Except.error e => (some e, v)
  | Except.ok v => (none, { v with m_dirtyHost := true })

/-- The method `NativeVectorT::GetModulus`. -/
def NativeVectorT.GetModulus (v : NativeVectorT) : Nat :=
  v.m_modulus

/-- The method `NativeVectorT::Mod`: the vector after the call (the copy updates it)
and the result. -/
def NativeVectorT.Mod (vk : VkhelBackend) (v : NativeVectorT) (modulus : Nat) :
    NativeVectorT × NativeVectorT :=
  let src := v.copy.1
  let ans := v.copy.2
  (src, { ans with m_vkVector :=
                    src.m_vkVector.map (fun d => vk.vector_elemmod d modulus src.GetModulus),
                   m_dirtyHost := true })

/-- The method `NativeVectorT::ModEq`. -/
def NativeVectorT.ModEq (vk : VkhelBackend) (v : NativeVectorT) (modulus : Nat) :
    NativeVectorT :=
  let v := v.updateVulkan
  { v with m_vkVector := v.m_vkVector.map (fun d => vk.vector_elemmod d modulus v.GetModulus),
           m_dirtyHost := true }

/-- The method `NativeVectorT::ModAdd(const IntegerType& b)`: the vector after the call
and the result. -/
def NativeVectorT.ModAdd (v : NativeVectorT) (b : Nat) : NativeVectorT × NativeVectorT :=
  let modulus := v.m_modulus
  let src := v.copy.1
  let ans := v.copy.2
  let bLocal := if b > v.m_modulus then b % modulus else b
  let ans := ans.updateHost
  (src, { ans with m_data := ans.m_data.map (fun x => ModAddFast x bLocal modulus),
                   m_dirtyVulkan := true })

/-- The method `NativeVectorT::ModAddEq(const IntegerType& b)`. -/
def NativeVectorT.ModAddEq (v : NativeVectorT) (b : Nat) : NativeVectorT :=
  let modulus := v.m_modulus
  let bLocal := if b > v.m_modulus then b % modulus else b
  let v := v.updateHost
  { v with m_data := v.m_data.map (fun x => ModAddFast x bLocal modulus),
           m_dirtyVulkan := true }

/-- The method `NativeVectorT::ModAddAtIndex`: the exception, or the vector after the
call and the result.  The index `i` is a `usint`, and `GetLength() - 1` is computed in
unsigned 32-bit arithmetic.  An access to `m_data[i]` outside the vector, which the
source leaves undefined, is marked by `out_of_bounds`. -/
def NativeVectorT.ModAddAtIndex (v : NativeVectorT) (i b : Nat) :
    Except Error (NativeVectorT × NativeVectorT) :=
  if i > (v.GetLength + 2 ^ 32 - 1) % 2 ^ 32 then
    Except.error (Error.math_error
      ("ubintnat::ModAddAtIndex. Index is out of range. i = " ++ toString i))
  else
    let src := v.copy.1
    let ans := v.copy.2.updateHost
    if i < ans.m_data.length then
      Except.ok (src,
        { ans with m_data := ans.m_data.set i (lbcrypto.ModAdd (ans.m_data.getD i 0) b v.m_modulus),
                   m_dirtyVulkan := true })
    else
      Except.error Error.out_of_bounds

/-- The method `NativeVectorT::ModAddAtIndexEq`: the exception (the vector is then as it
was), or the vector after the call.  The index `i` is a `usint`, and `GetLength() - 1`
is computed in unsigned 32-bit arithmetic.  An access to `m_data[i]` outside the
vector, which the source leaves undefined, is marked by `out_of_bounds`. -/
def NativeVectorT.ModAddAtIndexEq (v : NativeVectorT) (i b : Nat) :
    Except Error NativeVectorT :=
  if i > (v.GetLength + 2 ^ 32 - 1) % 2 ^ 32 then
    Except.error (Error.math_error
      ("ubintnat::ModAddAtIndex. Index is out of range. i = " ++ toString i))
  else
    let v := v.updateHost
    if i < v.m_data.length then
      Except.ok
        { v with m_data := v.m_data.set i (lbcrypto.ModAdd (v.m_data.getD i 0) b v.m_modulus),
                 m_dirtyVulkan := true }
    else
      Except.error Error.out_of_bounds

/-- The method `NativeVectorT::ModAdd(const NativeVectorT& b)`: the exception, or the
vector after the call, the operand after the call and the result. -/
def NativeVectorT.ModAddVec (v b : NativeVectorT) :
    Except Error (NativeVectorT × NativeVectorT × NativeVectorT) :=
  if v.m_data.length ≠ b.m_data.length ∨ v.m_modulus ≠ b.m_modulus then
    Except.error (Error.math_error "ModAdd called on NativeVectorT's with different parameters.")
  else
    let src := v.copy.1
    let ans := v.copy.2
    let b := b.updateHost
    let modulus := v.m_modulus
    Except.ok (src, b,
      { ans with m_data := List.zipWith (fun x y => ModAddFast x y modulus) ans.m_data b.m_data,
                 m_dirtyVulkan := true })

/-- The method `NativeVectorT::ModAddEq(const NativeVectorT& b)`: the exception, or the
vector and the operand after the call. -/
def NativeVectorT.ModAddEqVec (v b : NativeVectorT) :
    Except Error (NativeVectorT × NativeVectorT) :=
  if v.m_data.length ≠ b.m_data.length ∨ v.m_modulus ≠ b.m_modulus then
    Except.error (Error.math_error "ModAddEq called on NativeVectorT's with different parameters.")
  else
    let modulus := v.m_modulus
    let v := v.updateHost
    let b := b.updateHost
    Except.ok
      ({ v with m_data := List.zipWith (fun x y => ModAddFast x y modulus) v.m_data b.m_data,
                m_dirtyVulkan := true }, b)

/-- The method `NativeVectorT::ModSub(const IntegerType& b)`: the vector after the call
and the result. -/
def NativeVectorT.ModSub (v : NativeVectorT) (b : Nat) : NativeVectorT × NativeVectorT :=
  let src := v.copy.1
  let ans := v.copy.2.updateHost
  (src, { ans with m_data := ans.m_data.map (fun x => lbcrypto.ModSub x b v.m_modulus),
                   m_dirtyVulkan := true })

/-- The method `NativeVectorT::ModSubEq(const IntegerType& b)`. -/
def NativeVectorT.ModSubEq (v : NativeVectorT) (b : Nat) : NativeVectorT :=
  let v := v.updateHost
  { v with m_data := v.m_data.map (fun x => lbcrypto.ModSub x b v.m_modulus),
           m_dirtyVulkan := true }

/-- The method `NativeVectorT::ModSub(const NativeVectorT& b)`: the exception, or the
vector after the call, the operand after the call and the result. -/
def NativeVectorT.ModSubVec (v b : NativeVectorT) :
    Except Error (NativeVectorT × NativeVectorT × NativeVectorT) :=
  if v.m_data.length ≠ b.m_data.length ∨ v.m_modulus ≠ b.m_modulus then
    Except.error (Error.math_error "ModSub called on NativeVectorT's with different parameters.")
  else
    let src := v.copy.1
    let ans := v.copy.2
    let b := b.updateHost
    Except.ok (src, b,
      { ans with m_data :=
                  List.zipWith (fun x y => ModSubFast x y v.m_modulus) ans.m_data b.m_data,
                 m_dirtyVulkan := true })

/-- The method `NativeVectorT::ModSubEq(const NativeVectorT& b)`: the exception, or the
vector and the operand after the call. -/
def NativeVectorT.ModSubEqVec (v b : NativeVectorT) :
    Except Error (NativeVectorT × NativeVectorT) :=
  if v.m_data.length ≠ b.m_data.length ∨ v.m_modulus ≠ b.m_modulus then
    Except.error (Error.math_error "ModSubEq called on NativeVectorT's with different parameters.")
  else
    let v := v.updateHost
    let b := b.updateHost
    Except.ok
      ({ v with m_data := List.zipWith (fun x y => ModSubFast x y v.m_modulus) v.m_data b.m_data,
                m_dirtyVulkan := true }, b)

/-- The method `NativeVectorT::ModMul(const IntegerType& b)`: the vector after the call
and the result. -/
def NativeVectorT.ModMul (vk : VkhelBackend) (v : NativeVectorT) (b : Nat) :
    NativeVectorT × NativeVectorT :=
  let src := v.copy.1
  let ans := v.copy.2
  let modulus := v.m_modulus
  let bLocal := if b ≥ modulus then b % modulus else b
  let bPrec := vk.PrepModMulConst bLocal modulus
  let ans := ans.updateHost
  (src, { ans with m_data := ans.m_data.map (fun x => vk.ModMulFastConst x bLocal modulus bPrec),
                   m_dirtyVulkan := true })

/-- The method `NativeVectorT::ModMulEq(const IntegerType& b)`. -/
def NativeVectorT.ModMulEq (vk : VkhelBackend) (v : NativeVectorT) (b : Nat) :
    NativeVectorT :=
  let modulus := v.m_modulus
  let bLocal := if b ≥ modulus then b % modulus else b
  let bPrec := vk.PrepModMulConst bLocal modulus
  let v := v.updateHost
  { v with m_data := v.m_data.map (fun x => vk.ModMulFastConst x bLocal modulus bPrec),
           m_dirtyVulkan := true }

/-- The method `NativeVectorT::ModMul(const NativeVectorT& b)`: the exception, or the
vector after the call, the operand after the call and the result. -/
def NativeVectorT.ModMulVec (vk : VkhelBackend) (v b : NativeVectorT) :
    Except Error (NativeVectorT × NativeVectorT × NativeVectorT) :=
  if v.m_data.length ≠ b.m_data.length ∨ v.m_modulus ≠ b.m_modulus then
    Except.error (Error.math_error "ModMul called on NativeVectorT's with different parameters.")
  else
    let src := v.copy.1
    let ans := v.copy.2
    let b := b.updateVulkan
    Except.ok (src, b,
      { ans with m_vkVector :=
                  src.m_vkVector.bind (fun d =>
                    b.m_vkVector.map (fun e => vk.vector_elemmul d e v.m_modulus)),
                 m_dirtyHost := true })

/-- The method `NativeVectorT::ModMulEq(const NativeVectorT& b)`: the exception, or the
vector and the operand after the call. -/
def NativeVectorT.ModMulEqVec (vk : VkhelBackend) (v b : NativeVectorT) :
    Except Error (NativeVectorT × NativeVectorT) :=
  if v.m_data.length ≠ b.m_data.length ∨ v.m_modulus ≠ b.m_modulus then
    Except.error (Error.math_error "ModMulEq called on NativeVectorT's with different parameters.")
  else
    let v := v.updateVulkan
    let b := b.updateVulkan
    Except.ok
      ({ v with m_vkVector :=
                  v.m_vkVector.bind (fun d =>
                    b.m_vkVector.map (fun e => vk.vector_elemmul d e v.m_modulus)),
                m_dirtyHost := true }, b)

/-- The method `NativeVectorT::ModByTwo`. -/
def NativeVectorT.ModByTwo (vk : VkhelBackend) (v : NativeVectorT) :
    NativeVectorT × NativeVectorT :=
  NativeVectorT.Mod vk v 2

/-- The method `NativeVectorT::ModByTwoEq`. -/
def NativeVectorT.ModByTwoEq (vk : VkhelBackend) (v : NativeVectorT) : NativeVectorT :=
  NativeVectorT.ModEq vk v 2

/-- The method `NativeVectorT::ModExp`: the vector after the call and the result. -/
def NativeVectorT.ModExp (vk : VkhelBackend) (v : NativeVectorT) (b : Nat) :
    NativeVectorT × NativeVectorT :=
  let src := v.copy.1
  let ans := v.copy.2
  (src, { ans with m_data := ans.m_data.map (fun x => vk.ModExp x b v.m_modulus),
                   m_dirtyVulkan := true })

/-- The method `NativeVectorT::ModExpEq`. -/
def NativeVectorT.ModExpEq (vk : VkhelBackend) (v : NativeVectorT) (b : Nat) :
    NativeVectorT :=
  let v := v.updateHost
  { v with m_data := v.m_data.map (fun x => vk.ModExp x b v.m_modulus),
           m_dirtyVulkan := true }

/-- The method `NativeVectorT::ModInverse`: the vector after the call and the result. -/
def NativeVectorT.ModInverse (vk : VkhelBackend) (v : NativeVectorT) :
    NativeVectorT × NativeVectorT :=
  let src := v.copy.1
  let ans := v.copy.2
  (src, { ans with m_data := ans.m_data.map (fun x => vk.ModInverse x v.m_modulus),
                   m_dirtyVulkan := true })

/-- The method `NativeVectorT::ModInverseEq`. -/
def NativeVectorT.ModInverseEq (vk : VkhelBackend) (v : NativeVectorT) : NativeVectorT :=
  let v := v.updateHost
  { v with m_data := v.m_data.map (fun x => vk.ModInverse x v.m_modulus),
           m_dirtyVulkan := true }

/-- The method `NativeVectorT::MultWithOutMod`: the exception, or the vector after the
call, the operand after the call and the result. -/
def NativeVectorT.MultWithOutMod (vk : VkhelBackend) (v b : NativeVectorT) :
    Except Error (NativeVectorT × NativeVectorT × NativeVectorT) :=
  if v.m_data.length ≠ b.m_data.length ∨ v.m_modulus ≠ b.m_modulus then
    Except.error (Error.math_error "ModMul called on NativeVectorT's with different parameters.")
  else
    let src := v.copy.1
    let ans := v.copy.2
    let b := b.updateHost
    Except.ok (src, b,
      { ans with m_data := List.zipWith (fun x y => vk.Mul x y) ans.m_data b.m_data,
                 m_dirtyVulkan := true })

/-- The method `NativeVectorT::MultiplyAndRound`: the vector after the call and the
result. -/
def NativeVectorT.MultiplyAndRound (vk : VkhelBackend) (v : NativeVectorT) (p q : Nat) :
    NativeVectorT × NativeVectorT :=
  let src := v.copy.1
  let ans := v.copy.2
  let halfQ := v.m_modulus >>> 1
  (src, { ans with m_data := ans.m_data.map (fun x =>
                     if x > halfQ then v.m_modulus - vk.MultiplyAndRound (v.m_modulus - x) p q
                     else vk.MultiplyAndRound x p q % v.m_modulus),
                   m_dirtyVulkan := true })

/-- One iteration of the loop of `MultiplyAndRoundEq`, for the index `i`: in the second
branch `ModEq` is called on the whole vector. -/
def NativeVectorT.MultiplyAndRoundEq.step (vk : VkhelBackend) (p q : Nat) (v : NativeVectorT)
    (i : Nat) : NativeVectorT :=
  let halfQ := v.m_modulus >>> 1
  if v.m_data.getD i 0 > halfQ then
    { v with m_data :=
        v.m_data.set i (v.m_modulus - vk.MultiplyAndRound (v.m_modulus - v.m_data.getD i 0) p q) }
  else
    NativeVectorT.ModEq vk
      { v with m_data := v.m_data.set i (vk.MultiplyAndRound (v.m_data.getD i 0) p q) }
      v.m_modulus

/-- The method `NativeVectorT::MultiplyAndRoundEq`. -/
def NativeVectorT.MultiplyAndRoundEq (vk : VkhelBackend) (v : NativeVectorT) (p q : Nat) :
    NativeVectorT :=
  let v := v.updateHost
  let v := (List.range v.m_data.length).foldl (NativeVectorT.MultiplyAndRoundEq.step vk p q) v
  { v with m_dirtyVulkan := true }

/-- The method `NativeVectorT::DivideAndRound`: the vector after the call and the
result. -/
def NativeVectorT.DivideAndRound (vk : VkhelBackend) (v : NativeVectorT) (q : Nat) :
    NativeVectorT × NativeVectorT :=
  let src := v.copy.1
  let ans := v.copy.2
  let halfQ := v.m_modulus >>> 1
  (src, { ans with m_data := ans.m_data.map (fun x =>
                     if x > halfQ then v.m_modulus - vk.DivideAndRound (v.m_modulus - x) q
                     else vk.DivideAndRound x q),
                   m_dirtyVulkan := true })

/-- The method `NativeVectorT::DivideAndRoundEq`. -/
def NativeVectorT.DivideAndRoundEq (vk : VkhelBackend) (v : NativeVectorT) (q : Nat) :
    NativeVectorT :=
  let v := v.updateHost
  let halfQ := v.m_modulus >>> 1
  { v with m_data := v.m_data.map (fun x =>
              if x > halfQ then v.m_modulus - vk.DivideAndRound (v.m_modulus - x) q
              else vk.DivideAndRound x q),
           m_dirtyVulkan := true }

/-- The method `NativeVectorT::GetDigitAtIndexForBase`: the vector after the call and
the result. -/
def NativeVectorT.GetDigitAtIndexForBase (vk : VkhelBackend) (v : NativeVectorT)
    (index base : Nat) : NativeVectorT × NativeVectorT :=
  let src := v.copy.1
  let ans := v.copy.2
  (src, { ans with m_data := ans.m_data.map (fun x => vk.GetDigitAtIndexForBase x index base),
                   m_dirtyVulkan := true })

/-- A backend for the examples: moduli of up to 60 bits (`GetMSB` counts the powers of
two up to its argument), device vectors created with zeros, and the kernels and integer
methods computed on unbounded integers. -/
def plainBackend : VkhelBackend where
  MAX_MODULUS_SIZE := 60
  GetMSB := fun x => (List.range 64).countP (fun k => decide (2 ^ k ≤ x))
  ofString := fun s => s.toNat?.getD 0
  vector_create := fun n => List.replicate n 0
  vector_elemmod := fun d m _ => d.map (fun x => x % m)
  vector_elemmul := fun d e m => List.zipWith (fun x y => x * y % m) d e
  vector_elemgtadd := fun d bound diff => d.map (fun x => if x > bound then x + diff else x)
  vector_elemgtsub := fun d bound diff m =>
    d.map (fun x => if x > bound then (x + m - diff) % m else x % m)
  PrepModMulConst := fun _ _ => 0
  ModMulFastConst := fun x b m _ => x * b % m
  ModExp := fun x b m => x ^ b % m
  ModInverse := fun x _ => x
  Mul := fun x y => x * y
  MultiplyAndRound := fun x p q => (2 * x * p + q) / (2 * q)
  DivideAndRound := fun x q => (2 * x + q) / (2 * q)
  GetDigitAtIndexForBase := fun x index base => x / base ^ (index - 1) % base

/-! ## Lemmas on computations -/

@[simp] theorem M.pure_run {α : Type} (x : α) (s : Machine) :
    (Pure.pure x : M α) s = (Except.ok x, s) := rfl

@[simp] theorem M.bind_run {α β : Type} (x : M α) (f : α → M β) (s : Machine) :
    (x >>= f) s = match x s with
      | (Except.ok v, s1) => f v s1
      | (Except.error e, s1) => (Except.error e, s1) := rfl

@[simp] theorem throwErr_run {α : Type} (e : Error) (s : Machine) :
    (throwErr e : M α) s = (Except.error e, s) := rfl

@[simp] theorem liftExcept_run {α : Type} (x : Except Error α) (s : Machine) :
    liftExcept x s = (x, s) := rfl

@[simp] theorem make_shared_run (obj : LWECiphertextImpl) (s : Machine) :
    make_shared obj s = (Except.ok ⟨s.nextPtr, obj⟩, { s with nextPtr := s.nextPtr + 1 }) := rfl

/-! ## Lemmas on the classification loop -/

theorem pairLoop_eq (lut : List Nat) (g : Nat → Nat) (ret : Nat) :
    ∀ (k i : Nat), lut.length / 2 + (i + k) ≤ lut.length →
      pairLoop lut g ret k i =
        if ∀ j, i ≤ j → j < i + k → lut.getD j 0 = g (lut.getD (lut.length / 2 + j) 0)
        then some ret else some 2 := by
  intro k
  induction k with
  | zero =>
    intro i _
    rw [pairLoop, if_pos]
    intro j h1 h2
    omega
  | succ k ih =>
    intro i hi
    have h1 : i < lut.length := by omega
    have h2 : lut.length / 2 + i < lut.length := by omega
    rw [pairLoop, List.getElem?_eq_getElem h1, List.getElem?_eq_getElem h2]
    simp only []
    by_cases hx : lut[i] = g lut[lut.length / 2 + i]
    · rw [if_neg (by simpa using hx), ih (i + 1) (by omega)]
      by_cases hall : ∀ j, i + 1 ≤ j → j < i + 1 + k →
          lut.getD j 0 = g (lut.getD (lut.length / 2 + j) 0)
      · rw [if_pos hall, if_pos]
        intro j hj1 hj2
        rcases Nat.eq_or_lt_of_le hj1 with h | h
        · subst h
          rw [List.getD_eq_getElem _ _ h1, List.getD_eq_getElem _ _ h2]
          exact hx
        · exact hall j h (by omega)
      · rw [if_neg hall, if_neg]
        intro hall2
        exact hall (fun j hj1 hj2 => hall2 j (by omega) (by omega))
    · rw [if_pos (by simpa using hx), if_neg]
      intro hall
      apply hx
      have := hall i (le_refl i) (by omega)
      rwa [List.getD_eq_getElem _ _ h1, List.getD_eq_getElem _ _ h2] at this

/-- C6: for a table of length at least two with entries at most `m`,
`checkInputFunction` returns the negacyclic code 0 exactly when
`lut[i] = m - lut[L/2 + i]` for every `i < L/2`. -/
theorem checkInputFunction_zero_iff (lut : List Nat) (m : Nat)
    (hL : 2 ≤ lut.length) (_hle : ∀ x ∈ lut, x ≤ m) :
    checkInputFunction lut m = some 0 ↔
      ∀ i, i < lut.length / 2 →
        lut.getD i 0 = m - lut.getD (lut.length / 2 + i) 0 := by
  have h0 : 0 < lut.length := by omega
  have hh : lut.length / 2 < lut.length := by omega
  have hhalf : 1 ≤ lut.length / 2 := by omega
  unfold checkInputFunction
  rw [List.getElem?_eq_getElem h0, List.getElem?_eq_getElem hh]
  simp only []
  rw [pairLoop_eq lut _ 0 _ 1 (by omega), pairLoop_eq lut _ 1 _ 1 (by omega)]
  have e0 : lut.getD 0 0 = lut[0] := List.getD_eq_getElem _ _ h0
  have eh : lut.getD (lut.length / 2 + 0) 0 = lut[lut.length / 2] := by
    simpa using List.getD_eq_getElem lut 0 hh
  constructor
  · intro h i hi
    by_cases hc : lut[0] = m - lut[lut.length / 2]
    · rw [if_pos hc] at h
      by_cases hall : ∀ j, 1 ≤ j → j < 1 + (lut.length / 2 - 1) →
          lut.getD j 0 = m - lut.getD (lut.length / 2 + j) 0
      · rcases Nat.eq_zero_or_pos i with hi0 | hi0
        · subst hi0
          rw [e0, eh]
          exact hc
        · exact hall i hi0 (by omega)
      · rw [if_neg hall] at h
        simp at h
    · rw [if_neg hc] at h
      split at h
      · split at h <;> simp at h
      · simp at h
  · intro h
    have hc : lut[0] = m - lut[lut.length / 2] := by
      have := h 0 (by omega)
      rwa [e0, eh] at this
    rw [if_pos hc, if_pos]
    intro j hj1 hj2
    exact h j (by omega)

/-- Witness for C6 on the table `[3, 1, 5, 7]` with `m = 8`. -/
theorem checkInputFunction_zero_iff_witness :
    checkInputFunction [3, 1, 5, 7] 8 = some 0 ↔
      ∀ i, i < [3, 1, 5, 7].length / 2 →
        [3, 1, 5, 7].getD i 0 = 8 - [3, 1, 5, 7].getD ([3, 1, 5, 7].length / 2 + i) 0 :=
  checkInputFunction_zero_iff [3, 1, 5, 7] 8 (by decide) (by decide)

/-! ## NOT -/

theorem int_emod_eq (a q r k : Int) (h : a = r + k * q) (h0 : 0 ≤ r) (h1 : r < q) :
    a % q = r := by
  subst h
  rw [Int.add_mul_emod_self]
  exact Int.emod_eq_of_lt h0 h1

/-- C4: on a ciphertext `(a, b)` with modulus `q` and all entries below `q`, `EvalNOT`
returns a ciphertext of the same length and modulus with `a'[i] = (-a[i]) mod q` for
every `i` (0 stays 0) and `b' = (q/4 - b) mod q`; it takes no key, and the machine
changes by one allocation only, so no blind rotation is done. -/
theorem EvalNOT_spec (params : BinFHECryptoParams) (ct : LWECiphertextImpl) (s : Machine)
    (ha : ∀ x ∈ ct.a.data, x < ct.a.modulus) (hb : ct.b < ct.a.modulus) :
    ∃ r : LWECiphertext,
      EvalNOT params ct s = (Except.ok r, { s with nextPtr := s.nextPtr + 1 }) ∧
      r.obj.a.modulus = ct.a.modulus ∧
      r.obj.a.data.length = ct.a.data.length ∧
      (∀ i, i < ct.a.data.length →
        ((r.obj.a.data.getD i 0 : Nat) : Int)
            = (-((ct.a.data.getD i 0 : Nat) : Int)) % (ct.a.modulus : Int) ∧
        (ct.a.data.getD i 0 = 0 → r.obj.a.data.getD i 0 = 0)) ∧
      ((r.obj.b : Nat) : Int)
        = (((ct.a.modulus / 4 : Nat) : Int) - (ct.b : Int)) % (ct.a.modulus : Int) := by
  refine ⟨⟨s.nextPtr, ⟨⟨ct.a.data.map (fun x => if x = 0 then 0 else ct.a.modulus - x),
    ct.a.modulus⟩, ModSubFast (ct.a.modulus >>> 2) ct.b ct.a.modulus⟩⟩, rfl, rfl, ?_, ?_, ?_⟩
  · simp
  · intro i hi
    have hi2 : i < (ct.a.data.map (fun x => if x = 0 then 0 else ct.a.modulus - x)).length := by
      simpa using hi
    have hx := ha (ct.a.data[i]) (List.getElem_mem hi)
    simp only []
    rw [List.getD_eq_getElem _ _ hi2, List.getD_eq_getElem _ _ hi, List.getElem_map]
    constructor
    · by_cases h0 : ct.a.data[i] = 0
      · rw [if_pos h0, h0]
        simp
      · rw [if_neg h0]
        symm
        apply int_emod_eq _ _ _ (-1)
        · push_cast [Nat.le_of_lt hx]
          ring
        · omega
        · omega
    · intro h0
      rw [if_pos h0]
  · simp only [ModSubFast, Nat.shiftRight_eq_div_pow]
    have h4 : (2 : Nat) ^ 2 = 4 := by norm_num
    rw [h4]
    symm
    split
    · apply int_emod_eq _ _ _ 0 <;> omega
    · apply int_emod_eq _ _ _ (-1) <;> omega

/-- Witness for C4 on the ciphertext `([0, 3, 5], 7)` modulo 8. -/
theorem EvalNOT_spec_witness :
    ∃ r : LWECiphertext,
      EvalNOT ⟨3, 8, 8, 64, 16, fun _ => 0⟩ ⟨⟨[0, 3, 5], 8⟩, 7⟩ ⟨0, 4, []⟩
        = (Except.ok r, { (⟨0, 4, []⟩ : Machine) with nextPtr := 0 + 1 }) ∧
      r.obj.a.modulus = 8 ∧
      r.obj.a.data.length = 3 ∧
      (∀ i, i < 3 →
        ((r.obj.a.data.getD i 0 : Nat) : Int)
            = (-(([0, 3, 5].getD i 0 : Nat) : Int)) % ((8 : Nat) : Int) ∧
        ([0, 3, 5].getD i 0 = 0 → r.obj.a.data.getD i 0 = 0)) ∧
      ((r.obj.b : Nat) : Int) = (((8 / 4 : Nat) : Int) - ((7 : Nat) : Int)) % ((8 : Nat) : Int) :=
  EvalNOT_spec ⟨3, 8, 8, 64, 16, fun _ => 0⟩ ⟨⟨[0, 3, 5], 8⟩, 7⟩ ⟨0, 4, []⟩
    (by decide) (by decide)

/-! ## Gates -/

theorem EvalNOT_run (params : BinFHECryptoParams) (ct : LWECiphertextImpl) (s : Machine) :
    EvalNOT params ct s
      = (Except.ok ⟨s.nextPtr, notObj ct⟩, { s with nextPtr := s.nextPtr + 1 }) := rfl

theorem EvalBinGate_alias (ext : Collaborators) (params : BinFHECryptoParams)
    (gate : BINGATE) (EK : RingGSWBTKey) (ct1 ct2 : LWECiphertext) (s : Machine)
    (h : ct1.ptr = ct2.ptr) :
    EvalBinGate ext params gate EK ct1 ct2 s
      = (Except.error (Error.config_error "Input ciphertexts should be independant"), s) := by
  rw [EvalBinGate, if_pos h]
  rfl

theorem EvalBinGate_prim (ext : Collaborators) (params : BinFHECryptoParams)
    (gate : BINGATE) (EK : RingGSWBTKey) (ct1 ct2 : LWECiphertext) (s : Machine)
    (hne : ct1.ptr ≠ ct2.ptr) (hg : ¬(gate = BINGATE.XOR ∨ gate = BINGATE.XNOR)) :
    EvalBinGate ext params gate EK ct1 ct2 s =
      match gateObj ext params gate EK s.baseG ct1.obj ct2.obj with
      | Except.error e => (Except.error e, s)
      | Except.ok (o, c) =>
        (Except.ok ⟨s.nextPtr, o⟩,
          { s with nextPtr := s.nextPtr + 1, accCalls := s.accCalls ++ [c] }) := by
  rw [EvalBinGate, if_neg hne, dif_neg hg]
  unfold gateObj gatePrep
  by_cases hf : gate = BINGATE.XOR_FAST ∨ gate = BINGATE.XNOR_FAST
  · simp only [if_pos hf, M.bind_run, liftExcept_run]
    cases hsub : EvalSubEq ct1.obj ct2.obj with
    | error e => rfl
    | ok d =>
      cases hadd : EvalAddEq d d with
      | error e => simp [bind, Except.bind, hadd]
      | ok p =>
        cases hk : EK.BSkey with
        | none => simp [bind, Except.bind, hadd, BootstrapGateCore, hk]
        | some key => simp [bind, Except.bind, hadd, BootstrapGateCore, hk]
  · simp only [if_neg hf, M.bind_run, liftExcept_run]
    cases hadd : EvalAddEq ct1.obj ct2.obj with
    | error e => rfl
    | ok p =>
      cases hk : EK.BSkey with
      | none => simp [BootstrapGateCore, hk]
      | some key => simp [BootstrapGateCore, hk]

theorem EvalBinGate_synth (ext : Collaborators) (params : BinFHECryptoParams)
    (gate : BINGATE) (EK : RingGSWBTKey) (ct1 ct2 : LWECiphertext) (s : Machine)
    (hne : ct1.ptr ≠ ct2.ptr) (h1 : ct1.ptr < s.nextPtr) (h2 : ct2.ptr < s.nextPtr)
    (hg : gate = BINGATE.XOR ∨ gate = BINGATE.XNOR) :
    EvalBinGate ext params gate EK ct1 ct2 s =
      match gateObj ext params BINGATE.AND EK s.baseG ct1.obj (notObj ct2.obj) with
      | Except.error e => (Except.error e, { s with nextPtr := s.nextPtr + 2 })
      | Except.ok (a1, c1) =>
        match gateObj ext params BINGATE.AND EK s.baseG (notObj ct1.obj) ct2.obj with
        | Except.error e =>
          (Except.error e, { s with nextPtr := s.nextPtr + 3, accCalls := s.accCalls ++ [c1] })
        | Except.ok (a2, c2) =>
          match gateObj ext params BINGATE.OR EK s.baseG a1 a2 with
          | Except.error e =>
            (Except.error e,
              { s with nextPtr := s.nextPtr + 4, accCalls := s.accCalls ++ [c1, c2] })
          | Except.ok (r, c3) =>
            if gate = BINGATE.XOR then
              (Except.ok ⟨s.nextPtr + 4, r⟩,
                { s with nextPtr := s.nextPtr + 5, accCalls := s.accCalls ++ [c1, c2, c3] })
            else
              (Except.ok ⟨s.nextPtr + 5, notObj r⟩,
                { s with nextPtr := s.nextPtr + 6, accCalls := s.accCalls ++ [c1, c2, c3] }) := by
  rw [EvalBinGate, if_neg hne, dif_pos hg]
  simp only [M.bind_run, EvalNOT_run]
  rw [EvalBinGate_prim ext params BINGATE.AND EK ct1 _ _ (by simp; omega) (by decide)]
  simp only []
  cases hA1 : gateObj ext params BINGATE.AND EK s.baseG ct1.obj (notObj ct2.obj) with
  | error e => rfl
  | ok v1 =>
    obtain ⟨a1, c1⟩ := v1
    simp only []
    rw [EvalBinGate_prim ext params BINGATE.AND EK _ ct2 _ (by simp; omega) (by decide)]
    simp only []
    cases hA2 : gateObj ext params BINGATE.AND EK s.baseG (notObj ct1.obj) ct2.obj with
    | error e => rfl
    | ok v2 =>
      obtain ⟨a2, c2⟩ := v2
      simp only []
      rw [EvalBinGate_prim ext params BINGATE.OR EK _ _ _ (by simp) (by decide)]
      simp only []
      cases hO : gateObj ext params BINGATE.OR EK s.baseG a1 a2 with
      | error e => simp
      | ok v3 =>
        obtain ⟨r, c3⟩ := v3
        by_cases hx : gate = BINGATE.XOR
        · simp [hx]
        · simp [hx, EvalNOT_run]

theorem synthXOR_run (ext : Collaborators) (params : BinFHECryptoParams)
    (EK : RingGSWBTKey) (ct1 ct2 : LWECiphertext) (s : Machine)
    (h1 : ct1.ptr < s.nextPtr) (h2 : ct2.ptr < s.nextPtr) :
    synthXOR ext params EK ct1 ct2 s =
      match gateObj ext params BINGATE.AND EK s.baseG ct1.obj (notObj ct2.obj) with
      | Except.error e => (Except.error e, { s with nextPtr := s.nextPtr + 1 })
      | Except.ok (a1, c1) =>
        match gateObj ext params BINGATE.AND EK s.baseG (notObj ct1.obj) ct2.obj with
        | Except.error e =>
          (Except.error e, { s with nextPtr := s.nextPtr + 3, accCalls := s.accCalls ++ [c1] })
        | Except.ok (a2, c2) =>
          match gateObj ext params BINGATE.OR EK s.baseG a1 a2 with
          | Except.error e =>
            (Except.error e,
              { s with nextPtr := s.nextPtr + 4, accCalls := s.accCalls ++ [c1, c2] })
          | Except.ok (r, c3) =>
            (Except.ok ⟨s.nextPtr + 4, r⟩,
              { s with nextPtr := s.nextPtr + 5, accCalls := s.accCalls ++ [c1, c2, c3] }) := by
  unfold synthXOR
  simp only [M.bind_run, EvalNOT_run]
  rw [EvalBinGate_prim ext params BINGATE.AND EK ct1 _ _ (by simp; omega) (by decide)]
  simp only []
  cases hA1 : gateObj ext params BINGATE.AND EK s.baseG ct1.obj (notObj ct2.obj) with
  | error e => rfl
  | ok v1 =>
    obtain ⟨a1, c1⟩ := v1
    simp only []
    rw [EvalBinGate_prim ext params BINGATE.AND EK _ ct2 _ (by simp; omega) (by decide)]
    simp only []
    cases hA2 : gateObj ext params BINGATE.AND EK s.baseG (notObj ct1.obj) ct2.obj with
    | error e => rfl
    | ok v2 =>
      obtain ⟨a2, c2⟩ := v2
      simp only []
      rw [EvalBinGate_prim ext params BINGATE.OR EK _ _ _ (by simp) (by decide)]
      simp only []
      cases hO : gateObj ext params BINGATE.OR EK s.baseG a1 a2 with
      | error e => simp
      | ok v3 =>
        obtain ⟨r, c3⟩ := v3
        simp

theorem EvalAddEq_error (x y : LWECiphertextImpl) (e : Error)
    (h : EvalAddEq x y = Except.error e) :
    e = Error.math_error "ModAddEq called on NativeVectorT's with different parameters." := by
  unfold EvalAddEq NativeVector.ModAddEq at h
  split at h
  · rename_i e1 he
    split at he
    · cases he
      cases h
      rfl
    · cases he
  · cases h

theorem EvalSubEq_error (x y : LWECiphertextImpl) (e : Error)
    (h : EvalSubEq x y = Except.error e) :
    e = Error.math_error "ModSubEq called on NativeVectorT's with different parameters." := by
  unfold EvalSubEq NativeVector.ModSubEq at h
  split at h
  · rename_i e1 he
    split at he
    · cases he
      cases h
      rfl
    · cases he
  · cases h

theorem EvalSubEq2_error (x y : LWECiphertextImpl) (e : Error)
    (h : EvalSubEq2 x y = Except.error e) :
    e = Error.math_error "ModSub called on NativeVectorT's with different parameters." := by
  unfold EvalSubEq2 NativeVector.ModSub at h
  split at h
  · rename_i e1 he
    split at he
    · cases he
      cases h
      rfl
    · cases he
  · cases h

theorem gatePrep_error (gate : BINGATE) (o1 o2 : LWECiphertextImpl) (e : Error)
    (h : gatePrep gate o1 o2 = Except.error e) : ∃ msg, e = Error.math_error msg := by
  unfold gatePrep at h
  split at h
  · split at h
    · rename_i e1 he
      cases h
      exact ⟨_, EvalSubEq_error _ _ _ he⟩
    · exact ⟨_, EvalAddEq_error _ _ _ h⟩
  · exact ⟨_, EvalAddEq_error _ _ _ h⟩

theorem gateObj_error (ext : Collaborators) (params : BinFHECryptoParams) (gate : BINGATE)
    (EK : RingGSWBTKey) (baseG : Nat) (o1 o2 : LWECiphertextImpl) (e : Error)
    (h : gateObj ext params gate EK baseG o1 o2 = Except.error e) :
    e ≠ Error.config_error "Input ciphertexts should be independant" := by
  unfold gateObj at h
  split at h
  · rename_i e1 he
    cases h
    obtain ⟨msg, hm⟩ := gatePrep_error _ _ _ _ he
    rw [hm]
    simp
  · split at h
    · cases h
      decide
    · cases h

/-- C2: `EvalBinGate` raises the aliasing configuration error exactly when the two
handles are the same address.  On equal handles it does so for every gate and every
key bundle and leaves the machine untouched: no key is looked at, nothing is
allocated by a NOT, no blind rotation is requested.  On distinct handles neither the
call nor any of the three recursive calls of the XOR/XNOR synthesis ends in that
error. -/
theorem EvalBinGate_alias_iff (ext : Collaborators) (params : BinFHECryptoParams)
    (gate : BINGATE) (EK : RingGSWBTKey) (ct1 ct2 : LWECiphertext) (s : Machine)
    (h1 : ct1.ptr < s.nextPtr) (h2 : ct2.ptr < s.nextPtr) :
    (ct1.ptr = ct2.ptr →
      ∀ EK1 : RingGSWBTKey, EvalBinGate ext params gate EK1 ct1 ct2 s
        = (Except.error (Error.config_error "Input ciphertexts should be independant"), s)) ∧
    ((EvalBinGate ext params gate EK ct1 ct2 s).1
        = Except.error (Error.config_error "Input ciphertexts should be independant")
      ↔ ct1.ptr = ct2.ptr) := by
  refine ⟨fun h EK1 => EvalBinGate_alias ext params gate EK1 ct1 ct2 s h, ?_, fun h => ?_⟩
  · intro hres
    by_contra hne
    by_cases hg : gate = BINGATE.XOR ∨ gate = BINGATE.XNOR
    · rw [EvalBinGate_synth ext params gate EK ct1 ct2 s hne h1 h2 hg] at hres
      split at hres
      · rename_i e he
        simp only [Except.error.injEq] at hres
        exact gateObj_error _ _ _ _ _ _ _ _ he hres
      · split at hres
        · rename_i e he
          simp only [Except.error.injEq] at hres
          exact gateObj_error _ _ _ _ _ _ _ _ he hres
        · split at hres
          · rename_i e he
            simp only [Except.error.injEq] at hres
            exact gateObj_error _ _ _ _ _ _ _ _ he hres
          · split at hres <;> simp at hres
    · rw [EvalBinGate_prim ext params gate EK ct1 ct2 s hne hg] at hres
      split at hres
      · rename_i e he
        simp only [Except.error.injEq] at hres
        exact gateObj_error _ _ _ _ _ _ _ _ he hres
      · simp at hres
  · rw [EvalBinGate_alias ext params gate EK ct1 ct2 s h]

/-- Witness for C2: the handle `smallCt1` against itself, for XNOR and a key bundle
whose accumulator key is absent. -/
theorem EvalBinGate_alias_iff_witness :
    (smallCt1.ptr < smallMachine.nextPtr ∧ smallCt1.ptr = smallCt1.ptr) ∧
    EvalBinGate plainCollaborators smallParams BINGATE.XNOR ⟨none, []⟩ smallCt1 smallCt1
        smallMachine
      = (Except.error (Error.config_error "Input ciphertexts should be independant"),
          smallMachine) :=
  ⟨⟨by decide, rfl⟩,
    (EvalBinGate_alias_iff plainCollaborators smallParams BINGATE.XNOR smallKey smallCt1
      smallCt1 smallMachine (by decide) (by decide)).1 rfl ⟨none, []⟩⟩

/-- C3: on distinct handles `EvalBinGate` for XOR gives what
`OR(AND(c1, NOT c2), AND(NOT c1, c2))` gives, and for XNOR the NOT of that OR result:
the same object or the same exception, and the same blind rotations.  A successful
XOR or XNOR requests exactly three blind rotations, every other successful gate
exactly one. -/
theorem EvalBinGate_XOR_synthesis (ext : Collaborators) (params : BinFHECryptoParams)
    (EK : RingGSWBTKey) (c1 c2 : LWECiphertext) (s : Machine)
    (hne : c1.ptr ≠ c2.ptr) (h1 : c1.ptr < s.nextPtr) (h2 : c2.ptr < s.nextPtr) :
    observe (EvalBinGate ext params BINGATE.XOR EK c1 c2 s)
      = observe (synthXOR ext params EK c1 c2 s) ∧
    observe (EvalBinGate ext params BINGATE.XNOR EK c1 c2 s)
      = observe (synthXNOR ext params EK c1 c2 s) ∧
    ∀ (gate : BINGATE) (r : LWECiphertext) (s1 : Machine),
      EvalBinGate ext params gate EK c1 c2 s = (Except.ok r, s1) →
      s1.accCalls.length = s.accCalls.length
        + (if gate = BINGATE.XOR ∨ gate = BINGATE.XNOR then 3 else 1) := by
  refine ⟨?_, ?_, ?_⟩
  · rw [EvalBinGate_synth ext params BINGATE.XOR EK c1 c2 s hne h1 h2 (Or.inl rfl),
      synthXOR_run ext params EK c1 c2 s h1 h2]
    cases gateObj ext params BINGATE.AND EK s.baseG c1.obj (notObj c2.obj) with
    | error e => rfl
    | ok v1 =>
      obtain ⟨a1, k1⟩ := v1
      simp only []
      cases gateObj ext params BINGATE.AND EK s.baseG (notObj c1.obj) c2.obj with
      | error e => rfl
      | ok v2 =>
        obtain ⟨a2, k2⟩ := v2
        simp only []
        cases gateObj ext params BINGATE.OR EK s.baseG a1 a2 with
        | error e => rfl
        | ok v3 => rfl
  · rw [EvalBinGate_synth ext params BINGATE.XNOR EK c1 c2 s hne h1 h2 (Or.inr rfl)]
    unfold synthXNOR
    rw [M.bind_run, synthXOR_run ext params EK c1 c2 s h1 h2]
    cases gateObj ext params BINGATE.AND EK s.baseG c1.obj (notObj c2.obj) with
    | error e => rfl
    | ok v1 =>
      obtain ⟨a1, k1⟩ := v1
      simp only []
      cases gateObj ext params BINGATE.AND EK s.baseG (notObj c1.obj) c2.obj with
      | error e => rfl
      | ok v2 =>
        obtain ⟨a2, k2⟩ := v2
        simp only []
        cases gateObj ext params BINGATE.OR EK s.baseG a1 a2 with
        | error e => rfl
        | ok v3 => rfl
  · intro gate r s1 hrun
    by_cases hg : gate = BINGATE.XOR ∨ gate = BINGATE.XNOR
    · rw [if_pos hg]
      rw [EvalBinGate_synth ext params gate EK c1 c2 s hne h1 h2 hg] at hrun
      split at hrun
      · cases hrun
      · split at hrun
        · cases hrun
        · split at hrun
          · cases hrun
          · split at hrun
            · cases hrun
              simp
            · cases hrun
              simp
    · rw [if_neg hg]
      rw [EvalBinGate_prim ext params gate EK c1 c2 s hne hg] at hrun
      split at hrun
      · cases hrun
      · cases hrun
        simp

theorem smallXOR_run :
    ∃ (r : LWECiphertext) (s1 : Machine),
      EvalBinGate plainCollaborators smallParams BINGATE.XOR smallKey smallCt1 smallCt2
        smallMachine = (Except.ok r, s1) := by
  rw [EvalBinGate_synth plainCollaborators smallParams BINGATE.XOR smallKey smallCt1 smallCt2
    smallMachine (by decide) (by decide) (by decide) (Or.inl rfl)]
  exact ⟨_, _, rfl⟩

/-- Witness for C3: the two small ciphertexts at addresses 0 and 1, on which XOR
succeeds and therefore records three blind rotations. -/
theorem EvalBinGate_XOR_synthesis_witness :
    (smallCt1.ptr ≠ smallCt2.ptr ∧ smallCt1.ptr < smallMachine.nextPtr ∧
      smallCt2.ptr < smallMachine.nextPtr) ∧
    observe (EvalBinGate plainCollaborators smallParams BINGATE.XOR smallKey smallCt1 smallCt2
        smallMachine)
      = observe (synthXOR plainCollaborators smallParams smallKey smallCt1 smallCt2
          smallMachine) ∧
    (EvalBinGate plainCollaborators smallParams BINGATE.XOR smallKey smallCt1 smallCt2
        smallMachine).2.accCalls.length = 3 := by
  have h := EvalBinGate_XOR_synthesis plainCollaborators smallParams smallKey smallCt1
    smallCt2 smallMachine (by decide) (by decide) (by decide)
  obtain ⟨r, s1, hrun⟩ := smallXOR_run
  refine ⟨⟨by decide, by decide, by decide⟩, h.1, ?_⟩
  have h3 := h.2.2 BINGATE.XOR r s1 hrun
  rw [hrun]
  simpa [smallMachine] using h3

/-! ## Function classification on two tables -/

/-- C7: the table `[4, 1, 4, 1]` with `m = 8` satisfies `lut[0] = lut[L/2]` and the
periodic relation, yet `checkInputFunction` returns 2 and not the periodic code 1:
`lut[0] = m - lut[L/2]` holds as well, so the first branch is taken and its loop
ends in 2. -/
theorem checkInputFunction_periodic_table :
    ([4, 1, 4, 1].getD 0 0 = [4, 1, 4, 1].getD ([4, 1, 4, 1].length / 2) 0 ∧
      ∀ i, 1 ≤ i → i < [4, 1, 4, 1].length / 2 →
        [4, 1, 4, 1].getD i 0 = [4, 1, 4, 1].getD ([4, 1, 4, 1].length / 2 + i) 0) ∧
    checkInputFunction [4, 1, 4, 1] 8 = some 2 := by
  decide

/-- C8: the table `[0, 1, 0, 7]` with `m = 8` has even length, entries below `m` and
`lut[i + L/2] + lut[i]` divisible by `m` for every `i < L/2`, yet `checkInputFunction`
returns 2 and not the negacyclic code 0: the test `lut[0] == m - lut[L/2]` compares 0
with 8. -/
theorem checkInputFunction_negacyclic_table :
    ((∀ x ∈ [0, 1, 0, 7], x < 8) ∧
      ∀ i, i < [0, 1, 0, 7].length / 2 →
        ([0, 1, 0, 7].getD (i + [0, 1, 0, 7].length / 2) 0 + [0, 1, 0, 7].getD i 0) % 8 = 0) ∧
    checkInputFunction [0, 1, 0, 7] 8 = some 2 := by
  decide

/-! ## Function evaluation: exceptions and branches -/

theorem BootstrapFunc_run (ext : Collaborators) (params : BinFHECryptoParams)
    (EK : RingGSWBTKey) (ct : LWECiphertextImpl) (f : Nat → Nat → Nat → Nat) (fmod : Nat)
    (s : Machine) :
    BootstrapFunc ext params EK ct f fmod s =
      match EK.BSkey with
      | none =>
        (Except.error (Error.config_error
          "Bootstrapping keys have not been generated. Please call BTKeyGen before calling bootstrapping."),
          s)
      | some key =>
        (Except.ok ⟨s.nextPtr, funcObj ext params EK s.baseG key ct f fmod⟩,
          { s with nextPtr := s.nextPtr + 1,
                   accCalls := s.accCalls ++ [funcCall params s.baseG key ct f fmod] }) := by
  unfold BootstrapFunc BootstrapFuncCore funcObj funcCall
  cases hk : EK.BSkey with
  | none => simp
  | some key => simp

theorem BootstrapFunc_not_implemented (ext : Collaborators) (params : BinFHECryptoParams)
    (EK : RingGSWBTKey) (ct : LWECiphertextImpl) (f : Nat → Nat → Nat → Nat) (fmod : Nat)
    (s : Machine) (msg : String) :
    (BootstrapFunc ext params EK ct f fmod s).1 ≠ Except.error (Error.not_implemented_error msg) := by
  rw [BootstrapFunc_run]
  cases EK.BSkey <;> simp

theorem EvalFunc_other_branches (ext : Collaborators) (params : BinFHECryptoParams)
    (EK : RingGSWBTKey) (ct : LWECiphertextImpl) (LUT : List Nat) (beta : Nat) (s : Machine)
    (msg : String)
    (h : ¬(checkInputFunction LUT ct.a.modulus = some 2 ∧ ct.a.modulus > params.N)) :
    (EvalFunc (BootstrapFunc ext) params EK ct LUT beta s).1
      ≠ Except.error (Error.not_implemented_error msg) := by
  unfold EvalFunc
  simp only []
  cases hc : checkInputFunction LUT ct.a.modulus with
  | none => simp
  | some c =>
    simp only []
    by_cases h0 : c = 0
    · rw [if_pos h0]
      exact BootstrapFunc_not_implemented _ _ _ _ _ _ _ _
    · rw [if_neg h0]
      by_cases h2 : c = 2
      · rw [if_pos h2]
        have hq : ¬ct.a.modulus > params.N := fun hq => h ⟨by rw [hc, h2], hq⟩
        rw [if_neg hq]
        simp only [M.bind_run, BootstrapFunc_run, liftExcept_run, M.pure_run]
        cases EK.BSkey with
        | none => simp
        | some key =>
          simp only []
          split
          · simp
          · rename_i e s1 heq
            simp only [Prod.mk.injEq] at heq
            have := EvalSubEq2_error _ _ _ heq.1
            rw [this]
            simp
      · rw [if_neg h2]
        simp only [M.bind_run, BootstrapFunc_run, liftExcept_run, M.pure_run]
        cases EK.BSkey with
        | none => simp
        | some key =>
          simp only []
          split
          · simp
          · rename_i e s1 heq
            simp only [Prod.mk.injEq] at heq
            have := EvalSubEq2_error _ _ _ heq.1
            rw [this]
            simp

/-- C9: `EvalFunc` ends in a not-implemented error exactly when the table is
classified arbitrary (code 2) and the ciphertext modulus exceeds the ring dimension.
In that case the exception is the first effect: whatever the key bundle, the machine
is returned untouched, so no key was looked at and no blind rotation requested.  A
table classified negacyclic or periodic never raises it, whatever the modulus. -/
theorem EvalFunc_not_implemented_iff (ext : Collaborators) (params : BinFHECryptoParams)
    (EK : RingGSWBTKey) (ct : LWECiphertextImpl) (LUT : List Nat) (beta : Nat) (s : Machine) :
    ((∃ msg, (EvalFunc (BootstrapFunc ext) params EK ct LUT beta s).1
        = Except.error (Error.not_implemented_error msg))
      ↔ (checkInputFunction LUT ct.a.modulus = some 2 ∧ ct.a.modulus > params.N)) ∧
    (checkInputFunction LUT ct.a.modulus = some 2 → ct.a.modulus > params.N →
      ∀ EK1 : RingGSWBTKey, EvalFunc (BootstrapFunc ext) params EK1 ct LUT beta s
        = (Except.error (Error.not_implemented_error
            "ERROR: ciphertext modulus q needs to be <= ring dimension for arbitrary function evaluation"),
            s)) := by
  have key : checkInputFunction LUT ct.a.modulus = some 2 → ct.a.modulus > params.N →
      ∀ EK1 : RingGSWBTKey, EvalFunc (BootstrapFunc ext) params EK1 ct LUT beta s
        = (Except.error (Error.not_implemented_error
            "ERROR: ciphertext modulus q needs to be <= ring dimension for arbitrary function evaluation"),
            s) := by
    intro hc hq EK1
    unfold EvalFunc
    simp only [hc]
    rw [if_neg (by decide), if_pos trivial, if_pos hq]
    rfl
  refine ⟨⟨?_, ?_⟩, key⟩
  · rintro ⟨msg, hmsg⟩
    by_contra hno
    exact EvalFunc_other_branches ext params EK ct LUT beta s msg hno hmsg
  · rintro ⟨hc, hq⟩
    exact ⟨_, by rw [key hc hq EK]⟩

theorem shiftLeft_one (q : Nat) : q <<< 1 = 2 * q := by
  rw [Nat.shiftLeft_eq]
  omega

theorem shiftRight_one (q : Nat) : q >>> 1 = q / 2 := by
  simp [Nat.shiftRight_eq_div_pow]

theorem shiftRight_two (q : Nat) : q >>> 2 = q / 4 := by
  simp [Nat.shiftRight_eq_div_pow]

theorem M.bind_assoc {α β γ : Type} (x : M α) (f : α → M β) (g : β → M γ) :
    (x >>= f) >>= g = x >>= fun v => f v >>= g := by
  funext s
  simp only [M.bind_run]
  rcases x s with ⟨r, s1⟩
  cases r <;> rfl

theorem EvalFunc_periodic (bootstrapFunc : BootstrapFuncT) (params : BinFHECryptoParams)
    (EK : RingGSWBTKey) (ct : LWECiphertextImpl) (LUT : List Nat) (beta : Nat) (c : Nat)
    (hc : checkInputFunction LUT ct.a.modulus = some c) (h0 : c ≠ 0) (h2 : c ≠ 2) :
    EvalFunc bootstrapFunc params EK ct LUT beta
      = periodicFold bootstrapFunc params EK ct LUT beta := by
  unfold EvalFunc periodicFold
  simp only [hc, if_neg h0, if_neg h2, shiftRight_two]

theorem EvalFunc_arbitrary (bootstrapFunc : BootstrapFuncT)
    (params : BinFHECryptoParams) (EK : RingGSWBTKey) (ct : LWECiphertextImpl)
    (LUT : List Nat) (beta : Nat)
    (hc : checkInputFunction LUT ct.a.modulus = some 2) (hq : ct.a.modulus ≤ params.N) :
    EvalFunc bootstrapFunc params EK ct LUT beta
      = (do
          let r ← periodicFold bootstrapFunc params EK
            ⟨ct.a.SetModulus (2 * ct.a.modulus), ct.b⟩ (LUT ++ LUT) beta
          pure { r with obj := r.obj.SetModulus ct.a.modulus }) := by
  have hq2 : ¬ct.a.modulus > params.N := by omega
  have e4 : 2 * ct.a.modulus / 4 = ct.a.modulus / 2 := by omega
  funext s
  unfold EvalFunc periodicFold
  simp only [hc, if_neg hq2, shiftLeft_one, shiftRight_one, NativeVector.SetModulus, e4,
    M.bind_assoc]
  rw [if_neg (by decide), if_pos trivial]
  rfl

/-- C10: for a table classified arbitrary and a ciphertext of modulus `q ≤ N`, `EvalFunc`
is the two-bootstrap fold procedure of the periodic case run on the ciphertext with
its modulus raised to `2q` (data and `b` unchanged) and on the table `LUT ++ LUT`,
followed by setting the modulus of the result back to `q`; the constant subtracted
after the fold, `q/2`, is `2q/4`.  The fold procedure is what `EvalFunc` runs on every
table classified periodic. -/
theorem EvalFunc_arbitrary_eq_fold (bootstrapFunc : BootstrapFuncT)
    (params : BinFHECryptoParams) (EK : RingGSWBTKey) (ct : LWECiphertextImpl)
    (LUT : List Nat) (beta : Nat)
    (hc : checkInputFunction LUT ct.a.modulus = some 2) (hq : ct.a.modulus ≤ params.N) :
    EvalFunc bootstrapFunc params EK ct LUT beta
      = (do
          let r ← periodicFold bootstrapFunc params EK
            ⟨ct.a.SetModulus (2 * ct.a.modulus), ct.b⟩ (LUT ++ LUT) beta
          pure { r with obj := r.obj.SetModulus ct.a.modulus }) ∧
    ct.a.modulus / 2 = 2 * ct.a.modulus / 4 ∧
    ∀ (ct1 : LWECiphertextImpl) (LUT1 : List Nat),
      checkInputFunction LUT1 ct1.a.modulus = some 1 →
      EvalFunc bootstrapFunc params EK ct1 LUT1 beta
        = periodicFold bootstrapFunc params EK ct1 LUT1 beta := by
  exact ⟨EvalFunc_arbitrary bootstrapFunc params EK ct LUT beta hc hq, by omega,
    fun ct1 LUT1 h1 =>
      EvalFunc_periodic bootstrapFunc params EK ct1 LUT1 beta 1 h1 (by decide) (by decide)⟩

/-- Witness for C10: the table `[0, 1, 2, 3]` at modulus 4 with ring dimension 8. -/
theorem EvalFunc_arbitrary_eq_fold_witness :
    (checkInputFunction [0, 1, 2, 3] 4 = some 2 ∧ 4 ≤ smallParams.N) ∧
    EvalFunc (BootstrapFunc plainCollaborators) smallParams smallKey ⟨⟨[1, 2], 4⟩, 3⟩
        [0, 1, 2, 3] 1
      = (do
          let r ← periodicFold (BootstrapFunc plainCollaborators) smallParams smallKey
            ⟨(⟨[1, 2], 4⟩ : NativeVector).SetModulus (2 * 4), 3⟩ ([0, 1, 2, 3] ++ [0, 1, 2, 3]) 1
          pure { r with obj := r.obj.SetModulus 4 }) :=
  ⟨⟨by decide, by decide⟩,
    (EvalFunc_arbitrary_eq_fold (BootstrapFunc plainCollaborators) smallParams smallKey
      ⟨⟨[1, 2], 4⟩, 3⟩ [0, 1, 2, 3] 1 (by decide) (by decide)).1⟩

/-! ## What the LWE primitives do to the encrypted value -/

theorem nat_mod_cast (x q : Nat) : ((x % q : Nat) : Int) = x - (x / q : Nat) * q := by
  push_cast
  rw [Int.emod_def]
  ring

theorem ModSubFast_cast (a b q : Nat) (hb : b ≤ a + q) :
    ∃ k : Int, ((ModSubFast a b q : Nat) : Int) = a - b + k * q := by
  unfold ModSubFast
  split
  · rename_i hge
    exact ⟨0, by push_cast [hge]; ring⟩
  · exact ⟨1, by push_cast [hb]; ring⟩

theorem ModAddFast_cast (a b q : Nat) :
    ∃ k : Int, ((ModAddFast a b q : Nat) : Int) = a + b + k * q := by
  unfold ModAddFast
  split
  · rename_i hge
    exact ⟨-1, by push_cast [hge]; ring⟩
  · exact ⟨0, by push_cast; ring⟩

theorem dot_nil_left (sk : List Nat) : dot [] sk = 0 := by
  simp [dot]

theorem dot_nil_right (a : List Nat) : dot a [] = 0 := by
  simp [dot]

theorem dot_cons (x : Nat) (a : List Nat) (t : Nat) (sk : List Nat) :
    dot (x :: a) (t :: sk) = x * t + dot a sk := by
  simp [dot]

theorem dot_replicate_zero (n : Nat) (sk : List Nat) : dot (List.replicate n 0) sk = 0 := by
  induction n generalizing sk with
  | zero => simp [dot]
  | succ n ih =>
    cases sk with
    | nil => exact dot_nil_right _
    | cons t sk =>
      rw [List.replicate_succ, dot_cons, ih]
      simp

theorem dot_map_mod (q : Nat) (a sk : List Nat) :
    ∃ k : Int, ((dot (a.map (fun x => x % q)) sk : Nat) : Int) = (dot a sk : Nat) + k * q := by
  induction a generalizing sk with
  | nil => exact ⟨0, by simp [dot]⟩
  | cons x a ih =>
    cases sk with
    | nil => exact ⟨0, by simp [dot]⟩
    | cons t sk =>
      obtain ⟨k, hk⟩ := ih sk
      refine ⟨k - (x / q : Nat) * t, ?_⟩
      rw [List.map_cons, dot_cons, dot_cons]
      push_cast
      rw [hk, Int.emod_def]
      ring

theorem dot_zipWith_sub (q : Nat) (a c sk : List Nat) (hlen : a.length = c.length)
    (hc : ∀ x ∈ c, x < q) :
    ∃ k : Int, ((dot (List.zipWith (fun u v => ModSubFast u v q) a c) sk : Nat) : Int)
      = (dot a sk : Nat) - (dot c sk : Nat) + k * q := by
  induction a generalizing c sk with
  | nil => 
    cases c with
    | nil => exact ⟨0, by simp [dot]⟩
    | cons y c => simp at hlen
  | cons x a ih =>
    cases c with
    | nil => simp at hlen
    | cons y c =>
      cases sk with
      | nil => exact ⟨0, by simp [dot]⟩
      | cons t sk =>
        have hy : y < q := hc y (by simp)
        obtain ⟨k, hk⟩ := ih c sk (by simpa using hlen) (fun z hz => hc z (by simp [hz]))
        obtain ⟨j, hj⟩ := ModSubFast_cast x y q (by omega)
        rw [List.zipWith_cons_cons, dot_cons, dot_cons, dot_cons]
        push_cast
        rw [hk, hj]
        exact ⟨k + j * t, by ring⟩

theorem phase_cast (sk : List Nat) (ct : LWECiphertextImpl) (hq : 0 < ct.a.modulus) :
    ((phase sk ct : Nat) : Int)
      = ((ct.b : Int) - (dot ct.a.data sk : Nat)) % (ct.a.modulus : Int) := by
  unfold phase
  apply Int.toNat_of_nonneg
  apply Int.emod_nonneg
  omega

theorem phase_lt (sk : List Nat) (ct : LWECiphertextImpl) (hq : 0 < ct.a.modulus) :
    phase sk ct < ct.a.modulus := by
  have h := phase_cast sk ct hq
  have : ((ct.b : Int) - (dot ct.a.data sk : Nat)) % (ct.a.modulus : Int) < ct.a.modulus :=
    Int.emod_lt_of_pos _ (by omega)
  omega

/-- The encrypted value is determined by any representative of `b - <a, sk>` modulo
`q`. -/
theorem phase_eq_of (sk : List Nat) (ct : LWECiphertextImpl) (q : Nat)
    (hm : ct.a.modulus = q) (hq : 0 < q) (v : Nat) (k : Int)
    (h : (ct.b : Int) - (dot ct.a.data sk : Nat) = v + k * q) :
    phase sk ct = v % q := by
  subst hm
  have h1 := phase_cast sk ct hq
  rw [h, Int.add_mul_emod_self] at h1
  exact_mod_cast h1

theorem phase_repr (sk : List Nat) (ct : LWECiphertextImpl) (hq : 0 < ct.a.modulus) :
    ∃ k : Int, (ct.b : Int) - (dot ct.a.data sk : Nat) = phase sk ct + k * ct.a.modulus := by
  refine ⟨((ct.b : Int) - (dot ct.a.data sk : Nat)) / ct.a.modulus, ?_⟩
  rw [phase_cast sk ct hq]
  have := Int.emod_add_ediv ((ct.b : Int) - (dot ct.a.data sk : Nat)) (ct.a.modulus : Int)
  linarith

theorem phase_EvalAddConstEq (sk : List Nat) (ct : LWECiphertextImpl) (c : Nat)
    (hq : 0 < ct.a.modulus) :
    phase sk (EvalAddConstEq ct c) = (phase sk ct + c) % ct.a.modulus := by
  obtain ⟨k, hk⟩ := phase_repr sk ct hq
  obtain ⟨j, hj⟩ := ModAddFast_cast ct.b c ct.a.modulus
  apply phase_eq_of sk _ ct.a.modulus (by rfl) hq (phase sk ct + c) (k + j)
  show ((ModAddFast ct.b c ct.a.modulus : Nat) : Int) - (dot ct.a.data sk : Nat) = _
  rw [hj]
  push_cast
  linarith

theorem phase_EvalSubConstEq (sk : List Nat) (ct : LWECiphertextImpl) (c : Nat)
    (hq : 0 < ct.a.modulus) (hc : c ≤ ct.a.modulus) :
    phase sk (EvalSubConstEq ct c) = (phase sk ct + (ct.a.modulus - c)) % ct.a.modulus := by
  obtain ⟨k, hk⟩ := phase_repr sk ct hq
  obtain ⟨j, hj⟩ := ModSubFast_cast ct.b c ct.a.modulus (by omega)
  apply phase_eq_of sk _ ct.a.modulus (by rfl) hq (phase sk ct + (ct.a.modulus - c)) (k + j - 1)
  show ((ModSubFast ct.b c ct.a.modulus : Nat) : Int) - (dot ct.a.data sk : Nat) = _
  rw [hj]
  push_cast [hc]
  linarith

theorem phase_EvalSubEq2 (sk : List Nat) (ct1 ct2 : LWECiphertextImpl)
    (hq : 0 < ct1.a.modulus) (hmod : ct2.a.modulus = ct1.a.modulus)
    (hlen : ct2.a.data.length = ct1.a.data.length)
    (ha : ∀ x ∈ ct2.a.data, x < ct1.a.modulus) (hb : ct2.b < ct1.a.modulus) :
    ∃ r : LWECiphertextImpl, EvalSubEq2 ct1 ct2 = Except.ok r ∧
      r.a.modulus = ct1.a.modulus ∧ r.a.data.length = ct1.a.data.length ∧
      phase sk r = (phase sk ct1 + (ct1.a.modulus - phase sk ct2)) % ct1.a.modulus := by
  have hq2 : 0 < ct2.a.modulus := by omega
  obtain ⟨k1, hk1⟩ := phase_repr sk ct1 hq
  obtain ⟨k2, hk2⟩ := phase_repr sk ct2 hq2
  obtain ⟨k3, hk3⟩ := dot_zipWith_sub ct1.a.modulus ct1.a.data ct2.a.data sk hlen.symm ha
  obtain ⟨j, hj⟩ := ModSubFast_cast ct1.b ct2.b ct1.a.modulus (by omega)
  have hp2 : phase sk ct2 < ct1.a.modulus := by
    have := phase_lt sk ct2 hq2
    omega
  unfold EvalSubEq2 NativeVector.ModSub
  rw [if_neg (by simp [hlen, hmod])]
  refine ⟨_, rfl, rfl, by simp [hlen], ?_⟩
  rw [hmod] at hk2
  apply phase_eq_of sk _ ct1.a.modulus (by rfl) hq _ (k1 - k2 - k3 + j - 1)
  show ((ModSubFast ct1.b ct2.b ct1.a.modulus : Nat) : Int)
    - (dot (List.zipWith (fun u v => ModSubFast u v ct1.a.modulus) ct1.a.data ct2.a.data) sk : Nat)
    = _
  rw [hk3, hj]
  push_cast [Nat.le_of_lt hp2]
  linarith

theorem phase_SetModulus (sk : List Nat) (ct : LWECiphertextImpl) (q : Nat) (hq : 0 < q)
    (hdvd : q ∣ ct.a.modulus) (hm : 0 < ct.a.modulus) :
    phase sk (ct.SetModulus q) = phase sk ct % q := by
  obtain ⟨k, hk⟩ := phase_repr sk ct hm
  obtain ⟨k2, hk2⟩ := dot_map_mod q ct.a.data sk
  obtain ⟨d, hd⟩ := hdvd
  apply phase_eq_of sk (ct.SetModulus q) q (by rfl) hq (phase sk ct)
    (k * d - k2 - (ct.b / q : Nat))
  show ((ct.b % q : Nat) : Int) - (dot (ct.a.data.map (fun x => x % q)) sk : Nat) = _
  rw [hk2, nat_mod_cast]
  have hk1 : (ct.b : Int) - (dot ct.a.data sk : Nat) = phase sk ct + k * (q * d : Nat) := by
    rw [hk, hd]
  push_cast at hk1
  linarith

theorem idealBootstrapFunc_exact (sk : List Nat) (n : Nat) :
    ExactBootstrap (idealBootstrapFunc sk) sk n := by
  intro params EK ct f fmod s hlen hf
  refine ⟨_, _, rfl, rfl, by simp [hlen], ?_, Nat.mod_lt _ hf, ?_⟩
  · intro x hx
    simp only [List.mem_replicate] at hx
    omega
  · rw [← Nat.mod_mod]
    apply phase_eq_of sk _ fmod (by rfl) hf _ 0
    simp only [dot_replicate_zero]
    simp

/-! ## Function evaluation with exact bootstraps -/

theorem checkInputFunction_cases (lut : List Nat) (m : Nat) (hL : 2 ≤ lut.length) :
    checkInputFunction lut m = some 0 ∨
    (checkInputFunction lut m = some 1 ∧
      ∀ i, i < lut.length / 2 → lut.getD i 0 = lut.getD (lut.length / 2 + i) 0) ∨
    checkInputFunction lut m = some 2 := by
  have h0 : 0 < lut.length := by omega
  have hh : lut.length / 2 < lut.length := by omega
  unfold checkInputFunction
  rw [List.getElem?_eq_getElem h0, List.getElem?_eq_getElem hh]
  simp only []
  rw [pairLoop_eq lut _ 0 _ 1 (by omega), pairLoop_eq lut _ 1 _ 1 (by omega)]
  have e0 : lut.getD 0 0 = lut[0] := List.getD_eq_getElem _ _ h0
  have eh : lut.getD (lut.length / 2 + 0) 0 = lut[lut.length / 2] := by
    simpa using List.getD_eq_getElem lut 0 hh
  by_cases hc : lut[0] = m - lut[lut.length / 2]
  · rw [if_pos hc]
    split
    · exact Or.inl rfl
    · exact Or.inr (Or.inr rfl)
  · rw [if_neg hc]
    by_cases hp : lut[0] = lut[lut.length / 2]
    · rw [if_pos hp]
      split
      · rename_i hall
        refine Or.inr (Or.inl ⟨rfl, fun i hi => ?_⟩)
        rcases Nat.eq_zero_or_pos i with hi0 | hi0
        · subst hi0
          rw [e0, eh]
          exact hp
        · exact hall i hi0 (by omega)
      · exact Or.inr (Or.inr rfl)
    · rw [if_neg hp]
      exact Or.inr (Or.inr rfl)

theorem mod_eq_of_repr (x q r k : Nat) (h : x = r + q * k) (hr : r < q) : x % q = r := by
  subst h
  rw [Nat.add_mul_mod_self_left]
  exact Nat.mod_eq_of_lt hr

theorem fold_arith (q m beta : Nat) (h4 : 4 ∣ q) (hq : 0 < q) :
    (((m + (q - EvalFunc.f0 ((m + beta) % q) q q % q)) % q + beta) % q + (q - q / 4)) % q
      = (m + beta) % q % (q / 2) := by
  obtain ⟨d, hd⟩ := h4
  have hd0 : 0 < d := by omega
  have hlt : (m + beta) % q < q := Nat.mod_lt _ hq
  have hdiv := Nat.mod_add_div (m + beta) q
  generalize (m + beta) / q = t at hdiv
  generalize hP : (m + beta) % q = P at hdiv hlt
  have hqt : q * t = 4 * (d * t) := by rw [hd]; ring
  rw [Nat.mod_add_mod, Nat.add_assoc, Nat.mod_add_mod]
  have h2 : q / 2 = 2 * d := by omega
  have h1 : q / 4 = d := by omega
  unfold EvalFunc.f0
  rw [h1, h2]
  by_cases hlow : P < 2 * d
  · rw [if_pos hlow, Nat.mod_eq_of_lt (by omega : q - d < q), Nat.mod_eq_of_lt hlow]
    apply mod_eq_of_repr _ _ _ (t + 1)
    · have : q * (t + 1) = q * t + q := by ring
      rw [this]
      omega
    · exact hlt
  · rw [if_neg hlow, Nat.mod_eq_of_lt (by omega : d < q)]
    have hPm : P % (2 * d) = P - 2 * d := by
      apply mod_eq_of_repr _ _ _ 1 <;> omega
    rw [hPm]
    apply mod_eq_of_repr _ _ _ (t + 2)
    · have : q * (t + 2) = q * t + 2 * q := by ring
      rw [this]
      omega
    · omega

theorem periodicFold_exact (bootstrapFunc : BootstrapFuncT) (sk : List Nat)
    (params : BinFHECryptoParams) (EK : RingGSWBTKey) (ct : LWECiphertextImpl)
    (LUT : List Nat) (beta : Nat) (s : Machine)
    (hbf : ExactBootstrap bootstrapFunc sk ct.a.data.length)
    (h4 : 4 ∣ ct.a.modulus) (hq : 0 < ct.a.modulus) :
    ∃ (r : LWECiphertext) (s1 : Machine),
      periodicFold bootstrapFunc params EK ct LUT beta s = (Except.ok r, s1) ∧
      r.obj.a.modulus = ct.a.modulus ∧
      phase sk r.obj
        = LUT.getD ((phase sk ct + beta) % ct.a.modulus % (ct.a.modulus / 2)) 0
            % ct.a.modulus := by
  unfold periodicFold
  obtain ⟨r1, s1, hrun1, hmod1, hlen1, ha1, hb1, hph1⟩ :=
    hbf params EK (EvalAddConstEq ct beta) EvalFunc.f0 ct.a.modulus s rfl hq
  obtain ⟨d, hrun2, hmod2, hlen2, hph2⟩ :=
    phase_EvalSubEq2 sk ct r1.obj hq hmod1 hlen1 ha1 hb1
  have hmod3 : (EvalSubConstEq (EvalAddConstEq d beta) (ct.a.modulus / 4)).a.modulus
      = ct.a.modulus := hmod2
  have hq3 : 0 < (EvalSubConstEq (EvalAddConstEq d beta) (ct.a.modulus / 4)).a.modulus := by
    rw [hmod3]; exact hq
  obtain ⟨r2, s2, hrun3, hmod4, hlen4, ha4, hb4, hph4⟩ :=
    hbf params EK (EvalSubConstEq (EvalAddConstEq d beta) (ct.a.modulus / 4))
      (EvalFunc.fLUT1 LUT) ct.a.modulus s1 hlen2 hq
  refine ⟨r2, s2, ?_, hmod4, ?_⟩
  · simp only [M.bind_run, hrun1, liftExcept_run, hrun2, hrun3]
  · have hd0 : 0 < d.a.modulus := by rw [hmod2]; exact hq
    have hx : phase sk (EvalSubConstEq (EvalAddConstEq d beta) (ct.a.modulus / 4))
        = (phase sk ct + beta) % ct.a.modulus % (ct.a.modulus / 2) := by
      rw [phase_EvalSubConstEq sk _ _ (by exact hd0)
        (by show ct.a.modulus / 4 ≤ d.a.modulus; rw [hmod2]; omega)]
      rw [phase_EvalAddConstEq sk d beta hd0, hph2, hph1, phase_EvalAddConstEq sk ct beta hq]
      show (((phase sk ct + (ct.a.modulus - EvalFunc.f0 ((phase sk ct + beta) % ct.a.modulus)
        ct.a.modulus ct.a.modulus % ct.a.modulus)) % ct.a.modulus + beta) % d.a.modulus
        + (d.a.modulus - ct.a.modulus / 4)) % d.a.modulus = _
      rw [hmod2]
      exact fold_arith ct.a.modulus (phase sk ct) beta h4 hq
    rw [hph4, hx, hmod3]
    unfold EvalFunc.fLUT1
    rw [if_pos]
    apply Nat.mod_lt
    obtain ⟨e, he⟩ := h4
    omega

theorem getD_lt_of_mem (LUT : List Nat) (q i : Nat) (hlen : LUT.length = q)
    (hent : ∀ x ∈ LUT, x < q) (hi : i < q) : LUT.getD i 0 < q := by
  have hi2 : i < LUT.length := by omega
  rw [List.getD_eq_getElem _ _ hi2]
  exact hent _ (List.getElem_mem hi2)

theorem phase_raise (sk : List Nat) (ct : LWECiphertextImpl) (hq : 0 < ct.a.modulus) :
    phase sk ⟨ct.a.SetModulus (2 * ct.a.modulus), ct.b⟩ % ct.a.modulus = phase sk ct := by
  obtain ⟨k, hk⟩ := phase_repr sk ⟨ct.a.SetModulus (2 * ct.a.modulus), ct.b⟩
    (by show 0 < 2 * ct.a.modulus; omega)
  symm
  apply phase_eq_of sk ct ct.a.modulus rfl hq _ (2 * k)
  have hk2 : (ct.b : Int) - (dot ct.a.data sk : Nat)
      = phase sk ⟨ct.a.SetModulus (2 * ct.a.modulus), ct.b⟩
        + k * ((2 * ct.a.modulus : Nat) : Int) := hk
  rw [hk2]
  push_cast
  ring

/-- C5: with every bootstrap an exact, noise-free evaluation of its step function on
the value its input encrypts, for a table of length `q` (the ciphertext modulus, a
positive multiple of 4) with entries below `q`, and `q ≤ N` when the table is
classified arbitrary, `EvalFunc` returns a ciphertext of modulus `q` that encrypts
`LUT[(m + beta) mod q]`, where `m` is the value the input encrypts; this covers the
negacyclic, the periodic and the arbitrary class. -/
theorem EvalFunc_exact (bootstrapFunc : BootstrapFuncT) (sk : List Nat)
    (params : BinFHECryptoParams) (EK : RingGSWBTKey) (ct : LWECiphertextImpl)
    (LUT : List Nat) (beta : Nat) (s : Machine)
    (hbf : ExactBootstrap bootstrapFunc sk ct.a.data.length)
    (h4 : 4 ∣ ct.a.modulus) (hq : 0 < ct.a.modulus)
    (hlen : LUT.length = ct.a.modulus) (hent : ∀ x ∈ LUT, x < ct.a.modulus)
    (harb : checkInputFunction LUT ct.a.modulus = some 2 → ct.a.modulus ≤ params.N) :
    ∃ (r : LWECiphertext) (s1 : Machine),
      EvalFunc bootstrapFunc params EK ct LUT beta s = (Except.ok r, s1) ∧
      r.obj.a.modulus = ct.a.modulus ∧
      phase sk r.obj = LUT.getD ((phase sk ct + beta) % ct.a.modulus) 0 := by
  have hq4 : 4 ≤ ct.a.modulus := Nat.le_of_dvd hq h4
  have hP : (phase sk ct + beta) % ct.a.modulus < ct.a.modulus := Nat.mod_lt _ hq
  rcases checkInputFunction_cases LUT ct.a.modulus (by omega) with hc | ⟨hc, hper⟩ | hc
  · -- negacyclic: one bootstrap of the direct lookup
    obtain ⟨r, s1, hrun, hmod, _, _, _, hph⟩ :=
      hbf params EK (EvalAddConstEq ct beta) (EvalFunc.fLUT LUT) ct.a.modulus s rfl hq
    refine ⟨r, s1, ?_, hmod, ?_⟩
    · unfold EvalFunc
      simp only [hc]
      exact hrun
    · rw [hph, phase_EvalAddConstEq sk ct beta hq]
      exact Nat.mod_eq_of_lt (getD_lt_of_mem LUT _ _ hlen hent hP)
  · -- periodic: the fold procedure
    obtain ⟨r, s1, hrun, hmod, hph⟩ :=
      periodicFold_exact bootstrapFunc sk params EK ct LUT beta s hbf h4 hq
    refine ⟨r, s1, ?_, hmod, ?_⟩
    · rw [EvalFunc_periodic bootstrapFunc params EK ct LUT beta 1 hc (by decide) (by decide)]
      exact hrun
    · rw [hph]
      have hhalf : LUT.length / 2 = ct.a.modulus / 2 := by rw [hlen]
      have hidx : LUT.getD ((phase sk ct + beta) % ct.a.modulus % (ct.a.modulus / 2)) 0
          = LUT.getD ((phase sk ct + beta) % ct.a.modulus) 0 := by
        by_cases hlow : (phase sk ct + beta) % ct.a.modulus < ct.a.modulus / 2
        · rw [Nat.mod_eq_of_lt hlow]
        · have hm : (phase sk ct + beta) % ct.a.modulus % (ct.a.modulus / 2)
              = (phase sk ct + beta) % ct.a.modulus - ct.a.modulus / 2 := by
            apply mod_eq_of_repr _ _ _ 1 <;> omega
          rw [hm, hper _ (by omega), hhalf]
          congr 1
          omega
      rw [hidx]
      exact Nat.mod_eq_of_lt (getD_lt_of_mem LUT _ _ hlen hent hP)
  · -- arbitrary: the fold procedure at the doubled modulus
    have hN := harb hc
    obtain ⟨r, s1, hrun, hmod, hph⟩ :=
      periodicFold_exact bootstrapFunc sk params EK
        ⟨ct.a.SetModulus (2 * ct.a.modulus), ct.b⟩ (LUT ++ LUT) beta s hbf
        (by show 4 ∣ 2 * ct.a.modulus; exact Dvd.dvd.mul_left h4 2)
        (by show 0 < 2 * ct.a.modulus; omega)
    have hmod2 : r.obj.a.modulus = 2 * ct.a.modulus := hmod
    refine ⟨{ r with obj := r.obj.SetModulus ct.a.modulus }, s1, ?_, rfl, ?_⟩
    · rw [EvalFunc_arbitrary bootstrapFunc params EK ct LUT beta hc hN]
      simp only [M.bind_run, hrun, M.pure_run]
    · show phase sk (r.obj.SetModulus ct.a.modulus) = _
      rw [phase_SetModulus sk r.obj ct.a.modulus hq (by rw [hmod2]; exact Dvd.intro_left 2 rfl)
        (by rw [hmod2]; omega), hph]
      show (LUT ++ LUT).getD ((phase sk ⟨ct.a.SetModulus (2 * ct.a.modulus), ct.b⟩ + beta)
        % (2 * ct.a.modulus) % (2 * ct.a.modulus / 2)) 0 % (2 * ct.a.modulus) % ct.a.modulus = _
      have e1 : 2 * ct.a.modulus / 2 = ct.a.modulus := by omega
      have hidx : (phase sk ⟨ct.a.SetModulus (2 * ct.a.modulus), ct.b⟩ + beta)
          % (2 * ct.a.modulus) % ct.a.modulus = (phase sk ct + beta) % ct.a.modulus := by
        rw [Nat.mod_mod_of_dvd _ (Dvd.intro_left 2 rfl), Nat.add_mod, phase_raise sk ct hq,
          Nat.add_mod_mod]
      rw [e1, hidx, List.getD_append _ _ _ _ (by rw [hlen]; exact hP)]
      have hv := getD_lt_of_mem LUT _ _ hlen hent hP
      rw [Nat.mod_eq_of_lt (by omega : _ < 2 * ct.a.modulus), Nat.mod_eq_of_lt hv]

/-- Witness for C5: the arbitrary table `[0, 1, 2, 3]` at modulus 4, the ciphertext
`([1, 2], 3)` under the secret `[1, 1]`, offset 1, with the noise-free bootstrap. -/
theorem EvalFunc_exact_witness :
    (4 ∣ 4 ∧ [0, 1, 2, 3].length = 4 ∧ checkInputFunction [0, 1, 2, 3] 4 = some 2 ∧
      4 ≤ smallParams.N) ∧
    ∃ (r : LWECiphertext) (s1 : Machine),
      EvalFunc (idealBootstrapFunc [1, 1]) smallParams smallKey ⟨⟨[1, 2], 4⟩, 3⟩ [0, 1, 2, 3] 1
        smallMachine = (Except.ok r, s1) ∧
      r.obj.a.modulus = 4 ∧
      phase [1, 1] r.obj
        = [0, 1, 2, 3].getD ((phase [1, 1] ⟨⟨[1, 2], 4⟩, 3⟩ + 1) % 4) 0 :=
  ⟨⟨by decide, by decide, by decide, by decide⟩,
    EvalFunc_exact (idealBootstrapFunc [1, 1]) [1, 1] smallParams smallKey ⟨⟨[1, 2], 4⟩, 3⟩
      [0, 1, 2, 3] 1 smallMachine (idealBootstrapFunc_exact [1, 1] 2) (by decide) (by decide)
      (by decide) (by decide) (fun _ => by decide)⟩

/-! ## Gate truth tables with noise-free collaborators -/

theorem foldl_set_length (g : Nat → Nat) (factor : Nat) (n : Nat) (init : List Nat) :
    ((List.range n).foldl (fun m j => m.set (j * factor) (g j)) init).length = init.length := by
  induction n with
  | zero => simp
  | succ n ih => rw [List.range_succ, List.foldl_append]; simp [ih]

theorem foldl_set_getD (g : Nat → Nat) (factor : Nat) (hf : 0 < factor) (n : Nat)
    (init : List Nat) (j0 : Nat) (hj : j0 < n) (hlen : j0 * factor < init.length) :
    ((List.range n).foldl (fun m j => m.set (j * factor) (g j)) init).getD (j0 * factor) 0
      = g j0 := by
  induction n with
  | zero => omega
  | succ n ih =>
    rw [List.range_succ, List.foldl_append]
    simp only [List.foldl_cons, List.foldl_nil]
    rcases Nat.lt_or_ge j0 n with h | h
    · have hne : n * factor ≠ j0 * factor := by
        intro heq
        have := Nat.eq_of_mul_eq_mul_right hf heq
        omega
      rw [List.getD_eq_getElem?_getD, List.getElem?_set_ne hne, ← List.getD_eq_getElem?_getD]
      exact ih h
    · have : j0 = n := by omega
      subst this
      rw [List.getD_eq_getElem?_getD, List.getElem?_set_eq_of_lt _ (by rw [foldl_set_length]; exact hlen)]
      rfl

theorem gateTestVector_eq (params : BinFHECryptoParams) (gate : BINGATE)
    (ct : LWECiphertextImpl) :
    gateTestVector params gate ct
      = (List.range (ct.a.modulus >>> 1)).foldl
          (fun m j => m.set (j * (2 * params.N / ct.a.modulus))
            (gateCoeff ct.a.modulus (params.gateConst gate) ct.b params.Q j))
          (List.replicate params.N 0) := by
  unfold gateTestVector gateCoeff
  simp only []
  congr 1
  funext m j
  split <;> rfl

theorem idealEvalAcc_const (params : BinFHECryptoParams) (baseG : Nat) (ek : List Nat)
    (acc : RLWECiphertextImpl) (a : NativeVector) (hN : 0 < params.N)
    (he : (dot a.data ek % a.modulus) * (2 * params.N / a.modulus) < 2 * params.N) :
    (idealEvalAcc params baseG ek acc a).elem1.getD 0 0
      = if (dot a.data ek % a.modulus) * (2 * params.N / a.modulus) < params.N
        then acc.elem1.getD ((dot a.data ek % a.modulus) * (2 * params.N / a.modulus)) 0
        else (params.Q - acc.elem1.getD
          ((dot a.data ek % a.modulus) * (2 * params.N / a.modulus) - params.N) 0) % params.Q := by
  unfold idealEvalAcc
  simp only []
  rw [List.getD_eq_getElem _ _ (by simpa using hN), List.getElem_map, List.getElem_range]
  simp only [Nat.zero_add, Nat.mod_eq_of_lt he]

theorem RoundqQ_zero (q Q : Nat) (hQ : 0 < Q) : RoundqQ 0 q Q = 0 := by
  unfold RoundqQ
  have : (2 * 0 * q + Q) / (2 * Q) = 0 := by
    apply Nat.div_eq_of_lt
    omega
  rw [this]
  exact Nat.zero_mod _

theorem RoundqQ_quarter (q Q : Nat) (hq : 0 < q) (h4q : 4 ∣ q) (h4Q : 4 ∣ Q) (hQ : 0 < Q) :
    RoundqQ (Q / 4) q Q = q / 4 := by
  unfold RoundqQ
  obtain ⟨c, hc⟩ := h4q
  obtain ⟨u, hu⟩ := h4Q
  have e1 : Q / 4 = u := by omega
  have e2 : q / 4 = c := by omega
  rw [e1, e2]
  have : (2 * u * q + Q) / (2 * Q) = c := by
    apply Nat.div_eq_of_lt_le
    · rw [hc, hu]; nlinarith
    · rw [hc, hu]; nlinarith
  rw [this]
  apply Nat.mod_eq_of_lt
  omega

theorem RoundqQ_gate (qKS Q : Nat) (h4 : 4 ∣ qKS) (hq : 0 < qKS) (hQ : 4 * qKS < Q) :
    RoundqQ (2 * (Q / 8 + 1)) qKS Q = qKS / 4 := by
  unfold RoundqQ
  obtain ⟨c, hc⟩ := h4
  have e2 : qKS / 4 = c := by omega
  rw [e2]
  have hdm := Nat.div_add_mod Q 8
  have hr : Q % 8 < 8 := Nat.mod_lt _ (by norm_num)
  generalize Q / 8 = u at hdm
  generalize Q % 8 = r at hdm hr
  have : (2 * (2 * (u + 1)) * qKS + Q) / (2 * Q) = c := by
    apply Nat.div_eq_of_lt_le
    · rw [hc, ← hdm]; nlinarith
    · rw [hc, ← hdm]
      have : 16 * c < 8 * u + r := by rw [hdm]; omega
      nlinarith
  rw [this]
  apply Nat.mod_eq_of_lt
  omega

theorem gate_coeff (h q1 b k Q : Nat) (hh : 0 < h) (hq1 : q1 < 2 * h)
    (hk : k < 2 * h) (hQ : Q / 8 + 1 < Q) :
    (if k < h then gateCoeff (2 * h) q1 b Q k
      else (Q - gateCoeff (2 * h) q1 b Q (k - h)) % Q)
      = if (q1 ≤ ModSubFast (b % (2 * h)) k (2 * h)
              ∧ ModSubFast (b % (2 * h)) k (2 * h) < q1 + h)
            ∨ ModSubFast (b % (2 * h)) k (2 * h) + 2 * h < q1 + h
        then Q - (Q / 8 + 1) else Q / 8 + 1 := by
  have hb0 : b % (2 * h) < 2 * h := Nat.mod_lt _ (by omega)
  have e1 : (Q - (Q - (Q / 8 + 1))) % Q = Q / 8 + 1 := by
    rw [Nat.mod_eq_of_lt (by omega)]; omega
  have e2 : (Q - (Q / 8 + 1)) % Q = Q - (Q / 8 + 1) := Nat.mod_eq_of_lt (by omega)
  have e3 : (2 * h) >>> 1 = h := by rw [shiftRight_one]; omega
  have e4 : k % (2 * h) = k := Nat.mod_eq_of_lt hk
  have e5 : (k - h) % (2 * h) = k - h := Nat.mod_eq_of_lt (by omega)
  unfold gateCoeff ModSub
  rw [e3, e4, e5]
  generalize b % (2 * h) = b0 at hb0
  generalize Q / 8 + 1 = Q8 at hQ e1 e2
  unfold ModAddFast ModSubFast
  split_ifs <;> first | rfl | omega

theorem dot_allZero (l sk : List Nat) (h : ∀ v ∈ l, v = 0) : dot l sk = 0 := by
  induction l generalizing sk with
  | nil => exact dot_nil_left sk
  | cons x l ih =>
    cases sk with
    | nil => exact dot_nil_right _
    | cons t sk =>
      rw [dot_cons, ih sk (fun v hv => h v (by simp [hv])), h x (by simp)]
      simp

theorem phase_of_allZero (sk : List Nat) (ct : LWECiphertextImpl) (hq : 0 < ct.a.modulus)
    (h : ∀ v ∈ ct.a.data, v = 0) : phase sk ct = ct.b % ct.a.modulus := by
  apply phase_eq_of sk ct ct.a.modulus rfl hq ct.b 0
  rw [dot_allZero _ _ h]
  simp

theorem phase_eq_ModSubFast (sk : List Nat) (ct : LWECiphertextImpl) (hq : 0 < ct.a.modulus) :
    phase sk ct
      = ModSubFast (ct.b % ct.a.modulus) (dot ct.a.data sk % ct.a.modulus) ct.a.modulus := by
  have h1 : ct.b % ct.a.modulus < ct.a.modulus := Nat.mod_lt _ hq
  have h2 : dot ct.a.data sk % ct.a.modulus < ct.a.modulus := Nat.mod_lt _ hq
  obtain ⟨j, hj⟩ := ModSubFast_cast (ct.b % ct.a.modulus) (dot ct.a.data sk % ct.a.modulus)
    ct.a.modulus (by omega)
  have hlt : ModSubFast (ct.b % ct.a.modulus) (dot ct.a.data sk % ct.a.modulus) ct.a.modulus
      < ct.a.modulus := by
    unfold ModSubFast
    split <;> omega
  rw [← Nat.mod_eq_of_lt hlt]
  apply phase_eq_of sk ct ct.a.modulus rfl hq _
    ((ct.b / ct.a.modulus : Nat) - (dot ct.a.data sk / ct.a.modulus : Nat) - j)
  rw [hj, nat_mod_cast, nat_mod_cast]
  push_cast
  ring

theorem ideal_gate_coef (params : BinFHECryptoParams) (gate : BINGATE) (sk : List Nat)
    (baseG : Nat) (ct : LWECiphertextImpl)
    (hq : 0 < ct.a.modulus) (h2 : 2 ∣ ct.a.modulus) (hN : 0 < params.N)
    (hdvd : ct.a.modulus ∣ 2 * params.N)
    (hq1 : params.gateConst gate < ct.a.modulus) (hQ : params.Q / 8 + 1 < params.Q) :
    (idealEvalAcc params baseG sk
        ⟨List.replicate params.N 0, gateTestVector params gate ct⟩ ct.a).elem1.getD 0 0
      = if inInterval ct.a.modulus (params.gateConst gate) (phase sk ct)
        then params.Q - (params.Q / 8 + 1) else params.Q / 8 + 1 := by
  obtain ⟨h, hh⟩ := h2
  have hfac : ct.a.modulus * (2 * params.N / ct.a.modulus) = 2 * params.N :=
    Nat.mul_div_cancel' hdvd
  generalize hF : 2 * params.N / ct.a.modulus = factor at hfac
  have hf0 : 0 < factor := by
    rcases Nat.eq_zero_or_pos factor with h0 | h0
    · rw [h0] at hfac; omega
    · exact h0
  have hk : dot ct.a.data sk % ct.a.modulus < ct.a.modulus := Nat.mod_lt _ hq
  generalize hK : dot ct.a.data sk % ct.a.modulus = k at hk
  have hhN : h * factor = params.N := by
    rw [hh] at hfac
    have : 2 * (h * factor) = 2 * params.N := by rw [← hfac]; ring
    omega
  have he : k * factor < 2 * params.N := by
    rw [← hfac]
    exact Nat.mul_lt_mul_of_pos_right hk hf0
  have hshift : ct.a.modulus >>> 1 = h := by rw [shiftRight_one]; omega
  rw [idealEvalAcc_const params baseG sk _ ct.a hN (by rw [hK, hF]; exact he)]
  simp only [hK, hF]
  rw [gateTestVector_eq, hF, hshift]
  have key := gate_coeff h (params.gateConst gate) ct.b k params.Q (by omega)
    (by omega) (by omega) hQ
  have hph : phase sk ct = ModSubFast (ct.b % (2 * h)) k (2 * h) := by
    rw [phase_eq_ModSubFast sk ct hq, hK, hh]
  have hint : inInterval ct.a.modulus (params.gateConst gate) (phase sk ct)
      ↔ ((params.gateConst gate ≤ ModSubFast (ct.b % (2 * h)) k (2 * h)
            ∧ ModSubFast (ct.b % (2 * h)) k (2 * h) < params.gateConst gate + h)
          ∨ ModSubFast (ct.b % (2 * h)) k (2 * h) + 2 * h < params.gateConst gate + h) := by
    unfold inInterval
    rw [hph, hh]
    have : 2 * h / 2 = h := by omega
    rw [this]
  rw [if_congr hint rfl rfl, ← key, ← hh]
  by_cases hlow : k < h
  · have hlt : k * factor < params.N := by
      rw [← hhN]; exact Nat.mul_lt_mul_of_pos_right hlow hf0
    rw [if_pos hlt, if_pos hlow]
    exact foldl_set_getD _ factor hf0 h _ k hlow (by simpa using hlt)
  · have hge : ¬k * factor < params.N := by
      rw [← hhN]
      intro hc
      exact hlow (Nat.lt_of_mul_lt_mul_right hc)
    have hsub : k * factor - params.N = (k - h) * factor := by
      rw [← hhN, Nat.sub_mul]
    have hlt : (k - h) * factor < params.N := by
      rw [← hhN]; exact Nat.mul_lt_mul_of_pos_right (by omega) hf0
    rw [if_neg hge, if_neg hlow, hsub]
    rw [foldl_set_getD _ factor hf0 h _ (k - h) (by omega) (by simpa using hlt)]

theorem idealTranspose_zero (Q N : Nat) :
    ∀ v ∈ idealTranspose Q (List.replicate N 0), v = 0 := by
  intro v hv
  unfold idealTranspose at hv
  simp only [List.mem_map, List.mem_range, List.length_replicate] at hv
  obtain ⟨i, hi, rfl⟩ := hv
  split
  · simp [List.getD_eq_getElem?_getD, hi]
  · have : (List.replicate N 0).getD (N - i) 0 = 0 := by
      rw [List.getD_eq_getElem?_getD, List.getElem?_replicate]
      split <;> rfl
    rw [this]
    simp

theorem map_RoundqQ_zero (l : List Nat) (q Q : Nat) (hQ : 0 < Q) (h : ∀ v ∈ l, v = 0) :
    ∀ v ∈ l.map (fun v => RoundqQ v q Q), v = 0 := by
  intro v hv
  simp only [List.mem_map] at hv
  obtain ⟨w, hw, rfl⟩ := hv
  rw [h w hw]
  exact RoundqQ_zero q Q hQ

theorem RoundqQ_lt (v q Q : Nat) (hq : 0 < q) : RoundqQ v q Q < q := by
  unfold RoundqQ
  exact Nat.mod_lt _ hq

theorem gateObj_ideal (params : BinFHECryptoParams) (gate : BINGATE) (sk z : List Nat)
    (baseG : Nat) (o1 o2 ctprep : LWECiphertextImpl) (hE : ExactParams params)
    (hprep : gatePrep gate o1 o2 = Except.ok ctprep)
    (hm1 : o1.a.modulus = params.q) (hmp : ctprep.a.modulus = params.q)
    (hq1 : params.gateConst gate < params.q) :
    ∃ (r : LWECiphertextImpl) (call : AccCall),
      gateObj idealCollaborators params gate ⟨some sk, z⟩ baseG o1 o2 = Except.ok (r, call) ∧
      EncryptsBit sk params.n params.q r
        (decide (¬inInterval params.q (params.gateConst gate) (phase sk ctprep))) := by
  obtain ⟨hq, h8, hN, hdvd, hks0, hks4, hQ, _⟩ := hE
  have hQ0 : 0 < params.Q := by omega
  have hQ8 : params.Q / 8 + 1 < params.Q := by omega
  have h2 : 2 ∣ ctprep.a.modulus := by
    rw [hmp]; exact Dvd.dvd.trans (by norm_num) h8
  have h4 : 4 ∣ params.q := Dvd.dvd.trans (by norm_num) h8
  have hcoef := ideal_gate_coef params gate sk baseG ctprep (by rw [hmp]; exact hq) h2 hN
    (by rw [hmp]; exact hdvd) (by rw [hmp]; exact hq1) hQ8
  rw [hmp] at hcoef
  unfold gateObj
  rw [hprep]
  simp only [idealCollaborators]
  refine ⟨_, _, rfl, ?_⟩
  rw [hcoef, hm1]
  -- the extracted ciphertext has zero mask
  have hz1 : ∀ v ∈ (idealModSwitch params.qKS
      ⟨⟨idealTranspose params.Q (idealEvalAcc params baseG sk
          ⟨List.replicate params.N 0, gateTestVector params gate ctprep⟩ ctprep.a).elem0,
        params.Q⟩,
        ModAddFast (params.Q / 8 + 1)
          (if inInterval params.q (params.gateConst gate) (phase sk ctprep)
            then params.Q - (params.Q / 8 + 1) else params.Q / 8 + 1) params.Q⟩).a.data,
      v = 0 :=
    map_RoundqQ_zero _ _ _ hQ0 (idealTranspose_zero params.Q params.N)
  have hphz := phase_of_allZero z _ (by show 0 < params.qKS; exact hks0) hz1
  have hz2 : ∀ v ∈ (List.replicate params.n 0).map (fun v => RoundqQ v params.q params.qKS),
      v = 0 :=
    map_RoundqQ_zero _ _ _ hks0 (fun v hv => (List.mem_replicate.mp hv).2)
  refine ⟨rfl, by simp [idealModSwitch, idealKeySwitch], ?_, RoundqQ_lt _ _ _ hq, ?_⟩
  · intro v hv
    rw [hz2 v hv]
    exact hq
  · rw [phase_of_allZero sk _ (by show 0 < params.q; exact hq) hz2]
    show RoundqQ (phase z _) params.q params.qKS % params.q = _
    rw [hphz]
    show RoundqQ (RoundqQ _ params.qKS params.Q % params.qKS) params.q params.qKS % params.q = _
    rw [Nat.mod_eq_of_lt (RoundqQ_lt _ _ _ hks0), Nat.mod_eq_of_lt (RoundqQ_lt _ _ _ hq)]
    by_cases hin : inInterval params.q (params.gateConst gate) (phase sk ctprep)
    · rw [if_pos hin]
      have : ModAddFast (params.Q / 8 + 1) (params.Q - (params.Q / 8 + 1)) params.Q = 0 := by
        unfold ModAddFast
        split <;> omega
      rw [this, RoundqQ_zero _ _ hQ0, RoundqQ_zero _ _ hks0]
      simp [hin]
    · rw [if_neg hin]
      have : ModAddFast (params.Q / 8 + 1) (params.Q / 8 + 1) params.Q
          = 2 * (params.Q / 8 + 1) := by
        unfold ModAddFast
        split <;> omega
      rw [this, RoundqQ_gate _ _ hks4 hks0 hQ]
      rw [RoundqQ_quarter params.q params.qKS hq h4 hks4 hks0]
      simp [hin]

theorem dot_zipWith_add (q : Nat) (a c sk : List Nat) (hlen : a.length = c.length) :
    ∃ k : Int, ((dot (List.zipWith (fun u v => ModAddFast u v q) a c) sk : Nat) : Int)
      = (dot a sk : Nat) + (dot c sk : Nat) + k * q := by
  induction a generalizing c sk with
  | nil =>
    cases c with
    | nil => exact ⟨0, by simp [dot]⟩
    | cons y c => simp at hlen
  | cons x a ih =>
    cases c with
    | nil => simp at hlen
    | cons y c =>
      cases sk with
      | nil => exact ⟨0, by simp [dot]⟩
      | cons t sk =>
        obtain ⟨k, hk⟩ := ih c sk (by simpa using hlen)
        obtain ⟨j, hj⟩ := ModAddFast_cast x y q
        rw [List.zipWith_cons_cons, dot_cons, dot_cons, dot_cons]
        push_cast
        rw [hk, hj]
        exact ⟨k + j * t, by ring⟩

theorem dot_map_neg (q : Nat) (a sk : List Nat) (ha : ∀ x ∈ a, x < q) :
    ∃ k : Int, ((dot (a.map (fun x => if x = 0 then 0 else q - x)) sk : Nat) : Int)
      = -((dot a sk : Nat) : Int) + k * q := by
  induction a generalizing sk with
  | nil => exact ⟨0, by simp [dot]⟩
  | cons x a ih =>
    cases sk with
    | nil => exact ⟨0, by simp [dot]⟩
    | cons t sk =>
      obtain ⟨k, hk⟩ := ih sk (fun v hv => ha v (by simp [hv]))
      have hx : x < q := ha x (by simp)
      rw [List.map_cons, dot_cons, dot_cons]
      push_cast
      rw [hk]
      by_cases h0 : x = 0
      · rw [if_pos h0, h0]
        exact ⟨k, by push_cast; ring⟩
      · rw [if_neg h0]
        exact ⟨k + t, by push_cast [Nat.le_of_lt hx]; ring⟩

theorem phase_EvalAddEq (sk : List Nat) (ct1 ct2 : LWECiphertextImpl)
    (hq : 0 < ct1.a.modulus) (hmod : ct2.a.modulus = ct1.a.modulus)
    (hlen : ct2.a.data.length = ct1.a.data.length) :
    ∃ r : LWECiphertextImpl, EvalAddEq ct1 ct2 = Except.ok r ∧
      r.a.modulus = ct1.a.modulus ∧ r.a.data.length = ct1.a.data.length ∧
      phase sk r = (phase sk ct1 + phase sk ct2) % ct1.a.modulus := by
  have hq2 : 0 < ct2.a.modulus := by omega
  obtain ⟨k1, hk1⟩ := phase_repr sk ct1 hq
  obtain ⟨k2, hk2⟩ := phase_repr sk ct2 hq2
  obtain ⟨k3, hk3⟩ := dot_zipWith_add ct1.a.modulus ct1.a.data ct2.a.data sk hlen.symm
  obtain ⟨j, hj⟩ := ModAddFast_cast ct1.b ct2.b ct1.a.modulus
  unfold EvalAddEq NativeVector.ModAddEq
  rw [if_neg (by simp [hlen, hmod])]
  refine ⟨_, rfl, rfl, by simp [hlen], ?_⟩
  rw [hmod] at hk2
  apply phase_eq_of sk _ ct1.a.modulus (by rfl) hq _ (k1 + k2 - k3 + j)
  show ((ModAddFast ct1.b ct2.b ct1.a.modulus : Nat) : Int)
    - (dot (List.zipWith (fun u v => ModAddFast u v ct1.a.modulus) ct1.a.data ct2.a.data) sk : Nat)
    = _
  rw [hk3, hj]
  push_cast
  linarith

theorem phase_EvalSubEq (sk : List Nat) (ct1 ct2 : LWECiphertextImpl)
    (hq : 0 < ct1.a.modulus) (hmod : ct2.a.modulus = ct1.a.modulus)
    (hlen : ct2.a.data.length = ct1.a.data.length)
    (ha : ∀ x ∈ ct2.a.data, x < ct1.a.modulus) (hb : ct2.b < ct1.a.modulus) :
    ∃ r : LWECiphertextImpl, EvalSubEq ct1 ct2 = Except.ok r ∧
      r.a.modulus = ct1.a.modulus ∧ r.a.data.length = ct1.a.data.length ∧
      phase sk r = (phase sk ct1 + (ct1.a.modulus - phase sk ct2)) % ct1.a.modulus := by
  obtain ⟨r, hr, h1, h2, h3⟩ := phase_EvalSubEq2 sk ct1 ct2 hq hmod hlen ha hb
  refine ⟨r, ?_, h1, h2, h3⟩
  unfold EvalSubEq2 NativeVector.ModSub at hr
  unfold EvalSubEq NativeVector.ModSubEq
  rw [if_neg (by simp [hlen, hmod])] at hr
  rw [if_neg (by simp [hlen, hmod])]
  exact hr

theorem phase_notObj (sk : List Nat) (ct : LWECiphertextImpl) (hq : 0 < ct.a.modulus)
    (ha : ∀ x ∈ ct.a.data, x < ct.a.modulus) (hb : ct.b < ct.a.modulus) :
    phase sk (notObj ct)
      = (ct.a.modulus / 4 + (ct.a.modulus - phase sk ct)) % ct.a.modulus := by
  obtain ⟨k, hk⟩ := phase_repr sk ct hq
  obtain ⟨k2, hk2⟩ := dot_map_neg ct.a.modulus ct.a.data sk ha
  obtain ⟨j, hj⟩ := ModSubFast_cast (ct.a.modulus >>> 2) ct.b ct.a.modulus (by omega)
  have hp := phase_lt sk ct hq
  apply phase_eq_of sk (notObj ct) ct.a.modulus (by rfl) hq _ (j - k2 - k - 1)
  show ((ModSubFast (ct.a.modulus >>> 2) ct.b ct.a.modulus : Nat) : Int)
    - (dot (ct.a.data.map (fun x => if x = 0 then 0 else ct.a.modulus - x)) sk : Nat) = _
  rw [hk2, hj, shiftRight_two]
  push_cast [Nat.le_of_lt hp]
  linarith

theorem EncryptsBit_Encrypt (sk : List Nat) (n q : Nat) (a : List Nat) (x : Bool)
    (hq : 0 < q) (hlen : a.length = n) (ha : ∀ v ∈ a, v < q) :
    EncryptsBit sk n q (Encrypt sk q a x) x := by
  refine ⟨rfl, hlen, ha, Nat.mod_lt _ hq, ?_⟩
  have hv : (if x then q / 4 else 0) < q := by
    split
    · exact Nat.div_lt_self hq (by norm_num)
    · exact hq
  rw [← Nat.mod_eq_of_lt hv]
  apply phase_eq_of sk _ q (by rfl) hq _ (-((dot a sk + (if x then q / 4 else 0)) / q : Nat))
  show (((dot a sk + (if x then q / 4 else 0)) % q : Nat) : Int) - (dot a sk : Nat) = _
  rw [nat_mod_cast]
  push_cast
  ring

theorem EncryptsBit_notObj (sk : List Nat) (n q : Nat) (ct : LWECiphertextImpl) (x : Bool)
    (hq : 0 < q) (h4 : 4 ∣ q) (h : EncryptsBit sk n q ct x) :
    EncryptsBit sk n q (notObj ct) (!x) := by
  obtain ⟨hm, hl, ha, hb, hp⟩ := h
  subst hm
  obtain ⟨c, hc⟩ := h4
  have hc4 : ct.a.modulus / 4 = c := by omega
  refine ⟨rfl, by simp [notObj, hl], ?_, ?_, ?_⟩
  · intro v hv
    simp only [notObj, List.mem_map] at hv
    obtain ⟨w, hw, rfl⟩ := hv
    have := ha w hw
    split <;> omega
  · show ModSubFast (ct.a.modulus >>> 2) ct.b ct.a.modulus < ct.a.modulus
    rw [shiftRight_two]
    unfold ModSubFast
    split <;> omega
  · rw [phase_notObj sk ct hq ha hb, hp, hc4]
    cases x
    · simp only [Bool.false_eq_true, if_false, Bool.not_false, if_true]
      apply mod_eq_of_repr _ _ _ 1 <;> omega
    · simp only [if_true, Bool.not_true, Bool.false_eq_true, if_false]
      apply mod_eq_of_repr _ _ _ 1 <;> omega

theorem Decrypt_EncryptsBit (sk : List Nat) (n q : Nat) (ct : LWECiphertextImpl) (x : Bool)
    (hq : 0 < q) (h8 : 8 ∣ q) (h : EncryptsBit sk n q ct x) : Decrypt sk ct = x := by
  obtain ⟨hm, _, _, _, hp⟩ := h
  obtain ⟨d, hd⟩ := h8
  have hd0 : 0 < d := by omega
  have e8 : q / 8 = d := by omega
  have e4 : q / 4 = 2 * d := by omega
  unfold Decrypt
  rw [hp, hm, e8, e4]
  cases x
  · simp only [Bool.false_eq_true, if_false, Nat.zero_add]
    rw [Nat.mod_eq_of_lt (by omega)]
    have : d * 4 / q = 0 := Nat.div_eq_of_lt (by omega)
    rw [this]
    decide
  · simp only [if_true]
    rw [Nat.mod_eq_of_lt (by omega)]
    have : (2 * d + d) * 4 / q = 1 := by
      apply Nat.div_eq_of_lt_le <;> omega
    rw [this]
    decide

theorem gatePrep_ideal (sk : List Nat) (n q : Nat) (gate : BINGATE)
    (o1 o2 : LWECiphertextImpl) (x y : Bool) (hq : 0 < q) (h8 : 8 ∣ q)
    (h1 : EncryptsBit sk n q o1 x) (h2 : EncryptsBit sk n q o2 y) :
    ∃ ctprep : LWECiphertextImpl, gatePrep gate o1 o2 = Except.ok ctprep ∧
      ctprep.a.modulus = q ∧
      phase sk ctprep
        = if gate = BINGATE.XOR_FAST ∨ gate = BINGATE.XNOR_FAST then
            (if xor x y then q / 2 else 0)
          else (if x then q / 4 else 0) + (if y then q / 4 else 0) := by
  obtain ⟨hm1, hl1, ha1, hb1, hp1⟩ := h1
  obtain ⟨hm2, hl2, ha2, hb2, hp2⟩ := h2
  obtain ⟨d, hd⟩ := h8
  have e4 : q / 4 = 2 * d := by omega
  have e2 : q / 2 = 4 * d := by omega
  have hq1 : 0 < o1.a.modulus := by omega
  unfold gatePrep
  by_cases hf : gate = BINGATE.XOR_FAST ∨ gate = BINGATE.XNOR_FAST
  · rw [if_pos hf, if_pos hf]
    obtain ⟨r, hr, hrm, hrl, hrp⟩ := phase_EvalSubEq sk o1 o2 hq1 (by omega) (by omega)
      (by rw [hm1]; exact ha2) (by omega)
    rw [hr]
    simp only []
    obtain ⟨r2, hr2, hrm2, _, hrp2⟩ := phase_EvalAddEq sk r r (by rw [hrm]; exact hq1) rfl rfl
    refine ⟨r2, hr2, by rw [hrm2, hrm, hm1], ?_⟩
    rw [hrp2, hrp, hrm, hp1, hp2, hm1, e4, e2]
    cases x <;> cases y
    · simp only [Bool.false_eq_true, if_false, Bool.xor_false]
      have : (0 + (q - 0)) % q = 0 := by
        apply mod_eq_of_repr _ _ _ 1 <;> omega
      rw [this]
      exact Nat.zero_mod _
    · simp only [Bool.false_eq_true, if_false, if_true, Bool.xor_true, Bool.not_false]
      rw [Nat.zero_add, Nat.mod_eq_of_lt (by omega : q - 2 * d < q)]
      apply mod_eq_of_repr _ _ _ 1 <;> omega
    · simp only [Bool.false_eq_true, if_false, if_true, Bool.xor_false]
      have : (2 * d + (q - 0)) % q = 2 * d := by
        apply mod_eq_of_repr _ _ _ 1 <;> omega
      rw [this]
      apply mod_eq_of_repr _ _ _ 0 <;> omega
    · simp only [if_true, Bool.xor_self, Bool.false_eq_true, if_false]
      have : (2 * d + (q - 2 * d)) % q = 0 := by
        apply mod_eq_of_repr _ _ _ 1 <;> omega
      rw [this]
      exact Nat.zero_mod _
  · rw [if_neg hf, if_neg hf]
    obtain ⟨r, hr, hrm, _, hrp⟩ := phase_EvalAddEq sk o1 o2 hq1 (by omega) (by omega)
    refine ⟨r, hr, by omega, ?_⟩
    rw [hrp, hp1, hp2, hm1, e4]
    apply Nat.mod_eq_of_lt
    cases x <;> cases y <;> simp <;> omega

theorem gate_truth (params : BinFHECryptoParams) (gate : BINGATE) (sk z : List Nat)
    (baseG : Nat) (o1 o2 : LWECiphertextImpl) (x y : Bool) (hE : ExactParams params)
    (hg : ¬(gate = BINGATE.XOR ∨ gate = BINGATE.XNOR))
    (h1 : EncryptsBit sk params.n params.q o1 x)
    (h2 : EncryptsBit sk params.n params.q o2 y) :
    ∃ (r : LWECiphertextImpl) (call : AccCall),
      gateObj idealCollaborators params gate ⟨some sk, z⟩ baseG o1 o2 = Except.ok (r, call) ∧
      EncryptsBit sk params.n params.q r (gateFun gate x y) := by
  have hE2 := hE
  obtain ⟨hq, h8, _, _, _, _, _, hOR, hAND, hNOR, hNAND, hXF, hXNF⟩ := hE2
  obtain ⟨ctprep, hprep, hmp, hph⟩ := gatePrep_ideal sk params.n params.q gate o1 o2 x y hq h8 h1 h2
  obtain ⟨d, hd⟩ := h8
  have hd0 : 0 < d := by omega
  have e8 : params.q / 8 = d := by omega
  have e4 : params.q / 4 = 2 * d := by omega
  have e2 : params.q / 2 = 4 * d := by omega
  rw [e8] at hOR hAND hNOR hNAND hXF hXNF
  have hq1 : params.gateConst gate < params.q := by
    cases gate <;> first | omega | (exfalso; exact hg (by simp))
  obtain ⟨r, call, hrun, henc⟩ := gateObj_ideal params gate sk z baseG o1 o2 ctprep hE hprep
    h1.1 hmp hq1
  refine ⟨r, call, hrun, ?_⟩
  have hbit : decide (¬inInterval params.q (params.gateConst gate) (phase sk ctprep))
      = gateFun gate x y := by
    cases gate
    · cases x <;> cases y <;> simp [hph, inInterval, e4, e2, hOR, gateFun] <;> omega
    · cases x <;> cases y <;> simp [hph, inInterval, e4, e2, hAND, gateFun] <;> omega
    · cases x <;> cases y <;> simp [hph, inInterval, e4, e2, hNOR, gateFun] <;> omega
    · cases x <;> cases y <;> simp [hph, inInterval, e4, e2, hNAND, gateFun] <;> omega
    · cases x <;> cases y <;> simp [hph, inInterval, e4, e2, hXF, gateFun] <;> omega
    · cases x <;> cases y <;> simp [hph, inInterval, e4, e2, hXNF, gateFun] <;> omega
    · exact absurd (Or.inl rfl) hg
    · exact absurd (Or.inr rfl) hg
  rw [← hbit]
  exact henc

/-- C1: with the noise-free collaborators and exact parameters, for every gate and
every pair of bits `x`, `y`, `EvalBinGate` on noise-free encryptions of `x` and `y`
(any masks, distinct handles) succeeds and its result decrypts to `gate(x, y)`;
XOR and XNOR go through the synthesis from AND, OR and NOT. -/
theorem EvalBinGate_truth_table (params : BinFHECryptoParams) (sk z : List Nat)
    (gate : BINGATE) (x y : Bool) (a1 a2 : List Nat) (p1 p2 : Nat) (s : Machine)
    (hE : ExactParams params)
    (hl1 : a1.length = params.n) (hv1 : ∀ v ∈ a1, v < params.q)
    (hl2 : a2.length = params.n) (hv2 : ∀ v ∈ a2, v < params.q)
    (hne : p1 ≠ p2) (hp1 : p1 < s.nextPtr) (hp2 : p2 < s.nextPtr) :
    ∃ (r : LWECiphertext) (s1 : Machine),
      EvalBinGate idealCollaborators params gate ⟨some sk, z⟩
        ⟨p1, Encrypt sk params.q a1 x⟩ ⟨p2, Encrypt sk params.q a2 y⟩ s = (Except.ok r, s1) ∧
      Decrypt sk r.obj = gateFun gate x y := by
  have hq : 0 < params.q := hE.1
  have h8 : 8 ∣ params.q := hE.2.1
  have h4 : 4 ∣ params.q := Dvd.dvd.trans (by norm_num) h8
  have h1 := EncryptsBit_Encrypt sk params.n params.q a1 x hq hl1 hv1
  have h2 := EncryptsBit_Encrypt sk params.n params.q a2 y hq hl2 hv2
  by_cases hg : gate = BINGATE.XOR ∨ gate = BINGATE.XNOR
  · have hn1 := EncryptsBit_notObj sk params.n params.q _ x hq h4 h1
    have hn2 := EncryptsBit_notObj sk params.n params.q _ y hq h4 h2
    obtain ⟨A1, c1, hA1, eA1⟩ := gate_truth params BINGATE.AND sk z s.baseG _ _ x (!y) hE
      (by decide) h1 hn2
    obtain ⟨A2, c2, hA2, eA2⟩ := gate_truth params BINGATE.AND sk z s.baseG _ _ (!x) y hE
      (by decide) hn1 h2
    obtain ⟨O, c3, hO, eO⟩ := gate_truth params BINGATE.OR sk z s.baseG A1 A2 _ _ hE
      (by decide) eA1 eA2
    rw [EvalBinGate_synth idealCollaborators params gate _ _ _ s hne hp1 hp2 hg]
    simp only [hA1, hA2, hO]
    by_cases hx : gate = BINGATE.XOR
    · rw [if_pos hx]
      refine ⟨_, _, rfl, ?_⟩
      rw [Decrypt_EncryptsBit sk params.n params.q O _ hq h8 eO, hx]
      cases x <;> cases y <;> rfl
    · rw [if_neg hx]
      have hxn : gate = BINGATE.XNOR := by
        rcases hg with h | h
        · exact absurd h hx
        · exact h
      refine ⟨_, _, rfl, ?_⟩
      rw [Decrypt_EncryptsBit sk params.n params.q (notObj O) _ hq h8
        (EncryptsBit_notObj sk params.n params.q O _ hq h4 eO), hxn]
      cases x <;> cases y <;> rfl
  · obtain ⟨r, c, hr, er⟩ := gate_truth params gate sk z s.baseG _ _ x y hE hg h1 h2
    rw [EvalBinGate_prim idealCollaborators params gate _ _ _ s hne hg]
    simp only [hr]
    exact ⟨_, _, rfl, Decrypt_EncryptsBit sk params.n params.q r _ hq h8 er⟩

/-- Witness for C1: XNOR on noise-free encryptions of 1 and 0 under the secret
`[1, 1]`, with the small parameters. -/
theorem EvalBinGate_truth_table_witness :
    (ExactParams smallParams ∧ (0 : Nat) ≠ 1 ∧ 0 < smallMachine.nextPtr ∧
      1 < smallMachine.nextPtr) ∧
    ∃ (r : LWECiphertext) (s1 : Machine),
      EvalBinGate idealCollaborators smallParams BINGATE.XNOR ⟨some [1, 1], []⟩
        ⟨0, Encrypt [1, 1] smallParams.q [1, 2] true⟩
        ⟨1, Encrypt [1, 1] smallParams.q [5, 0] false⟩ smallMachine = (Except.ok r, s1) ∧
      Decrypt [1, 1] r.obj = gateFun BINGATE.XNOR true false :=
  ⟨⟨by unfold ExactParams StandardGateConst; decide, by decide, by decide, by decide⟩,
    EvalBinGate_truth_table smallParams [1, 1] [] BINGATE.XNOR true false [1, 2] [5, 0] 0 1
      smallMachine (by unfold ExactParams StandardGateConst; decide) (by decide) (by decide)
      (by decide) (by decide) (by decide) (by decide) (by decide)⟩

/-! ## Flooring with exact bootstraps -/

theorem floor_arith (q M x : Nat) (h4 : 4 ∣ q) (hq : 0 < q) (hM : q ∣ M) (hx : x < M) :
    ((x + (M - EvalFloor.f1 (x % q) q M % M)) % M
      + (M - EvalFloor.f2 ((x + (M - EvalFloor.f1 (x % q) q M % M)) % M % q) q M % M)) % M
      = q * (x / q) := by
  obtain ⟨d, hd⟩ := h4
  obtain ⟨T, hT⟩ := hM
  have hdm := Nat.div_add_mod x q
  have hr : x % q < q := Nat.mod_lt _ hq
  have ht : x / q < T := by
    apply Nat.lt_of_mul_lt_mul_left (a := q)
    have := Nat.mul_div_le x q
    omega
  have hle : q * (x / q) + q ≤ M := by
    have : q * (x / q + 1) ≤ q * T := Nat.mul_le_mul_left q ht
    rw [Nat.mul_add, Nat.mul_one] at this
    omega
  generalize x / q = t at hdm hle
  generalize hqt : q * t = qt at hdm hle
  generalize x % q = r at hdm hr
  have e2 : q / 2 = 2 * d := by omega
  have e4 : q / 4 = d := by omega
  have e34 : 3 * q / 4 = 3 * d := by omega
  unfold EvalFloor.f1
  rw [e2, e4]
  by_cases hlow : r < 2 * d
  · rw [if_pos hlow]
    have p1 : (M - d) % M = M - d := Nat.mod_eq_of_lt (by omega)
    rw [p1]
    have x1 : (x + (M - (M - d))) % M = x + d := by
      rw [Nat.mod_eq_of_lt] <;> omega
    rw [x1]
    have r1 : (x + d) % q = r + d := by
      apply mod_eq_of_repr _ _ _ t
      · rw [hqt]; omega
      · omega
    rw [r1]
    unfold EvalFloor.f2
    rw [e2, e4, e34, if_neg (by omega), if_pos (by omega)]
    have p2 : (r + d) % M = r + d := Nat.mod_eq_of_lt (by omega)
    rw [p2]
    apply mod_eq_of_repr _ _ _ 1 <;> omega
  · rw [if_neg hlow]
    have p1 : d % M = d := Nat.mod_eq_of_lt (by omega)
    rw [p1]
    have x1 : (x + (M - d)) % M = x - d := by
      apply mod_eq_of_repr _ _ _ 1 <;> omega
    rw [x1]
    have r1 : (x - d) % q = r - d := by
      apply mod_eq_of_repr _ _ _ t
      · rw [hqt]; omega
      · omega
    rw [r1]
    unfold EvalFloor.f2
    rw [e2, e4, e34, if_neg (by omega), if_pos (by omega)]
    have p2 : (r - d) % M = r - d := Nat.mod_eq_of_lt (by omega)
    rw [p2]
    apply mod_eq_of_repr _ _ _ 1 <;> omega

theorem SetModulus_length (ct : LWECiphertextImpl) (q : Nat) :
    (ct.SetModulus q).a.data.length = ct.a.data.length := by
  simp [LWECiphertextImpl.SetModulus]

/-- With exact bootstraps `EvalFloor` returns, and clears the part below `q` of the
encrypted value plus `beta`. -/
theorem EvalFloor_floor (bootstrapFunc : BootstrapFuncT) (sk : List Nat) (n : Nat)
    (params : BinFHECryptoParams) (EK : RingGSWBTKey) (ct : LWECiphertextImpl)
    (beta roundbits q : Nat) (s : Machine)
    (hbf : ExactBootstrap bootstrapFunc sk n) (hr : roundbits ≤ 30)
    (hqdef : (if roundbits = 0 then params.q else beta * 2 * (1 <<< roundbits)) = q)
    (h4 : 4 ∣ q) (hM : q ∣ ct.a.modulus) (hM0 : 0 < ct.a.modulus)
    (hlen : ct.a.data.length = n) :
    ∃ (r : LWECiphertext) (s1 : Machine),
      EvalFloor bootstrapFunc params EK ct beta roundbits s = (Except.ok r, s1) ∧
      r.obj.a.modulus = ct.a.modulus ∧ r.obj.a.data.length = n ∧
      phase sk r.obj = q * (((phase sk ct + beta) % ct.a.modulus) / q) := by
  have hq : 0 < q := Nat.pos_of_dvd_of_pos hM hM0
  have hph0 := phase_EvalAddConstEq sk ct beta hM0
  have hm0 : (EvalAddConstEq ct beta).a.modulus = ct.a.modulus := rfl
  have hl0 : (EvalAddConstEq ct beta).a.data.length = n := hlen
  have hx : (phase sk ct + beta) % ct.a.modulus < ct.a.modulus := Nat.mod_lt _ hM0
  obtain ⟨r1, s1, hrun1, hmod1, hlen1, ha1, hb1, hph1⟩ :=
    hbf params EK ((EvalAddConstEq ct beta).SetModulus q) EvalFloor.f1 ct.a.modulus
      { s with nextPtr := s.nextPtr + 1 }
      (by rw [SetModulus_length]; exact hl0) hM0
  rw [phase_SetModulus sk _ q hq (by rw [hm0]; exact hM) (by rw [hm0]; exact hM0), hph0] at hph1
  obtain ⟨d1, hrun2, hmod2, hlen2, hph2⟩ :=
    phase_EvalSubEq sk (EvalAddConstEq ct beta) r1.obj (by rw [hm0]; exact hM0)
      (by rw [hmod1, hm0]) (by rw [hlen1, hl0]) (by rw [hm0]; exact ha1) (by rw [hm0]; exact hb1)
  rw [hm0] at hmod2
  rw [hl0] at hlen2
  rw [hm0, hph0, hph1] at hph2
  obtain ⟨r2, s2, hrun3, hmod3, hlen3, ha3, hb3, hph3⟩ :=
    hbf params EK (d1.SetModulus q) EvalFloor.f2 ct.a.modulus s1
      (by rw [SetModulus_length]; exact hlen2) hM0
  rw [phase_SetModulus sk _ q hq (by rw [hmod2]; exact hM) (by rw [hmod2]; exact hM0), hph2]
    at hph3
  obtain ⟨d2, hrun4, hmod4, hlen4, hph4⟩ :=
    phase_EvalSubEq sk d1 r2.obj (by rw [hmod2]; exact hM0)
      (by rw [hmod3, hmod2]) (by rw [hlen3, hlen2]) (by rw [hmod2]; exact ha3)
      (by rw [hmod2]; exact hb3)
  rw [hmod2] at hmod4
  rw [hlen2] at hlen4
  rw [hmod2, hph2, hph3] at hph4
  refine ⟨⟨s.nextPtr, d2⟩, s2, ?_, hmod4, hlen4, ?_⟩
  · unfold EvalFloor
    rw [if_neg (by omega)]
    simp only [hqdef, M.bind_run, make_shared_run, liftExcept_run, M.pure_run, hrun1, hrun2,
      hrun3, hrun4]
  · rw [hph4]
    exact floor_arith q ct.a.modulus _ h4 hq hM hx

/-! ## Loops, base selection and the loop bodies -/

theorem whileLoop_done {σ : Type} (cond : σ → Bool) (body : σ → M σ) (fuel : Nat) (v : σ)
    (s : Machine) (h : cond v = false) :
    whileLoop cond body fuel v s = some (Except.ok v, s) := by
  cases fuel <;> simp [whileLoop, h]

theorem whileLoop_step {σ : Type} (cond : σ → Bool) (body : σ → M σ) (fuel : Nat) (v : σ)
    (s : Machine) (h : cond v = true) :
    whileLoop cond body (fuel + 1) v s =
      match body v s with
      | (Except.ok v1, s1) => whileLoop cond body fuel v1 s1
      | (Except.error e, s1) => some (Except.error e, s1) := by
  simp only [whileLoop, h, if_true]

theorem whileLoop_zero {σ : Type} (cond : σ → Bool) (body : σ → M σ) (v : σ)
    (s : Machine) (h : cond v = true) :
    whileLoop cond body 0 v s = none := by
  simp [whileLoop, h]

/-- An invariant of the loop body holds when the loop ends, and a property of the
exceptions of the body holds of the exception of the loop. -/
theorem whileLoop_inv {σ : Type} (cond : σ → Bool) (body : σ → M σ)
    (Inv : σ → Machine → Prop) (Err : Error → Machine → Prop)
    (hbody : ∀ v s, Inv v s → cond v = true →
      (∀ v1 s1, body v s = (Except.ok v1, s1) → Inv v1 s1) ∧
      (∀ e s1, body v s = (Except.error e, s1) → Err e s1)) :
    ∀ (fuel : Nat) (v : σ) (s : Machine), Inv v s →
      (∀ v1 s1, whileLoop cond body fuel v s = some (Except.ok v1, s1) →
        Inv v1 s1 ∧ cond v1 = false) ∧
      (∀ e s1, whileLoop cond body fuel v s = some (Except.error e, s1) → Err e s1) := by
  intro fuel
  induction fuel with
  | zero =>
    intro v s hinv
    cases hc : cond v with
    | true => rw [whileLoop_zero cond body v s hc]; simp
    | false =>
      rw [whileLoop_done cond body 0 v s hc]
      constructor
      · intro v1 s1 h
        simp only [Option.some.injEq, Prod.mk.injEq, Except.ok.injEq] at h
        obtain ⟨h1, h2⟩ := h
        subst h1; subst h2
        exact ⟨hinv, hc⟩
      · intro e s1 h
        simp at h
  | succ fuel ih =>
    intro v s hinv
    cases hc : cond v with
    | false =>
      rw [whileLoop_done cond body _ v s hc]
      constructor
      · intro v1 s1 h
        simp only [Option.some.injEq, Prod.mk.injEq, Except.ok.injEq] at h
        obtain ⟨h1, h2⟩ := h
        subst h1; subst h2
        exact ⟨hinv, hc⟩
      · intro e s1 h
        simp at h
    | true =>
      rw [whileLoop_step cond body fuel v s hc]
      obtain ⟨hok, herr⟩ := hbody v s hinv hc
      cases hb : body v s with
      | mk out s2 =>
        cases out with
        | ok v2 =>
          simp only []
          exact ih v2 s2 (hok v2 s2 hb)
        | error e2 =>
          simp only []
          constructor
          · intro v1 s1 h
            simp at h
          · intro e s1 h
            simp only [Option.some.injEq, Prod.mk.injEq, Except.error.injEq] at h
            obtain ⟨h1, h2⟩ := h
            subst h1; subst h2
            exact herr _ _ hb

theorem binLogAux_ge (mod : Nat) : ∀ (fuel k : Nat), k ≤ binLogAux mod fuel k := by
  intro fuel
  induction fuel with
  | zero => intro k; simp [binLogAux]
  | succ fuel ih =>
    intro k
    unfold binLogAux
    split_ifs
    · exact Nat.le_refl k
    · have := ih (k + 1)
      omega

theorem binLogAux_le (mod : Nat) : ∀ (fuel k j : Nat), k ≤ j → j < k + fuel →
    (binLogAux mod fuel k ≤ j ↔ mod ≤ 2 ^ j) := by
  intro fuel
  induction fuel with
  | zero => intro k j h1 h2; omega
  | succ fuel ih =>
    intro k j h1 h2
    unfold binLogAux
    by_cases hk : mod ≤ 2 ^ k
    · rw [if_pos hk]
      have : 2 ^ k ≤ 2 ^ j := Nat.pow_le_pow_right (by norm_num) h1
      constructor
      · intro _; omega
      · intro _; exact h1
    · rw [if_neg hk]
      by_cases hjk : j = k
      · subst hjk
        have := binLogAux_ge mod fuel (j + 1)
        constructor
        · intro h; omega
        · intro h; exact absurd h hk
      · exact ih (k + 1) j (by omega) (by omega)

theorem binLog_le (mod j : Nat) (hj : j < 64) : binLog mod ≤ j ↔ mod ≤ 2 ^ j :=
  binLogAux_le mod 64 0 j (Nat.zero_le j) (by omega)

/-- The base computed in the loop body is the one the specification selects. -/
theorem base_eq_selectedBase (EKs : KeyMap) (mod : Nat) (h3 : EKs.length = 3) :
    (if binLog mod ≤ 17 then 1 <<< 27 else if binLog mod ≤ 26 then 1 <<< 18 else 0)
      = (selectedBase EKs mod).getD 0 := by
  unfold selectedBase
  have h17 := binLog_le mod 17 (by norm_num)
  have h26 := binLog_le mod 26 (by norm_num)
  rw [if_pos h3]
  by_cases a : mod ≤ 2 ^ 17
  · rw [if_pos (h17.mpr a), if_pos a]
    rfl
  · rw [if_neg (fun h => a (h17.mp h)), if_neg a]
    by_cases b : mod ≤ 2 ^ 26
    · rw [if_pos (h26.mpr b), if_pos b]
      rfl
    · rw [if_neg (fun h => b (h26.mp h)), if_neg b]
      rfl

theorem selectedBase_ne_zero (EKs : KeyMap) (mod base : Nat)
    (h : selectedBase EKs mod = some base) : base ≠ 0 ∧ EKs.length = 3 ∧
      (base = 2 ^ 27 ∨ base = 2 ^ 18) := by
  unfold selectedBase at h
  split_ifs at h with h3 h17 h26
  · simp only [Option.some.injEq] at h; subst h; exact ⟨by norm_num, h3, Or.inl rfl⟩
  · simp only [Option.some.injEq] at h; subst h; exact ⟨by norm_num, h3, Or.inr rfl⟩

/-- One iteration of the loop of `EvalSign` after its floor step. -/
theorem EvalSign_body_run (bootstrapFunc : BootstrapFuncT) (ext : Collaborators)
    (params : BinFHECryptoParams) (EKs : KeyMap) (curBase beta : Nat) (v : EvalSign.Vars)
    (s : Machine) :
    EvalSign.body bootstrapFunc ext params EKs curBase beta v s =
      match EvalFloor bootstrapFunc params v.curEK v.cttmp beta 0 s with
      | (Except.error e, s1) => (Except.error e, s1)
      | (Except.ok r, s1) =>
        match selectedBase EKs (v.mod / params.q * 2 * beta) with
        | none =>
          (Except.ok ⟨ext.ModSwitch (v.mod / params.q * 2 * beta) r.obj,
            v.mod / params.q * 2 * beta, v.curEK⟩, s1)
        | some base =>
          match EKs.lookup base with
          | some K =>
            (Except.ok ⟨ext.ModSwitch (v.mod / params.q * 2 * beta) r.obj,
              v.mod / params.q * 2 * beta, K⟩, { s1 with baseG := base })
          | none =>
            (Except.error (Error.openfhe_error
              ("ERROR: No key [" ++ toString curBase ++ "] found in the map")),
              { s1 with baseG := base }) := by
  unfold EvalSign.body
  simp only [M.bind_run]
  cases hf : EvalFloor bootstrapFunc params v.curEK v.cttmp beta 0 s with
  | mk out s1 =>
    cases out with
    | error e => rfl
    | ok r =>
      simp only []
      by_cases h3 : EKs.length = 3
      · rw [if_pos h3, base_eq_selectedBase EKs _ h3]
        cases hsel : selectedBase EKs (v.mod / params.q * 2 * beta) with
        | none => simp
        | some base =>
          have hne := (selectedBase_ne_zero EKs _ base hsel).1
          simp only [Option.getD_some]
          rw [if_pos (Ne.symm hne)]
          simp only [M.bind_run, Change_BaseG]
          cases EKs.lookup base <;> rfl
      · rw [if_neg h3]
        have : selectedBase EKs (v.mod / params.q * 2 * beta) = none := by
          unfold selectedBase; rw [if_neg h3]
        rw [this]
        rfl

/-- One iteration of the loop of `EvalDecomp` after its floor step. -/
theorem EvalDecomp_body_run (bootstrapFunc : BootstrapFuncT) (ext : Collaborators)
    (params : BinFHECryptoParams) (EKs : KeyMap) (curBase beta : Nat) (v : EvalDecomp.Vars)
    (s : Machine) :
    EvalDecomp.body bootstrapFunc ext params EKs curBase beta v s =
      match EvalFloor bootstrapFunc params v.curEK v.cttmp beta 0
          { s with nextPtr := s.nextPtr + 1 } with
      | (Except.error e, s1) => (Except.error e, s1)
      | (Except.ok r, s1) =>
        match selectedBase EKs (v.mod / params.q * 2 * beta) with
        | none =>
          (Except.ok ⟨ext.ModSwitch (v.mod / params.q * 2 * beta) r.obj,
            v.mod / params.q * 2 * beta, v.curEK,
            v.ret ++ [⟨s.nextPtr, v.cttmp.SetModulus params.q⟩]⟩, s1)
        | some base =>
          match EKs.lookup base with
          | some K =>
            (Except.ok ⟨ext.ModSwitch (v.mod / params.q * 2 * beta) r.obj,
              v.mod / params.q * 2 * beta, K,
              v.ret ++ [⟨s.nextPtr, v.cttmp.SetModulus params.q⟩]⟩, { s1 with baseG := base })
          | none =>
            (Except.error (Error.openfhe_error
              ("ERROR: No key [" ++ toString curBase ++ "] found in the map")),
              { s1 with baseG := base }) := by
  unfold EvalDecomp.body
  simp only [M.bind_run, make_shared_run]
  cases hf : EvalFloor bootstrapFunc params v.curEK v.cttmp beta 0
      { s with nextPtr := s.nextPtr + 1 } with
  | mk out s1 =>
    cases out with
    | error e => rfl
    | ok r =>
      simp only []
      by_cases h3 : EKs.length = 3
      · rw [if_pos h3, base_eq_selectedBase EKs _ h3]
        cases hsel : selectedBase EKs (v.mod / params.q * 2 * beta) with
        | none => simp
        | some base =>
          have hne := (selectedBase_ne_zero EKs _ base hsel).1
          simp only [Option.getD_some]
          rw [if_pos (Ne.symm hne)]
          simp only [M.bind_run, Change_BaseG]
          cases EKs.lookup base <;> rfl
      · rw [if_neg h3]
        have : selectedBase EKs (v.mod / params.q * 2 * beta) = none := by
          unfold selectedBase; rw [if_neg h3]
        rw [this]
        rfl

/-- The method `EvalSign` past its two checks. -/
theorem EvalSign_run (bootstrapFunc : BootstrapFuncT) (ext : Collaborators)
    (params : BinFHECryptoParams) (EKs : KeyMap) (ct : LWECiphertextImpl) (beta fuel : Nat)
    (s : Machine) (K : RingGSWBTKey) (hmod : params.q < ct.a.modulus)
    (hK : EKs.lookup s.baseG = some K) :
    EvalSign bootstrapFunc ext params EKs ct beta fuel s =
      match whileLoop (fun v => decide (v.mod > params.q))
          (EvalSign.body bootstrapFunc ext params EKs s.baseG beta) fuel
          ⟨ct, ct.a.modulus, K⟩ s with
      | none => none
      | some (Except.error e, s1) => some (Except.error e, s1)
      | some (Except.ok v, s1) =>
        some (match bootstrapFunc params v.curEK (EvalAddConstEq v.cttmp beta) EvalSign.f3
            params.q s1 with
          | (Except.ok r, s2) =>
            (Except.ok { r with obj := EvalSubConstEq r.obj (params.q >>> 2) },
              { s2 with baseG := s.baseG })
          | (Except.error e, s2) => (Except.error e, s2)) := by
  unfold EvalSign
  simp only []
  rw [if_neg (by omega), hK]
  simp only []
  cases whileLoop (fun v => decide (v.mod > params.q))
          (EvalSign.body bootstrapFunc ext params EKs s.baseG beta) fuel
          ⟨ct, ct.a.modulus, K⟩ s with
  | none => rfl
  | some p =>
    obtain ⟨out, s1⟩ := p
    cases out with
    | error e => rfl
    | ok v =>
      simp only [M.bind_run, Change_BaseG, M.pure_run]
      cases bootstrapFunc params v.curEK (EvalAddConstEq v.cttmp beta) EvalSign.f3 params.q s1 with
      | mk o2 s2 => cases o2 <;> rfl

/-- The method `EvalDecomp` past its two checks. -/
theorem EvalDecomp_run (bootstrapFunc : BootstrapFuncT) (ext : Collaborators)
    (params : BinFHECryptoParams) (EKs : KeyMap) (ct : LWECiphertextImpl) (beta fuel : Nat)
    (s : Machine) (K : RingGSWBTKey) (hmod : params.q < ct.a.modulus)
    (hK : EKs.lookup s.baseG = some K) :
    EvalDecomp bootstrapFunc ext params EKs ct beta fuel s =
      match whileLoop (fun v => decide (v.mod > params.q))
          (EvalDecomp.body bootstrapFunc ext params EKs s.baseG beta) fuel
          ⟨ct, ct.a.modulus, K, []⟩ s with
      | none => none
      | some (Except.error e, s1) => some (Except.error e, s1)
      | some (Except.ok v, s1) =>
        some (match bootstrapFunc params v.curEK (EvalAddConstEq v.cttmp beta) EvalDecomp.f3
            params.q s1 with
          | (Except.ok r, s2) =>
            (Except.ok (v.ret ++ [{ r with obj := EvalSubConstEq r.obj (params.q >>> 2) }]),
              { s2 with baseG := s.baseG })
          | (Except.error e, s2) => (Except.error e, s2)) := by
  unfold EvalDecomp
  simp only []
  rw [if_neg (by omega), hK]
  simp only []
  cases whileLoop (fun v => decide (v.mod > params.q))
          (EvalDecomp.body bootstrapFunc ext params EKs s.baseG beta) fuel
          ⟨ct, ct.a.modulus, K, []⟩ s with
  | none => rfl
  | some p =>
    obtain ⟨out, s1⟩ := p
    cases out with
    | error e => rfl
    | ok v =>
      simp only [M.bind_run, Change_BaseG, M.pure_run]
      cases bootstrapFunc params v.curEK (EvalAddConstEq v.cttmp beta) EvalDecomp.f3 params.q s1 with
      | mk o2 s2 => cases o2 <;> rfl

/-- The method `EvalFloor` around the bootstraps of this file. -/
theorem EvalFloor_run (ext : Collaborators) (params : BinFHECryptoParams) (EK : RingGSWBTKey)
    (ct : LWECiphertextImpl) (beta roundbits : Nat) (s : Machine) :
    EvalFloor (BootstrapFunc ext) params EK ct beta roundbits s =
      ((match (floorRun ext params EK s.baseG ct beta roundbits).1 with
        | Except.ok d => Except.ok ⟨s.nextPtr, d⟩
        | Except.error e => Except.error e),
       { s with nextPtr := s.nextPtr + (floorRun ext params EK s.baseG ct beta roundbits).2.1,
                accCalls := s.accCalls ++ (floorRun ext params EK s.baseG ct beta roundbits).2.2 }) := by
  unfold EvalFloor floorRun
  by_cases hr : 31 ≤ roundbits
  · rw [if_pos hr, if_pos hr]
    simp [throwErr]
  rw [if_neg hr, if_neg hr]
  simp only [M.bind_run, make_shared_run, BootstrapFunc_run, liftExcept_run, M.pure_run]
  cases hk : EK.BSkey with
  | none => simp
  | some key =>
    simp only []
    cases h1 : EvalSubEq (EvalAddConstEq ct beta)
        (funcObj ext params EK s.baseG key
          ((EvalAddConstEq ct beta).SetModulus
            (if roundbits = 0 then params.q else beta * 2 * (1 <<< roundbits)))
          EvalFloor.f1 ct.a.modulus) with
    | error e => simp
    | ok d1 =>
      simp only []
      cases h2 : EvalSubEq d1
          (funcObj ext params EK s.baseG key
            (d1.SetModulus (if roundbits = 0 then params.q else beta * 2 * (1 <<< roundbits)))
            EvalFloor.f2 ct.a.modulus) with
      | error e => simp
      | ok d2 => simp

/-! ## Sign and decomposition around the bootstraps of this file -/

theorem CallsSince_refl (P : AccCall → Prop) (s : Machine) : CallsSince P s s :=
  ⟨[], by simp, by simp⟩

theorem CallsSince_trans (P Q : AccCall → Prop) (s0 s1 s2 : Machine)
    (h1 : CallsSince P s0 s1) (h2 : CallsSince Q s1 s2) (hQ : ∀ c, Q c → P c) :
    CallsSince P s0 s2 := by
  obtain ⟨l1, e1, p1⟩ := h1
  obtain ⟨l2, e2, p2⟩ := h2
  refine ⟨l1 ++ l2, by rw [e2, e1, List.append_assoc], ?_⟩
  intro c hc
  rcases List.mem_append.mp hc with h | h
  · exact p1 c h
  · exact hQ c (p2 c h)

theorem floorRun_calls (ext : Collaborators) (params : BinFHECryptoParams) (EK : RingGSWBTKey)
    (baseG : Nat) (ct : LWECiphertextImpl) (beta roundbits : Nat) :
    ∀ c ∈ (floorRun ext params EK baseG ct beta roundbits).2.2,
      c.baseG = baseG ∧ EK.BSkey = some c.ek := by
  unfold floorRun
  by_cases hr : 31 ≤ roundbits
  · rw [if_pos hr]
    simp
  rw [if_neg hr]
  cases hk : EK.BSkey with
  | none => simp
  | some key =>
    simp only []
    split
    · simp [funcCall]
    · split <;> simp [funcCall]

theorem floorRun_not_implemented (ext : Collaborators) (params : BinFHECryptoParams)
    (EK : RingGSWBTKey) (baseG : Nat) (ct : LWECiphertextImpl) (beta roundbits : Nat)
    (msg : String) :
    (floorRun ext params EK baseG ct beta roundbits).1
      ≠ Except.error (Error.not_implemented_error msg) := by
  unfold floorRun
  by_cases hr : 31 ≤ roundbits
  · rw [if_pos hr]
    simp
  rw [if_neg hr]
  cases hk : EK.BSkey with
  | none => simp
  | some key =>
    simp only []
    split
    · rename_i e h1
      rw [EvalSubEq_error _ _ e h1]
      simp
    · split
      · rename_i e h2
        rw [EvalSubEq_error _ _ e h2]
        simp
      · simp

/-- What `EvalFloor` leaves behind around the bootstraps of this file: the gadget base
is kept, and the blind rotations it requests use the key it was given under that
base. -/
theorem EvalFloor_real (ext : Collaborators) (params : BinFHECryptoParams) (EK : RingGSWBTKey)
    (ct : LWECiphertextImpl) (beta roundbits : Nat) (s : Machine) :
    (EvalFloor (BootstrapFunc ext) params EK ct beta roundbits s).2.baseG = s.baseG ∧
    CallsSince (fun c => c.baseG = s.baseG ∧ EK.BSkey = some c.ek) s
      (EvalFloor (BootstrapFunc ext) params EK ct beta roundbits s).2 ∧
    ∀ msg, (EvalFloor (BootstrapFunc ext) params EK ct beta roundbits s).1
      ≠ Except.error (Error.not_implemented_error msg) := by
  rw [EvalFloor_run]
  refine ⟨rfl, ⟨_, rfl, floorRun_calls ext params EK s.baseG ct beta roundbits⟩, ?_⟩
  intro msg
  have := floorRun_not_implemented ext params EK s.baseG ct beta roundbits msg
  cases h : (floorRun ext params EK s.baseG ct beta roundbits).1 with
  | ok d => simp
  | error e =>
    rw [h] at this
    simpa using this

theorem EvalSign_body_real (ext : Collaborators) (params : BinFHECryptoParams) (EKs : KeyMap)
    (curBase beta : Nat) (v : EvalSign.Vars) (s : Machine) :
    CallsSince (fun c => c.baseG = s.baseG ∧ v.curEK.BSkey = some c.ek) s
      (EvalSign.body (BootstrapFunc ext) ext params EKs curBase beta v s).2 ∧
    BaseAfter EKs s (EvalSign.body (BootstrapFunc ext) ext params EKs curBase beta v s).2 ∧
    (∀ v1, (EvalSign.body (BootstrapFunc ext) ext params EKs curBase beta v s).1 = Except.ok v1 →
      ((EvalSign.body (BootstrapFunc ext) ext params EKs curBase beta v s).2.baseG = s.baseG
        ∧ v1.curEK = v.curEK) ∨
      EKs.lookup (EvalSign.body (BootstrapFunc ext) ext params EKs curBase beta v s).2.baseG
        = some v1.curEK) ∧
    (∀ msg, (EvalSign.body (BootstrapFunc ext) ext params EKs curBase beta v s).1
      ≠ Except.error (Error.not_implemented_error msg)) := by
  rw [EvalSign_body_run]
  obtain ⟨hb, hc, hn⟩ := EvalFloor_real ext params v.curEK v.cttmp beta 0 s
  cases hf : EvalFloor (BootstrapFunc ext) params v.curEK v.cttmp beta 0 s with
  | mk out s1 =>
    rw [hf] at hb hc hn
    simp only [] at hb hc hn
    cases out with
    | error e =>
      simp only []
      refine ⟨hc, Or.inl hb, by simp, ?_⟩
      intro msg h
      apply hn msg
      cases h
      rfl
    | ok r =>
      simp only []
      cases hsel : selectedBase EKs (v.mod / params.q * 2 * beta) with
      | none =>
        simp only []
        refine ⟨hc, Or.inl hb, ?_, by simp⟩
        intro v1 h1
        simp only [Except.ok.injEq] at h1
        subst h1
        exact Or.inl ⟨hb, rfl⟩
      | some base =>
        simp only []
        obtain ⟨_, h3, hbase⟩ := selectedBase_ne_zero EKs _ base hsel
        have hc2 : CallsSince (fun c => c.baseG = s.baseG ∧ v.curEK.BSkey = some c.ek) s
            { s1 with baseG := base } := hc
        cases hl : EKs.lookup base with
        | none =>
          simp only []
          refine ⟨hc2, Or.inr ⟨h3, hbase⟩, by simp, by simp⟩
        | some K =>
          simp only []
          refine ⟨hc2, Or.inr ⟨h3, hbase⟩, ?_, by simp⟩
          intro v1 h1
          simp only [Except.ok.injEq] at h1
          subst h1
          exact Or.inr hl


theorem BaseAfter_trans (EKs : KeyMap) (s0 s1 s2 : Machine) (h1 : BaseAfter EKs s0 s1)
    (h2 : BaseAfter EKs s1 s2) : BaseAfter EKs s0 s2 := by
  unfold BaseAfter at *
  rcases h2 with h2 | h2
  · rw [h2]; exact h1
  · exact Or.inr h2

theorem BaseAfter_entry (EKs : KeyMap) (s0 s1 : Machine) (h : BaseAfter EKs s0 s1)
    (h3 : EKs.length ≠ 3) : s1.baseG = s0.baseG := by
  rcases h with h | h
  · exact h
  · exact absurd h.1 h3

theorem calls_of_key (EKs : KeyMap) (s0 s s1 : Machine) (K : RingGSWBTKey)
    (hK : EKs.lookup s.baseG = some K) (hb : BaseAfter EKs s0 s)
    (h0 : CallsSince (fun c => KeyOfBase EKs c ∧ (EKs.length ≠ 3 → c.baseG = s0.baseG)) s0 s)
    (h1 : CallsSince (fun c => c.baseG = s.baseG ∧ K.BSkey = some c.ek) s s1) :
    CallsSince (fun c => KeyOfBase EKs c ∧ (EKs.length ≠ 3 → c.baseG = s0.baseG)) s0 s1 := by
  apply CallsSince_trans _ _ s0 s s1 h0 h1
  intro c hc
  refine ⟨⟨K, ?_, hc.2⟩, ?_⟩
  · rw [hc.1]; exact hK
  · intro h3
    rw [hc.1]
    exact BaseAfter_entry EKs s0 s hb h3

theorem signLoop_real (ext : Collaborators) (params : BinFHECryptoParams) (EKs : KeyMap)
    (curBase beta : Nat) (s0 : Machine) (fuel : Nat) (v : EvalSign.Vars) (s : Machine)
    (hinv : LoopInv EKs s0 v.curEK s) :
    (∀ v1 s1, whileLoop (fun v => decide (v.mod > params.q))
        (EvalSign.body (BootstrapFunc ext) ext params EKs curBase beta) fuel v s
          = some (Except.ok v1, s1) →
      LoopInv EKs s0 v1.curEK s1 ∧ v1.mod ≤ params.q) ∧
    (∀ e s1, whileLoop (fun v => decide (v.mod > params.q))
        (EvalSign.body (BootstrapFunc ext) ext params EKs curBase beta) fuel v s
          = some (Except.error e, s1) →
      LoopErr EKs s0 e s1) := by
  have key := whileLoop_inv (fun v : EvalSign.Vars => decide (v.mod > params.q))
    (EvalSign.body (BootstrapFunc ext) ext params EKs curBase beta)
    (fun v s => LoopInv EKs s0 v.curEK s) (LoopErr EKs s0) ?_ fuel v s hinv
  · refine ⟨?_, key.2⟩
    intro v1 s1 h
    obtain ⟨h1, h2⟩ := key.1 v1 s1 h
    refine ⟨h1, ?_⟩
    simpa using h2
  · intro v s hinv _
    obtain ⟨hK, hb, h0⟩ := hinv
    obtain ⟨hc, hba, hok, hne⟩ := EvalSign_body_real ext params EKs curBase beta v s
    constructor
    · intro v1 s1 h
      rw [h] at hc hba hok
      simp only [] at hc hba hok
      refine ⟨?_, BaseAfter_trans EKs s0 s s1 hb hba, calls_of_key EKs s0 s s1 v.curEK hK hb h0 hc⟩
      rcases hok v1 rfl with ⟨e1, e2⟩ | e
      · rw [e1, e2]; exact hK
      · exact e
    · intro e s1 h
      rw [h] at hc hba hne
      simp only [] at hc hba hne
      refine ⟨?_, BaseAfter_trans EKs s0 s s1 hb hba, calls_of_key EKs s0 s s1 v.curEK hK hb h0 hc⟩
      intro msg hmsg
      apply hne msg
      rw [hmsg]

/-- What a run of `EvalSign` around the bootstraps of this file leaves behind, whatever
its outcome. -/
theorem EvalSign_real (ext : Collaborators) (params : BinFHECryptoParams) (EKs : KeyMap)
    (ct : LWECiphertextImpl) (beta fuel : Nat) (s : Machine)
    (out : Except Error LWECiphertext) (s1 : Machine)
    (h : EvalSign (BootstrapFunc ext) ext params EKs ct beta fuel s = some (out, s1)) :
    CallsSince (fun c => KeyOfBase EKs c ∧ (EKs.length ≠ 3 → c.baseG = s.baseG)) s s1 ∧
    BaseAfter EKs s s1 ∧
    ((ct.a.modulus ≤ params.q ∨ EKs.lookup s.baseG = none) → s1 = s) ∧
    (∀ msg, out = Except.error (Error.not_implemented_error msg) →
      ct.a.modulus ≤ params.q) := by
  by_cases hmod : ct.a.modulus ≤ params.q
  · unfold EvalSign at h
    simp only [] at h
    rw [if_pos hmod] at h
    simp only [Option.some.injEq, Prod.mk.injEq] at h
    obtain ⟨_, h2⟩ := h
    subst h2
    exact ⟨CallsSince_refl _ _, Or.inl rfl, fun _ => rfl, fun _ _ => hmod⟩
  · cases hK : EKs.lookup s.baseG with
    | none =>
      unfold EvalSign at h
      simp only [] at h
      rw [if_neg hmod, hK] at h
      simp only [Option.some.injEq, Prod.mk.injEq] at h
      obtain ⟨h1, h2⟩ := h
      subst h2
      refine ⟨CallsSince_refl _ _, Or.inl rfl, fun _ => rfl, ?_⟩
      intro msg hmsg
      rw [hmsg] at h1
      cases h1
    | some K =>
      rw [EvalSign_run _ ext params EKs ct beta fuel s K (by omega) hK] at h
      have hinv : LoopInv EKs s K s := ⟨hK, Or.inl rfl, CallsSince_refl _ _⟩
      obtain ⟨hok, herr⟩ := signLoop_real ext params EKs s.baseG beta s fuel
        ⟨ct, ct.a.modulus, K⟩ s hinv
      cases hl : whileLoop (fun v => decide (v.mod > params.q))
          (EvalSign.body (BootstrapFunc ext) ext params EKs s.baseG beta) fuel
          ⟨ct, ct.a.modulus, K⟩ s with
      | none =>
        rw [hl] at h
        simp at h
      | some p =>
        obtain ⟨o, s2⟩ := p
        rw [hl] at h
        cases o with
        | error e =>
          simp only [Option.some.injEq, Prod.mk.injEq] at h
          obtain ⟨h1, h2⟩ := h
          subst h2
          obtain ⟨a, b, c⟩ := herr e s2 hl
          refine ⟨c, b, ?_, ?_⟩
          · intro hh
            rcases hh with hh | hh
            · exact absurd hh hmod
            · cases hh
          · intro msg hmsg
            rw [hmsg] at h1
            cases h1
            exact absurd rfl (a msg)
        | ok v =>
          obtain ⟨⟨a, b, c⟩, _⟩ := hok v s2 hl
          simp only [BootstrapFunc_run] at h
          have hside : ∀ t : Machine,
              (ct.a.modulus ≤ params.q ∨ some K = none) → t = s := by
            intro t hh
            rcases hh with hh | hh
            · exact absurd hh hmod
            · cases hh
          cases hk : v.curEK.BSkey with
          | none =>
            rw [hk] at h
            simp only [Option.some.injEq, Prod.mk.injEq] at h
            obtain ⟨h1, h2⟩ := h
            subst h2
            refine ⟨c, b, hside _, ?_⟩
            intro msg hmsg
            rw [hmsg] at h1
            cases h1
          | some key =>
            rw [hk] at h
            simp only [Option.some.injEq, Prod.mk.injEq] at h
            obtain ⟨h1, h2⟩ := h
            subst h2
            refine ⟨?_, Or.inl rfl, hside _, ?_⟩
            · apply calls_of_key EKs s s2 _ v.curEK a b c
              exact ⟨[funcCall params s2.baseG key (EvalAddConstEq v.cttmp beta) EvalSign.f3
                params.q], rfl, by simp [funcCall, hk]⟩
            · intro msg hmsg
              rw [hmsg] at h1
              cases h1


theorem EvalDecomp_body_real (ext : Collaborators) (params : BinFHECryptoParams)
    (EKs : KeyMap) (curBase beta : Nat) (v : EvalDecomp.Vars) (s : Machine) :
    CallsSince (fun c => c.baseG = s.baseG ∧ v.curEK.BSkey = some c.ek) s
      (EvalDecomp.body (BootstrapFunc ext) ext params EKs curBase beta v s).2 ∧
    BaseAfter EKs s (EvalDecomp.body (BootstrapFunc ext) ext params EKs curBase beta v s).2 ∧
    (∀ v1, (EvalDecomp.body (BootstrapFunc ext) ext params EKs curBase beta v s).1
        = Except.ok v1 →
      ((EvalDecomp.body (BootstrapFunc ext) ext params EKs curBase beta v s).2.baseG = s.baseG
        ∧ v1.curEK = v.curEK) ∨
      EKs.lookup (EvalDecomp.body (BootstrapFunc ext) ext params EKs curBase beta v s).2.baseG
        = some v1.curEK) ∧
    (∀ msg, (EvalDecomp.body (BootstrapFunc ext) ext params EKs curBase beta v s).1
      ≠ Except.error (Error.not_implemented_error msg)) := by
  rw [EvalDecomp_body_run]
  obtain ⟨hb, hc, hn⟩ := EvalFloor_real ext params v.curEK v.cttmp beta 0
    { s with nextPtr := s.nextPtr + 1 }
  cases hf : EvalFloor (BootstrapFunc ext) params v.curEK v.cttmp beta 0
      { s with nextPtr := s.nextPtr + 1 } with
  | mk out s1 =>
    rw [hf] at hb hc hn
    simp only [] at hb hc hn
    have hc1 : CallsSince (fun c => c.baseG = s.baseG ∧ v.curEK.BSkey = some c.ek) s s1 := hc
    have hb1 : s1.baseG = s.baseG := hb
    cases out with
    | error e =>
      simp only []
      refine ⟨hc1, Or.inl hb1, by simp, ?_⟩
      intro msg h
      apply hn msg
      cases h
      rfl
    | ok r =>
      simp only []
      cases hsel : selectedBase EKs (v.mod / params.q * 2 * beta) with
      | none =>
        simp only []
        refine ⟨hc1, Or.inl hb1, ?_, by simp⟩
        intro v1 h1
        simp only [Except.ok.injEq] at h1
        subst h1
        exact Or.inl ⟨hb1, rfl⟩
      | some base =>
        simp only []
        obtain ⟨_, h3, hbase⟩ := selectedBase_ne_zero EKs _ base hsel
        have hc2 : CallsSince (fun c => c.baseG = s.baseG ∧ v.curEK.BSkey = some c.ek) s
            { s1 with baseG := base } := hc
        cases hl : EKs.lookup base with
        | none =>
          simp only []
          refine ⟨hc2, Or.inr ⟨h3, hbase⟩, by simp, by simp⟩
        | some K =>
          simp only []
          refine ⟨hc2, Or.inr ⟨h3, hbase⟩, ?_, by simp⟩
          intro v1 h1
          simp only [Except.ok.injEq] at h1
          subst h1
          exact Or.inr hl

theorem decompLoop_real (ext : Collaborators) (params : BinFHECryptoParams) (EKs : KeyMap)
    (curBase beta : Nat) (s0 : Machine) (fuel : Nat) (v : EvalDecomp.Vars) (s : Machine)
    (hinv : LoopInv EKs s0 v.curEK s) :
    (∀ v1 s1, whileLoop (fun v => decide (v.mod > params.q))
        (EvalDecomp.body (BootstrapFunc ext) ext params EKs curBase beta) fuel v s
          = some (Except.ok v1, s1) →
      LoopInv EKs s0 v1.curEK s1 ∧ v1.mod ≤ params.q) ∧
    (∀ e s1, whileLoop (fun v => decide (v.mod > params.q))
        (EvalDecomp.body (BootstrapFunc ext) ext params EKs curBase beta) fuel v s
          = some (Except.error e, s1) →
      LoopErr EKs s0 e s1) := by
  have key := whileLoop_inv (fun v : EvalDecomp.Vars => decide (v.mod > params.q))
    (EvalDecomp.body (BootstrapFunc ext) ext params EKs curBase beta)
    (fun v s => LoopInv EKs s0 v.curEK s) (LoopErr EKs s0) ?_ fuel v s hinv
  · refine ⟨?_, key.2⟩
    intro v1 s1 h
    obtain ⟨h1, h2⟩ := key.1 v1 s1 h
    refine ⟨h1, ?_⟩
    simpa using h2
  · intro v s hinv _
    obtain ⟨hK, hb, h0⟩ := hinv
    obtain ⟨hc, hba, hok, hne⟩ := EvalDecomp_body_real ext params EKs curBase beta v s
    constructor
    · intro v1 s1 h
      rw [h] at hc hba hok
      simp only [] at hc hba hok
      refine ⟨?_, BaseAfter_trans EKs s0 s s1 hb hba, calls_of_key EKs s0 s s1 v.curEK hK hb h0 hc⟩
      rcases hok v1 rfl with ⟨e1, e2⟩ | e
      · rw [e1, e2]; exact hK
      · exact e
    · intro e s1 h
      rw [h] at hc hba hne
      simp only [] at hc hba hne
      refine ⟨?_, BaseAfter_trans EKs s0 s s1 hb hba, calls_of_key EKs s0 s s1 v.curEK hK hb h0 hc⟩
      intro msg hmsg
      apply hne msg
      rw [hmsg]

/-- What a run of `EvalDecomp` around the bootstraps of this file leaves behind,
whatever its outcome. -/
theorem EvalDecomp_real (ext : Collaborators) (params : BinFHECryptoParams) (EKs : KeyMap)
    (ct : LWECiphertextImpl) (beta fuel : Nat) (s : Machine)
    (out : Except Error (List LWECiphertext)) (s1 : Machine)
    (h : EvalDecomp (BootstrapFunc ext) ext params EKs ct beta fuel s = some (out, s1)) :
    CallsSince (fun c => KeyOfBase EKs c ∧ (EKs.length ≠ 3 → c.baseG = s.baseG)) s s1 ∧
    BaseAfter EKs s s1 ∧
    ((ct.a.modulus ≤ params.q ∨ EKs.lookup s.baseG = none) → s1 = s) ∧
    (∀ msg, out = Except.error (Error.not_implemented_error msg) →
      ct.a.modulus ≤ params.q) := by
  by_cases hmod : ct.a.modulus ≤ params.q
  · unfold EvalDecomp at h
    simp only [] at h
    rw [if_pos hmod] at h
    simp only [Option.some.injEq, Prod.mk.injEq] at h
    obtain ⟨_, h2⟩ := h
    subst h2
    exact ⟨CallsSince_refl _ _, Or.inl rfl, fun _ => rfl, fun _ _ => hmod⟩
  · cases hK : EKs.lookup s.baseG with
    | none =>
      unfold EvalDecomp at h
      simp only [] at h
      rw [if_neg hmod, hK] at h
      simp only [Option.some.injEq, Prod.mk.injEq] at h
      obtain ⟨h1, h2⟩ := h
      subst h2
      refine ⟨CallsSince_refl _ _, Or.inl rfl, fun _ => rfl, ?_⟩
      intro msg hmsg
      rw [hmsg] at h1
      cases h1
    | some K =>
      rw [EvalDecomp_run _ ext params EKs ct beta fuel s K (by omega) hK] at h
      have hinv : LoopInv EKs s K s := ⟨hK, Or.inl rfl, CallsSince_refl _ _⟩
      obtain ⟨hok, herr⟩ := decompLoop_real ext params EKs s.baseG beta s fuel
        ⟨ct, ct.a.modulus, K, []⟩ s hinv
      cases hl : whileLoop (fun v => decide (v.mod > params.q))
          (EvalDecomp.body (BootstrapFunc ext) ext params EKs s.baseG beta) fuel
          ⟨ct, ct.a.modulus, K, []⟩ s with
      | none =>
        rw [hl] at h
        simp at h
      | some p =>
        obtain ⟨o, s2⟩ := p
        rw [hl] at h
        cases o with
        | error e =>
          simp only [Option.some.injEq, Prod.mk.injEq] at h
          obtain ⟨h1, h2⟩ := h
          subst h2
          obtain ⟨a, b, c⟩ := herr e s2 hl
          refine ⟨c, b, ?_, ?_⟩
          · intro hh
            rcases hh with hh | hh
            · exact absurd hh hmod
            · cases hh
          · intro msg hmsg
            rw [hmsg] at h1
            cases h1
            exact absurd rfl (a msg)
        | ok v =>
          obtain ⟨⟨a, b, c⟩, _⟩ := hok v s2 hl
          simp only [BootstrapFunc_run] at h
          have hside : ∀ t : Machine,
              (ct.a.modulus ≤ params.q ∨ some K = none) → t = s := by
            intro t hh
            rcases hh with hh | hh
            · exact absurd hh hmod
            · cases hh
          cases hk : v.curEK.BSkey with
          | none =>
            rw [hk] at h
            simp only [Option.some.injEq, Prod.mk.injEq] at h
            obtain ⟨h1, h2⟩ := h
            subst h2
            refine ⟨c, b, hside _, ?_⟩
            intro msg hmsg
            rw [hmsg] at h1
            cases h1
          | some key =>
            rw [hk] at h
            simp only [Option.some.injEq, Prod.mk.injEq] at h
            obtain ⟨h1, h2⟩ := h
            subst h2
            refine ⟨?_, Or.inl rfl, hside _, ?_⟩
            · apply calls_of_key EKs s s2 _ v.curEK a b c
              exact ⟨[funcCall params s2.baseG key (EvalAddConstEq v.cttmp beta) EvalDecomp.f3
                params.q], rfl, by simp [funcCall, hk]⟩
            · intro msg hmsg
              rw [hmsg] at h1
              cases h1

/-- The loop of `EvalDecomp` follows the loop of `EvalSign`: started on the same
variables under the same gadget base, it ends when the other does, on the same
variables and gadget base. -/
theorem loops_agree (ext : Collaborators) (params : BinFHECryptoParams) (EKs : KeyMap)
    (curBase beta : Nat) :
    ∀ (fuel : Nat) (v : EvalSign.Vars) (ret : List LWECiphertext) (s s' : Machine)
      (v1 : EvalSign.Vars) (s1 : Machine),
      s.baseG = s'.baseG →
      whileLoop (fun v => decide (v.mod > params.q))
        (EvalSign.body (BootstrapFunc ext) ext params EKs curBase beta) fuel v s
          = some (Except.ok v1, s1) →
      ∃ (ret1 : List LWECiphertext) (s1' : Machine),
        whileLoop (fun v => decide (v.mod > params.q))
          (EvalDecomp.body (BootstrapFunc ext) ext params EKs curBase beta) fuel
          ⟨v.cttmp, v.mod, v.curEK, ret⟩ s'
            = some (Except.ok ⟨v1.cttmp, v1.mod, v1.curEK, ret1⟩, s1') ∧
        s1.baseG = s1'.baseG := by
  intro fuel
  induction fuel with
  | zero =>
    intro v ret s s' v1 s1 hb h
    by_cases hc : v.mod > params.q
    · rw [whileLoop_zero _ _ _ _ (by simpa using hc)] at h
      cases h
    · rw [whileLoop_done _ _ _ _ _ (by simpa using hc)] at h
      simp only [Option.some.injEq, Prod.mk.injEq, Except.ok.injEq] at h
      obtain ⟨h1, h2⟩ := h
      subst h1; subst h2
      exact ⟨ret, s', whileLoop_done _ _ _ _ _ (by simpa using hc), hb⟩
  | succ fuel ih =>
    intro v ret s s' v1 s1 hb h
    by_cases hc : v.mod > params.q
    · rw [whileLoop_step _ _ _ _ _ (by simpa using hc), EvalSign_body_run, EvalFloor_run] at h
      rw [whileLoop_step _ _ _ _ _ (by simpa using hc), EvalDecomp_body_run, EvalFloor_run]
      dsimp only at h ⊢
      rw [← hb]
      cases hf : (floorRun ext params v.curEK s.baseG v.cttmp beta 0).1 with
      | error e =>
        rw [hf] at h
        simp at h
      | ok d =>
        rw [hf] at h
        simp only [] at h ⊢
        cases hsel : selectedBase EKs (v.mod / params.q * 2 * beta) with
        | none =>
          rw [hsel] at h
          simp only [] at h ⊢
          exact ih _ _ _ _ v1 s1 (by rfl) h
        | some base =>
          rw [hsel] at h
          simp only [] at h ⊢
          cases hl : EKs.lookup base with
          | none =>
            rw [hl] at h
            simp at h
          | some K =>
            rw [hl] at h
            simp only [] at h ⊢
            exact ih _ _ _ _ v1 s1 (by rfl) h
    · rw [whileLoop_done _ _ _ _ _ (by simpa using hc)] at h
      simp only [Option.some.injEq, Prod.mk.injEq, Except.ok.injEq] at h
      obtain ⟨h1, h2⟩ := h
      subst h1; subst h2
      exact ⟨ret, s', whileLoop_done _ _ _ _ _ (by simpa using hc), hb⟩

theorem EvalSign_ok_checks (bootstrapFunc : BootstrapFuncT) (ext : Collaborators)
    (params : BinFHECryptoParams) (EKs : KeyMap) (ct : LWECiphertextImpl) (beta fuel : Nat)
    (s : Machine) (r : LWECiphertext) (s1 : Machine)
    (h : EvalSign bootstrapFunc ext params EKs ct beta fuel s = some (Except.ok r, s1)) :
    params.q < ct.a.modulus ∧ ∃ K, EKs.lookup s.baseG = some K := by
  unfold EvalSign at h
  simp only [] at h
  by_cases hmod : ct.a.modulus ≤ params.q
  · rw [if_pos hmod] at h
    simp at h
  · rw [if_neg hmod] at h
    cases hK : EKs.lookup s.baseG with
    | none =>
      rw [hK] at h
      simp at h
    | some K => exact ⟨by omega, K, rfl⟩

theorem EvalDecomp_ok_checks (bootstrapFunc : BootstrapFuncT) (ext : Collaborators)
    (params : BinFHECryptoParams) (EKs : KeyMap) (ct : LWECiphertextImpl) (beta fuel : Nat)
    (s : Machine) (r : List LWECiphertext) (s1 : Machine)
    (h : EvalDecomp bootstrapFunc ext params EKs ct beta fuel s = some (Except.ok r, s1)) :
    params.q < ct.a.modulus ∧ ∃ K, EKs.lookup s.baseG = some K := by
  unfold EvalDecomp at h
  simp only [] at h
  by_cases hmod : ct.a.modulus ≤ params.q
  · rw [if_pos hmod] at h
    simp at h
  · rw [if_neg hmod] at h
    cases hK : EKs.lookup s.baseG with
    | none =>
      rw [hK] at h
      simp at h
    | some K => exact ⟨by omega, K, rfl⟩

theorem EvalSign_restores (bootstrapFunc : BootstrapFuncT) (ext : Collaborators)
    (params : BinFHECryptoParams) (EKs : KeyMap) (ct : LWECiphertextImpl) (beta fuel : Nat)
    (s : Machine) (r : LWECiphertext) (s1 : Machine)
    (h : EvalSign bootstrapFunc ext params EKs ct beta fuel s = some (Except.ok r, s1)) :
    s1.baseG = s.baseG := by
  obtain ⟨hmod, K, hK⟩ := EvalSign_ok_checks _ _ _ _ _ _ _ _ _ _ h
  rw [EvalSign_run _ _ _ _ _ _ _ _ K hmod hK] at h
  split at h
  · cases h
  · cases h
  · rename_i v s2 _
    simp only [Option.some.injEq] at h
    split at h
    · simp only [Prod.mk.injEq] at h
      rw [← h.2]
    · cases h

theorem EvalDecomp_restores (bootstrapFunc : BootstrapFuncT) (ext : Collaborators)
    (params : BinFHECryptoParams) (EKs : KeyMap) (ct : LWECiphertextImpl) (beta fuel : Nat)
    (s : Machine) (r : List LWECiphertext) (s1 : Machine)
    (h : EvalDecomp bootstrapFunc ext params EKs ct beta fuel s = some (Except.ok r, s1)) :
    s1.baseG = s.baseG := by
  obtain ⟨hmod, K, hK⟩ := EvalDecomp_ok_checks _ _ _ _ _ _ _ _ _ _ h
  rw [EvalDecomp_run _ _ _ _ _ _ _ _ K hmod hK] at h
  split at h
  · cases h
  · cases h
  · rename_i v s2 _
    simp only [Option.some.injEq] at h
    split at h
    · simp only [Prod.mk.injEq] at h
      rw [← h.2]
    · cases h

/-- Around the bootstraps of this file, when `EvalSign` returns, `EvalDecomp` returns
on the same inputs, with the object `EvalSign` returns as its last element. -/
theorem EvalDecomp_follows (ext : Collaborators) (params : BinFHECryptoParams) (EKs : KeyMap)
    (ct : LWECiphertextImpl) (beta fuel : Nat) (s : Machine) (r : LWECiphertext)
    (s1 : Machine)
    (h : EvalSign (BootstrapFunc ext) ext params EKs ct beta fuel s = some (Except.ok r, s1)) :
    ∃ (rs : List LWECiphertext) (s2 : Machine),
      EvalDecomp (BootstrapFunc ext) ext params EKs ct beta fuel s = some (Except.ok rs, s2) ∧
      rs.getLast?.map (fun c => c.obj) = some r.obj ∧ s2.baseG = s1.baseG := by
  obtain ⟨hmod, K, hK⟩ := EvalSign_ok_checks _ _ _ _ _ _ _ _ _ _ h
  rw [EvalSign_run _ _ _ _ _ _ _ _ K hmod hK] at h
  rw [EvalDecomp_run _ _ _ _ _ _ _ _ K hmod hK]
  cases hl : whileLoop (fun v => decide (v.mod > params.q))
      (EvalSign.body (BootstrapFunc ext) ext params EKs s.baseG beta) fuel
      ⟨ct, ct.a.modulus, K⟩ s with
  | none => rw [hl] at h; cases h
  | some p =>
    obtain ⟨o, t⟩ := p
    rw [hl] at h
    cases o with
    | error e => cases h
    | ok v =>
      obtain ⟨ret1, t', hl', hbase⟩ := loops_agree ext params EKs s.baseG beta fuel
        ⟨ct, ct.a.modulus, K⟩ [] s s v t rfl hl
      rw [hl']
      simp only [BootstrapFunc_run] at h ⊢
      cases hk : v.curEK.BSkey with
      | none => rw [hk] at h; cases h
      | some key =>
        rw [hk] at h
        simp only [Option.some.injEq, Prod.mk.injEq, Except.ok.injEq] at h
        obtain ⟨h1, h2⟩ := h
        subst h1; subst h2
        refine ⟨_, _, rfl, ?_, rfl⟩
        rw [← hbase]
        have hf3 : EvalDecomp.f3 = EvalSign.f3 := rfl
        simp [hf3]

/-! ## The digits of the decomposition -/

theorem decompLoop_digits (bootstrapFunc : BootstrapFuncT) (ext : Collaborators)
    (params : BinFHECryptoParams) (EKs : KeyMap) (curBase beta : Nat)
    (ct : LWECiphertextImpl) (s0 : Machine) (K : RingGSWBTKey) (fuel : Nat)
    (v1 : EvalDecomp.Vars) (s1 : Machine) (hmod : params.q < ct.a.modulus)
    (h : whileLoop (fun v => decide (v.mod > params.q))
        (EvalDecomp.body bootstrapFunc ext params EKs curBase beta) fuel
        ⟨ct, ct.a.modulus, K, []⟩ s0 = some (Except.ok v1, s1)) :
    (∀ c ∈ v1.ret, c.obj.a.modulus = params.q) ∧
    v1.ret.head? = some ⟨s0.nextPtr, ct.SetModulus params.q⟩ := by
  have key := whileLoop_inv (fun v : EvalDecomp.Vars => decide (v.mod > params.q))
    (EvalDecomp.body bootstrapFunc ext params EKs curBase beta)
    (fun v s => (∀ c ∈ v.ret, c.obj.a.modulus = params.q) ∧
      ((v.ret = [] ∧ v.cttmp = ct ∧ v.mod = ct.a.modulus ∧ s = s0) ∨
        v.ret.head? = some ⟨s0.nextPtr, ct.SetModulus params.q⟩))
    (fun _ _ => True) ?_ fuel ⟨ct, ct.a.modulus, K, []⟩ s0
    ⟨by simp, Or.inl ⟨rfl, rfl, rfl, rfl⟩⟩
  · obtain ⟨⟨h1, h2⟩, hc⟩ := key.1 v1 s1 h
    refine ⟨h1, ?_⟩
    rcases h2 with ⟨_, _, h3, _⟩ | h2
    · simp only [decide_eq_false_iff_not] at hc
      omega
    · exact h2
  · intro v s hinv _
    refine ⟨?_, fun _ _ _ => trivial⟩
    intro w t hb
    rw [EvalDecomp_body_run] at hb
    obtain ⟨hall, hhead⟩ := hinv
    have hret : w.ret = v.ret ++ [⟨s.nextPtr, v.cttmp.SetModulus params.q⟩] := by
      split at hb
      · cases hb
      · split at hb
        · cases hb; rfl
        · split at hb
          · cases hb; rfl
          · cases hb
    rw [hret]
    constructor
    · intro c hc
      rcases List.mem_append.mp hc with hc | hc
      · exact hall c hc
      · simp only [List.mem_singleton] at hc
        rw [hc]
        rfl
    · right
      rcases hhead with ⟨e1, e2, _, e4⟩ | hh
      · rw [e1, e2, e4]
        rfl
      · cases hv : v.ret with
        | nil => rw [hv] at hh; cases hh
        | cons a l =>
          rw [hv] at hh
          simpa using hh

theorem decompLoop_count (bootstrapFunc : BootstrapFuncT) (ext : Collaborators)
    (params : BinFHECryptoParams) (EKs : KeyMap) (curBase beta : Nat)
    (hdvd : 2 * beta ∣ params.q) (hlt : 2 * beta < params.q) :
    ∀ (k fuel : Nat) (v : EvalDecomp.Vars) (s : Machine),
      v.mod = params.q * (params.q / (2 * beta)) ^ k → k ≤ fuel →
      whileLoop (fun v => decide (v.mod > params.q))
        (EvalDecomp.body bootstrapFunc ext params EKs curBase beta) fuel v s ≠ none ∧
      ∀ v1 s1, whileLoop (fun v => decide (v.mod > params.q))
          (EvalDecomp.body bootstrapFunc ext params EKs curBase beta) fuel v s
            = some (Except.ok v1, s1) →
        v1.ret.length = v.ret.length + k := by
  have hq : 0 < params.q := by omega
  have hb : 0 < 2 * beta := by
    rcases Nat.eq_zero_or_pos (2 * beta) with h | h
    · rw [h] at hdvd
      have := Nat.eq_zero_of_zero_dvd hdvd
      omega
    · exact h
  have hr : params.q / (2 * beta) * (2 * beta) = params.q := Nat.div_mul_cancel hdvd
  have hr2 : 2 ≤ params.q / (2 * beta) := by
    rw [Nat.le_div_iff_mul_le hb]
    obtain ⟨c, hc⟩ := hdvd
    rcases c with _ | _ | c
    · omega
    · omega
    · rw [hc, Nat.mul_comm]
      exact Nat.mul_le_mul_left _ (by omega)
  intro k
  induction k with
  | zero =>
    intro fuel v s hm _
    have hc : ¬ v.mod > params.q := by rw [hm]; simp
    rw [whileLoop_done _ _ _ _ _ (by simpa using hc)]
    refine ⟨by simp, ?_⟩
    intro v1 s1 h
    simp only [Option.some.injEq, Prod.mk.injEq, Except.ok.injEq] at h
    rw [← h.1]
    rfl
  | succ k ih =>
    intro fuel v s hm hf
    obtain ⟨f, rfl⟩ : ∃ f, fuel = f + 1 := ⟨fuel - 1, by omega⟩
    have hpow : 0 < (params.q / (2 * beta)) ^ k := Nat.pow_pos (by omega)
    have hc : v.mod > params.q := by
      rw [hm, pow_succ]
      calc params.q = params.q * 1 := by ring
        _ < params.q * ((params.q / (2 * beta)) ^ k * (params.q / (2 * beta))) := by
          apply Nat.mul_lt_mul_of_pos_left _ hq
          calc 1 < 2 := by norm_num
            _ ≤ params.q / (2 * beta) := hr2
            _ = 1 * (params.q / (2 * beta)) := by ring
            _ ≤ (params.q / (2 * beta)) ^ k * (params.q / (2 * beta)) :=
              Nat.mul_le_mul_right _ hpow
    have hnext : v.mod / params.q * 2 * beta = params.q * (params.q / (2 * beta)) ^ k := by
      rw [hm, Nat.mul_div_cancel_left _ hq, pow_succ]
      calc (params.q / (2 * beta)) ^ k * (params.q / (2 * beta)) * 2 * beta
          = (params.q / (2 * beta)) ^ k * (params.q / (2 * beta) * (2 * beta)) := by ring
        _ = params.q * (params.q / (2 * beta)) ^ k := by rw [hr]; ring
    rw [whileLoop_step _ _ _ _ _ (by simpa using hc), EvalDecomp_body_run]
    cases hfl : EvalFloor bootstrapFunc params v.curEK v.cttmp beta 0
        { s with nextPtr := s.nextPtr + 1 } with
    | mk o t =>
      cases o with
      | error e => simp
      | ok r =>
        simp only []
        cases hsel : selectedBase EKs (v.mod / params.q * 2 * beta) with
        | none =>
          simp only []
          obtain ⟨a, b⟩ := ih f ⟨_, _, _, _⟩ t hnext (by omega)
          refine ⟨a, ?_⟩
          intro v1 s1 h1
          rw [b v1 s1 h1]
          simp only [List.length_append, List.length_singleton]
          omega
        | some base =>
          simp only []
          cases hl : EKs.lookup base with
          | none => simp
          | some K2 =>
            simp only []
            obtain ⟨a, b⟩ := ih f ⟨_, _, _, _⟩ { t with baseG := base } hnext (by omega)
            refine ⟨a, ?_⟩
            intro v1 s1 h1
            rw [b v1 s1 h1]
            simp only [List.length_append, List.length_singleton]
            omega

/-! ## The last step of the sign -/

theorem whileLoop_congr {σ : Type} (cond : σ → Bool) (body1 body2 : σ → M σ)
    (Inv : σ → Machine → Prop)
    (h1 : ∀ v s, Inv v s → cond v = true → body1 v s = body2 v s)
    (h2 : ∀ v s, Inv v s → cond v = true → ∀ v1 s1, body2 v s = (Except.ok v1, s1) → Inv v1 s1) :
    ∀ (fuel : Nat) (v : σ) (s : Machine), Inv v s →
      whileLoop cond body1 fuel v s = whileLoop cond body2 fuel v s := by
  intro fuel
  induction fuel with
  | zero =>
    intro v s _
    cases hc : cond v with
    | true => rw [whileLoop_zero _ _ _ _ hc, whileLoop_zero _ _ _ _ hc]
    | false => rw [whileLoop_done _ _ _ _ _ hc, whileLoop_done _ _ _ _ _ hc]
  | succ fuel ih =>
    intro v s hinv
    cases hc : cond v with
    | false => rw [whileLoop_done _ _ _ _ _ hc, whileLoop_done _ _ _ _ _ hc]
    | true =>
      rw [whileLoop_step _ _ _ _ _ hc, whileLoop_step _ _ _ _ _ hc, h1 v s hinv hc]
      cases hb : body2 v s with
      | mk o t =>
        cases o with
        | error e => rfl
        | ok v1 =>
          simp only []
          exact ih v1 t (h2 v s hinv hc v1 t hb)

theorem EvalFloor_keyChecked (ext : Collaborators) (params : BinFHECryptoParams)
    (EKs : KeyMap) (EK : RingGSWBTKey) (ct : LWECiphertextImpl) (beta roundbits : Nat)
    (s : Machine) (hK : EKs.lookup s.baseG = some EK) :
    EvalFloor (keyChecked EKs (BootstrapFunc ext)) params EK ct beta roundbits s
      = EvalFloor (BootstrapFunc ext) params EK ct beta roundbits s := by
  unfold EvalFloor
  by_cases hr : 31 ≤ roundbits
  · rw [if_pos hr, if_pos hr]
  rw [if_neg hr, if_neg hr]
  simp only [M.bind_run, make_shared_run, keyChecked, hK, if_true, BootstrapFunc_run,
    liftExcept_run, M.pure_run]
  cases hk : EK.BSkey with
  | none => rfl
  | some key =>
    simp only []
    cases EvalSubEq (EvalAddConstEq ct beta)
        (funcObj ext params EK s.baseG key
          ((EvalAddConstEq ct beta).SetModulus
            (if roundbits = 0 then params.q else beta * 2 * (1 <<< roundbits)))
          EvalFloor.f1 ct.a.modulus) with
    | error e => rfl
    | ok d1 =>
      simp only [hK, if_true]

theorem EvalSign_keyChecked (ext : Collaborators) (params : BinFHECryptoParams)
    (EKs : KeyMap) (ct : LWECiphertextImpl) (beta fuel : Nat) (s : Machine) :
    EvalSign (keyChecked EKs (BootstrapFunc ext)) ext params EKs ct beta fuel s
      = EvalSign (BootstrapFunc ext) ext params EKs ct beta fuel s := by
  by_cases hmod : ct.a.modulus ≤ params.q
  · unfold EvalSign
    simp only []
    rw [if_pos hmod, if_pos hmod]
  · cases hK : EKs.lookup s.baseG with
    | none =>
      unfold EvalSign
      simp only []
      rw [if_neg hmod, if_neg hmod, hK]
    | some K =>
      rw [EvalSign_run _ _ _ _ _ _ _ _ K (by omega) hK,
        EvalSign_run _ _ _ _ _ _ _ _ K (by omega) hK]
      have hbody : ∀ (v : EvalSign.Vars) (t : Machine), EKs.lookup t.baseG = some v.curEK →
          EvalSign.body (keyChecked EKs (BootstrapFunc ext)) ext params EKs s.baseG beta v t
            = EvalSign.body (BootstrapFunc ext) ext params EKs s.baseG beta v t := by
        intro v t h
        rw [EvalSign_body_run, EvalSign_body_run, EvalFloor_keyChecked ext params EKs _ _ _ _ t h]
      have hloop := whileLoop_congr (fun v : EvalSign.Vars => decide (v.mod > params.q))
        (EvalSign.body (keyChecked EKs (BootstrapFunc ext)) ext params EKs s.baseG beta)
        (EvalSign.body (BootstrapFunc ext) ext params EKs s.baseG beta)
        (fun v t => EKs.lookup t.baseG = some v.curEK)
        (fun v t hinv _ => hbody v t hinv)
        (by
          intro v t hinv _ v1 t1 hb
          obtain ⟨_, _, hok, _⟩ := EvalSign_body_real ext params EKs s.baseG beta v t
          rw [hb] at hok
          rcases hok v1 rfl with ⟨e1, e2⟩ | e
          · show EKs.lookup t1.baseG = some v1.curEK
            have e1' : t1.baseG = t.baseG := e1
            rw [e1', e2]
            exact hinv
          · exact e)
        fuel ⟨ct, ct.a.modulus, K⟩ s hK
      rw [hloop]
      cases hl : whileLoop (fun v => decide (v.mod > params.q))
          (EvalSign.body (BootstrapFunc ext) ext params EKs s.baseG beta) fuel
          ⟨ct, ct.a.modulus, K⟩ s with
      | none => rfl
      | some p =>
        obtain ⟨o, t⟩ := p
        cases o with
        | error e => rfl
        | ok v =>
          have hinv : LoopInv EKs s K s := ⟨hK, Or.inl rfl, CallsSince_refl _ _⟩
          obtain ⟨⟨hKv, _, _⟩, _⟩ := (signLoop_real ext params EKs s.baseG beta s fuel
            ⟨ct, ct.a.modulus, K⟩ s hinv).1 v t hl
          simp only [keyChecked, hKv, if_true]

theorem EvalDecomp_keyChecked (ext : Collaborators) (params : BinFHECryptoParams)
    (EKs : KeyMap) (ct : LWECiphertextImpl) (beta fuel : Nat) (s : Machine) :
    EvalDecomp (keyChecked EKs (BootstrapFunc ext)) ext params EKs ct beta fuel s
      = EvalDecomp (BootstrapFunc ext) ext params EKs ct beta fuel s := by
  by_cases hmod : ct.a.modulus ≤ params.q
  · unfold EvalDecomp
    simp only []
    rw [if_pos hmod, if_pos hmod]
  · cases hK : EKs.lookup s.baseG with
    | none =>
      unfold EvalDecomp
      simp only []
      rw [if_neg hmod, if_neg hmod, hK]
    | some K =>
      rw [EvalDecomp_run _ _ _ _ _ _ _ _ K (by omega) hK,
        EvalDecomp_run _ _ _ _ _ _ _ _ K (by omega) hK]
      have hbody : ∀ (v : EvalDecomp.Vars) (t : Machine), EKs.lookup t.baseG = some v.curEK →
          EvalDecomp.body (keyChecked EKs (BootstrapFunc ext)) ext params EKs s.baseG beta v t
            = EvalDecomp.body (BootstrapFunc ext) ext params EKs s.baseG beta v t := by
        intro v t h
        rw [EvalDecomp_body_run, EvalDecomp_body_run,
          EvalFloor_keyChecked ext params EKs _ _ _ _ { t with nextPtr := t.nextPtr + 1 } h]
      have hloop := whileLoop_congr (fun v : EvalDecomp.Vars => decide (v.mod > params.q))
        (EvalDecomp.body (keyChecked EKs (BootstrapFunc ext)) ext params EKs s.baseG beta)
        (EvalDecomp.body (BootstrapFunc ext) ext params EKs s.baseG beta)
        (fun v t => EKs.lookup t.baseG = some v.curEK)
        (fun v t hinv _ => hbody v t hinv)
        (by
          intro v t hinv _ v1 t1 hb
          obtain ⟨_, _, hok, _⟩ := EvalDecomp_body_real ext params EKs s.baseG beta v t
          rw [hb] at hok
          rcases hok v1 rfl with ⟨e1, e2⟩ | e
          · show EKs.lookup t1.baseG = some v1.curEK
            have e1' : t1.baseG = t.baseG := e1
            rw [e1', e2]
            exact hinv
          · exact e)
        fuel ⟨ct, ct.a.modulus, K, []⟩ s hK
      rw [hloop]
      cases hl : whileLoop (fun v => decide (v.mod > params.q))
          (EvalDecomp.body (BootstrapFunc ext) ext params EKs s.baseG beta) fuel
          ⟨ct, ct.a.modulus, K, []⟩ s with
      | none => rfl
      | some p =>
        obtain ⟨o, t⟩ := p
        cases o with
        | error e => rfl
        | ok v =>
          have hinv : LoopInv EKs s K s := ⟨hK, Or.inl rfl, CallsSince_refl _ _⟩
          obtain ⟨⟨hKv, _, _⟩, _⟩ := (decompLoop_real ext params EKs s.baseG beta s fuel
            ⟨ct, ct.a.modulus, K, []⟩ s hinv).1 v t hl
          simp only [keyChecked, hKv, if_true]


/-! ## Flooring, sign and decomposition: the properties -/

theorem exactModSwitch_exact (sk : List Nat) (n : Nat) :
    ExactModSwitch (exactCollaborators sk) sk n := by
  intro q ct hlen hq _
  refine ⟨rfl, by simp [exactCollaborators, exactModSwitch, hlen], ?_⟩
  show phase sk (exactModSwitch sk q ct) = _
  rw [phase_of_allZero sk (exactModSwitch sk q ct) hq]
  · exact Nat.mod_eq_of_lt (RoundqQ_lt _ _ _ hq)
  · intro v hv
    simp only [exactModSwitch, List.mem_replicate] at hv
    exact hv.2

theorem idealBootstrapFunc_modulus (sk : List Nat) (params : BinFHECryptoParams)
    (EK : RingGSWBTKey) (ct : LWECiphertextImpl) (f : Nat → Nat → Nat → Nat) (fmod : Nat)
    (s : Machine) (r : LWECiphertext) (s1 : Machine)
    (h : idealBootstrapFunc sk params EK ct f fmod s = (Except.ok r, s1)) :
    r.obj.a.modulus = fmod := by
  unfold idealBootstrapFunc at h
  simp only [make_shared_run, Prod.mk.injEq, Except.ok.injEq] at h
  rw [← h.1]

/-- C11: with every bootstrap an exact, noise-free evaluation of its step function on
the value its input encrypts, for `roundbits ≤ 30` (the range in which the shift
`1 << roundbits` of the source is defined), the target modulus `q` the code computes
(`params.q` for `roundbits = 0`, else `beta * 2 * 2^roundbits`) with `4 ∣ q`, a ciphertext
of positive modulus `M` with `q ∣ M` which encrypts `m`, and every `beta`, `EvalFloor`
returns a ciphertext of modulus `M` which encrypts `q * ⌊x / q⌋` where
`x = (m + beta) mod M`. -/
theorem EvalFloor_exact (bootstrapFunc : BootstrapFuncT) (sk : List Nat)
    (params : BinFHECryptoParams) (EK : RingGSWBTKey) (ct : LWECiphertextImpl)
    (beta roundbits q m : Nat) (s : Machine)
    (hbf : ExactBootstrap bootstrapFunc sk ct.a.data.length) (hr : roundbits ≤ 30)
    (hqdef : (if roundbits = 0 then params.q else beta * 2 * (1 <<< roundbits)) = q)
    (h4 : 4 ∣ q) (hM : q ∣ ct.a.modulus) (hM0 : 0 < ct.a.modulus)
    (hm : phase sk ct = m) :
    ∃ (r : LWECiphertext) (s1 : Machine),
      EvalFloor bootstrapFunc params EK ct beta roundbits s = (Except.ok r, s1) ∧
      r.obj.a.modulus = ct.a.modulus ∧ m < ct.a.modulus ∧
      phase sk r.obj = q * (((m + beta) % ct.a.modulus) / q) := by
  obtain ⟨r, s1, h1, h2, _, h3⟩ := EvalFloor_floor bootstrapFunc sk ct.a.data.length params EK
    ct beta roundbits q s hbf hr hqdef h4 hM hM0 rfl
  rw [hm] at h3
  exact ⟨r, s1, h1, h2, by rw [← hm]; exact phase_lt sk ct hM0, h3⟩

theorem EvalFloor_exact_witness :
    ∃ (r : LWECiphertext) (s1 : Machine),
      EvalFloor (idealBootstrapFunc [1, 0]) smallParams smallKey largeCt2 1 0 smallMachine
        = (Except.ok r, s1) ∧
      r.obj.a.modulus = 16 ∧ 13 < 16 ∧ phase [1, 0] r.obj = 8 * (((13 + 1) % 16) / 8) :=
  EvalFloor_exact (idealBootstrapFunc [1, 0]) [1, 0] smallParams smallKey largeCt2 1 0 8 13
    smallMachine (idealBootstrapFunc_exact [1, 0] 2) (by decide) rfl (by decide) (by decide)
    (by decide) (by rfl)

/-- C13: `EvalSign` and `EvalDecomp` raise `not_implemented_error` if and only if the
modulus of the input ciphertext is at most the native modulus `q`; in that case, whatever
the key map, that is the exception raised, and the machine (gadget base and recorded
blind rotations) is as it was at entry. -/
theorem EvalSign_not_implemented_iff (ext : Collaborators) (params : BinFHECryptoParams)
    (EKs : KeyMap) (ct : LWECiphertextImpl) (beta fuel : Nat) (s : Machine) :
    ((∃ msg s1, EvalSign (BootstrapFunc ext) ext params EKs ct beta fuel s
        = some (Except.error (Error.not_implemented_error msg), s1))
      ↔ ct.a.modulus ≤ params.q) ∧
    ((∃ msg s1, EvalDecomp (BootstrapFunc ext) ext params EKs ct beta fuel s
        = some (Except.error (Error.not_implemented_error msg), s1))
      ↔ ct.a.modulus ≤ params.q) ∧
    (ct.a.modulus ≤ params.q →
      EvalSign (BootstrapFunc ext) ext params EKs ct beta fuel s
        = some (Except.error (Error.not_implemented_error
          "ERROR: EvalSign is only for large precision. For small precision, please use bootstrapping directly"), s) ∧
      EvalDecomp (BootstrapFunc ext) ext params EKs ct beta fuel s
        = some (Except.error (Error.not_implemented_error
          "ERROR: EvalDecomp is only for large precision. For small precision, please use bootstrapping directly"), s)) := by
  have h3 : ct.a.modulus ≤ params.q →
      EvalSign (BootstrapFunc ext) ext params EKs ct beta fuel s
        = some (Except.error (Error.not_implemented_error
          "ERROR: EvalSign is only for large precision. For small precision, please use bootstrapping directly"), s) ∧
      EvalDecomp (BootstrapFunc ext) ext params EKs ct beta fuel s
        = some (Except.error (Error.not_implemented_error
          "ERROR: EvalDecomp is only for large precision. For small precision, please use bootstrapping directly"), s) := by
    intro h
    constructor
    · unfold EvalSign
      simp only []
      rw [if_pos h]
    · unfold EvalDecomp
      simp only []
      rw [if_pos h]
  refine ⟨⟨?_, ?_⟩, ⟨?_, ?_⟩, h3⟩
  · rintro ⟨msg, s1, h⟩
    exact (EvalSign_real ext params EKs ct beta fuel s _ s1 h).2.2.2 msg rfl
  · intro h
    exact ⟨_, _, (h3 h).1⟩
  · rintro ⟨msg, s1, h⟩
    exact (EvalDecomp_real ext params EKs ct beta fuel s _ s1 h).2.2.2 msg rfl
  · intro h
    exact ⟨_, _, (h3 h).2⟩

theorem EvalSign_not_implemented_iff_witness :
    EvalSign (BootstrapFunc plainCollaborators) plainCollaborators smallParams [] smallCt1.obj 1 0
        smallMachine
      = some (Except.error (Error.not_implemented_error
        "ERROR: EvalSign is only for large precision. For small precision, please use bootstrapping directly"),
        smallMachine) ∧
    EvalDecomp (BootstrapFunc plainCollaborators) plainCollaborators smallParams [] smallCt1.obj 1 0
        smallMachine
      = some (Except.error (Error.not_implemented_error
        "ERROR: EvalDecomp is only for large precision. For small precision, please use bootstrapping directly"),
        smallMachine) :=
  (EvalSign_not_implemented_iff plainCollaborators smallParams [] smallCt1.obj 1 0
    smallMachine).2.2 (by decide)

/-- C14: the code and the claim differ on the message of the exception raised inside
the loop.  With the gadget base 4 at entry and a key map with the three entries 4, 5
and 6, the rescaled modulus 4 selects the base `2^27`, which is not in the map; both
methods raise `openfhe_error`, and the message names the base 4, which is in the map,
not the base `2^27` that was requested and not found. -/
theorem EvalSign_lookup_message :
    (∃ s1, EvalSign (BootstrapFunc plainCollaborators) plainCollaborators smallParams
        brokenKeys wideCt 1 1 smallMachine
      = some (Except.error (Error.openfhe_error "ERROR: No key [4] found in the map"), s1) ∧
      s1.baseG = 134217728) ∧
    (∃ s1, EvalDecomp (BootstrapFunc plainCollaborators) plainCollaborators smallParams
        brokenKeys wideCt 1 1 smallMachine
      = some (Except.error (Error.openfhe_error "ERROR: No key [4] found in the map"), s1) ∧
      s1.baseG = 134217728) ∧
    selectedBase brokenKeys (wideCt.a.modulus / smallParams.q * 2 * 1) = some 134217728 ∧
    brokenKeys.lookup 134217728 = none ∧ brokenKeys.lookup 4 = some smallKey :=
  ⟨⟨_, rfl, rfl⟩, ⟨_, rfl, rfl⟩, by decide, by decide, by decide⟩


theorem selectedBase_low (EKs : KeyMap) (mod : Nat) (h3 : EKs.length = 3)
    (h : binLog mod ≤ 17) : selectedBase EKs mod = some (2 ^ 27) := by
  unfold selectedBase
  rw [if_pos h3, if_pos ((binLog_le mod 17 (by norm_num)).mp h)]

theorem selectedBase_mid (EKs : KeyMap) (mod : Nat) (h3 : EKs.length = 3)
    (h1 : 17 < binLog mod) (h2 : binLog mod ≤ 26) : selectedBase EKs mod = some (2 ^ 18) := by
  unfold selectedBase
  rw [if_pos h3, if_neg (fun h => by have := (binLog_le mod 17 (by norm_num)).mpr h; omega),
    if_pos ((binLog_le mod 26 (by norm_num)).mp h2)]

theorem selectedBase_none (EKs : KeyMap) (mod : Nat)
    (h : EKs.length ≠ 3 ∨ 26 < binLog mod) : selectedBase EKs mod = none := by
  unfold selectedBase
  by_cases h3 : EKs.length = 3
  · have h26 : 26 < binLog mod := by
      rcases h with h | h
      · exact absurd h3 h
      · exact h
    rw [if_pos h3,
      if_neg (fun h => by have := (binLog_le mod 17 (by norm_num)).mpr h; omega),
      if_neg (fun h => by have := (binLog_le mod 26 (by norm_num)).mpr h; omega)]
  · rw [if_neg h3]

/-- C15: whenever `EvalSign` or `EvalDecomp` returns, the gadget base of the shared
parameters equals its value at entry, whatever the bootstrap, the key map and the bases
switched to in the loop. -/
theorem EvalSign_restores_base (bootstrapFunc : BootstrapFuncT) (ext : Collaborators)
    (params : BinFHECryptoParams) (EKs : KeyMap) (ct : LWECiphertextImpl) (beta fuel : Nat)
    (s : Machine) :
    (∀ r s1, EvalSign bootstrapFunc ext params EKs ct beta fuel s = some (Except.ok r, s1) →
      s1.baseG = s.baseG) ∧
    (∀ rs s1, EvalDecomp bootstrapFunc ext params EKs ct beta fuel s
        = some (Except.ok rs, s1) →
      s1.baseG = s.baseG) :=
  ⟨fun r s1 h => EvalSign_restores bootstrapFunc ext params EKs ct beta fuel s r s1 h,
   fun rs s1 h => EvalDecomp_restores bootstrapFunc ext params EKs ct beta fuel s rs s1 h⟩

theorem EvalSign_restores_base_witness :
    ∃ (r : LWECiphertext) (s1 : Machine),
      EvalSign (idealBootstrapFunc [1, 0]) (exactCollaborators [1, 0]) smallParams
        dynamicKeys hugeCt 1 9 smallMachine = some (Except.ok r, s1) ∧
      s1.baseG = smallMachine.baseG :=
  ⟨_, _, rfl,
    (EvalSign_restores_base (idealBootstrapFunc [1, 0]) (exactCollaborators [1, 0])
      smallParams dynamicKeys hugeCt 1 9 smallMachine).1 _ _ rfl⟩

/-- C16, as stated, fails: with the gadget base 4 at entry and a key map with the three
entries 4, 5 and 6, `EvalSign` and `EvalDecomp` raise an exception inside the loop and
leave the gadget base at `2^27`. -/
theorem EvalSign_base_not_restored :
    (∃ (e : Error) (s1 : Machine),
      EvalSign (BootstrapFunc plainCollaborators) plainCollaborators smallParams brokenKeys
        wideCt 1 1 smallMachine = some (Except.error e, s1) ∧
      smallMachine.baseG = 4 ∧ s1.baseG = 134217728) ∧
    (∃ (e : Error) (s1 : Machine),
      EvalDecomp (BootstrapFunc plainCollaborators) plainCollaborators smallParams brokenKeys
        wideCt 1 1 smallMachine = some (Except.error e, s1) ∧
      smallMachine.baseG = 4 ∧ s1.baseG = 134217728) :=
  ⟨⟨_, _, rfl, rfl, rfl⟩, ⟨_, _, rfl, rfl, rfl⟩⟩

/-- C16, amended: whenever `EvalSign` or `EvalDecomp` raises an exception, the gadget
base equals its value at entry or, for a key map with three entries, one of the bases
`2^27` and `2^18` the loop switched to; it equals its value at entry when the input
modulus is at most `q`, when the key map has no entry for the gadget base at entry, and
when the key map does not have three entries. -/
theorem EvalSign_base_after_failure (ext : Collaborators) (params : BinFHECryptoParams)
    (EKs : KeyMap) (ct : LWECiphertextImpl) (beta fuel : Nat) (s : Machine) :
    (∀ e s1, EvalSign (BootstrapFunc ext) ext params EKs ct beta fuel s
        = some (Except.error e, s1) →
      (s1.baseG = s.baseG ∨ (EKs.length = 3 ∧ (s1.baseG = 2 ^ 27 ∨ s1.baseG = 2 ^ 18))) ∧
      ((ct.a.modulus ≤ params.q ∨ EKs.lookup s.baseG = none ∨ EKs.length ≠ 3) →
        s1.baseG = s.baseG)) ∧
    (∀ e s1, EvalDecomp (BootstrapFunc ext) ext params EKs ct beta fuel s
        = some (Except.error e, s1) →
      (s1.baseG = s.baseG ∨ (EKs.length = 3 ∧ (s1.baseG = 2 ^ 27 ∨ s1.baseG = 2 ^ 18))) ∧
      ((ct.a.modulus ≤ params.q ∨ EKs.lookup s.baseG = none ∨ EKs.length ≠ 3) →
        s1.baseG = s.baseG)) := by
  constructor
  · intro e s1 h
    obtain ⟨_, hb, hs, _⟩ := EvalSign_real ext params EKs ct beta fuel s _ s1 h
    refine ⟨hb, ?_⟩
    intro hc
    rcases hc with hc | hc | hc
    · rw [hs (Or.inl hc)]
    · rw [hs (Or.inr hc)]
    · exact BaseAfter_entry EKs s s1 hb hc
  · intro e s1 h
    obtain ⟨_, hb, hs, _⟩ := EvalDecomp_real ext params EKs ct beta fuel s _ s1 h
    refine ⟨hb, ?_⟩
    intro hc
    rcases hc with hc | hc | hc
    · rw [hs (Or.inl hc)]
    · rw [hs (Or.inr hc)]
    · exact BaseAfter_entry EKs s s1 hb hc

theorem EvalSign_base_after_failure_witness :
    ∃ (e : Error) (s1 : Machine),
      EvalSign (BootstrapFunc plainCollaborators) plainCollaborators smallParams staticKeys
        wideCt 1 1 ⟨2, 5, []⟩ = some (Except.error e, s1) ∧
      s1.baseG = 5 :=
  ⟨_, _, rfl,
    ((EvalSign_base_after_failure plainCollaborators smallParams staticKeys wideCt 1 1
      ⟨2, 5, []⟩).1 _ _ rfl).2 (Or.inr (Or.inl rfl))⟩

/-- C17: after each rescale to the modulus `mod`, with `⌈log2 mod⌉ ≤ 17` exactly when
`mod ≤ 2^17` and `⌈log2 mod⌉ ≤ 26` exactly when `mod ≤ 2^26`: when the key map has three
entries, `⌈log2 mod⌉ ≤ 17` loads the entry for the base `2^27`,
`17 < ⌈log2 mod⌉ ≤ 26` loads the entry for the base `2^18`, each setting that gadget
base, and a larger `mod`, or a key map without exactly three entries, leaves the loaded
key and the gadget base as they are; and in a run with a key map that does not have
three entries every blind rotation uses the key for the gadget base at entry, under that
gadget base, which is also the gadget base at the end. -/
theorem EvalSign_key_selection (bootstrapFunc : BootstrapFuncT) (ext : Collaborators)
    (params : BinFHECryptoParams) (EKs : KeyMap) (curBase beta : Nat) :
    (∀ mod, (binLog mod ≤ 17 ↔ mod ≤ 2 ^ 17) ∧ (binLog mod ≤ 26 ↔ mod ≤ 2 ^ 26)) ∧
    (∀ (v : EvalSign.Vars) (s : Machine) (r : LWECiphertext) (s1 : Machine),
      EvalFloor bootstrapFunc params v.curEK v.cttmp beta 0 s = (Except.ok r, s1) →
      (EKs.length = 3 → binLog (v.mod / params.q * 2 * beta) ≤ 17 →
        ∀ K, EKs.lookup (2 ^ 27) = some K →
          EvalSign.body bootstrapFunc ext params EKs curBase beta v s
            = (Except.ok ⟨ext.ModSwitch (v.mod / params.q * 2 * beta) r.obj,
                v.mod / params.q * 2 * beta, K⟩, { s1 with baseG := 2 ^ 27 })) ∧
      (EKs.length = 3 → 17 < binLog (v.mod / params.q * 2 * beta) →
        binLog (v.mod / params.q * 2 * beta) ≤ 26 →
        ∀ K, EKs.lookup (2 ^ 18) = some K →
          EvalSign.body bootstrapFunc ext params EKs curBase beta v s
            = (Except.ok ⟨ext.ModSwitch (v.mod / params.q * 2 * beta) r.obj,
                v.mod / params.q * 2 * beta, K⟩, { s1 with baseG := 2 ^ 18 })) ∧
      ((EKs.length ≠ 3 ∨ 26 < binLog (v.mod / params.q * 2 * beta)) →
          EvalSign.body bootstrapFunc ext params EKs curBase beta v s
            = (Except.ok ⟨ext.ModSwitch (v.mod / params.q * 2 * beta) r.obj,
                v.mod / params.q * 2 * beta, v.curEK⟩, s1))) ∧
    (∀ (v : EvalDecomp.Vars) (s : Machine) (r : LWECiphertext) (s1 : Machine),
      EvalFloor bootstrapFunc params v.curEK v.cttmp beta 0
        { s with nextPtr := s.nextPtr + 1 } = (Except.ok r, s1) →
      (EKs.length = 3 → binLog (v.mod / params.q * 2 * beta) ≤ 17 →
        ∀ K, EKs.lookup (2 ^ 27) = some K →
          EvalDecomp.body bootstrapFunc ext params EKs curBase beta v s
            = (Except.ok ⟨ext.ModSwitch (v.mod / params.q * 2 * beta) r.obj,
                v.mod / params.q * 2 * beta, K,
                v.ret ++ [⟨s.nextPtr, v.cttmp.SetModulus params.q⟩]⟩,
                { s1 with baseG := 2 ^ 27 })) ∧
      (EKs.length = 3 → 17 < binLog (v.mod / params.q * 2 * beta) →
        binLog (v.mod / params.q * 2 * beta) ≤ 26 →
        ∀ K, EKs.lookup (2 ^ 18) = some K →
          EvalDecomp.body bootstrapFunc ext params EKs curBase beta v s
            = (Except.ok ⟨ext.ModSwitch (v.mod / params.q * 2 * beta) r.obj,
                v.mod / params.q * 2 * beta, K,
                v.ret ++ [⟨s.nextPtr, v.cttmp.SetModulus params.q⟩]⟩,
                { s1 with baseG := 2 ^ 18 })) ∧
      ((EKs.length ≠ 3 ∨ 26 < binLog (v.mod / params.q * 2 * beta)) →
          EvalDecomp.body bootstrapFunc ext params EKs curBase beta v s
            = (Except.ok ⟨ext.ModSwitch (v.mod / params.q * 2 * beta) r.obj,
                v.mod / params.q * 2 * beta, v.curEK,
                v.ret ++ [⟨s.nextPtr, v.cttmp.SetModulus params.q⟩]⟩, s1))) ∧
    (∀ (ct : LWECiphertextImpl) (fuel : Nat) (s : Machine) (K : RingGSWBTKey),
      EKs.length ≠ 3 → EKs.lookup s.baseG = some K →
      (∀ out s1, EvalSign (BootstrapFunc ext) ext params EKs ct beta fuel s = some (out, s1) →
        s1.baseG = s.baseG ∧
        ∃ l, s1.accCalls = s.accCalls ++ l ∧
          ∀ c ∈ l, c.baseG = s.baseG ∧ K.BSkey = some c.ek) ∧
      (∀ out s1, EvalDecomp (BootstrapFunc ext) ext params EKs ct beta fuel s
          = some (out, s1) →
        s1.baseG = s.baseG ∧
        ∃ l, s1.accCalls = s.accCalls ++ l ∧
          ∀ c ∈ l, c.baseG = s.baseG ∧ K.BSkey = some c.ek)) := by
  refine ⟨fun mod => ⟨binLog_le mod 17 (by norm_num), binLog_le mod 26 (by norm_num)⟩,
    ?_, ?_, ?_⟩
  · intro v s r s1 hf
    refine ⟨?_, ?_, ?_⟩
    · intro h3 hlog K hK
      rw [EvalSign_body_run, hf]
      simp only []
      rw [selectedBase_low EKs _ h3 hlog]
      simp only []
      rw [hK]
    · intro h3 h17 h26 K hK
      rw [EvalSign_body_run, hf]
      simp only []
      rw [selectedBase_mid EKs _ h3 h17 h26]
      simp only []
      rw [hK]
    · intro h
      rw [EvalSign_body_run, hf]
      simp only []
      rw [selectedBase_none EKs _ h]
  · intro v s r s1 hf
    refine ⟨?_, ?_, ?_⟩
    · intro h3 hlog K hK
      rw [EvalDecomp_body_run, hf]
      simp only []
      rw [selectedBase_low EKs _ h3 hlog]
      simp only []
      rw [hK]
    · intro h3 h17 h26 K hK
      rw [EvalDecomp_body_run, hf]
      simp only []
      rw [selectedBase_mid EKs _ h3 h17 h26]
      simp only []
      rw [hK]
    · intro h
      rw [EvalDecomp_body_run, hf]
      simp only []
      rw [selectedBase_none EKs _ h]
  · intro ct fuel s K h3 hK
    have conv : ∀ s1 : Machine, BaseAfter EKs s s1 →
        CallsSince (fun c => KeyOfBase EKs c ∧ (EKs.length ≠ 3 → c.baseG = s.baseG)) s s1 →
        s1.baseG = s.baseG ∧
        ∃ l, s1.accCalls = s.accCalls ++ l ∧
          ∀ c ∈ l, c.baseG = s.baseG ∧ K.BSkey = some c.ek := by
      intro s1 hb hc
      refine ⟨BaseAfter_entry EKs s s1 hb h3, ?_⟩
      obtain ⟨l, hl, hall⟩ := hc
      refine ⟨l, hl, ?_⟩
      intro c hcl
      obtain ⟨⟨K2, hK2, hkey⟩, hbase⟩ := hall c hcl
      refine ⟨hbase h3, ?_⟩
      rw [hbase h3, hK] at hK2
      simp only [Option.some.injEq] at hK2
      rw [hK2]
      exact hkey
    constructor
    · intro out s1 h
      obtain ⟨hc, hb, _, _⟩ := EvalSign_real ext params EKs ct beta fuel s out s1 h
      exact conv s1 hb hc
    · intro out s1 h
      obtain ⟨hc, hb, _, _⟩ := EvalDecomp_real ext params EKs ct beta fuel s out s1 h
      exact conv s1 hb hc

theorem EvalSign_key_selection_witness :
    ∃ (r : LWECiphertext) (s1 : Machine),
      EvalFloor (BootstrapFunc plainCollaborators) smallParams smallKey wideCt 1 0 smallMachine
        = (Except.ok r, s1) ∧
      EvalSign.body (BootstrapFunc plainCollaborators) plainCollaborators smallParams
          dynamicKeys 4 1 ⟨wideCt, 16, smallKey⟩ smallMachine
        = (Except.ok ⟨plainCollaborators.ModSwitch 4 r.obj, 4, otherKey⟩,
            { s1 with baseG := 2 ^ 27 }) :=
  ⟨_, _, rfl,
    ((EvalSign_key_selection (BootstrapFunc plainCollaborators) plainCollaborators smallParams
      dynamicKeys 4 1).2.1 ⟨wideCt, 16, smallKey⟩ smallMachine _ _ rfl).1 rfl (by decide)
      otherKey rfl⟩

/-- C18: in every run of `EvalSign` and `EvalDecomp`, whatever its outcome, every blind
rotation requested since entry (by the bootstraps of `EvalFloor` and by the final
bootstrap) uses the accumulator key of the key-map entry for the gadget base in force
at that rotation; and a check at every bootstrap that the key bundle in use is the
key-map entry for the gadget base in force never fails: the run with the check is the
run without it. -/
theorem EvalSign_key_of_base (ext : Collaborators) (params : BinFHECryptoParams)
    (EKs : KeyMap) (ct : LWECiphertextImpl) (beta fuel : Nat) (s : Machine) :
    (∀ out s1, EvalSign (BootstrapFunc ext) ext params EKs ct beta fuel s = some (out, s1) →
      ∃ l, s1.accCalls = s.accCalls ++ l ∧
        ∀ c ∈ l, ∃ K, EKs.lookup c.baseG = some K ∧ K.BSkey = some c.ek) ∧
    (∀ out s1, EvalDecomp (BootstrapFunc ext) ext params EKs ct beta fuel s = some (out, s1) →
      ∃ l, s1.accCalls = s.accCalls ++ l ∧
        ∀ c ∈ l, ∃ K, EKs.lookup c.baseG = some K ∧ K.BSkey = some c.ek) ∧
    EvalSign (keyChecked EKs (BootstrapFunc ext)) ext params EKs ct beta fuel s
      = EvalSign (BootstrapFunc ext) ext params EKs ct beta fuel s ∧
    EvalDecomp (keyChecked EKs (BootstrapFunc ext)) ext params EKs ct beta fuel s
      = EvalDecomp (BootstrapFunc ext) ext params EKs ct beta fuel s := by
  refine ⟨?_, ?_, EvalSign_keyChecked ext params EKs ct beta fuel s,
    EvalDecomp_keyChecked ext params EKs ct beta fuel s⟩
  · intro out s1 h
    obtain ⟨⟨l, hl, hall⟩, _⟩ := EvalSign_real ext params EKs ct beta fuel s out s1 h
    exact ⟨l, hl, fun c hc => (hall c hc).1⟩
  · intro out s1 h
    obtain ⟨⟨l, hl, hall⟩, _⟩ := EvalDecomp_real ext params EKs ct beta fuel s out s1 h
    exact ⟨l, hl, fun c hc => (hall c hc).1⟩

theorem EvalSign_key_of_base_witness :
    ∃ (out : Except Error LWECiphertext) (s1 : Machine),
      EvalSign (BootstrapFunc plainCollaborators) plainCollaborators smallParams dynamicKeys
        hugeCt8 1 9 smallMachine = some (out, s1) ∧
      (s1.accCalls.map (fun c => (c.baseG, c.ek))).take 5
        = [(4, [1, 0]), (4, [1, 0]), (262144, [1, 0]), (262144, [1, 0]), (134217728, [1])] ∧
      (keyChecked dynamicKeys (BootstrapFunc plainCollaborators) smallParams otherKey wideCt
        EvalSign.f3 8 smallMachine).1 = Except.error Error.out_of_bounds ∧
      ∃ l, s1.accCalls = smallMachine.accCalls ++ l ∧
        ∀ c ∈ l, ∃ K, dynamicKeys.lookup c.baseG = some K ∧ K.BSkey = some c.ek :=
  ⟨_, _, rfl, rfl, rfl,
    (EvalSign_key_of_base plainCollaborators smallParams dynamicKeys hugeCt8 1 9
      smallMachine).1 _ _ rfl⟩

/-- C19: around the bootstraps of this file (the external primitives being functions),
for every parameter set, key map, ciphertext, `beta` and machine on which `EvalSign`
returns, `EvalDecomp` returns on the same inputs within the same number of iterations,
the last element of its output is the ciphertext `EvalSign` returns, and both leave the
same gadget base. -/
theorem EvalDecomp_extends_EvalSign (ext : Collaborators) (params : BinFHECryptoParams)
    (EKs : KeyMap) (ct : LWECiphertextImpl) (beta fuel : Nat) (s : Machine)
    (r : LWECiphertext) (s1 : Machine)
    (h : EvalSign (BootstrapFunc ext) ext params EKs ct beta fuel s = some (Except.ok r, s1)) :
    ∃ (rs : List LWECiphertext) (s2 : Machine),
      EvalDecomp (BootstrapFunc ext) ext params EKs ct beta fuel s = some (Except.ok rs, s2) ∧
      rs.getLast?.map (fun c => c.obj) = some r.obj ∧ s2.baseG = s1.baseG :=
  EvalDecomp_follows ext params EKs ct beta fuel s r s1 h

theorem EvalDecomp_extends_EvalSign_witness :
    ∃ (r : LWECiphertext) (s1 : Machine),
      EvalSign (BootstrapFunc plainCollaborators) plainCollaborators smallParams dynamicKeys
        widerCt 1 2 smallMachine = some (Except.ok r, s1) ∧
      ∃ (rs : List LWECiphertext) (s2 : Machine),
        EvalDecomp (BootstrapFunc plainCollaborators) plainCollaborators smallParams
          dynamicKeys widerCt 1 2 smallMachine = some (Except.ok rs, s2) ∧
        rs.getLast?.map (fun c => c.obj) = some r.obj ∧ s2.baseG = s1.baseG :=
  ⟨_, _, rfl,
    EvalDecomp_extends_EvalSign plainCollaborators smallParams dynamicKeys widerCt 1 2
      smallMachine _ _ rfl⟩

/-- C20: with a bootstrap that returns ciphertexts of the modulus asked for, when
`EvalDecomp` returns, it returns at least two ciphertexts, each of the native modulus
`q`, the first being the input ciphertext reduced to the modulus `q`; and for
`2 * beta ∣ q`, `2 * beta < q` and input modulus `q * (q / (2 * beta)) ^ k` with
`k ≥ 1`, the loop ends within `k` iterations and a returned sequence has exactly `k + 1`
elements. -/
theorem EvalDecomp_digits (bootstrapFunc : BootstrapFuncT) (ext : Collaborators)
    (params : BinFHECryptoParams) (EKs : KeyMap) (ct : LWECiphertextImpl) (beta : Nat)
    (s : Machine)
    (hbf : ∀ p EK c f fmod t r t1, bootstrapFunc p EK c f fmod t = (Except.ok r, t1) →
      r.obj.a.modulus = fmod) :
    (∀ fuel rs s1, EvalDecomp bootstrapFunc ext params EKs ct beta fuel s
        = some (Except.ok rs, s1) →
      2 ≤ rs.length ∧ (∀ c ∈ rs, c.obj.a.modulus = params.q) ∧
      rs.head? = some ⟨s.nextPtr, ct.SetModulus params.q⟩) ∧
    (∀ k fuel, 1 ≤ k → 2 * beta ∣ params.q → 2 * beta < params.q →
      ct.a.modulus = params.q * (params.q / (2 * beta)) ^ k → k ≤ fuel →
      EvalDecomp bootstrapFunc ext params EKs ct beta fuel s ≠ none ∧
      ∀ rs s1, EvalDecomp bootstrapFunc ext params EKs ct beta fuel s
          = some (Except.ok rs, s1) →
        rs.length = k + 1) := by
  constructor
  · intro fuel rs s1 h
    obtain ⟨hmod, K, hK⟩ := EvalDecomp_ok_checks _ _ _ _ _ _ _ _ _ _ h
    rw [EvalDecomp_run _ _ _ _ _ _ _ _ K hmod hK] at h
    cases hl : whileLoop (fun v => decide (v.mod > params.q))
        (EvalDecomp.body bootstrapFunc ext params EKs s.baseG beta) fuel
        ⟨ct, ct.a.modulus, K, []⟩ s with
    | none => rw [hl] at h; cases h
    | some p =>
      obtain ⟨o, t⟩ := p
      rw [hl] at h
      cases o with
      | error e => cases h
      | ok v =>
        obtain ⟨hall, hhead⟩ := decompLoop_digits bootstrapFunc ext params EKs s.baseG beta ct
          s K fuel v t hmod hl
        simp only [] at h
        cases hb : bootstrapFunc params v.curEK (EvalAddConstEq v.cttmp beta) EvalDecomp.f3
            params.q t with
        | mk o2 t2 =>
          rw [hb] at h
          cases o2 with
          | error e => cases h
          | ok r =>
            simp only [Option.some.injEq, Prod.mk.injEq, Except.ok.injEq] at h
            obtain ⟨h1, _⟩ := h
            subst h1
            have hrm := hbf _ _ _ _ _ _ _ _ hb
            cases hv : v.ret with
            | nil => rw [hv] at hhead; cases hhead
            | cons a l =>
              rw [hv] at hhead hall
              refine ⟨by simp, ?_, by simpa using hhead⟩
              intro c hc
              rcases List.mem_append.mp hc with hc | hc
              · exact hall c hc
              · simp only [List.mem_singleton] at hc
                rw [hc]
                exact hrm
  · intro k fuel _ hdvd hlt hm hf
    by_cases hmod : ct.a.modulus ≤ params.q
    · unfold EvalDecomp
      simp only []
      rw [if_pos hmod]
      simp
    · cases hK : EKs.lookup s.baseG with
      | none =>
        unfold EvalDecomp
        simp only []
        rw [if_neg hmod, hK]
        simp
      | some K =>
        rw [EvalDecomp_run _ _ _ _ _ _ _ _ K (by omega) hK]
        obtain ⟨hne, hcount⟩ := decompLoop_count bootstrapFunc ext params EKs s.baseG beta
          hdvd hlt k fuel ⟨ct, ct.a.modulus, K, []⟩ s hm hf
        cases hl : whileLoop (fun v => decide (v.mod > params.q))
            (EvalDecomp.body bootstrapFunc ext params EKs s.baseG beta) fuel
            ⟨ct, ct.a.modulus, K, []⟩ s with
        | none => exact absurd hl hne
        | some p =>
          obtain ⟨o, t⟩ := p
          cases o with
          | error e => simp
          | ok v =>
            simp only []
            refine ⟨by simp, ?_⟩
            intro rs s1 h
            have hlen := hcount v t hl
            simp only [Option.some.injEq] at h
            split at h
            · simp only [Prod.mk.injEq, Except.ok.injEq] at h
              rw [← h.1, List.length_append, hlen]
              simp
            · cases h

theorem EvalDecomp_digits_witness :
    ∃ (rs : List LWECiphertext) (s1 : Machine),
      EvalDecomp (idealBootstrapFunc [1, 0]) (exactCollaborators [1, 0]) smallParams staticKeys
        midCt 1 2 smallMachine = some (Except.ok rs, s1) ∧
      rs.length = 2 + 1 ∧
      (2 ≤ rs.length ∧ (∀ c ∈ rs, c.obj.a.modulus = smallParams.q) ∧
        rs.head? = some ⟨smallMachine.nextPtr, midCt.SetModulus smallParams.q⟩) :=
  ⟨_, _, rfl,
    ((EvalDecomp_digits (idealBootstrapFunc [1, 0]) (exactCollaborators [1, 0]) smallParams
      staticKeys midCt 1 smallMachine (idealBootstrapFunc_modulus [1, 0])).2 2 2 (by decide)
      (by decide) (by decide) rfl (Nat.le_refl 2)).2 _ _ rfl,
    (EvalDecomp_digits (idealBootstrapFunc [1, 0]) (exactCollaborators [1, 0]) smallParams
      staticKeys midCt 1 smallMachine (idealBootstrapFunc_modulus [1, 0])).1 2 _ _ rfl⟩

/-- Powers of two meet the condition `EvenChain`: for `q = 2^a`, `beta = 2^b` with
`2 * beta < q` and the modulus `2^c`, the loop ends, and every modulus it meets is an
even multiple of `q`. -/
theorem EvenChain_pow2 (a b : Nat) (hab : b + 1 < a) :
    ∀ (c : Nat), ∃ k, EvenChain (2 ^ a) (2 ^ b) k (2 ^ c) ∧ (a < c → 0 < k) := by
  intro c
  induction c using Nat.strong_induction_on with
  | _ c ih =>
    by_cases hc : a < c
    · have hlt : c - a + (b + 1) < c := by omega
      obtain ⟨k, hk, _⟩ := ih (c - a + (b + 1)) hlt
      have hdiv : 2 ^ c / 2 ^ a = 2 ^ (c - a) := Nat.pow_div (by omega) (by norm_num)
      refine ⟨k + 1, ?_, fun _ => Nat.succ_pos k⟩
      refine ⟨Nat.pow_lt_pow_right (by norm_num) hc, pow_dvd_pow 2 (by omega), ?_, ?_⟩
      · rw [hdiv]
        exact dvd_pow_self 2 (by omega)
      · rw [hdiv]
        have : 2 ^ (c - a) * 2 * 2 ^ b = 2 ^ (c - a + (b + 1)) := by
          rw [pow_add, pow_succ]
          ring
        rw [this]
        exact hk
    · refine ⟨0, ?_, fun h => absurd h hc⟩
      exact Nat.pow_le_pow_right (by norm_num) (by omega)

/-! ## Absent accumulator key -/

theorem BootstrapGateCore_run (ext : Collaborators) (params : BinFHECryptoParams)
    (gate : BINGATE) (ek : RingGSWACCKey) (ct : LWECiphertextImpl) (s : Machine) :
    BootstrapGateCore ext params gate ek ct s =
      match ek with
      | none =>
        (Except.error (Error.config_error
          "Bootstrapping keys have not been generated. Please call BTKeyGen before calling bootstrapping."),
          s)
      | some key =>
        (Except.ok (ext.EvalAcc params s.baseG key
            ⟨List.replicate params.N 0, gateTestVector params gate ct⟩ ct.a),
          { s with accCalls := s.accCalls ++
              [⟨s.baseG, key, ⟨List.replicate params.N 0, gateTestVector params gate ct⟩, ct.a⟩] }) := by
  cases ek <;> rfl

theorem BootstrapFuncCore_run (ext : Collaborators) (params : BinFHECryptoParams)
    (ek : RingGSWACCKey) (ct : LWECiphertextImpl) (f : Nat → Nat → Nat → Nat) (fmod : Nat)
    (s : Machine) :
    BootstrapFuncCore ext params ek ct f fmod s =
      match ek with
      | none =>
        (Except.error (Error.config_error
          "Bootstrapping keys have not been generated. Please call BTKeyGen before calling bootstrapping."),
          s)
      | some key =>
        (Except.ok (ext.EvalAcc params s.baseG key
            ⟨List.replicate params.N 0, funcTestVector params ct f fmod⟩ ct.a),
          { s with accCalls := s.accCalls ++
              [⟨s.baseG, key, ⟨List.replicate params.N 0, funcTestVector params ct f fmod⟩, ct.a⟩] }) := by
  cases ek <;> rfl

/-- The method `Bootstrap` in terms of the chain of the specification. -/
theorem Bootstrap_run (ext : Collaborators) (params : BinFHECryptoParams)
    (EK : RingGSWBTKey) (ct : LWECiphertextImpl) (s : Machine) :
    Bootstrap ext params EK ct s =
      match EK.BSkey with
      | none =>
        (Except.error (Error.config_error
          "Bootstrapping keys have not been generated. Please call BTKeyGen before calling bootstrapping."),
          s)
      | some key =>
        (Except.ok ⟨s.nextPtr,
            postChain ext params EK
              (ext.EvalAcc params s.baseG key
                ⟨List.replicate params.N 0,
                  gateTestVector params BINGATE.AND (EvalAddConstEq ct (ct.a.modulus >>> 2))⟩
                (EvalAddConstEq ct (ct.a.modulus >>> 2)).a)
              ct.a.modulus⟩,
          { s with nextPtr := s.nextPtr + 1,
                   accCalls := s.accCalls ++
                    [⟨s.baseG, key,
                      ⟨List.replicate params.N 0,
                        gateTestVector params BINGATE.AND (EvalAddConstEq ct (ct.a.modulus >>> 2))⟩,
                      (EvalAddConstEq ct (ct.a.modulus >>> 2)).a⟩] }) := by
  unfold Bootstrap
  simp only [M.bind_run, BootstrapGateCore_run]
  cases EK.BSkey <;> rfl

/-- The object of the primitive path of `EvalBinGate` in terms of the chain of the
specification. -/
theorem gateObj_chain (ext : Collaborators) (params : BinFHECryptoParams) (gate : BINGATE)
    (EK : RingGSWBTKey) (baseG : Nat) (o1 o2 : LWECiphertextImpl) :
    gateObj ext params gate EK baseG o1 o2 =
      match gatePrep gate o1 o2 with
      | Except.error e => Except.error e
      | Except.ok ctprep =>
        match EK.BSkey with
        | none =>
          Except.error (Error.config_error
            "Bootstrapping keys have not been generated. Please call BTKeyGen before calling bootstrapping.")
        | some key =>
          Except.ok
            (postChain ext params EK
              (ext.EvalAcc params baseG key
                ⟨List.replicate params.N 0, gateTestVector params gate ctprep⟩ ctprep.a)
              o1.a.modulus,
              ⟨baseG, key, ⟨List.replicate params.N 0, gateTestVector params gate ctprep⟩,
                ctprep.a⟩) := rfl

theorem BootstrapFunc_chain (ext : Collaborators) (params : BinFHECryptoParams)
    (EK : RingGSWBTKey) (baseG : Nat) (key : List Nat) (ct : LWECiphertextImpl)
    (f : Nat → Nat → Nat → Nat) (fmod : Nat) :
    funcObj ext params EK baseG key ct f fmod =
      plainChain ext params EK
        (ext.EvalAcc params baseG key
          ⟨List.replicate params.N 0, funcTestVector params ct f fmod⟩ ct.a) fmod := rfl

theorem EvalAddEq_ok (o1 o2 : LWECiphertextImpl) (hm : o2.a.modulus = o1.a.modulus)
    (hl : o2.a.data.length = o1.a.data.length) :
    EvalAddEq o1 o2 = Except.ok
      ⟨⟨List.zipWith (fun u v => ModAddFast u v o1.a.modulus) o1.a.data o2.a.data,
        o1.a.modulus⟩, ModAddFast o1.b o2.b o1.a.modulus⟩ := by
  unfold EvalAddEq NativeVector.ModAddEq
  rw [if_neg (by simp [hm, hl])]

theorem EvalSubEq_ok (o1 o2 : LWECiphertextImpl) (hm : o2.a.modulus = o1.a.modulus)
    (hl : o2.a.data.length = o1.a.data.length) :
    EvalSubEq o1 o2 = Except.ok
      ⟨⟨List.zipWith (fun u v => ModSubFast u v o1.a.modulus) o1.a.data o2.a.data,
        o1.a.modulus⟩, ModSubFast o1.b o2.b o1.a.modulus⟩ := by
  unfold EvalSubEq NativeVector.ModSubEq
  rw [if_neg (by simp [hm, hl])]

/-- On ciphertexts of equal length and modulus the pre-additive combine of a gate
does not fail. -/
theorem gatePrep_ok (gate : BINGATE) (o1 o2 : LWECiphertextImpl)
    (hm : o2.a.modulus = o1.a.modulus) (hl : o2.a.data.length = o1.a.data.length) :
    ∃ c, gatePrep gate o1 o2 = Except.ok c ∧ c.a.modulus = o1.a.modulus ∧
      c.a.data.length = o1.a.data.length := by
  unfold gatePrep
  by_cases hg : gate = BINGATE.XOR_FAST ∨ gate = BINGATE.XNOR_FAST
  · rw [if_pos hg, EvalSubEq_ok o1 o2 hm hl]
    simp only []
    rw [EvalAddEq_ok _ _ rfl rfl]
    refine ⟨_, rfl, rfl, ?_⟩
    simp [hl]
  · rw [if_neg hg, EvalAddEq_ok o1 o2 hm hl]
    refine ⟨_, rfl, rfl, ?_⟩
    simp [hl]

theorem gateObj_no_key (ext : Collaborators) (params : BinFHECryptoParams) (gate : BINGATE)
    (EK : RingGSWBTKey) (baseG : Nat) (o1 o2 : LWECiphertextImpl) (hK : EK.BSkey = none)
    (hm : o2.a.modulus = o1.a.modulus) (hl : o2.a.data.length = o1.a.data.length) :
    gateObj ext params gate EK baseG o1 o2 =
      Except.error (Error.config_error
        "Bootstrapping keys have not been generated. Please call BTKeyGen before calling bootstrapping.") := by
  obtain ⟨c, hc, _, _⟩ := gatePrep_ok gate o1 o2 hm hl
  rw [gateObj_chain, hc, hK]

theorem EvalBinGate_no_key (ext : Collaborators) (params : BinFHECryptoParams)
    (gate : BINGATE) (EK : RingGSWBTKey) (ct1 ct2 : LWECiphertext) (s : Machine)
    (hK : EK.BSkey = none) (hne : ct1.ptr ≠ ct2.ptr) (h1 : ct1.ptr < s.nextPtr)
    (h2 : ct2.ptr < s.nextPtr) (hm : ct2.obj.a.modulus = ct1.obj.a.modulus)
    (hl : ct2.obj.a.data.length = ct1.obj.a.data.length) :
    ∃ s1, EvalBinGate ext params gate EK ct1 ct2 s =
        (Except.error (Error.config_error
          "Bootstrapping keys have not been generated. Please call BTKeyGen before calling bootstrapping."),
          s1) ∧ s1.accCalls = s.accCalls ∧ s1.baseG = s.baseG := by
  by_cases hg : gate = BINGATE.XOR ∨ gate = BINGATE.XNOR
  · rw [EvalBinGate_synth ext params gate EK ct1 ct2 s hne h1 h2 hg,
      gateObj_no_key ext params BINGATE.AND EK s.baseG ct1.obj (notObj ct2.obj) hK
        (by simpa [notObj] using hm) (by simpa [notObj] using hl)]
    exact ⟨_, rfl, rfl, rfl⟩
  · rw [EvalBinGate_prim ext params gate EK ct1 ct2 s hne hg,
      gateObj_no_key ext params gate EK s.baseG ct1.obj ct2.obj hK hm hl]
    exact ⟨_, rfl, rfl, rfl⟩

theorem EvalFloor_no_key (ext : Collaborators) (params : BinFHECryptoParams)
    (EK : RingGSWBTKey) (ct : LWECiphertextImpl) (beta roundbits : Nat) (s : Machine)
    (hK : EK.BSkey = none) (hr : roundbits ≤ 30) :
    EvalFloor (BootstrapFunc ext) params EK ct beta roundbits s =
      (Except.error (Error.config_error
        "Bootstrapping keys have not been generated. Please call BTKeyGen before calling bootstrapping."),
        { s with nextPtr := s.nextPtr + 1 }) := by
  rw [EvalFloor_run]
  unfold floorRun
  rw [if_neg (by omega), hK]
  simp

/-- C21, amended: `BootstrapGateCore` and `BootstrapFuncCore` raise `config_error` exactly
when the accumulator key is absent, and then leave the machine as it was: no blind
rotation is requested.  With a key bundle whose accumulator key is absent, `Bootstrap`
raises that exception, `EvalFloor` raises it for every `roundbits ≤ 30` (the range in
which its shift is defined), and `EvalBinGate` raises it, for every gate, on distinct
allocated handles to ciphertexts of equal length and modulus; none of them requests a
blind rotation. -/
theorem Bootstrap_config_error (ext : Collaborators) (params : BinFHECryptoParams)
    (EK : RingGSWBTKey) (s : Machine) :
    (∀ gate ek ct,
      ((∃ msg, (BootstrapGateCore ext params gate ek ct s).1
          = Except.error (Error.config_error msg)) ↔ ek = none) ∧
      (ek = none → BootstrapGateCore ext params gate ek ct s =
        (Except.error (Error.config_error
          "Bootstrapping keys have not been generated. Please call BTKeyGen before calling bootstrapping."),
          s))) ∧
    (∀ ek ct f fmod,
      ((∃ msg, (BootstrapFuncCore ext params ek ct f fmod s).1
          = Except.error (Error.config_error msg)) ↔ ek = none) ∧
      (ek = none → BootstrapFuncCore ext params ek ct f fmod s =
        (Except.error (Error.config_error
          "Bootstrapping keys have not been generated. Please call BTKeyGen before calling bootstrapping."),
          s))) ∧
    (EK.BSkey = none →
      (∀ ct, Bootstrap ext params EK ct s =
        (Except.error (Error.config_error
          "Bootstrapping keys have not been generated. Please call BTKeyGen before calling bootstrapping."),
          s)) ∧
      (∀ ct beta roundbits, roundbits ≤ 30 →
        EvalFloor (BootstrapFunc ext) params EK ct beta roundbits s =
        (Except.error (Error.config_error
          "Bootstrapping keys have not been generated. Please call BTKeyGen before calling bootstrapping."),
          { s with nextPtr := s.nextPtr + 1 })) ∧
      (∀ gate (ct1 ct2 : LWECiphertext), ct1.ptr ≠ ct2.ptr → ct1.ptr < s.nextPtr →
        ct2.ptr < s.nextPtr → ct2.obj.a.modulus = ct1.obj.a.modulus →
        ct2.obj.a.data.length = ct1.obj.a.data.length →
        ∃ s1, EvalBinGate ext params gate EK ct1 ct2 s =
          (Except.error (Error.config_error
            "Bootstrapping keys have not been generated. Please call BTKeyGen before calling bootstrapping."),
            s1) ∧ s1.accCalls = s.accCalls ∧ s1.baseG = s.baseG)) := by
  refine ⟨?_, ?_, ?_⟩
  · intro gate ek ct
    rw [BootstrapGateCore_run]
    cases ek with
    | none => exact ⟨⟨fun _ => rfl, fun _ => ⟨_, rfl⟩⟩, fun _ => rfl⟩
    | some key =>
      refine ⟨⟨?_, fun h => by cases h⟩, fun h => by cases h⟩
      rintro ⟨msg, h⟩
      cases h
  · intro ek ct f fmod
    rw [BootstrapFuncCore_run]
    cases ek with
    | none => exact ⟨⟨fun _ => rfl, fun _ => ⟨_, rfl⟩⟩, fun _ => rfl⟩
    | some key =>
      refine ⟨⟨?_, fun h => by cases h⟩, fun h => by cases h⟩
      rintro ⟨msg, h⟩
      cases h
  · intro hK
    refine ⟨?_, ?_, ?_⟩
    · intro ct
      rw [Bootstrap_run, hK]
    · intro ct beta roundbits hr
      exact EvalFloor_no_key ext params EK ct beta roundbits s hK hr
    · intro gate ct1 ct2 hne h1 h2 hm hl
      exact EvalBinGate_no_key ext params gate EK ct1 ct2 s hK hne h1 h2 hm hl

/-- C21, as stated, fails: with the accumulator key absent, `EvalBinGate` for the gate AND
on two distinct allocated handles whose ciphertexts differ in modulus (8 and 16), or in
length (2 and 3), raises the `math_error` of the vector sum, not `config_error`. -/
theorem EvalBinGate_absent_key_counterexample :
    EvalBinGate plainCollaborators smallParams BINGATE.AND ⟨none, []⟩ smallCt1
        ⟨1, ⟨⟨[5, 0], 16⟩, 2⟩⟩ smallMachine =
      (Except.error (Error.math_error
        "ModAddEq called on NativeVectorT's with different parameters."), smallMachine) ∧
    EvalBinGate plainCollaborators smallParams BINGATE.AND ⟨none, []⟩ smallCt1
        ⟨1, ⟨⟨[5, 0, 1], 8⟩, 2⟩⟩ smallMachine =
      (Except.error (Error.math_error
        "ModAddEq called on NativeVectorT's with different parameters."), smallMachine) := by
  constructor
  · rw [EvalBinGate_prim _ _ _ _ _ _ _ (by decide) (by decide)]
    rfl
  · rw [EvalBinGate_prim _ _ _ _ _ _ _ (by decide) (by decide)]
    rfl

theorem Bootstrap_config_error_witness :
    ∃ s1, EvalBinGate plainCollaborators smallParams BINGATE.XNOR ⟨none, []⟩ smallCt1 smallCt2
        smallMachine =
      (Except.error (Error.config_error
        "Bootstrapping keys have not been generated. Please call BTKeyGen before calling bootstrapping."),
        s1) ∧ s1.accCalls = smallMachine.accCalls ∧ s1.baseG = smallMachine.baseG :=
  ((Bootstrap_config_error plainCollaborators smallParams ⟨none, []⟩ smallMachine).2.2 rfl).2.2
    BINGATE.XNOR smallCt1 smallCt2 (by decide) (by decide) (by decide) rfl rfl

/-! ## Termination of the rescale loop -/

theorem rescale_lt (q beta mod : Nat) (hb : 2 * beta < q) (hm : q < mod) :
    mod / q * 2 * beta < mod := by
  have hq : 0 < q := by omega
  have hk : 0 < mod / q := Nat.div_pos (by omega) hq
  have h1 : mod / q * (2 * beta) < mod / q * q := Nat.mul_lt_mul_of_pos_left hb hk
  have h2 : mod / q * q ≤ mod := Nat.div_mul_le_self mod q
  have h3 : mod / q * 2 * beta = mod / q * (2 * beta) := by ring
  omega

theorem rescale_ge (q beta mod : Nat) (hq : 1 ≤ q) (hb : q ≤ 2 * beta) (hm : 2 * q ≤ mod) :
    2 * q ≤ mod / q * 2 * beta := by
  have hk : 2 ≤ mod / q := by
    rw [Nat.le_div_iff_mul_le (by omega)]
    omega
  have h1 : 2 * (2 * beta) ≤ mod / q * (2 * beta) := Nat.mul_le_mul_right _ hk
  have h3 : mod / q * 2 * beta = mod / q * (2 * beta) := by ring
  omega

theorem rescaleLoop_terminates (q beta : Nat) (hb : 2 * beta < q) :
    ∀ (fuel mod : Nat), mod ≤ fuel → rescaleLoop q beta fuel mod ≠ none := by
  intro fuel
  induction fuel with
  | zero =>
    intro mod hm
    unfold rescaleLoop
    rw [if_neg (by omega)]
    simp
  | succ fuel ih =>
    intro mod hm
    unfold rescaleLoop
    by_cases hc : mod > q
    · rw [if_pos hc]
      have := rescale_lt q beta mod hb hc
      exact ih _ (by omega)
    · rw [if_neg hc]
      simp

theorem rescaleLoop_diverges (q beta : Nat) (hq : 1 ≤ q) (hb : q ≤ 2 * beta) :
    ∀ (fuel mod : Nat), 2 * q ≤ mod → rescaleLoop q beta fuel mod = none := by
  intro fuel
  induction fuel with
  | zero =>
    intro mod hm
    unfold rescaleLoop
    rw [if_pos (by omega)]
  | succ fuel ih =>
    intro mod hm
    unfold rescaleLoop
    rw [if_pos (by omega)]
    exact ih _ (rescale_ge q beta mod hq hb hm)

/-- A loop whose body decreases a measure that is positive while the loop runs ends
within as many iterations as the measure says. -/
theorem whileLoop_terminates {σ : Type} (cond : σ → Bool) (body : σ → M σ) (mu : σ → Nat)
    (hpos : ∀ v, cond v = true → 0 < mu v)
    (hdec : ∀ v s v1 s1, cond v = true → body v s = (Except.ok v1, s1) → mu v1 < mu v) :
    ∀ (fuel : Nat) (v : σ) (s : Machine), mu v ≤ fuel → whileLoop cond body fuel v s ≠ none := by
  intro fuel
  induction fuel with
  | zero =>
    intro v s hm
    cases hc : cond v with
    | true =>
      have := hpos v hc
      omega
    | false =>
      rw [whileLoop_done _ _ _ _ _ hc]
      simp
  | succ fuel ih =>
    intro v s hm
    cases hc : cond v with
    | false =>
      rw [whileLoop_done _ _ _ _ _ hc]
      simp
    | true =>
      rw [whileLoop_step _ _ _ _ _ hc]
      cases hb : body v s with
      | mk o t =>
        cases o with
        | error e => simp
        | ok v1 =>
          simp only []
          have := hdec v s v1 t hc hb
          exact ih v1 t (by omega)

/-- A loop with an invariant under which the condition holds and the body returns
never ends. -/
theorem whileLoop_diverges {σ : Type} (cond : σ → Bool) (body : σ → M σ)
    (Inv : σ → Machine → Prop)
    (h : ∀ v s, Inv v s → cond v = true ∧
      ∃ v1 s1, body v s = (Except.ok v1, s1) ∧ Inv v1 s1) :
    ∀ (fuel : Nat) (v : σ) (s : Machine), Inv v s → whileLoop cond body fuel v s = none := by
  intro fuel
  induction fuel with
  | zero =>
    intro v s hinv
    exact whileLoop_zero _ _ _ _ (h v s hinv).1
  | succ fuel ih =>
    intro v s hinv
    obtain ⟨hc, v1, s1, hb, hinv1⟩ := h v s hinv
    rw [whileLoop_step _ _ _ _ _ hc, hb]
    exact ih v1 s1 hinv1

theorem EvalSign_body_mod (bootstrapFunc : BootstrapFuncT) (ext : Collaborators)
    (params : BinFHECryptoParams) (EKs : KeyMap) (curBase beta : Nat) (v : EvalSign.Vars)
    (s : Machine) (v1 : EvalSign.Vars) (s1 : Machine)
    (h : EvalSign.body bootstrapFunc ext params EKs curBase beta v s = (Except.ok v1, s1)) :
    v1.mod = v.mod / params.q * 2 * beta := by
  rw [EvalSign_body_run] at h
  split at h
  · cases h
  · split at h
    · cases h; rfl
    · split at h
      · cases h; rfl
      · cases h

theorem EvalDecomp_body_mod (bootstrapFunc : BootstrapFuncT) (ext : Collaborators)
    (params : BinFHECryptoParams) (EKs : KeyMap) (curBase beta : Nat) (v : EvalDecomp.Vars)
    (s : Machine) (v1 : EvalDecomp.Vars) (s1 : Machine)
    (h : EvalDecomp.body bootstrapFunc ext params EKs curBase beta v s = (Except.ok v1, s1)) :
    v1.mod = v.mod / params.q * 2 * beta := by
  rw [EvalDecomp_body_run] at h
  split at h
  · cases h
  · split at h
    · cases h; rfl
    · split at h
      · cases h; rfl
      · cases h

theorem EvalSign_terminates (bootstrapFunc : BootstrapFuncT) (ext : Collaborators)
    (params : BinFHECryptoParams) (EKs : KeyMap) (ct : LWECiphertextImpl) (beta fuel : Nat)
    (s : Machine) (hb : 2 * beta < params.q) (hf : ct.a.modulus ≤ fuel) :
    EvalSign bootstrapFunc ext params EKs ct beta fuel s ≠ none := by
  by_cases hmod : ct.a.modulus ≤ params.q
  · unfold EvalSign
    simp only []
    rw [if_pos hmod]
    simp
  · cases hK : EKs.lookup s.baseG with
    | none =>
      unfold EvalSign
      simp only []
      rw [if_neg hmod, hK]
      simp
    | some K =>
      rw [EvalSign_run _ _ _ _ _ _ _ _ K (by omega) hK]
      have hl := whileLoop_terminates (fun v : EvalSign.Vars => decide (v.mod > params.q))
        (EvalSign.body bootstrapFunc ext params EKs s.baseG beta) (fun v => v.mod)
        (by intro v hc; simp only [decide_eq_true_eq] at hc; show 0 < v.mod; omega)
        (by
          intro v t v1 t1 hc hbody
          simp only [decide_eq_true_eq] at hc
          show v1.mod < v.mod
          rw [EvalSign_body_mod _ _ _ _ _ _ _ _ _ _ hbody]
          exact rescale_lt params.q beta v.mod hb hc)
        fuel ⟨ct, ct.a.modulus, K⟩ s hf
      cases hw : whileLoop (fun v => decide (v.mod > params.q))
          (EvalSign.body bootstrapFunc ext params EKs s.baseG beta) fuel
          ⟨ct, ct.a.modulus, K⟩ s with
      | none => exact absurd hw hl
      | some p =>
        obtain ⟨o, t⟩ := p
        cases o <;> simp

theorem EvalDecomp_terminates (bootstrapFunc : BootstrapFuncT) (ext : Collaborators)
    (params : BinFHECryptoParams) (EKs : KeyMap) (ct : LWECiphertextImpl) (beta fuel : Nat)
    (s : Machine) (hb : 2 * beta < params.q) (hf : ct.a.modulus ≤ fuel) :
    EvalDecomp bootstrapFunc ext params EKs ct beta fuel s ≠ none := by
  by_cases hmod : ct.a.modulus ≤ params.q
  · unfold EvalDecomp
    simp only []
    rw [if_pos hmod]
    simp
  · cases hK : EKs.lookup s.baseG with
    | none =>
      unfold EvalDecomp
      simp only []
      rw [if_neg hmod, hK]
      simp
    | some K =>
      rw [EvalDecomp_run _ _ _ _ _ _ _ _ K (by omega) hK]
      have hl := whileLoop_terminates (fun v : EvalDecomp.Vars => decide (v.mod > params.q))
        (EvalDecomp.body bootstrapFunc ext params EKs s.baseG beta) (fun v => v.mod)
        (by intro v hc; simp only [decide_eq_true_eq] at hc; show 0 < v.mod; omega)
        (by
          intro v t v1 t1 hc hbody
          simp only [decide_eq_true_eq] at hc
          show v1.mod < v.mod
          rw [EvalDecomp_body_mod _ _ _ _ _ _ _ _ _ _ hbody]
          exact rescale_lt params.q beta v.mod hb hc)
        fuel ⟨ct, ct.a.modulus, K, []⟩ s hf
      cases hw : whileLoop (fun v => decide (v.mod > params.q))
          (EvalDecomp.body bootstrapFunc ext params EKs s.baseG beta) fuel
          ⟨ct, ct.a.modulus, K, []⟩ s with
      | none => exact absurd hw hl
      | some p =>
        obtain ⟨o, t⟩ := p
        cases o <;> simp

/-- With exact bootstraps `EvalFloor` returns on every ciphertext of positive
modulus. -/
theorem EvalFloor_ok (bootstrapFunc : BootstrapFuncT) (sk : List Nat) (n : Nat)
    (params : BinFHECryptoParams) (EK : RingGSWBTKey) (ct : LWECiphertextImpl)
    (beta roundbits : Nat) (s : Machine)
    (hbf : ExactBootstrap bootstrapFunc sk n) (hr : roundbits ≤ 30)
    (hM0 : 0 < ct.a.modulus) (hlen : ct.a.data.length = n) :
    ∃ (r : LWECiphertext) (s1 : Machine),
      EvalFloor bootstrapFunc params EK ct beta roundbits s = (Except.ok r, s1) ∧
      r.obj.a.modulus = ct.a.modulus ∧ r.obj.a.data.length = n := by
  have hm0 : (EvalAddConstEq ct beta).a.modulus = ct.a.modulus := rfl
  have hl0 : (EvalAddConstEq ct beta).a.data.length = n := hlen
  obtain ⟨r1, s1, hrun1, hmod1, hlen1, ha1, hb1, _⟩ :=
    hbf params EK ((EvalAddConstEq ct beta).SetModulus
        (if roundbits = 0 then params.q else beta * 2 * (1 <<< roundbits)))
      EvalFloor.f1 ct.a.modulus
      { s with nextPtr := s.nextPtr + 1 }
      (by rw [SetModulus_length]; exact hl0) hM0
  obtain ⟨d1, hrun2, hmod2, hlen2, _⟩ :=
    phase_EvalSubEq sk (EvalAddConstEq ct beta) r1.obj (by rw [hm0]; exact hM0)
      (by rw [hmod1, hm0]) (by rw [hlen1, hl0]) (by rw [hm0]; exact ha1) (by rw [hm0]; exact hb1)
  rw [hm0] at hmod2
  rw [hl0] at hlen2
  obtain ⟨r2, s2, hrun3, hmod3, hlen3, ha3, hb3, _⟩ :=
    hbf params EK (d1.SetModulus
        (if roundbits = 0 then params.q else beta * 2 * (1 <<< roundbits)))
      EvalFloor.f2 ct.a.modulus s1
      (by rw [SetModulus_length]; exact hlen2) hM0
  obtain ⟨d2, hrun4, hmod4, hlen4, _⟩ :=
    phase_EvalSubEq sk d1 r2.obj (by rw [hmod2]; exact hM0)
      (by rw [hmod3, hmod2]) (by rw [hlen3, hlen2]) (by rw [hmod2]; exact ha3)
      (by rw [hmod2]; exact hb3)
  rw [hmod2] at hmod4
  rw [hlen2] at hlen4
  refine ⟨⟨s.nextPtr, d2⟩, s2, ?_, hmod4, hlen4⟩
  unfold EvalFloor
  rw [if_neg (by omega)]
  simp only [M.bind_run, make_shared_run, liftExcept_run, M.pure_run, hrun1, hrun2,
    hrun3, hrun4]

theorem EvalSign_body_ok (bootstrapFunc : BootstrapFuncT) (ext : Collaborators)
    (sk : List Nat) (n : Nat) (params : BinFHECryptoParams) (EKs : KeyMap)
    (curBase beta : Nat) (hbf : ExactBootstrap bootstrapFunc sk n)
    (hms : ExactModSwitch ext sk n)
    (hkeys : EKs.length = 3 →
      (∃ K, EKs.lookup (2 ^ 27) = some K) ∧ ∃ K, EKs.lookup (2 ^ 18) = some K)
    (v : EvalSign.Vars) (s : Machine) (hpos : 0 < v.mod / params.q * 2 * beta)
    (hm : v.cttmp.a.modulus = v.mod) (hM0 : 0 < v.mod) (hlen : v.cttmp.a.data.length = n) :
    ∃ (v1 : EvalSign.Vars) (s1 : Machine),
      EvalSign.body bootstrapFunc ext params EKs curBase beta v s = (Except.ok v1, s1) ∧
      v1.mod = v.mod / params.q * 2 * beta ∧
      v1.cttmp.a.modulus = v1.mod ∧ v1.cttmp.a.data.length = n := by
  obtain ⟨r, s1, hrun, hrm, hrl⟩ := EvalFloor_ok bootstrapFunc sk n params v.curEK
    v.cttmp beta 0 s hbf (Nat.zero_le 30) (by omega) hlen
  obtain ⟨hsm, hsl, _⟩ := hms (v.mod / params.q * 2 * beta) r.obj hrl hpos
    (by rw [hrm]; omega)
  have hbody : ∃ (K : RingGSWBTKey) (s2 : Machine),
      EvalSign.body bootstrapFunc ext params EKs curBase beta v s =
        (Except.ok ⟨ext.ModSwitch (v.mod / params.q * 2 * beta) r.obj,
          v.mod / params.q * 2 * beta, K⟩, s2) := by
    rw [EvalSign_body_run, hrun]
    simp only []
    cases hsel : selectedBase EKs (v.mod / params.q * 2 * beta) with
    | none => exact ⟨_, _, rfl⟩
    | some base =>
      simp only []
      obtain ⟨_, h3, hbase⟩ := selectedBase_ne_zero EKs _ base hsel
      obtain ⟨⟨K1, hK1⟩, ⟨K2, hK2⟩⟩ := hkeys h3
      rcases hbase with hbase | hbase
      · rw [hbase, hK1]
        exact ⟨_, _, rfl⟩
      · rw [hbase, hK2]
        exact ⟨_, _, rfl⟩
  obtain ⟨K, s2, hbody⟩ := hbody
  exact ⟨_, s2, hbody, rfl, hsm, hsl⟩

theorem EvalDecomp_body_ok (bootstrapFunc : BootstrapFuncT) (ext : Collaborators)
    (sk : List Nat) (n : Nat) (params : BinFHECryptoParams) (EKs : KeyMap)
    (curBase beta : Nat) (hbf : ExactBootstrap bootstrapFunc sk n)
    (hms : ExactModSwitch ext sk n)
    (hkeys : EKs.length = 3 →
      (∃ K, EKs.lookup (2 ^ 27) = some K) ∧ ∃ K, EKs.lookup (2 ^ 18) = some K)
    (v : EvalDecomp.Vars) (s : Machine) (hpos : 0 < v.mod / params.q * 2 * beta)
    (hm : v.cttmp.a.modulus = v.mod) (hM0 : 0 < v.mod) (hlen : v.cttmp.a.data.length = n) :
    ∃ (v1 : EvalDecomp.Vars) (s1 : Machine),
      EvalDecomp.body bootstrapFunc ext params EKs curBase beta v s = (Except.ok v1, s1) ∧
      v1.mod = v.mod / params.q * 2 * beta ∧
      v1.cttmp.a.modulus = v1.mod ∧ v1.cttmp.a.data.length = n := by
  obtain ⟨r, s1, hrun, hrm, hrl⟩ := EvalFloor_ok bootstrapFunc sk n params v.curEK
    v.cttmp beta 0 { s with nextPtr := s.nextPtr + 1 } hbf (Nat.zero_le 30) (by omega) hlen
  obtain ⟨hsm, hsl, _⟩ := hms (v.mod / params.q * 2 * beta) r.obj hrl hpos
    (by rw [hrm]; omega)
  have hbody : ∃ (K : RingGSWBTKey) (s2 : Machine),
      EvalDecomp.body bootstrapFunc ext params EKs curBase beta v s =
        (Except.ok ⟨ext.ModSwitch (v.mod / params.q * 2 * beta) r.obj,
          v.mod / params.q * 2 * beta, K,
          v.ret ++ [⟨s.nextPtr, v.cttmp.SetModulus params.q⟩]⟩, s2) := by
    rw [EvalDecomp_body_run, hrun]
    simp only []
    cases hsel : selectedBase EKs (v.mod / params.q * 2 * beta) with
    | none => exact ⟨_, _, rfl⟩
    | some base =>
      simp only []
      obtain ⟨_, h3, hbase⟩ := selectedBase_ne_zero EKs _ base hsel
      obtain ⟨⟨K1, hK1⟩, ⟨K2, hK2⟩⟩ := hkeys h3
      rcases hbase with hbase | hbase
      · rw [hbase, hK1]
        exact ⟨_, _, rfl⟩
      · rw [hbase, hK2]
        exact ⟨_, _, rfl⟩
  obtain ⟨K, s2, hbody⟩ := hbody
  exact ⟨_, s2, hbody, rfl, hsm, hsl⟩

theorem EvalSign_diverges (bootstrapFunc : BootstrapFuncT) (ext : Collaborators)
    (sk : List Nat) (params : BinFHECryptoParams) (EKs : KeyMap) (ct : LWECiphertextImpl)
    (beta fuel : Nat) (s : Machine) (K : RingGSWBTKey)
    (hbf : ExactBootstrap bootstrapFunc sk ct.a.data.length)
    (hms : ExactModSwitch ext sk ct.a.data.length)
    (hkeys : EKs.length = 3 →
      (∃ K, EKs.lookup (2 ^ 27) = some K) ∧ ∃ K, EKs.lookup (2 ^ 18) = some K)
    (hK : EKs.lookup s.baseG = some K)
    (hq : 1 ≤ params.q) (hb : params.q ≤ 2 * beta) (hm : 2 * params.q ≤ ct.a.modulus) :
    EvalSign bootstrapFunc ext params EKs ct beta fuel s = none := by
  rw [EvalSign_run _ _ _ _ _ _ _ _ K (by omega) hK]
  have hl := whileLoop_diverges (fun v : EvalSign.Vars => decide (v.mod > params.q))
    (EvalSign.body bootstrapFunc ext params EKs s.baseG beta)
    (fun v _ => 2 * params.q ≤ v.mod ∧ v.cttmp.a.modulus = v.mod ∧
      v.cttmp.a.data.length = ct.a.data.length)
    (by
      intro v t hinv
      obtain ⟨h1, h2, h3⟩ := hinv
      have hge := rescale_ge params.q beta v.mod hq hb h1
      refine ⟨by simp only [decide_eq_true_eq]; omega, ?_⟩
      obtain ⟨v1, t1, hbody, e1, e2, e3⟩ := EvalSign_body_ok bootstrapFunc ext sk
        ct.a.data.length params EKs s.baseG beta hbf hms hkeys v t (by omega) h2 (by omega) h3
      exact ⟨v1, t1, hbody, by rw [e1]; exact hge, e2, e3⟩)
    fuel ⟨ct, ct.a.modulus, K⟩ s ⟨hm, rfl, rfl⟩
  rw [hl]

theorem EvalDecomp_diverges (bootstrapFunc : BootstrapFuncT) (ext : Collaborators)
    (sk : List Nat) (params : BinFHECryptoParams) (EKs : KeyMap) (ct : LWECiphertextImpl)
    (beta fuel : Nat) (s : Machine) (K : RingGSWBTKey)
    (hbf : ExactBootstrap bootstrapFunc sk ct.a.data.length)
    (hms : ExactModSwitch ext sk ct.a.data.length)
    (hkeys : EKs.length = 3 →
      (∃ K, EKs.lookup (2 ^ 27) = some K) ∧ ∃ K, EKs.lookup (2 ^ 18) = some K)
    (hK : EKs.lookup s.baseG = some K)
    (hq : 1 ≤ params.q) (hb : params.q ≤ 2 * beta) (hm : 2 * params.q ≤ ct.a.modulus) :
    EvalDecomp bootstrapFunc ext params EKs ct beta fuel s = none := by
  rw [EvalDecomp_run _ _ _ _ _ _ _ _ K (by omega) hK]
  have hl := whileLoop_diverges (fun v : EvalDecomp.Vars => decide (v.mod > params.q))
    (EvalDecomp.body bootstrapFunc ext params EKs s.baseG beta)
    (fun v _ => 2 * params.q ≤ v.mod ∧ v.cttmp.a.modulus = v.mod ∧
      v.cttmp.a.data.length = ct.a.data.length)
    (by
      intro v t hinv
      obtain ⟨h1, h2, h3⟩ := hinv
      have hge := rescale_ge params.q beta v.mod hq hb h1
      refine ⟨by simp only [decide_eq_true_eq]; omega, ?_⟩
      obtain ⟨v1, t1, hbody, e1, e2, e3⟩ := EvalDecomp_body_ok bootstrapFunc ext sk
        ct.a.data.length params EKs s.baseG beta hbf hms hkeys v t (by omega) h2 (by omega) h3
      exact ⟨v1, t1, hbody, by rw [e1]; exact hge, e2, e3⟩)
    fuel ⟨ct, ct.a.modulus, K, []⟩ s ⟨hm, rfl, rfl⟩
  rw [hl]

/-- C22: for a native modulus `q ≥ 1` and exact integer arithmetic: when
`2 * beta < q` the rescaled modulus `⌊mod/q⌋ * 2 * beta` is below `mod` for every
`mod > q`; the loop that rescales while `mod > q` ends from every starting modulus
`mod > q` exactly when `2 * beta < q`; when `2 * beta < q`, the loops of `EvalSign` and
`EvalDecomp` end (they return or raise) within as many iterations as the input modulus
says, for every bootstrap and key map; and when `q ≤ 2 * beta`, with exact bootstraps
and rescaling and the keys asked for in the map, they never end on an input of modulus
at least `2 * q`. -/
theorem rescale_terminates_iff (params : BinFHECryptoParams) (beta : Nat)
    (hq : 1 ≤ params.q) :
    (2 * beta < params.q → ∀ mod, params.q < mod → mod / params.q * 2 * beta < mod) ∧
    (2 * beta < params.q ↔
      ∀ mod, params.q < mod → ∃ fuel, rescaleLoop params.q beta fuel mod ≠ none) ∧
    (2 * beta < params.q →
      ∀ (bootstrapFunc : BootstrapFuncT) (ext : Collaborators) (EKs : KeyMap)
        (ct : LWECiphertextImpl) (s : Machine) (fuel : Nat), ct.a.modulus ≤ fuel →
        EvalSign bootstrapFunc ext params EKs ct beta fuel s ≠ none ∧
        EvalDecomp bootstrapFunc ext params EKs ct beta fuel s ≠ none) ∧
    (params.q ≤ 2 * beta →
      ∀ (bootstrapFunc : BootstrapFuncT) (ext : Collaborators) (sk : List Nat) (EKs : KeyMap)
        (ct : LWECiphertextImpl) (s : Machine) (K : RingGSWBTKey),
        ExactBootstrap bootstrapFunc sk ct.a.data.length →
        ExactModSwitch ext sk ct.a.data.length →
        (EKs.length = 3 →
          (∃ K, EKs.lookup (2 ^ 27) = some K) ∧ ∃ K, EKs.lookup (2 ^ 18) = some K) →
        EKs.lookup s.baseG = some K → 2 * params.q ≤ ct.a.modulus →
        ∀ fuel, EvalSign bootstrapFunc ext params EKs ct beta fuel s = none ∧
          EvalDecomp bootstrapFunc ext params EKs ct beta fuel s = none) := by
  refine ⟨fun hb mod hm => rescale_lt params.q beta mod hb hm, ⟨?_, ?_⟩, ?_, ?_⟩
  · intro hb mod _
    exact ⟨mod, rescaleLoop_terminates params.q beta hb mod mod (Nat.le_refl mod)⟩
  · intro h
    by_contra hb
    obtain ⟨fuel, hf⟩ := h (2 * params.q) (by omega)
    exact hf (rescaleLoop_diverges params.q beta hq (by omega) fuel (2 * params.q)
      (Nat.le_refl _))
  · intro hb bootstrapFunc ext EKs ct s fuel hf
    exact ⟨EvalSign_terminates bootstrapFunc ext params EKs ct beta fuel s hb hf,
      EvalDecomp_terminates bootstrapFunc ext params EKs ct beta fuel s hb hf⟩
  · intro hb bootstrapFunc ext sk EKs ct s K hbf hms hkeys hK hm fuel
    exact ⟨EvalSign_diverges bootstrapFunc ext sk params EKs ct beta fuel s K hbf hms hkeys hK
        hq hb hm,
      EvalDecomp_diverges bootstrapFunc ext sk params EKs ct beta fuel s K hbf hms hkeys hK
        hq hb hm⟩

theorem rescale_terminates_iff_witness :
    1 ≤ smallParams.q ∧ 16 / smallParams.q * 2 * 1 < 16 ∧
    (∀ fuel, EvalSign (idealBootstrapFunc [1, 0]) (exactCollaborators [1, 0]) smallParams
      staticKeys largeCt 4 fuel smallMachine = none ∧
      EvalDecomp (idealBootstrapFunc [1, 0]) (exactCollaborators [1, 0]) smallParams
      staticKeys largeCt 4 fuel smallMachine = none) :=
  ⟨by decide,
    (rescale_terminates_iff smallParams 1 (by decide)).1 (by decide) 16 (by decide),
    (rescale_terminates_iff smallParams 4 (by decide)).2.2.2 (by decide)
      (idealBootstrapFunc [1, 0]) (exactCollaborators [1, 0]) [1, 0] staticKeys largeCt
      smallMachine smallKey (idealBootstrapFunc_exact [1, 0] 2) (exactModSwitch_exact [1, 0] 2)
      (by intro h; exact absurd h (by decide)) rfl (by decide)⟩

/-! ## Test vectors -/

/-- Every index `j * (2N/q)` with `j < q/2` is below `N` when the stride is not 0. -/
theorem stride_index_lt (N q j : Nat) (hf : 0 < 2 * N / q) (hj : j < q / 2) :
    j * (2 * N / q) < N := by
  have h1 : q * (2 * N / q) ≤ 2 * N := Nat.mul_div_le (2 * N) q
  have h2 : 2 * (j + 1) ≤ q := by omega
  have h3 : 2 * (j + 1) * (2 * N / q) ≤ q * (2 * N / q) := Nat.mul_le_mul_right _ h2
  have h4 : 2 * (j + 1) * (2 * N / q) = 2 * (j * (2 * N / q)) + 2 * (2 * N / q) := by ring
  omega

theorem foldl_set_getD_other (g : Nat → Nat) (factor : Nat) (n : Nat) (init : List Nat)
    (i : Nat) (h : ∀ j, j < n → i ≠ j * factor) :
    ((List.range n).foldl (fun m j => m.set (j * factor) (g j)) init).getD i 0
      = init.getD i 0 := by
  induction n with
  | zero => rfl
  | succ n ih =>
    rw [List.range_succ, List.foldl_append]
    simp only [List.foldl_cons, List.foldl_nil]
    have hne : n * factor ≠ i := fun e => h n (Nat.lt_succ_self n) e.symm
    rw [List.getD_eq_getElem?_getD, List.getElem?_set_ne hne, ← List.getD_eq_getElem?_getD]
    exact ih (fun j hj => h j (Nat.lt_succ_of_lt hj))

theorem funcTestVector_eq (params : BinFHECryptoParams) (ct : LWECiphertextImpl)
    (f : Nat → Nat → Nat → Nat) (fmod : Nat) :
    funcTestVector params ct f fmod
      = (List.range (ct.a.modulus >>> 1)).foldl
          (fun m j => m.set (j * (2 * params.N / ct.a.modulus))
            (params.Q / fmod * f (ModSub ct.b j ct.a.modulus) ct.a.modulus fmod))
          (List.replicate params.N 0) := rfl

theorem gateTestVector_length (params : BinFHECryptoParams) (gate : BINGATE)
    (ct : LWECiphertextImpl) : (gateTestVector params gate ct).length = params.N := by
  rw [gateTestVector_eq, foldl_set_length, List.length_replicate]

theorem funcTestVector_length (params : BinFHECryptoParams) (ct : LWECiphertextImpl)
    (f : Nat → Nat → Nat → Nat) (fmod : Nat) :
    (funcTestVector params ct f fmod).length = params.N := by
  rw [funcTestVector_eq, foldl_set_length, List.length_replicate]

/-- The coefficient the gate builder leaves at the index of the loop counter `j`. -/
theorem gateTestVector_getD (params : BinFHECryptoParams) (gate : BINGATE)
    (ct : LWECiphertextImpl) (j : Nat) (hf : 0 < 2 * params.N / ct.a.modulus)
    (hj : j < ct.a.modulus / 2) :
    (gateTestVector params gate ct).getD (j * (2 * params.N / ct.a.modulus)) 0
      = gateCoeff ct.a.modulus (params.gateConst gate) ct.b params.Q j := by
  rw [gateTestVector_eq]
  exact foldl_set_getD _ _ hf _ _ j (by rw [shiftRight_one]; exact hj)
    (by rw [List.length_replicate]; exact stride_index_lt _ _ _ hf hj)

/-- The coefficient the function builder leaves at the index of the loop counter `j`. -/
theorem funcTestVector_getD (params : BinFHECryptoParams) (ct : LWECiphertextImpl)
    (f : Nat → Nat → Nat → Nat) (fmod : Nat) (j : Nat)
    (hf : 0 < 2 * params.N / ct.a.modulus) (hj : j < ct.a.modulus / 2) :
    (funcTestVector params ct f fmod).getD (j * (2 * params.N / ct.a.modulus)) 0
      = params.Q / fmod * f (ModSub ct.b j ct.a.modulus) ct.a.modulus fmod := by
  rw [funcTestVector_eq]
  exact foldl_set_getD
    (fun j => params.Q / fmod * f (ModSub ct.b j ct.a.modulus) ct.a.modulus fmod) _ hf _ _ j
    (by rw [shiftRight_one]; exact hj)
    (by rw [List.length_replicate]; exact stride_index_lt _ _ _ hf hj)

theorem gateTestVector_other (params : BinFHECryptoParams) (gate : BINGATE)
    (ct : LWECiphertextImpl) (i : Nat)
    (h : ∀ j, j < ct.a.modulus / 2 → i ≠ j * (2 * params.N / ct.a.modulus)) :
    (gateTestVector params gate ct).getD i 0 = 0 := by
  rw [gateTestVector_eq, foldl_set_getD_other _ _ _ _ i
    (fun j hj => h j (by rw [shiftRight_one] at hj; exact hj))]
  simp only [List.getD_eq_getElem?_getD, List.getElem?_replicate]
  split <;> rfl

theorem funcTestVector_other (params : BinFHECryptoParams) (ct : LWECiphertextImpl)
    (f : Nat → Nat → Nat → Nat) (fmod : Nat) (i : Nat)
    (h : ∀ j, j < ct.a.modulus / 2 → i ≠ j * (2 * params.N / ct.a.modulus)) :
    (funcTestVector params ct f fmod).getD i 0 = 0 := by
  rw [funcTestVector_eq, foldl_set_getD_other
    (fun j => params.Q / fmod * f (ModSub ct.b j ct.a.modulus) ct.a.modulus fmod) _ _ _ i
    (fun j hj => h j (by rw [shiftRight_one] at hj; exact hj))]
  simp only [List.getD_eq_getElem?_getD, List.getElem?_replicate]
  split <;> rfl

/-- The value written for `j` in terms of the acceptance interval. -/
theorem gateCoeff_acceptance (q q1 b Q j : Nat) :
    gateCoeff q q1 b Q j
      = if acceptance q1 (ModAddFast q1 (q / 2) q) (ModSub b j q)
        then Q - (Q / 8 + 1) else Q / 8 + 1 := by
  unfold gateCoeff acceptance
  rw [shiftRight_one]
  split_ifs <;> first | rfl | omega

/-- C23 (amended): in the gate test vector built by `BootstrapGateCore`, when the stride
`⌊2N/q⌋` is at least 1, for every `j` in `[0, q/2)` the coefficient at index
`j * ⌊2N/q⌋` is `Q - (⌊Q/8⌋ + 1)` if `(b - j) mod q` falls inside the acceptance
interval `[q1, q2)` modulo `q` (wrapping if `q1 ≥ q2`), and `⌊Q/8⌋ + 1` otherwise. -/
theorem gateTestVector_coeff (params : BinFHECryptoParams) (gate : BINGATE)
    (ct : LWECiphertextImpl) (j : Nat) (hf : 1 ≤ 2 * params.N / ct.a.modulus)
    (hj : j < ct.a.modulus / 2) :
    (gateTestVector params gate ct).getD (j * (2 * params.N / ct.a.modulus)) 0
      = if acceptance (params.gateConst gate)
            (ModAddFast (params.gateConst gate) (ct.a.modulus / 2) ct.a.modulus)
            (ModSub ct.b j ct.a.modulus)
        then params.Q - (params.Q / 8 + 1) else params.Q / 8 + 1 := by
  rw [gateTestVector_getD params gate ct j hf hj, gateCoeff_acceptance]

theorem gateTestVector_coeff_witness :
    (gateTestVector smallParams BINGATE.OR ⟨⟨[1, 2], 8⟩, 3⟩).getD (1 * (2 * 8 / 8)) 0
      = if acceptance 5 (ModAddFast 5 (8 / 2) 8) (ModSub 3 1 8)
        then 97 - (97 / 8 + 1) else 97 / 8 + 1 :=
  gateTestVector_coeff smallParams BINGATE.OR ⟨⟨[1, 2], 8⟩, 3⟩ 1 (by decide) (by decide)

/-- C23, the claim as worded fails: for the gate AND of the small parameters
(`q1 = 7`, `q2 = 3`, wrapping) and `b = 0`, `j = 0` the value `(b - j) mod q = 0` is inside
the interval and the coefficient is `Q - (⌊Q/8⌋ + 1) = 84`, not `⌊Q/8⌋ + 1 = 13`; for
the gate NOR (`q1 = 1`, `q2 = 5`) and `b = 0`, `j = 0` the value is outside and the
coefficient is `13`, not `84`. -/
theorem gateTestVector_sign_counterexample :
    (acceptance (smallParams.gateConst BINGATE.AND)
        (ModAddFast (smallParams.gateConst BINGATE.AND) (8 / 2) 8) (ModSub 0 0 8) ∧
      (gateTestVector smallParams BINGATE.AND ⟨⟨[1, 2], 8⟩, 0⟩).getD (0 * (2 * 8 / 8)) 0 = 84 ∧
      smallParams.Q - (smallParams.Q / 8 + 1) = 84 ∧ smallParams.Q / 8 + 1 = 13) ∧
    (¬ acceptance (smallParams.gateConst BINGATE.NOR)
        (ModAddFast (smallParams.gateConst BINGATE.NOR) (8 / 2) 8) (ModSub 0 0 8) ∧
      (gateTestVector smallParams BINGATE.NOR ⟨⟨[1, 2], 8⟩, 0⟩).getD (0 * (2 * 8 / 8)) 0 = 13) := by
  decide

/-- C24: for every even ciphertext modulus `q ≥ 2` that divides `2N` (and ring
dimension `N ≥ 1`), both test vectors have length `N`; the indices `j * (2N/q)` for
`j` in `[0, q/2)` are below `N` and pairwise distinct; an index below `N` is a multiple of
the stride `2N/q` exactly when it is one of them; each of them holds the value written
for its `j` (so `q/2` coefficients are written and none is overwritten); every other
coefficient is 0. -/
theorem testVector_sparse (params : BinFHECryptoParams) (gate : BINGATE)
    (ct : LWECiphertextImpl) (f : Nat → Nat → Nat → Nat) (fmod : Nat)
    (hN : 1 ≤ params.N) (h2 : 2 ≤ ct.a.modulus) (hev : 2 ∣ ct.a.modulus)
    (hdiv : ct.a.modulus ∣ 2 * params.N) :
    (gateTestVector params gate ct).length = params.N ∧
    (funcTestVector params ct f fmod).length = params.N ∧
    (∀ j, j < ct.a.modulus / 2 → j * (2 * params.N / ct.a.modulus) < params.N) ∧
    (∀ j k, j < ct.a.modulus / 2 → k < ct.a.modulus / 2 →
      j * (2 * params.N / ct.a.modulus) = k * (2 * params.N / ct.a.modulus) → j = k) ∧
    (∀ i, i < params.N →
      (2 * params.N / ct.a.modulus ∣ i ↔
        ∃ j, j < ct.a.modulus / 2 ∧ i = j * (2 * params.N / ct.a.modulus))) ∧
    (∀ j, j < ct.a.modulus / 2 →
      (gateTestVector params gate ct).getD (j * (2 * params.N / ct.a.modulus)) 0
        = gateCoeff ct.a.modulus (params.gateConst gate) ct.b params.Q j ∧
      (funcTestVector params ct f fmod).getD (j * (2 * params.N / ct.a.modulus)) 0
        = params.Q / fmod * f (ModSub ct.b j ct.a.modulus) ct.a.modulus fmod) ∧
    (∀ i, (∀ j, j < ct.a.modulus / 2 → i ≠ j * (2 * params.N / ct.a.modulus)) →
      (gateTestVector params gate ct).getD i 0 = 0 ∧
      (funcTestVector params ct f fmod).getD i 0 = 0) := by
  obtain ⟨c, hc⟩ := hdiv
  obtain ⟨h, hh⟩ := hev
  have hq0 : 0 < ct.a.modulus := by omega
  have hst : 2 * params.N / ct.a.modulus = c := by
    rw [hc]; exact Nat.mul_div_cancel_left c hq0
  have hhalf : ct.a.modulus / 2 = h := by omega
  have hNc : params.N = h * c := by
    have : 2 * params.N = 2 * (h * c) := by rw [hc, hh]; ring
    omega
  have hc0 : 0 < c := by
    rcases Nat.eq_zero_or_pos c with e | e
    · rw [e] at hNc; omega
    · exact e
  have hf : 0 < 2 * params.N / ct.a.modulus := by rw [hst]; exact hc0
  refine ⟨gateTestVector_length params gate ct, funcTestVector_length params ct f fmod,
    fun j hj => stride_index_lt _ _ _ hf hj, ?_, ?_, ?_, ?_⟩
  · intro j k _ _ e
    exact Nat.eq_of_mul_eq_mul_right hf e
  · intro i hi
    rw [hst, hhalf]
    constructor
    · rintro ⟨k, hk⟩
      refine ⟨k, ?_, by rw [hk]; ring⟩
      by_contra hge
      have : h * c ≤ k * c := Nat.mul_le_mul_right c (by omega)
      have : i = k * c := by rw [hk]; ring
      omega
    · rintro ⟨j, _, e⟩
      exact ⟨j, by rw [e]; ring⟩
  · intro j hj
    exact ⟨gateTestVector_getD params gate ct j hf hj,
      funcTestVector_getD params ct f fmod j hf hj⟩
  · intro i hi
    exact ⟨gateTestVector_other params gate ct i hi, funcTestVector_other params ct f fmod i hi⟩

theorem testVector_sparse_witness :
    gateTestVector smallParams BINGATE.AND ⟨⟨[1, 2], 8⟩, 3⟩ = [13, 0, 84, 0, 84, 0, 84, 0] ∧
    funcTestVector smallParams ⟨⟨[1, 2], 8⟩, 5⟩ EvalFunc.f0 8 = [24, 0, 24, 0, 72, 0, 72, 0] ∧
    (∀ i, i < smallParams.N → (2 * smallParams.N / 8 ∣ i ↔
        ∃ j, j < 8 / 2 ∧ i = j * (2 * smallParams.N / 8))) :=
  ⟨by decide, by decide,
    (testVector_sparse smallParams BINGATE.AND ⟨⟨[1, 2], 8⟩, 3⟩ EvalFunc.f0 8
      (by decide) (by decide) (by decide) (by decide)).2.2.2.2.1⟩

/-- C25 (amended): for every function `f`, output modulus `fmod ≥ 1` and ciphertext with
scalar `b` and modulus `ctMod` such that the stride `⌊2N/ctMod⌋` is at least 1 (that is,
`1 ≤ ctMod ≤ 2N`), the function test vector built by `BootstrapFuncCore` has, for
every `j` in `[0, ⌊ctMod/2⌋)`, the coefficient at index `j * ⌊2N/ctMod⌋` equal to
`⌊Q/fmod⌋ * f((b - j) mod ctMod, ctMod, fmod)`. -/
theorem funcTestVector_coeff (params : BinFHECryptoParams) (ct : LWECiphertextImpl)
    (f : Nat → Nat → Nat → Nat) (fmod : Nat) (j : Nat) (_hfmod : 1 ≤ fmod)
    (hf : 1 ≤ 2 * params.N / ct.a.modulus) (hj : j < ct.a.modulus / 2) :
    (funcTestVector params ct f fmod).getD (j * (2 * params.N / ct.a.modulus)) 0
      = params.Q / fmod * f (ModSub ct.b j ct.a.modulus) ct.a.modulus fmod :=
  funcTestVector_getD params ct f fmod j hf hj

theorem funcTestVector_coeff_witness :
    (funcTestVector smallParams ⟨⟨[1, 2], 8⟩, 3⟩ EvalFunc.f0 8).getD (1 * (2 * 8 / 8)) 0
      = 97 / 8 * EvalFunc.f0 (ModSub 3 1 8) 8 8 :=
  funcTestVector_coeff smallParams ⟨⟨[1, 2], 8⟩, 3⟩ EvalFunc.f0 8 1 (by decide) (by decide)
    (by decide)

/-- C25, the claim as worded fails: with `N = 8` and a ciphertext of modulus 32 the
stride `⌊16/32⌋` is 0, all sixteen writes go to index 0 and the last one (`j = 15`)
stays: the coefficient at index `0 * 0` is `⌊97/32⌋ * f0(17, 32, 32) = 24`, not
`⌊97/32⌋ * f0(0, 32, 32) = 72`. -/
theorem funcTestVector_stride_counterexample :
    (1 : Nat) ≤ 32 ∧ 0 < 32 / 2 ∧
    (funcTestVector smallParams ⟨⟨[1, 2], 32⟩, 0⟩ EvalFunc.f0 32).getD
      (0 * (2 * smallParams.N / 32)) 0 = 24 ∧
    smallParams.Q / 32 * EvalFunc.f0 (ModSub 0 0 32) 32 32 = 72 := by
  decide

/-! ## The chain after the blind rotation -/

/-- The primitive path of `EvalBinGate` on a present key, once the combine has
returned. -/
theorem EvalBinGate_chain (ext : Collaborators) (params : BinFHECryptoParams)
    (gate : BINGATE) (EK : RingGSWBTKey) (key : List Nat) (ct1 ct2 : LWECiphertext)
    (ctprep : LWECiphertextImpl) (s : Machine) (hK : EK.BSkey = some key)
    (hne : ct1.ptr ≠ ct2.ptr) (hg : ¬(gate = BINGATE.XOR ∨ gate = BINGATE.XNOR))
    (hp : gatePrep gate ct1.obj ct2.obj = Except.ok ctprep) :
    EvalBinGate ext params gate EK ct1 ct2 s =
      (Except.ok ⟨s.nextPtr,
          postChain ext params EK (gateAcc ext params gate s.baseG key ctprep)
            ct1.obj.a.modulus⟩,
        { s with nextPtr := s.nextPtr + 1,
                 accCalls := s.accCalls ++
                  [⟨s.baseG, key, ⟨List.replicate params.N 0, gateTestVector params gate ctprep⟩,
                    ctprep.a⟩] }) := by
  rw [EvalBinGate_prim ext params gate EK ct1 ct2 s hne hg, gateObj_chain, hp, hK]
  rfl

theorem Bootstrap_chain (ext : Collaborators) (params : BinFHECryptoParams)
    (EK : RingGSWBTKey) (key : List Nat) (ct : LWECiphertextImpl) (s : Machine)
    (hK : EK.BSkey = some key) :
    (Bootstrap ext params EK ct s).1 =
      Except.ok ⟨s.nextPtr,
        postChain ext params EK
          (gateAcc ext params BINGATE.AND s.baseG key (EvalAddConstEq ct (ct.a.modulus >>> 2)))
          ct.a.modulus⟩ := by
  rw [Bootstrap_run, hK]
  rfl

theorem BootstrapFunc_plainChain (ext : Collaborators) (params : BinFHECryptoParams)
    (EK : RingGSWBTKey) (key : List Nat) (ct : LWECiphertextImpl)
    (f : Nat → Nat → Nat → Nat) (fmod : Nat) (s : Machine) (hK : EK.BSkey = some key) :
    (BootstrapFunc ext params EK ct f fmod s).1 =
      Except.ok ⟨s.nextPtr,
        plainChain ext params EK (funcAcc ext params s.baseG key ct f fmod) fmod⟩ := by
  rw [BootstrapFunc_run, hK]
  rfl

/-- C26 (amended): with the accumulator key present, the primitive path of `EvalBinGate`
(once its combine has returned) and `Bootstrap` return the chain with the offset
`⌊Q/8⌋ + 1` (`postChain`) of their rotated accumulator and output modulus, so that
the same rotated accumulator and output modulus give the same ciphertext in both;
`BootstrapFunc` returns the chain without the offset (`plainChain`). -/
theorem bootstrap_chains (ext : Collaborators) (params : BinFHECryptoParams)
    (EK : RingGSWBTKey) (key : List Nat) (hK : EK.BSkey = some key) :
    (∀ (gate : BINGATE) (ct1 ct2 : LWECiphertext) (ctprep : LWECiphertextImpl) (s : Machine),
      ct1.ptr ≠ ct2.ptr → ¬(gate = BINGATE.XOR ∨ gate = BINGATE.XNOR) →
      gatePrep gate ct1.obj ct2.obj = Except.ok ctprep →
      (EvalBinGate ext params gate EK ct1 ct2 s).1 =
        Except.ok ⟨s.nextPtr,
          postChain ext params EK (gateAcc ext params gate s.baseG key ctprep)
            ct1.obj.a.modulus⟩) ∧
    (∀ (ct : LWECiphertextImpl) (s : Machine),
      (Bootstrap ext params EK ct s).1 =
        Except.ok ⟨s.nextPtr,
          postChain ext params EK
            (gateAcc ext params BINGATE.AND s.baseG key
              (EvalAddConstEq ct (ct.a.modulus >>> 2)))
            ct.a.modulus⟩) ∧
    (∀ (ct : LWECiphertextImpl) (f : Nat → Nat → Nat → Nat) (fmod : Nat) (s : Machine),
      (BootstrapFunc ext params EK ct f fmod s).1 =
        Except.ok ⟨s.nextPtr,
          plainChain ext params EK (funcAcc ext params s.baseG key ct f fmod) fmod⟩) := by
  refine ⟨?_, ?_, ?_⟩
  · intro gate ct1 ct2 ctprep s hne hg hp
    rw [EvalBinGate_chain ext params gate EK key ct1 ct2 ctprep s hK hne hg hp]
  · intro ct s
    exact Bootstrap_chain ext params EK key ct s hK
  · intro ct f fmod s
    exact BootstrapFunc_plainChain ext params EK key ct f fmod s hK

theorem bootstrap_chains_witness :
    (Bootstrap plainCollaborators smallParams smallKey smallCt1.obj smallMachine).1 =
      Except.ok ⟨smallMachine.nextPtr,
        postChain plainCollaborators smallParams smallKey
          (gateAcc plainCollaborators smallParams BINGATE.AND smallMachine.baseG [1, 0]
            (EvalAddConstEq smallCt1.obj (smallCt1.obj.a.modulus >>> 2)))
          smallCt1.obj.a.modulus⟩ :=
  (bootstrap_chains plainCollaborators smallParams smallKey [1, 0] rfl).2.1
    smallCt1.obj smallMachine

/-- C26, the claim as worded fails: with a blind rotation that returns the same rotated
accumulator (constant coefficient 84) to every caller and the output modulus 8 in all
three, `EvalBinGate` (AND) and `Bootstrap` return a ciphertext with `b = 0`, and
`BootstrapFunc` returns one with `b = 4`: it adds no offset. -/
theorem BootstrapFunc_chain_counterexample :
    (EvalBinGate (fixedAccCollaborators ⟨[3, 0, 0, 0, 0, 0, 0, 0], [84, 0, 0, 0, 0, 0, 0, 0]⟩)
        smallParams BINGATE.AND smallKey smallCt1 smallCt2 smallMachine).1
      = Except.ok ⟨2, ⟨⟨[3, 0, 0, 0, 0, 0, 0, 0], 8⟩, 0⟩⟩ ∧
    (Bootstrap (fixedAccCollaborators ⟨[3, 0, 0, 0, 0, 0, 0, 0], [84, 0, 0, 0, 0, 0, 0, 0]⟩)
        smallParams smallKey smallCt1.obj smallMachine).1
      = Except.ok ⟨2, ⟨⟨[3, 0, 0, 0, 0, 0, 0, 0], 8⟩, 0⟩⟩ ∧
    (BootstrapFunc (fixedAccCollaborators ⟨[3, 0, 0, 0, 0, 0, 0, 0], [84, 0, 0, 0, 0, 0, 0, 0]⟩)
        smallParams smallKey smallCt1.obj EvalFunc.f0 8 smallMachine).1
      = Except.ok ⟨2, ⟨⟨[3, 0, 0, 0, 0, 0, 0, 0], 8⟩, 4⟩⟩ ∧
    smallCt1.obj.a.modulus = 8 := by
  refine ⟨?_, rfl, rfl, rfl⟩
  rw [EvalBinGate_prim _ _ _ _ _ _ _ (by decide) (by decide)]
  rfl

theorem recenter_arith (Q : Nat) (hQ : 8 ≤ Q) :
    ModAddFast (Q / 8 + 1) (Q - (Q / 8 + 1)) Q = 0 ∧
    ModAddFast (Q / 8 + 1) (Q / 8 + 1) Q = 2 * (Q / 8) + 2 ∧ 2 * (Q / 8) + 2 < Q := by
  unfold ModAddFast
  refine ⟨?_, ?_, by omega⟩
  · rw [if_pos (by omega)]; omega
  · rw [if_neg (by omega)]; omega

/-- C27: for every `Q ≥ 8` and a present accumulator key, in `Bootstrap` and in the
primitive path of `EvalBinGate` a rotated constant coefficient equal to
`Q - (⌊Q/8⌋ + 1)` gives the extracted ciphertext `b = 0`, and one equal to
`⌊Q/8⌋ + 1` gives `b = 2 * ⌊Q/8⌋ + 2`, which is below `Q`; the rest of the chain
(modulus switch, key switch, modulus switch) runs on that ciphertext. -/
theorem offset_recenters (ext : Collaborators) (params : BinFHECryptoParams)
    (EK : RingGSWBTKey) (key : List Nat) (hK : EK.BSkey = some key) (hQ : 8 ≤ params.Q) :
    (∀ (ct : LWECiphertextImpl) (s : Machine),
      ((gateAcc ext params BINGATE.AND s.baseG key
          (EvalAddConstEq ct (ct.a.modulus >>> 2))).elem1.getD 0 0
          = params.Q - (params.Q / 8 + 1) →
        (Bootstrap ext params EK ct s).1 =
          Except.ok ⟨s.nextPtr, extractChain ext params EK
            (gateAcc ext params BINGATE.AND s.baseG key
              (EvalAddConstEq ct (ct.a.modulus >>> 2))).elem0 0 ct.a.modulus⟩) ∧
      ((gateAcc ext params BINGATE.AND s.baseG key
          (EvalAddConstEq ct (ct.a.modulus >>> 2))).elem1.getD 0 0
          = params.Q / 8 + 1 →
        (Bootstrap ext params EK ct s).1 =
          Except.ok ⟨s.nextPtr, extractChain ext params EK
            (gateAcc ext params BINGATE.AND s.baseG key
              (EvalAddConstEq ct (ct.a.modulus >>> 2))).elem0 (2 * (params.Q / 8) + 2)
            ct.a.modulus⟩)) ∧
    (∀ (gate : BINGATE) (ct1 ct2 : LWECiphertext) (ctprep : LWECiphertextImpl) (s : Machine),
      ct1.ptr ≠ ct2.ptr → ¬(gate = BINGATE.XOR ∨ gate = BINGATE.XNOR) →
      gatePrep gate ct1.obj ct2.obj = Except.ok ctprep →
      ((gateAcc ext params gate s.baseG key ctprep).elem1.getD 0 0
          = params.Q - (params.Q / 8 + 1) →
        (EvalBinGate ext params gate EK ct1 ct2 s).1 =
          Except.ok ⟨s.nextPtr, extractChain ext params EK
            (gateAcc ext params gate s.baseG key ctprep).elem0 0 ct1.obj.a.modulus⟩) ∧
      ((gateAcc ext params gate s.baseG key ctprep).elem1.getD 0 0 = params.Q / 8 + 1 →
        (EvalBinGate ext params gate EK ct1 ct2 s).1 =
          Except.ok ⟨s.nextPtr, extractChain ext params EK
            (gateAcc ext params gate s.baseG key ctprep).elem0 (2 * (params.Q / 8) + 2)
            ct1.obj.a.modulus⟩)) ∧
    2 * (params.Q / 8) + 2 < params.Q := by
  obtain ⟨e1, e2, e3⟩ := recenter_arith params.Q hQ
  refine ⟨?_, ?_, e3⟩
  · intro ct s
    rw [Bootstrap_chain ext params EK key ct s hK]
    unfold postChain
    constructor
    · intro h; rw [h, e1]
    · intro h; rw [h, e2]
  · intro gate ct1 ct2 ctprep s hne hg hp
    rw [EvalBinGate_chain ext params gate EK key ct1 ct2 ctprep s hK hne hg hp]
    unfold postChain
    constructor
    · intro h; rw [h, e1]
    · intro h; rw [h, e2]

theorem offset_recenters_witness :
    (fixedAccCollaborators ⟨[3, 0, 0, 0, 0, 0, 0, 0], [84, 0, 0, 0, 0, 0, 0, 0]⟩).EvalAcc
        smallParams 4 [1, 0] ⟨[], []⟩ ⟨[], 8⟩ = ⟨[3, 0, 0, 0, 0, 0, 0, 0], [84, 0, 0, 0, 0, 0, 0, 0]⟩ ∧
    (Bootstrap (fixedAccCollaborators ⟨[3, 0, 0, 0, 0, 0, 0, 0], [84, 0, 0, 0, 0, 0, 0, 0]⟩)
        smallParams smallKey smallCt1.obj smallMachine).1 =
      Except.ok ⟨2, extractChain
        (fixedAccCollaborators ⟨[3, 0, 0, 0, 0, 0, 0, 0], [84, 0, 0, 0, 0, 0, 0, 0]⟩)
        smallParams smallKey [3, 0, 0, 0, 0, 0, 0, 0] 0 8⟩ :=
  ⟨rfl,
    ((offset_recenters
      (fixedAccCollaborators ⟨[3, 0, 0, 0, 0, 0, 0, 0], [84, 0, 0, 0, 0, 0, 0, 0]⟩)
      smallParams smallKey [1, 0] rfl (by decide)).1 smallCt1.obj smallMachine).1 rfl⟩

theorem zipWith_congr_mem (f g : Nat → Nat → Nat) (P : Nat → Prop) (a b : List Nat)
    (ha : ∀ x ∈ a, P x) (hb : ∀ y ∈ b, P y) (h : ∀ x y, P x → P y → f x y = g x y) :
    List.zipWith f a b = List.zipWith g a b := by
  induction a generalizing b with
  | nil => rfl
  | cons x a ih =>
    cases b with
    | nil => rfl
    | cons y b =>
      simp only [List.zipWith_cons_cons]
      rw [h x y (ha x (List.mem_cons_self _ _)) (hb y (List.mem_cons_self _ _)),
        ih b (fun x hx => ha x (List.mem_cons_of_mem _ hx))
          (fun y hy => hb y (List.mem_cons_of_mem _ hy))]

theorem zipWith_self_zipWith (f g : Nat → Nat → Nat) (a b : List Nat) :
    List.zipWith f (List.zipWith g a b) (List.zipWith g a b)
      = List.zipWith (fun x y => f (g x y) (g x y)) a b := by
  induction a generalizing b with
  | nil => rfl
  | cons x a ih =>
    cases b with
    | nil => rfl
    | cons y b => simp only [List.zipWith_cons_cons, ih]

theorem add_arith (q x y : Nat) (hx : x < q) (hy : y < q) :
    ModAddFast x y q = (x + y) % q := by
  unfold ModAddFast
  split
  · exact (mod_eq_of_repr (x + y) q (x + y - q) 1 (by omega) (by omega)).symm
  · exact (Nat.mod_eq_of_lt (by omega)).symm

theorem sub_double_arith (q x y : Nat) (hx : x < q) (hy : y < q) :
    ModAddFast (ModSubFast x y q) (ModSubFast x y q) q = (2 * (x + q - y)) % q := by
  unfold ModAddFast ModSubFast
  split_ifs with h1 h2 h3
  · exact (mod_eq_of_repr _ q (x - y + (x - y) - q) 3 (by omega) (by omega)).symm
  · exact (mod_eq_of_repr _ q (x - y + (x - y)) 2 (by omega) (by omega)).symm
  · exact (mod_eq_of_repr _ q (x + q - y + (x + q - y) - q) 1 (by omega) (by omega)).symm
  · exact (mod_eq_of_repr _ q (x + q - y + (x + q - y)) 0 (by omega) (by omega)).symm

/-- On reduced ciphertexts of equal length and modulus the combine of the code is the
combine of the specification. -/
theorem gatePrep_preCombine (gate : BINGATE) (o1 o2 : LWECiphertextImpl)
    (hm : o2.a.modulus = o1.a.modulus) (hl : o2.a.data.length = o1.a.data.length)
    (h1 : ∀ v ∈ o1.a.data, v < o1.a.modulus) (h2 : ∀ v ∈ o2.a.data, v < o1.a.modulus)
    (hb1 : o1.b < o1.a.modulus) (hb2 : o2.b < o1.a.modulus) :
    gatePrep gate o1 o2 = Except.ok (preCombine gate o1 o2) := by
  unfold gatePrep preCombine
  by_cases hg : gate = BINGATE.XOR_FAST ∨ gate = BINGATE.XNOR_FAST
  · rw [if_pos hg, if_pos hg, EvalSubEq_ok o1 o2 hm hl]
    simp only []
    rw [EvalAddEq_ok _ _ rfl rfl]
    simp only []
    rw [zipWith_self_zipWith,
      zipWith_congr_mem _ (fun x y => (2 * (x + o1.a.modulus - y)) % o1.a.modulus)
        (fun v => v < o1.a.modulus) o1.a.data o2.a.data h1 h2
        (fun x y hx hy => sub_double_arith o1.a.modulus x y hx hy),
      sub_double_arith o1.a.modulus o1.b o2.b hb1 hb2]
  · rw [if_neg hg, if_neg hg, EvalAddEq_ok o1 o2 hm hl]
    rw [zipWith_congr_mem _ (fun x y => (x + y) % o1.a.modulus)
        (fun v => v < o1.a.modulus) o1.a.data o2.a.data h1 h2
        (fun x y hx hy => add_arith o1.a.modulus x y hx hy),
      add_arith o1.a.modulus o1.b o2.b hb1 hb2]

/-- C28: for every primitive gate and every pair of distinct handles to reduced
ciphertexts of equal length and modulus `q`, with the accumulator key present, the
ciphertext handed to the gate test-vector builder and to the blind rotation is
`preCombine`: componentwise modulo `q`, `2 * (ct1 - ct2)` for XOR_FAST and XNOR_FAST and
`ct1 + ct2` for AND, OR, NAND and NOR; the gate returns the last modulus switch, to
the modulus of `ct1`, and its result has that modulus when the external `ModSwitch`
returns the modulus asked for. -/
theorem EvalBinGate_combine (ext : Collaborators) (params : BinFHECryptoParams)
    (gate : BINGATE) (EK : RingGSWBTKey) (key : List Nat) (ct1 ct2 : LWECiphertext)
    (s : Machine) (hK : EK.BSkey = some key) (hne : ct1.ptr ≠ ct2.ptr)
    (hg : ¬(gate = BINGATE.XOR ∨ gate = BINGATE.XNOR))
    (hm : ct2.obj.a.modulus = ct1.obj.a.modulus)
    (hl : ct2.obj.a.data.length = ct1.obj.a.data.length)
    (h1 : ∀ v ∈ ct1.obj.a.data, v < ct1.obj.a.modulus)
    (h2 : ∀ v ∈ ct2.obj.a.data, v < ct1.obj.a.modulus)
    (hb1 : ct1.obj.b < ct1.obj.a.modulus) (hb2 : ct2.obj.b < ct1.obj.a.modulus) :
    gatePrep gate ct1.obj ct2.obj = Except.ok (preCombine gate ct1.obj ct2.obj) ∧
    (preCombine gate ct1.obj ct2.obj).a.modulus = ct1.obj.a.modulus ∧
    (preCombine gate ct1.obj ct2.obj).a.data.length = ct1.obj.a.data.length ∧
    EvalBinGate ext params gate EK ct1 ct2 s =
      (Except.ok ⟨s.nextPtr,
          ext.ModSwitch ct1.obj.a.modulus
            (ext.KeySwitch params EK.KSkey
              (ext.ModSwitch params.qKS
                ⟨⟨ext.Transpose params.Q
                    (gateAcc ext params gate s.baseG key
                      (preCombine gate ct1.obj ct2.obj)).elem0, params.Q⟩,
                  ModAddFast (params.Q / 8 + 1)
                    ((gateAcc ext params gate s.baseG key
                      (preCombine gate ct1.obj ct2.obj)).elem1.getD 0 0) params.Q⟩))⟩,
        { s with nextPtr := s.nextPtr + 1,
                 accCalls := s.accCalls ++
                  [⟨s.baseG, key,
                    ⟨List.replicate params.N 0,
                      gateTestVector params gate (preCombine gate ct1.obj ct2.obj)⟩,
                    (preCombine gate ct1.obj ct2.obj).a⟩] }) ∧
    ((∀ m x, (ext.ModSwitch m x).a.modulus = m) →
      ∃ r s1, EvalBinGate ext params gate EK ct1 ct2 s = (Except.ok r, s1) ∧
        r.obj.a.modulus = ct1.obj.a.modulus) := by
  have hp := gatePrep_preCombine gate ct1.obj ct2.obj hm hl h1 h2 hb1 hb2
  have hrun := EvalBinGate_chain ext params gate EK key ct1 ct2 _ s hK hne hg hp
  refine ⟨hp, ?_, ?_, hrun, ?_⟩
  · unfold preCombine
    split <;> rfl
  · unfold preCombine
    split <;> simp [hl]
  · intro hms
    exact ⟨_, _, hrun, hms _ _⟩

theorem EvalBinGate_combine_witness :
    gatePrep BINGATE.XOR_FAST smallCt1.obj smallCt2.obj = Except.ok ⟨⟨[0, 4], 8⟩, 2⟩ ∧
    preCombine BINGATE.XOR_FAST smallCt1.obj smallCt2.obj = ⟨⟨[0, 4], 8⟩, 2⟩ ∧
    preCombine BINGATE.AND smallCt1.obj smallCt2.obj = ⟨⟨[6, 2], 8⟩, 5⟩ ∧
    ∃ r s1, EvalBinGate plainCollaborators smallParams BINGATE.XOR_FAST smallKey smallCt1
        smallCt2 smallMachine = (Except.ok r, s1) ∧
      r.obj.a.modulus = smallCt1.obj.a.modulus :=
  ⟨rfl, by decide, by decide,
    (EvalBinGate_combine plainCollaborators smallParams BINGATE.XOR_FAST smallKey [1, 0]
      smallCt1 smallCt2 smallMachine rfl (by decide) (by decide) rfl rfl (by decide)
      (by decide) (by decide) (by decide)).2.2.2.2 (fun _ _ => rfl)⟩

/-! ## The closures handed to the function bootstrap -/

theorem getD_le_of_forall (l : List Nat) (B : Nat) (h : ∀ v ∈ l, v ≤ B) (i : Nat) :
    l.getD i 0 ≤ B := by
  rcases Nat.lt_or_ge i l.length with hi | hi
  · rw [List.getD_eq_getElem _ _ hi]
    exact h _ (List.getElem_mem hi)
  · rw [List.getD_eq_default _ _ hi]
    exact Nat.zero_le B

theorem getD_lt_of_forall (l : List Nat) (B : Nat) (hB : 0 < B) (h : ∀ v ∈ l, v < B)
    (i : Nat) : l.getD i 0 < B := by
  rcases Nat.lt_or_ge i l.length with hi | hi
  · rw [List.getD_eq_getElem _ _ hi]
    exact h _ (List.getElem_mem hi)
  · rw [List.getD_eq_default _ _ hi]
    exact hB

/-- The ranges of the closures that hold for every table with entries below `Q`. -/
theorem closures_range (q Q x : Nat) (LUT : List Nat) (hq : 4 ≤ q) (hQ : q ≤ Q)
    (hx : x < q) (hL : ∀ v ∈ LUT, v < Q) :
    EvalFunc.f0 x q Q < Q ∧ EvalFloor.f1 x q Q < Q ∧ EvalFloor.f2 x q Q < Q ∧
    EvalSign.f3 x q Q < Q ∧ EvalDecomp.f3 x q Q < Q ∧ EvalFunc.fLUT LUT x q Q < Q ∧
    EvalFunc.fLUT1 LUT x q Q ≤ Q ∧ EvalFunc.fLUT2 LUT x q Q ≤ Q ∧
    (EvalFunc.fLUT1 LUT x q Q = Q ↔ q / 2 ≤ x ∧ LUT.getD (x - q / 2) 0 = 0) ∧
    (EvalFunc.fLUT2 LUT x q Q = Q ↔ q / 2 ≤ x ∧ LUT.getD (x - q / 2) 0 = 0) := by
  have g1 := getD_lt_of_forall LUT Q (by omega) hL x
  have g2 := getD_lt_of_forall LUT Q (by omega) hL (x - q / 2)
  unfold EvalFunc.f0 EvalFloor.f1 EvalFloor.f2 EvalSign.f3 EvalDecomp.f3 EvalFunc.fLUT
    EvalFunc.fLUT1 EvalFunc.fLUT2
  refine ⟨?_, ?_, ?_, ?_, ?_, g1, ?_, ?_, ?_, ?_⟩
  · split <;> omega
  · split <;> omega
  · split_ifs <;> omega
  · split <;> omega
  · split <;> omega
  · split <;> omega
  · split <;> omega
  · split <;> omega
  · split <;> omega

/-- C29: the fold-adjusted lookups `fLUT1` and `fLUT2` of `EvalFunc` return the output
modulus itself, which is outside `[0, Q)`, when the table entry they negate is 0: on
the periodic table `[0, 1, 0, 1]` with `q = Q = 4` and `x = 2`, and on the doubled table
of `[0, 1, 2, 3]` with `q = Q = 8` and `x = 4`.  These tables pass through `EvalFunc` to
these closures.  For `q ≥ 4`, `Q ≥ q`, `x < q` and entries below `Q` the other closures
(the fold steps `f0` and `f1`, the floor step `f2`, the sign step `f3`, the direct lookup)
return a value below `Q`, and the fold-adjusted lookups return a value that is at most
`Q` and equals `Q` exactly when `x ≥ q/2` and the entry at `x - q/2` is 0. -/
theorem fLUT1_returns_modulus :
    (EvalFunc.fLUT1 [0, 1, 0, 1] 2 4 4 = 4 ∧ checkInputFunction [0, 1, 0, 1] 4 = some 1 ∧
      (∀ v ∈ [0, 1, 0, 1], v < 4)) ∧
    (EvalFunc.fLUT2 ([0, 1, 2, 3] ++ [0, 1, 2, 3]) 4 8 8 = 8 ∧
      checkInputFunction [0, 1, 2, 3] 4 = some 2 ∧
      (∀ v ∈ [0, 1, 2, 3] ++ [0, 1, 2, 3], v < 8)) ∧
    (∀ (q Q x : Nat) (LUT : List Nat), 4 ≤ q → q ≤ Q → x < q → (∀ v ∈ LUT, v < Q) →
      EvalFunc.f0 x q Q < Q ∧ EvalFloor.f1 x q Q < Q ∧ EvalFloor.f2 x q Q < Q ∧
      EvalSign.f3 x q Q < Q ∧ EvalDecomp.f3 x q Q < Q ∧ EvalFunc.fLUT LUT x q Q < Q ∧
      EvalFunc.fLUT1 LUT x q Q ≤ Q ∧ EvalFunc.fLUT2 LUT x q Q ≤ Q ∧
      (EvalFunc.fLUT1 LUT x q Q = Q ↔ q / 2 ≤ x ∧ LUT.getD (x - q / 2) 0 = 0) ∧
      (EvalFunc.fLUT2 LUT x q Q = Q ↔ q / 2 ≤ x ∧ LUT.getD (x - q / 2) 0 = 0)) :=
  ⟨by decide, by decide, fun q Q x LUT hq hQ hx hL => closures_range q Q x LUT hq hQ hx hL⟩

theorem half_shift (q x : Nat) (h2 : 2 ∣ q) (hx : x < q) :
    (x + q / 2) % q = if x < q / 2 then x + q / 2 else x - q / 2 := by
  obtain ⟨h, hh⟩ := h2
  split
  · exact Nat.mod_eq_of_lt (by omega)
  · exact mod_eq_of_repr _ q (x - q / 2) 1 (by omega) (by omega)

/-- What the code 0 of `checkInputFunction` says about the pairs of the table. -/
theorem checkInputFunction_zero_pairs (lut : List Nat) (m : Nat) (hL : 2 ≤ lut.length)
    (h : checkInputFunction lut m = some 0) (i : Nat) (hi : i < lut.length / 2) :
    lut.getD i 0 = m - lut.getD (lut.length / 2 + i) 0 := by
  have h0 : 0 < lut.length := by omega
  have hh : lut.length / 2 < lut.length := by omega
  unfold checkInputFunction at h
  rw [List.getElem?_eq_getElem h0, List.getElem?_eq_getElem hh] at h
  simp only [] at h
  rw [pairLoop_eq lut _ 0 _ 1 (by omega), pairLoop_eq lut _ 1 _ 1 (by omega)] at h
  have e0 : lut.getD 0 0 = lut[0] := List.getD_eq_getElem _ _ h0
  have eh : lut.getD (lut.length / 2 + 0) 0 = lut[lut.length / 2] := by
    simpa using List.getD_eq_getElem lut 0 hh
  by_cases hc : lut[0] = m - lut[lut.length / 2]
  · rw [if_pos hc] at h
    by_cases hall : ∀ j, 1 ≤ j → j < 1 + (lut.length / 2 - 1) →
        lut.getD j 0 = m - lut.getD (lut.length / 2 + j) 0
    · rcases Nat.eq_zero_or_pos i with hi0 | hi0
      · subst hi0
        rw [e0, eh]
        exact hc
      · exact hall i hi0 (by omega)
    · rw [if_neg hall] at h
      simp at h
  · rw [if_neg hc] at h
    split at h
    · split at h <;> simp at h
    · simp at h

theorem negacyclic_fold (q Q x : Nat) (h4 : 4 ∣ q) (hQ : q ≤ Q) (hx : x < q) :
    negacyclicAt EvalFunc.f0 x q Q ∧ negacyclicAt EvalFloor.f1 x q Q ∧
    negacyclicAt EvalFloor.f2 x q Q ∧ negacyclicAt EvalSign.f3 x q Q ∧
    negacyclicAt EvalDecomp.f3 x q Q := by
  obtain ⟨d, hd⟩ := h4
  have hs := half_shift q x ⟨2 * d, by omega⟩ hx
  have key : ∀ a b : Nat, a + b = Q → (a + b) % Q = 0 := by
    intro a b e; rw [e]; exact Nat.mod_self Q
  unfold negacyclicAt EvalFunc.f0 EvalFloor.f1 EvalFloor.f2 EvalSign.f3 EvalDecomp.f3
  rw [hs]
  refine ⟨?_, ?_, ?_, ?_, ?_⟩
  · apply key; split_ifs <;> omega
  · apply key; split_ifs <;> omega
  · apply key; split_ifs <;> omega
  · apply key; split_ifs <;> omega
  · apply key; split_ifs <;> omega

theorem negacyclic_fLUT1 (q Q x : Nat) (LUT : List Nat) (h4 : 4 ∣ q) (hx : x < q)
    (hL : ∀ v ∈ LUT, v ≤ Q) :
    negacyclicAt (EvalFunc.fLUT1 LUT) x q Q ∧ negacyclicAt (EvalFunc.fLUT2 LUT) x q Q := by
  obtain ⟨d, hd⟩ := h4
  have hs := half_shift q x ⟨2 * d, by omega⟩ hx
  have key : ∀ a b : Nat, a + b = Q → (a + b) % Q = 0 := by
    intro a b e; rw [e]; exact Nat.mod_self Q
  unfold negacyclicAt EvalFunc.fLUT1 EvalFunc.fLUT2
  rw [hs]
  by_cases hlt : x < q / 2
  · have g := getD_le_of_forall LUT Q hL x
    have e : x + q / 2 - q / 2 = x := by omega
    simp only [if_pos hlt, if_neg (show ¬ (x + q / 2 < q / 2) by omega), e]
    exact ⟨key _ _ (by omega), key _ _ (by omega)⟩
  · have g := getD_le_of_forall LUT Q hL (x - q / 2)
    simp only [if_neg hlt, if_pos (show x - q / 2 < q / 2 by omega)]
    exact ⟨key _ _ (by omega), key _ _ (by omega)⟩

theorem negacyclic_fLUT (q x : Nat) (LUT : List Nat) (h4 : 4 ∣ q) (hx : x < q)
    (hlen : LUT.length = q) (hL : ∀ v ∈ LUT, v ≤ q)
    (hc : checkInputFunction LUT q = some 0) :
    negacyclicAt (EvalFunc.fLUT LUT) x q q := by
  obtain ⟨d, hd⟩ := h4
  have hs := half_shift q x ⟨2 * d, by omega⟩ hx
  have key : ∀ a b : Nat, a + b = q → (a + b) % q = 0 := by
    intro a b e; rw [e]; exact Nat.mod_self q
  unfold negacyclicAt EvalFunc.fLUT
  rw [hs]
  by_cases hlt : x < q / 2
  · have hp := checkInputFunction_zero_pairs LUT q (by omega) hc x (by rw [hlen]; exact hlt)
    have g := getD_le_of_forall LUT q hL (LUT.length / 2 + x)
    rw [if_pos hlt]
    apply key
    have e : x + q / 2 = LUT.length / 2 + x := by rw [hlen]; omega
    rw [e]
    omega
  · have hp := checkInputFunction_zero_pairs LUT q (by omega) hc (x - q / 2)
      (by rw [hlen]; omega)
    have g := getD_le_of_forall LUT q hL (LUT.length / 2 + (x - q / 2))
    have e : LUT.length / 2 + (x - q / 2) = x := by rw [hlen]; omega
    rw [e] at hp g
    rw [if_neg hlt]
    apply key
    omega

/-- C30, as stated, fails for tables with an entry above the output modulus: with `q = 4`
and `Q = 5` the fold-adjusted lookups on the table `[7]` give `7 + 0` at `x = 0`, which is
not 0 modulo 5; and the table `[0, 0, 9, 9]` of length `q = 4` is classified 0 by
`checkInputFunction`, while its direct lookup gives `0 + 9` at `x = 0`, which is not 0
modulo 4. -/
theorem closures_negacyclic_counterexample :
    ¬ negacyclicAt (EvalFunc.fLUT1 [7]) 0 4 5 ∧
    ¬ negacyclicAt (EvalFunc.fLUT2 [7]) 0 4 5 ∧
    checkInputFunction [0, 0, 9, 9] 4 = some 0 ∧
    ¬ negacyclicAt (EvalFunc.fLUT [0, 0, 9, 9]) 0 4 4 :=
  ⟨by decide, by decide, by decide, by decide⟩

/-- C30, amended: for every `q` with `4 ∣ q`, every `Q ≥ q` and every `x < q`,
`f(x, q, Q) + f((x + q/2) mod q, q, Q)` is 0 modulo `Q` for the fold steps `f0` and
`f1`, the floor step `f2`, the sign step `f3` of `EvalSign` and of `EvalDecomp`, the
fold-adjusted lookups `fLUT1` and `fLUT2` on every table with entries at most `Q`, and,
with `Q = q`, for the direct lookup on every table of length `q` with entries at most
`q` for which `checkInputFunction` returned 0. -/
theorem closures_negacyclic (q Q x : Nat) (h4 : 4 ∣ q) (hQ : q ≤ Q) (hx : x < q) :
    negacyclicAt EvalFunc.f0 x q Q ∧ negacyclicAt EvalFloor.f1 x q Q ∧
    negacyclicAt EvalFloor.f2 x q Q ∧ negacyclicAt EvalSign.f3 x q Q ∧
    negacyclicAt EvalDecomp.f3 x q Q ∧
    (∀ LUT : List Nat, (∀ v ∈ LUT, v ≤ Q) →
      negacyclicAt (EvalFunc.fLUT1 LUT) x q Q ∧ negacyclicAt (EvalFunc.fLUT2 LUT) x q Q) ∧
    (∀ LUT : List Nat, LUT.length = q → (∀ v ∈ LUT, v ≤ q) →
      checkInputFunction LUT q = some 0 → negacyclicAt (EvalFunc.fLUT LUT) x q q) := by
  obtain ⟨a, b, c, d, e⟩ := negacyclic_fold q Q x h4 hQ hx
  exact ⟨a, b, c, d, e, fun LUT hL => negacyclic_fLUT1 q Q x LUT h4 hx hL,
    fun LUT hlen hL hc => negacyclic_fLUT q x LUT h4 hx hlen hL hc⟩

theorem closures_negacyclic_witness :
    negacyclicAt EvalFloor.f2 5 8 16 ∧
    negacyclicAt (EvalFunc.fLUT1 [0, 1, 0, 1]) 2 4 4 ∧
    checkInputFunction [1, 2, 3, 2] 4 = some 0 ∧
    negacyclicAt (EvalFunc.fLUT [1, 2, 3, 2]) 3 4 4 :=
  ⟨(closures_negacyclic 8 16 5 (by decide) (by decide) (by decide)).2.2.1,
    ((closures_negacyclic 4 4 2 (by decide) (by decide) (by decide)).2.2.2.2.2.1
      [0, 1, 0, 1] (by decide)).1,
    by decide,
    (closures_negacyclic 4 4 3 (by decide) (by decide) (by decide)).2.2.2.2.2.2
      [1, 2, 3, 2] rfl (by decide) (by decide)⟩

/-! ## The two branches of the gate test vector -/

theorem ModSub_lt (b j q : Nat) (hq : 0 < q) : ModSub b j q < q := by
  unfold ModSub ModSubFast
  have h1 := Nat.mod_lt b hq
  have h2 := Nat.mod_lt j hq
  split <;> omega

theorem shifted_mod (q q1 t : Nat) (hq1 : q1 < q) (ht : t < q) :
    (t + q - q1) % q = if q1 ≤ t then t - q1 else t + q - q1 := by
  split
  · exact mod_eq_of_repr _ q (t - q1) 1 (by omega) (by omega)
  · exact Nat.mod_eq_of_lt (by omega)

/-- Both branches of the loop of `BootstrapGateCore` in one formula. -/
theorem gateCoeff_shifted (q q1 b Q j : Nat) (hq : 2 ≤ q) (hev : 2 ∣ q) (hq1 : q1 < q) :
    gateCoeff q q1 b Q j
      = if (ModSub b j q + q - q1) % q < q / 2 then Q - (Q / 8 + 1) else Q / 8 + 1 := by
  have ht := ModSub_lt b j q (by omega)
  rw [shifted_mod q q1 _ hq1 ht]
  obtain ⟨h, hh⟩ := hev
  unfold gateCoeff ModAddFast
  rw [shiftRight_one]
  generalize ModSub b j q = t at ht
  generalize Q - (Q / 8 + 1) = A
  generalize Q / 8 + 1 = B
  have hhalf : q / 2 = h := by omega
  rw [hhalf]
  split_ifs <;> first | rfl | omega

theorem filter_pair_length (p r : Nat → Bool) (l : List Nat)
    (h : ∀ x ∈ l, p x = !r x) :
    (l.filter p).length + (l.filter r).length = l.length := by
  induction l with
  | nil => rfl
  | cons x l ih =>
    have hx := h x (List.mem_cons_self _ _)
    have ih2 := ih (fun y hy => h y (List.mem_cons_of_mem _ hy))
    cases hr : r x with
    | true =>
      have hp : p x = false := by rw [hx, hr]; rfl
      simp only [List.filter_cons, hp, hr, List.length_cons]
      simp only [Bool.false_eq_true, if_false, if_true, List.length_cons]
      omega
    | false =>
      have hp : p x = true := by rw [hx, hr]; rfl
      simp only [List.filter_cons, hp, hr, List.length_cons]
      simp only [Bool.false_eq_true, if_false, if_true, List.length_cons]
      omega

/-- Of the residues modulo an even `q`, half lie in the half-turn that starts at `q1`. -/
theorem half_count (q q1 : Nat) (hev : 2 ∣ q) (hq1 : q1 < q) :
    ((List.range q).filter (fun t => decide ((t + q - q1) % q < q / 2))).length = q / 2 ∧
    ((List.range q).filter (fun t => decide (¬(t + q - q1) % q < q / 2))).length = q / 2 := by
  obtain ⟨h, hh⟩ := hev
  have hhalf : q / 2 = h := by omega
  have hqq : q = h + h := by omega
  have key : ∀ t, t < h →
      ((t + q - q1) % q < q / 2 ↔ ¬((h + t) + q - q1) % q < q / 2) := by
    intro t ht
    rw [shifted_mod q q1 t hq1 (by omega), shifted_mod q q1 (h + t) hq1 (by omega), hhalf]
    split_ifs <;> omega
  have hsplit : List.range q = List.range h ++ (List.range h).map (fun t => h + t) := by
    rw [hqq, List.range_add]
  have e1 := filter_pair_length
    (fun t => decide ((t + q - q1) % q < q / 2))
    (fun t => decide (((h + t) + q - q1) % q < q / 2)) (List.range h)
    (by
      intro t ht
      rw [List.mem_range] at ht
      have := key t ht
      by_cases hp : (t + q - q1) % q < q / 2
      · simp [hp, this.mp hp]
      · have hn : ((h + t) + q - q1) % q < q / 2 := by
          by_contra hc
          exact hp (this.mpr hc)
        simp [hp, hn])
  have e2 := filter_pair_length
    (fun t => decide (¬(t + q - q1) % q < q / 2))
    (fun t => decide (¬((h + t) + q - q1) % q < q / 2)) (List.range h)
    (by
      intro t ht
      rw [List.mem_range] at ht
      have := key t ht
      by_cases hp : (t + q - q1) % q < q / 2
      · simp [hp, this.mp hp]
      · have hn : ((h + t) + q - q1) % q < q / 2 := by
          by_contra hc
          exact hp (this.mpr hc)
        simp [hp, hn])
  rw [List.length_range, hhalf] at e1 e2
  rw [hsplit, List.filter_append, List.filter_append, List.length_append, List.length_append,
    List.filter_map, List.filter_map, List.length_map, List.length_map, hhalf]
  exact ⟨e1, e2⟩

theorem gateCoeff_sum (q q1 b Q j b2 j2 : Nat) (hq : 2 ≤ q) (hev : 2 ∣ q) (hq1 : q1 < q)
    (hQ : 1 ≤ Q) (h2 : ModSub b2 j2 q = (ModSub b j q + q / 2) % q) :
    gateCoeff q q1 b Q j + gateCoeff q q1 b2 Q j2 = Q := by
  have ht := ModSub_lt b j q (by omega)
  have ht2 := ModSub_lt b2 j2 q (by omega)
  rw [gateCoeff_shifted q q1 b Q j hq hev hq1, gateCoeff_shifted q q1 b2 Q j2 hq hev hq1,
    shifted_mod q q1 _ hq1 ht, shifted_mod q q1 _ hq1 ht2]
  rw [half_shift q _ hev ht] at h2
  obtain ⟨h, hh⟩ := hev
  generalize ModSub b j q = t at ht h2
  generalize ModSub b2 j2 q = t2 at ht2 h2
  split_ifs at h2 ⊢ <;> omega

/-- C31: in `BootstrapGateCore`, for every even `q ≥ 2`, gate constant `q1 < q` and
`t = (b - j) mod q`, both branches of the loop write `Q - (⌊Q/8⌋ + 1)` exactly when
`(t - q1) mod q < q/2` and `⌊Q/8⌋ + 1` otherwise; `t` is a residue modulo `q`;
`q/2` of the residues modulo `q` satisfy the condition and `q/2` do not; and, for
`Q ≥ 1`, the values written for `t` and for `(t + q/2) mod q` sum to `Q`. -/
theorem gateCoeff_half_turn (q q1 b Q j : Nat) (hq : 2 ≤ q) (hev : 2 ∣ q) (hq1 : q1 < q) :
    gateCoeff q q1 b Q j
      = (if (ModSub b j q + q - q1) % q < q / 2 then Q - (Q / 8 + 1) else Q / 8 + 1) ∧
    ModSub b j q < q ∧
    ((List.range q).filter (fun t => decide ((t + q - q1) % q < q / 2))).length = q / 2 ∧
    ((List.range q).filter (fun t => decide (¬(t + q - q1) % q < q / 2))).length = q / 2 ∧
    (1 ≤ Q → ∀ b2 j2, ModSub b2 j2 q = (ModSub b j q + q / 2) % q →
      gateCoeff q q1 b Q j + gateCoeff q q1 b2 Q j2 = Q) :=
  ⟨gateCoeff_shifted q q1 b Q j hq hev hq1, ModSub_lt b j q (by omega),
    (half_count q q1 hev hq1).1, (half_count q q1 hev hq1).2,
    fun hQ b2 j2 h2 => gateCoeff_sum q q1 b Q j b2 j2 hq hev hq1 hQ h2⟩

theorem gateCoeff_half_turn_witness :
    gateCoeff 8 7 3 97 1 = 84 ∧ gateCoeff 8 7 7 97 1 = 13 ∧
    gateCoeff 8 7 3 97 1 + gateCoeff 8 7 7 97 1 = 97 :=
  ⟨by decide, by decide,
    (gateCoeff_half_turn 8 7 3 97 1 (by decide) (by decide) (by decide)).2.2.2.2 (by decide)
      7 1 (by decide)⟩

/-! ## NOT and the phase -/

/-- C32: for a ciphertext `(a, b)` with entries and `b` below the modulus `q` (so
`q ≥ 1`) and every secret vector `sk`, `EvalNOT` returns a ciphertext `(a', b')` with
`(b' - Σ a'[i] sk[i]) mod q = (⌊q/4⌋ - (b - Σ a[i] sk[i])) mod q`, over the integers. -/
theorem EvalNOT_phase (params : BinFHECryptoParams) (ct : LWECiphertextImpl) (s : Machine)
    (sk : List Nat) (ha : ∀ x ∈ ct.a.data, x < ct.a.modulus) (hb : ct.b < ct.a.modulus) :
    ∃ (r : LWECiphertext) (s1 : Machine), EvalNOT params ct s = (Except.ok r, s1) ∧
      ((r.obj.b : Int) - ((dot r.obj.a.data sk : Nat) : Int)) % (ct.a.modulus : Int)
        = (((ct.a.modulus / 4 : Nat) : Int) - ((ct.b : Int) - ((dot ct.a.data sk : Nat) : Int)))
            % (ct.a.modulus : Int) := by
  refine ⟨⟨s.nextPtr, notObj ct⟩, _, EvalNOT_run params ct s, ?_⟩
  obtain ⟨k2, hk2⟩ := dot_map_neg ct.a.modulus ct.a.data sk ha
  obtain ⟨j, hj⟩ := ModSubFast_cast (ct.a.modulus >>> 2) ct.b ct.a.modulus (by omega)
  show (((ModSubFast (ct.a.modulus >>> 2) ct.b ct.a.modulus : Nat) : Int)
    - ((dot (ct.a.data.map (fun x => if x = 0 then 0 else ct.a.modulus - x)) sk : Nat) : Int))
      % (ct.a.modulus : Int) = _
  rw [hk2, hj, shiftRight_two]
  have e : ((ct.a.modulus / 4 : Nat) : Int) - (ct.b : Int) + j * (ct.a.modulus : Int)
      - (-((dot ct.a.data sk : Nat) : Int) + k2 * (ct.a.modulus : Int))
      = (((ct.a.modulus / 4 : Nat) : Int) - ((ct.b : Int) - ((dot ct.a.data sk : Nat) : Int)))
        + (j - k2) * (ct.a.modulus : Int) := by ring
  rw [e, Int.add_mul_emod_self]

theorem EvalNOT_phase_witness :
    ∃ (r : LWECiphertext) (s1 : Machine),
      EvalNOT smallParams smallCt1.obj smallMachine = (Except.ok r, s1) ∧
      ((r.obj.b : Int) - ((dot r.obj.a.data [1, 0] : Nat) : Int)) % ((8 : Nat) : Int)
        = (((8 / 4 : Nat) : Int) - (((3 : Nat) : Int) - ((dot [1, 2] [1, 0] : Nat) : Int)))
            % ((8 : Nat) : Int) :=
  EvalNOT_phase smallParams smallCt1.obj smallMachine [1, 0] (by decide) (by decide)

theorem notObj_notObj (ct : LWECiphertextImpl) (ha : ∀ x ∈ ct.a.data, x < ct.a.modulus)
    (hb : ct.b < ct.a.modulus) : notObj (notObj ct) = ct := by
  have hdata : (ct.a.data.map (fun x => if x = 0 then 0 else ct.a.modulus - x)).map
      (fun x => if x = 0 then 0 else ct.a.modulus - x) = ct.a.data := by
    rw [List.map_map]
    conv_rhs => rw [← List.map_id ct.a.data]
    apply List.map_congr_left
    intro x hx
    have := ha x hx
    simp only [Function.comp, id]
    split_ifs <;> omega
  have hbb : ModSubFast (ct.a.modulus >>> 2) (ModSubFast (ct.a.modulus >>> 2) ct.b ct.a.modulus)
      ct.a.modulus = ct.b := by
    rw [shiftRight_two]
    unfold ModSubFast
    split_ifs <;> omega
  cases ct with
  | mk a b =>
    cases a with
    | mk data modulus =>
      unfold notObj
      simp only [] at hdata hbb ⊢
      rw [hdata, hbb]

/-- C33: for a ciphertext `(a, b)` with entries and `b` below the modulus `q` (so
`q ≥ 1`), `EvalNOT` applied to the result of `EvalNOT` returns the same vector `a`, the
same `b`, the same length and the same modulus as the input. -/
theorem EvalNOT_involution (params : BinFHECryptoParams) (ct : LWECiphertextImpl)
    (s : Machine) (ha : ∀ x ∈ ct.a.data, x < ct.a.modulus) (hb : ct.b < ct.a.modulus) :
    ∃ (r1 : LWECiphertext) (s1 : Machine) (r2 : LWECiphertext) (s2 : Machine),
      EvalNOT params ct s = (Except.ok r1, s1) ∧
      EvalNOT params r1.obj s1 = (Except.ok r2, s2) ∧
      r2.obj.a.data = ct.a.data ∧ r2.obj.b = ct.b ∧
      r2.obj.a.data.length = ct.a.data.length ∧ r2.obj.a.modulus = ct.a.modulus := by
  refine ⟨⟨s.nextPtr, notObj ct⟩, _, ⟨s.nextPtr + 1, notObj (notObj ct)⟩, _,
    EvalNOT_run params ct s, EvalNOT_run params _ _, ?_, ?_, ?_, ?_⟩
  all_goals simp only [notObj_notObj ct ha hb]

theorem EvalNOT_involution_witness :
    ∃ (r1 : LWECiphertext) (s1 : Machine) (r2 : LWECiphertext) (s2 : Machine),
      EvalNOT smallParams ⟨⟨[0, 3, 5], 8⟩, 7⟩ smallMachine = (Except.ok r1, s1) ∧
      EvalNOT smallParams r1.obj s1 = (Except.ok r2, s2) ∧
      r2.obj.a.data = [0, 3, 5] ∧ r2.obj.b = 7 ∧
      r2.obj.a.data.length = 3 ∧ r2.obj.a.modulus = 8 :=
  EvalNOT_involution smallParams ⟨⟨[0, 3, 5], 8⟩, 7⟩ smallMachine (by decide) (by decide)

/-! ## Table reads -/

theorem checkInputFunction_reads (lut : List Nat) (m : Nat) (hL : 1 ≤ lut.length) :
    ∃ c, checkInputFunction lut m = some c := by
  have h0 : 0 < lut.length := by omega
  have hh : lut.length / 2 < lut.length := by omega
  unfold checkInputFunction
  rw [List.getElem?_eq_getElem h0, List.getElem?_eq_getElem hh]
  simp only []
  rw [pairLoop_eq lut _ 0 _ 1 (by omega), pairLoop_eq lut _ 1 _ 1 (by omega)]
  split_ifs <;> exact ⟨_, rfl⟩

/-- C34: for a table `LUT` of length `q`, the reads of the closures of `EvalFunc` are
inside their table: the direct lookup for every `x < q`, the fold-adjusted lookup
on `LUT` with moduli `q` for every `x < q`, and the fold-adjusted lookup on `LUT ++ LUT`
with moduli `2q` for every `x < 2q`; the argument the bootstrap hands to its function
is below the modulus of the ciphertext; and `checkInputFunction` returns, having read
inside the table only, for every table of length at least 1. -/
theorem EvalFunc_reads_in_bounds (LUT : List Nat) (q x : Nat) (hlen : LUT.length = q) :
    (x < q → EvalFunc.fLUT_checked LUT x q q = some (EvalFunc.fLUT LUT x q q)) ∧
    (x < q → EvalFunc.fLUT1_checked LUT x q q = some (EvalFunc.fLUT1 LUT x q q)) ∧
    (x < q <<< 1 →
      (LUT ++ LUT).length = q <<< 1 ∧
      EvalFunc.fLUT2_checked (LUT ++ LUT) x (q <<< 1) (q <<< 1)
        = some (EvalFunc.fLUT2 (LUT ++ LUT) x (q <<< 1) (q <<< 1))) ∧
    (∀ (b j ctMod : Nat), 0 < ctMod → ModSub b j ctMod < ctMod) ∧
    (∀ (lut : List Nat) (m : Nat), 1 ≤ lut.length → ∃ c, checkInputFunction lut m = some c) := by
  refine ⟨?_, ?_, ?_, fun b j ctMod h => ModSub_lt b j ctMod h,
    fun lut m h => checkInputFunction_reads lut m h⟩
  · intro hx
    unfold EvalFunc.fLUT_checked EvalFunc.fLUT
    rw [List.getElem?_eq_getElem (by omega), List.getD_eq_getElem _ _ (by omega)]
  · intro hx
    unfold EvalFunc.fLUT1_checked EvalFunc.fLUT1
    split
    · rw [List.getElem?_eq_getElem (by omega), List.getD_eq_getElem _ _ (by omega)]
    · rw [List.getElem?_eq_getElem (by omega), List.getD_eq_getElem _ _ (by omega)]
      rfl
  · intro hx
    rw [shiftLeft_one] at hx ⊢
    have hl : (LUT ++ LUT).length = 2 * q := by rw [List.length_append]; omega
    refine ⟨hl, ?_⟩
    unfold EvalFunc.fLUT2_checked EvalFunc.fLUT2
    split
    · rw [List.getElem?_eq_getElem (by omega), List.getD_eq_getElem _ _ (by omega)]
    · rw [List.getElem?_eq_getElem (by omega), List.getD_eq_getElem _ _ (by omega)]
      rfl

theorem EvalFunc_reads_in_bounds_witness :
    EvalFunc.fLUT1_checked [0, 1, 0, 1] 3 4 4 = some (EvalFunc.fLUT1 [0, 1, 0, 1] 3 4 4) ∧
    EvalFunc.fLUT1_checked [0, 1, 0, 1] 7 4 4 = none :=
  ⟨(EvalFunc_reads_in_bounds [0, 1, 0, 1] 4 3 rfl).2.1 (by decide), by decide⟩

/-! ## The vector class: indexed addition -/

theorem updateHost_dirtyHost (v : NativeVectorT) : v.updateHost.m_dirtyHost = false := by
  unfold NativeVectorT.updateHost
  split
  · rfl
  · rename_i h
    simpa using h

theorem updateHost_dirtyVulkan (v : NativeVectorT) :
    v.updateHost.m_dirtyVulkan = v.m_dirtyVulkan := by
  unfold NativeVectorT.updateHost
  split <;> rfl

theorem updateHost_modulus (v : NativeVectorT) : v.updateHost.m_modulus = v.m_modulus := by
  unfold NativeVectorT.updateHost
  split <;> rfl

theorem updateHost_clean (v : NativeVectorT) (h : v.m_dirtyHost = false) :
    v.updateHost = v := by
  unfold NativeVectorT.updateHost
  rw [h]
  rfl

theorem updateVulkan_dirtyVulkan (v : NativeVectorT) : v.updateVulkan.m_dirtyVulkan = false := by
  unfold NativeVectorT.updateVulkan
  split
  · rfl
  · rename_i h
    simpa using h

theorem updateVulkan_dirtyHost (v : NativeVectorT) :
    v.updateVulkan.m_dirtyHost = v.m_dirtyHost := by
  unfold NativeVectorT.updateVulkan
  split <;> rfl

theorem updateVulkan_data (v : NativeVectorT) : v.updateVulkan.m_data = v.m_data := by
  unfold NativeVectorT.updateVulkan
  split <;> rfl

theorem updateVulkan_modulus (v : NativeVectorT) : v.updateVulkan.m_modulus = v.m_modulus := by
  unfold NativeVectorT.updateVulkan
  split <;> rfl

theorem copy_data (v : NativeVectorT) : v.copy.2.m_data = v.updateHost.m_data := by
  unfold NativeVectorT.copy
  exact updateVulkan_data _

theorem copy_updateHost (v : NativeVectorT) : v.copy.2.updateHost = v.copy.2 :=
  updateHost_clean _ rfl

theorem usint_pred (n : Nat) (h1 : 1 ≤ n) (h2 : n < 2 ^ 32) :
    (n % 2 ^ 32 + 2 ^ 32 - 1) % 2 ^ 32 = n - 1 := by
  rw [Nat.mod_eq_of_lt h2]
  exact mod_eq_of_repr _ _ (n - 1) 1 (by omega) (by omega)

theorem ModAdd_eq (x b m : Nat) (hm : 0 < m) : ModAdd x b m = (x + b) % m := by
  unfold ModAdd
  rw [add_arith m _ _ (Nat.mod_lt _ hm) (Nat.mod_lt _ hm), ← Nat.add_mod]

theorem ModAddAtIndex_run (v : NativeVectorT) (i b : Nat) :
    v.ModAddAtIndex i b =
      if i > (v.GetLength + 2 ^ 32 - 1) % 2 ^ 32 then
        Except.error (Error.math_error
          ("ubintnat::ModAddAtIndex. Index is out of range. i = " ++ toString i))
      else if i < v.updateHost.m_data.length then
        Except.ok (v.copy.1,
          { v.copy.2 with
            m_data := v.updateHost.m_data.set i (ModAdd (v.updateHost.m_data.getD i 0) b v.m_modulus),
            m_dirtyVulkan := true })
      else Except.error Error.out_of_bounds := by
  unfold NativeVectorT.ModAddAtIndex
  simp only [copy_updateHost, copy_data]

theorem ModAddAtIndex_empty (v : NativeVectorT) (i b : Nat) (msg : String)
    (he : v.m_data = []) (hi : i < 2 ^ 32) :
    v.ModAddAtIndex i b ≠ Except.error (Error.math_error msg) ∧
    v.ModAddAtIndexEq i b ≠ Except.error (Error.math_error msg) := by
  have hg : ¬ i > (v.GetLength + 2 ^ 32 - 1) % 2 ^ 32 := by
    unfold NativeVectorT.GetLength
    rw [he]
    simp only [List.length_nil, Nat.zero_mod, Nat.zero_add]
    omega
  constructor
  · rw [ModAddAtIndex_run, if_neg hg]
    split
    · intro h; cases h
    · intro h; cases h
  · unfold NativeVectorT.ModAddAtIndexEq
    rw [if_neg hg]
    simp only []
    split
    · intro h; cases h
    · intro h; cases h

theorem ModAddAtIndex_math_error (v : NativeVectorT) (i b : Nat) (h1 : 1 ≤ v.m_data.length)
    (h2 : v.m_data.length < 2 ^ 32) :
    ((∃ msg, v.ModAddAtIndex i b = Except.error (Error.math_error msg))
      ↔ v.m_data.length ≤ i) ∧
    ((∃ msg, v.ModAddAtIndexEq i b = Except.error (Error.math_error msg))
      ↔ v.m_data.length ≤ i) := by
  have hp : (v.GetLength + 2 ^ 32 - 1) % 2 ^ 32 = v.m_data.length - 1 := by
    unfold NativeVectorT.GetLength
    exact usint_pred _ h1 h2
  constructor
  · rw [ModAddAtIndex_run, hp]
    by_cases hi : i > v.m_data.length - 1
    · rw [if_pos hi]
      exact ⟨fun _ => by omega, fun _ => ⟨_, rfl⟩⟩
    · rw [if_neg hi]
      constructor
      · rintro ⟨msg, h⟩
        split at h <;> cases h
      · intro h
        omega
  · unfold NativeVectorT.ModAddAtIndexEq
    rw [hp]
    by_cases hi : i > v.m_data.length - 1
    · rw [if_pos hi]
      exact ⟨fun _ => by omega, fun _ => ⟨_, rfl⟩⟩
    · rw [if_neg hi]
      constructor
      · rintro ⟨msg, h⟩
        simp only [] at h
        split at h <;> cases h
      · intro h
        omega

theorem ModAddAtIndex_valid (v : NativeVectorT) (i b : Nat) (h2 : v.m_data.length < 2 ^ 32)
    (hi : i < v.m_data.length) (hs : v.updateHost.m_data.length = v.m_data.length) :
    (∃ src ans, v.ModAddAtIndex i b = Except.ok (src, ans) ∧
      ans.m_data = v.updateHost.m_data.set i
        (ModAdd (v.updateHost.m_data.getD i 0) b v.m_modulus)) ∧
    (∃ w, v.ModAddAtIndexEq i b = Except.ok w ∧
      w.m_data = v.updateHost.m_data.set i
        (ModAdd (v.updateHost.m_data.getD i 0) b v.m_modulus)) := by
  have hp : (v.GetLength + 2 ^ 32 - 1) % 2 ^ 32 = v.m_data.length - 1 := by
    unfold NativeVectorT.GetLength
    exact usint_pred _ (by omega) h2
  have hg : ¬ i > v.m_data.length - 1 := by omega
  constructor
  · rw [ModAddAtIndex_run, hp, if_neg hg, if_pos (by omega)]
    exact ⟨_, _, rfl, rfl⟩
  · unfold NativeVectorT.ModAddAtIndexEq
    rw [hp, if_neg hg]
    simp only []
    rw [if_pos (by omega), updateHost_modulus]
    exact ⟨_, rfl, rfl⟩

/-- C35: on an empty vector `ModAddAtIndex` and `ModAddAtIndexEq` raise no `math_error`
for any index, although no index is valid: `GetLength() - 1` wraps around to
`2^32 - 1`, the test `i > GetLength() - 1` is false for every `usint` index, and the
element access that follows is outside the vector.  On a vector of length at least 1
(below `2^32`) they raise `math_error` exactly when `i ≥ length`, and for a valid index
they replace element `i` of the host copy (after `updateHost`) by its sum with `b`
modulo the vector modulus and leave the other elements as they were. -/
theorem ModAddAtIndex_empty_vector :
    (NativeVectorT.ModAddAtIndex NativeVectorT.new 0 3 = Except.error Error.out_of_bounds ∧
      NativeVectorT.ModAddAtIndexEq NativeVectorT.new 0 3 = Except.error Error.out_of_bounds ∧
      NativeVectorT.new.m_data.length = 0) ∧
    (∀ (v : NativeVectorT) (i b : Nat) (msg : String), v.m_data = [] → i < 2 ^ 32 →
      v.ModAddAtIndex i b ≠ Except.error (Error.math_error msg) ∧
      v.ModAddAtIndexEq i b ≠ Except.error (Error.math_error msg)) ∧
    (∀ (v : NativeVectorT) (i b : Nat), 1 ≤ v.m_data.length → v.m_data.length < 2 ^ 32 →
      ((∃ msg, v.ModAddAtIndex i b = Except.error (Error.math_error msg))
        ↔ v.m_data.length ≤ i) ∧
      ((∃ msg, v.ModAddAtIndexEq i b = Except.error (Error.math_error msg))
        ↔ v.m_data.length ≤ i)) ∧
    (∀ (v : NativeVectorT) (i b : Nat), v.m_data.length < 2 ^ 32 → i < v.m_data.length →
      v.updateHost.m_data.length = v.m_data.length →
      (∃ src ans, v.ModAddAtIndex i b = Except.ok (src, ans) ∧
        ans.m_data = v.updateHost.m_data.set i
          (ModAdd (v.updateHost.m_data.getD i 0) b v.m_modulus)) ∧
      (∃ w, v.ModAddAtIndexEq i b = Except.ok w ∧
        w.m_data = v.updateHost.m_data.set i
          (ModAdd (v.updateHost.m_data.getD i 0) b v.m_modulus)) ∧
      (0 < v.m_modulus →
        ModAdd (v.updateHost.m_data.getD i 0) b v.m_modulus
          = (v.updateHost.m_data.getD i 0 + b) % v.m_modulus) ∧
      (∀ k, k ≠ i →
        (v.updateHost.m_data.set i
          (ModAdd (v.updateHost.m_data.getD i 0) b v.m_modulus)).getD k 0
          = v.updateHost.m_data.getD k 0)) := by
  refine ⟨⟨rfl, rfl, rfl⟩,
    fun v i b msg he hi => ModAddAtIndex_empty v i b msg he hi,
    fun v i b h1 h2 => ModAddAtIndex_math_error v i b h1 h2, ?_⟩
  intro v i b h2 hi hs
  obtain ⟨a, c⟩ := ModAddAtIndex_valid v i b h2 hi hs
  refine ⟨a, c, fun hm => ModAdd_eq _ _ _ hm, ?_⟩
  intro k hk
  rw [List.getD_eq_getElem?_getD, List.getElem?_set_ne (fun e => hk e.symm),
    ← List.getD_eq_getElem?_getD]

/-! ## The vector class: the two flags -/

theorem coherent_of_dirtyHost (v : NativeVectorT) (h : v.m_dirtyHost = false) : v.Coherent := by
  unfold NativeVectorT.Coherent
  rw [h]
  simp

theorem coherent_of_dirtyVulkan (v : NativeVectorT) (h : v.m_dirtyVulkan = false) :
    v.Coherent := by
  unfold NativeVectorT.Coherent
  rw [h]
  simp

theorem copy_coherent (v : NativeVectorT) : v.copy.1.Coherent ∧ v.copy.2.Coherent := by
  constructor
  · apply coherent_of_dirtyVulkan
    unfold NativeVectorT.copy
    exact updateVulkan_dirtyVulkan _
  · exact coherent_of_dirtyHost _ rfl

theorem copy_flags (v : NativeVectorT) :
    v.copy.2.m_dirtyVulkan = false ∧ v.copy.2.m_dirtyHost = false := ⟨rfl, rfl⟩

theorem ModEq_data (vk : VkhelBackend) (v : NativeVectorT) (m : Nat) :
    (NativeVectorT.ModEq vk v m).m_data = v.m_data := by
  unfold NativeVectorT.ModEq
  exact updateVulkan_data v

theorem ModEq_modulus (vk : VkhelBackend) (v : NativeVectorT) (m : Nat) :
    (NativeVectorT.ModEq vk v m).m_modulus = v.m_modulus := by
  unfold NativeVectorT.ModEq
  exact updateVulkan_modulus v

theorem ModEq_dirtyHost (vk : VkhelBackend) (v : NativeVectorT) (m : Nat) :
    (NativeVectorT.ModEq vk v m).m_dirtyHost = true := rfl

theorem ModEq_dirtyVulkan (vk : VkhelBackend) (v : NativeVectorT) (m : Nat) :
    (NativeVectorT.ModEq vk v m).m_dirtyVulkan = false := by
  unfold NativeVectorT.ModEq
  exact updateVulkan_dirtyVulkan v

theorem step_modulus (vk : VkhelBackend) (p q : Nat) (v : NativeVectorT) (i : Nat) :
    (NativeVectorT.MultiplyAndRoundEq.step vk p q v i).m_modulus = v.m_modulus := by
  unfold NativeVectorT.MultiplyAndRoundEq.step
  simp only []
  split
  · rfl
  · rw [ModEq_modulus]

theorem step_length (vk : VkhelBackend) (p q : Nat) (v : NativeVectorT) (i : Nat) :
    (NativeVectorT.MultiplyAndRoundEq.step vk p q v i).m_data.length = v.m_data.length := by
  unfold NativeVectorT.MultiplyAndRoundEq.step
  simp only []
  split
  · simp
  · rw [ModEq_data]
    simp

theorem step_getD (vk : VkhelBackend) (p q : Nat) (v : NativeVectorT) (i k : Nat)
    (hk : k ≠ i) :
    (NativeVectorT.MultiplyAndRoundEq.step vk p q v i).m_data.getD k 0 = v.m_data.getD k 0 := by
  unfold NativeVectorT.MultiplyAndRoundEq.step
  simp only []
  split
  · show (v.m_data.set i _).getD k 0 = _
    rw [List.getD_eq_getElem?_getD, List.getElem?_set_ne (fun e => hk e.symm),
      ← List.getD_eq_getElem?_getD]
  · rw [ModEq_data]
    show (v.m_data.set i _).getD k 0 = _
    rw [List.getD_eq_getElem?_getD, List.getElem?_set_ne (fun e => hk e.symm),
      ← List.getD_eq_getElem?_getD]

theorem step_dirtyHost (vk : VkhelBackend) (p q : Nat) (v : NativeVectorT) (i : Nat) :
    (NativeVectorT.MultiplyAndRoundEq.step vk p q v i).m_dirtyHost = true ↔
      (v.m_dirtyHost = true ∨ v.m_data.getD i 0 ≤ v.m_modulus >>> 1) := by
  unfold NativeVectorT.MultiplyAndRoundEq.step
  simp only []
  split
  · rename_i h
    show v.m_dirtyHost = true ↔ _
    constructor
    · exact fun h1 => Or.inl h1
    · rintro (h1 | h1)
      · exact h1
      · omega
  · rename_i h
    rw [ModEq_dirtyHost]
    exact ⟨fun _ => Or.inr (by omega), fun _ => rfl⟩

/-- The loop of `MultiplyAndRoundEq` after the indices below `k`. -/
theorem MultiplyAndRoundEq_loop (vk : VkhelBackend) (p q : Nat) (v : NativeVectorT) :
    ∀ k : Nat,
      ((List.range k).foldl (NativeVectorT.MultiplyAndRoundEq.step vk p q) v).m_modulus
        = v.m_modulus ∧
      ((List.range k).foldl (NativeVectorT.MultiplyAndRoundEq.step vk p q) v).m_data.length
        = v.m_data.length ∧
      (∀ i, k ≤ i →
        ((List.range k).foldl (NativeVectorT.MultiplyAndRoundEq.step vk p q) v).m_data.getD i 0
          = v.m_data.getD i 0) ∧
      (((List.range k).foldl (NativeVectorT.MultiplyAndRoundEq.step vk p q) v).m_dirtyHost = true
        ↔ (v.m_dirtyHost = true ∨ ∃ i, i < k ∧ v.m_data.getD i 0 ≤ v.m_modulus >>> 1)) := by
  intro k
  induction k with
  | zero =>
    refine ⟨rfl, rfl, fun _ _ => rfl, ?_⟩
    simp
  | succ k ih =>
    obtain ⟨h1, h2, h3, h4⟩ := ih
    rw [List.range_succ, List.foldl_append]
    simp only [List.foldl_cons, List.foldl_nil]
    refine ⟨?_, ?_, ?_, ?_⟩
    · rw [step_modulus, h1]
    · rw [step_length, h2]
    · intro i hi
      rw [step_getD _ _ _ _ _ _ (by omega), h3 i (by omega)]
    · rw [step_dirtyHost, h4, h3 k (Nat.le_refl k), h1]
      constructor
      · rintro ((h | ⟨i, hi, hx⟩) | h)
        · exact Or.inl h
        · exact Or.inr ⟨i, by omega, hx⟩
        · exact Or.inr ⟨k, by omega, h⟩
      · rintro (h | ⟨i, hi, hx⟩)
        · exact Or.inl (Or.inl h)
        · rcases Nat.lt_or_ge i k with hlt | hge
          · exact Or.inl (Or.inr ⟨i, hlt, hx⟩)
          · have : i = k := by omega
            subst this
            exact Or.inr hx

/-- The flags `MultiplyAndRoundEq` leaves. -/
theorem MultiplyAndRoundEq_flags (vk : VkhelBackend) (v : NativeVectorT) (p q : Nat) :
    (NativeVectorT.MultiplyAndRoundEq vk v p q).m_dirtyVulkan = true ∧
    ((NativeVectorT.MultiplyAndRoundEq vk v p q).m_dirtyHost = true ↔
      ∃ x ∈ v.updateHost.m_data, x ≤ v.m_modulus >>> 1) := by
  refine ⟨rfl, ?_⟩
  obtain ⟨_, _, _, h4⟩ := MultiplyAndRoundEq_loop vk p q v.updateHost v.updateHost.m_data.length
  show ((List.range v.updateHost.m_data.length).foldl
    (NativeVectorT.MultiplyAndRoundEq.step vk p q) v.updateHost).m_dirtyHost = true ↔ _
  rw [h4, updateHost_dirtyHost, updateHost_modulus]
  constructor
  · rintro (h | ⟨i, hi, hx⟩)
    · cases h
    · rw [List.getD_eq_getElem _ _ hi] at hx
      exact ⟨_, List.getElem_mem hi, hx⟩
  · rintro ⟨x, hx, hle⟩
    obtain ⟨i, hi, e⟩ := List.getElem_of_mem hx
    refine Or.inr ⟨i, hi, ?_⟩
    rw [List.getD_eq_getElem _ _ hi, e]
    exact hle

theorem constructors_coherent (vk : VkhelBackend) :
    NativeVectorT.new.Coherent ∧
    (∀ length, (NativeVectorT.ofLength vk length).Coherent) ∧
    (∀ length modulus v, NativeVectorT.ofLengthModulus vk length modulus = Except.ok v →
      v.Coherent) ∧
    (∀ bigVector : NativeVectorT, bigVector.copy.1.Coherent ∧ bigVector.copy.2.Coherent) ∧
    (∀ bigVector : NativeVectorT, bigVector.Coherent →
      bigVector.moved.1.Coherent ∧ bigVector.moved.2.Coherent) ∧
    (∀ length modulus rhs v, NativeVectorT.ofStrings vk length modulus rhs = Except.ok v →
      v.Coherent) ∧
    (∀ length modulus rhs v, NativeVectorT.ofList vk length modulus rhs = Except.ok v →
      v.Coherent) := by
  refine ⟨coherent_of_dirtyHost _ rfl, fun _ => coherent_of_dirtyHost _ rfl, ?_, copy_coherent,
    fun b hb => ⟨hb, hb⟩, ?_, ?_⟩
  · intro length modulus v h
    unfold NativeVectorT.ofLengthModulus NativeVectorT.SetModulus at h
    split at h
    · cases h
    · simp only [] at h
      cases h
      exact coherent_of_dirtyHost _ rfl
  · intro length modulus rhs v h
    unfold NativeVectorT.ofStrings NativeVectorT.SetModulus at h
    split at h
    · rename_i e he
      split at he <;> cases he
      cases h
    · rename_i w hw
      split at hw
      · cases hw
      · cases hw
        cases h
        exact coherent_of_dirtyHost _ rfl
  · intro length modulus rhs v h
    unfold NativeVectorT.ofList NativeVectorT.SetModulus at h
    split at h
    · rename_i e he
      split at he <;> cases he
      cases h
    · rename_i w hw
      split at hw
      · cases hw
      · cases hw
        cases h
        exact coherent_of_dirtyHost _ rfl

theorem assignments_coherent (v rhs : NativeVectorT) (self : Bool) (hv : v.Coherent)
    (hr : rhs.Coherent) :
    (v.assign rhs self).1.Coherent ∧ (v.assign rhs self).2.Coherent ∧
    (v.assignMoved rhs self).1.Coherent ∧ (v.assignMoved rhs self).2.Coherent := by
  unfold NativeVectorT.assign NativeVectorT.assignMoved
  cases self with
  | true => exact ⟨hv, hr, hv, hr⟩
  | false =>
    refine ⟨coherent_of_dirtyHost _ rfl, ?_, hr, hr⟩
    apply coherent_of_dirtyVulkan
    exact updateVulkan_dirtyVulkan _

theorem inplace_coherent (vk : VkhelBackend) (v : NativeVectorT) (b : Nat) :
    (NativeVectorT.SwitchModulus vk v b).2.Coherent ∧
    (NativeVectorT.ModEq vk v b).Coherent ∧
    (v.ModAddEq b).Coherent ∧ (v.ModSubEq b).Coherent ∧
    (NativeVectorT.ModMulEq vk v b).Coherent ∧ (NativeVectorT.ModByTwoEq vk v).Coherent ∧
    (NativeVectorT.ModExpEq vk v b).Coherent ∧ (NativeVectorT.ModInverseEq vk v).Coherent ∧
    (NativeVectorT.DivideAndRoundEq vk v b).Coherent ∧
    (∀ w, NativeVectorT.SetModulus vk v b = Except.ok w → v.Coherent → w.Coherent) ∧
    (∀ i w, v.ModAddAtIndexEq i b = Except.ok w → w.Coherent) := by
  refine ⟨?_, ?_, ?_, ?_, ?_, ?_, ?_, ?_, ?_, ?_, ?_⟩
  · apply coherent_of_dirtyVulkan
    unfold NativeVectorT.SwitchModulus NativeVectorT.SetModulus
    simp only []
    split
    · rename_i e he
      split at he
      · cases he
        split <;> exact updateVulkan_dirtyVulkan v
      · cases he
    · rename_i w hw
      split at hw
      · cases hw
      · cases hw
        split <;> exact updateVulkan_dirtyVulkan v
  · exact coherent_of_dirtyVulkan _ (ModEq_dirtyVulkan vk v b)
  · exact coherent_of_dirtyHost _ (updateHost_dirtyHost v)
  · exact coherent_of_dirtyHost _ (updateHost_dirtyHost v)
  · exact coherent_of_dirtyHost _ (updateHost_dirtyHost v)
  · exact coherent_of_dirtyVulkan _ (ModEq_dirtyVulkan vk v 2)
  · exact coherent_of_dirtyHost _ (updateHost_dirtyHost v)
  · exact coherent_of_dirtyHost _ (updateHost_dirtyHost v)
  · exact coherent_of_dirtyHost _ (updateHost_dirtyHost v)
  · intro w h hv
    unfold NativeVectorT.SetModulus at h
    split at h
    · cases h
    · cases h
      exact hv
  · intro i w h
    unfold NativeVectorT.ModAddAtIndexEq at h
    split at h
    · cases h
    · simp only [] at h
      split at h
      · cases h
        exact coherent_of_dirtyHost _ (updateHost_dirtyHost v)
      · cases h

theorem const_coherent (vk : VkhelBackend) (v : NativeVectorT) (b c : Nat) :
    ((NativeVectorT.Mod vk v b).1.Coherent ∧ (NativeVectorT.Mod vk v b).2.Coherent) ∧
    ((v.ModAdd b).1.Coherent ∧ (v.ModAdd b).2.Coherent) ∧
    ((v.ModSub b).1.Coherent ∧ (v.ModSub b).2.Coherent) ∧
    ((NativeVectorT.ModMul vk v b).1.Coherent ∧ (NativeVectorT.ModMul vk v b).2.Coherent) ∧
    ((NativeVectorT.ModByTwo vk v).1.Coherent ∧ (NativeVectorT.ModByTwo vk v).2.Coherent) ∧
    ((NativeVectorT.ModExp vk v b).1.Coherent ∧ (NativeVectorT.ModExp vk v b).2.Coherent) ∧
    ((NativeVectorT.ModInverse vk v).1.Coherent ∧ (NativeVectorT.ModInverse vk v).2.Coherent) ∧
    ((NativeVectorT.MultiplyAndRound vk v b c).1.Coherent ∧
      (NativeVectorT.MultiplyAndRound vk v b c).2.Coherent) ∧
    ((NativeVectorT.DivideAndRound vk v b).1.Coherent ∧
      (NativeVectorT.DivideAndRound vk v b).2.Coherent) ∧
    ((NativeVectorT.GetDigitAtIndexForBase vk v b c).1.Coherent ∧
      (NativeVectorT.GetDigitAtIndexForBase vk v b c).2.Coherent) ∧
    (∀ i src ans, v.ModAddAtIndex i b = Except.ok (src, ans) → src.Coherent ∧ ans.Coherent) := by
  have hs := (copy_coherent v).1
  refine ⟨⟨hs, coherent_of_dirtyVulkan _ rfl⟩, ⟨hs, ?_⟩, ⟨hs, ?_⟩, ⟨hs, ?_⟩,
    ⟨hs, coherent_of_dirtyVulkan _ rfl⟩, ⟨hs, coherent_of_dirtyHost _ rfl⟩,
    ⟨hs, coherent_of_dirtyHost _ rfl⟩, ⟨hs, coherent_of_dirtyHost _ rfl⟩,
    ⟨hs, coherent_of_dirtyHost _ rfl⟩, ⟨hs, coherent_of_dirtyHost _ rfl⟩, ?_⟩
  · exact coherent_of_dirtyHost _ (updateHost_dirtyHost _)
  · exact coherent_of_dirtyHost _ (updateHost_dirtyHost _)
  · exact coherent_of_dirtyHost _ (updateHost_dirtyHost _)
  · intro i src ans h
    rw [ModAddAtIndex_run] at h
    split at h
    · cases h
    · split at h
      · cases h
        exact ⟨hs, coherent_of_dirtyHost _ rfl⟩
      · cases h

theorem binary_coherent (vk : VkhelBackend) (v b : NativeVectorT) :
    (∀ src b2 ans, v.ModAddVec b = Except.ok (src, b2, ans) →
      src.Coherent ∧ b2.Coherent ∧ ans.Coherent) ∧
    (∀ src b2 ans, v.ModSubVec b = Except.ok (src, b2, ans) →
      src.Coherent ∧ b2.Coherent ∧ ans.Coherent) ∧
    (∀ src b2 ans, NativeVectorT.ModMulVec vk v b = Except.ok (src, b2, ans) →
      src.Coherent ∧ b2.Coherent ∧ ans.Coherent) ∧
    (∀ src b2 ans, NativeVectorT.MultWithOutMod vk v b = Except.ok (src, b2, ans) →
      src.Coherent ∧ b2.Coherent ∧ ans.Coherent) ∧
    (∀ w b2, v.ModAddEqVec b = Except.ok (w, b2) → w.Coherent ∧ b2.Coherent) ∧
    (∀ w b2, v.ModSubEqVec b = Except.ok (w, b2) → w.Coherent ∧ b2.Coherent) ∧
    (∀ w b2, NativeVectorT.ModMulEqVec vk v b = Except.ok (w, b2) →
      w.Coherent ∧ b2.Coherent) := by
  have hs := (copy_coherent v).1
  have hbh := coherent_of_dirtyHost _ (updateHost_dirtyHost b)
  have hbv := coherent_of_dirtyVulkan _ (updateVulkan_dirtyVulkan b)
  refine ⟨?_, ?_, ?_, ?_, ?_, ?_, ?_⟩
  · intro src b2 ans h
    unfold NativeVectorT.ModAddVec at h
    split at h
    · cases h
    · cases h
      exact ⟨hs, hbh, coherent_of_dirtyHost _ rfl⟩
  · intro src b2 ans h
    unfold NativeVectorT.ModSubVec at h
    split at h
    · cases h
    · cases h
      exact ⟨hs, hbh, coherent_of_dirtyHost _ rfl⟩
  · intro src b2 ans h
    unfold NativeVectorT.ModMulVec at h
    split at h
    · cases h
    · cases h
      exact ⟨hs, hbv, coherent_of_dirtyVulkan _ rfl⟩
  · intro src b2 ans h
    unfold NativeVectorT.MultWithOutMod at h
    split at h
    · cases h
    · cases h
      exact ⟨hs, hbh, coherent_of_dirtyHost _ rfl⟩
  · intro w b2 h
    unfold NativeVectorT.ModAddEqVec at h
    split at h
    · cases h
    · cases h
      exact ⟨coherent_of_dirtyHost _ (updateHost_dirtyHost v), hbh⟩
  · intro w b2 h
    unfold NativeVectorT.ModSubEqVec at h
    split at h
    · cases h
    · cases h
      exact ⟨coherent_of_dirtyHost _ (updateHost_dirtyHost v), hbh⟩
  · intro w b2 h
    unfold NativeVectorT.ModMulEqVec at h
    split at h
    · cases h
    · cases h
      exact ⟨coherent_of_dirtyVulkan _ (updateVulkan_dirtyVulkan v), hbv⟩

theorem assignList_flags (vk : VkhelBackend) (v : NativeVectorT) :
    (∀ rhs, (v.assignList rhs).m_dirtyVulkan = true ∧
      (v.assignList rhs).m_dirtyHost = v.m_dirtyHost ∧
      ((v.assignList rhs).Coherent ↔ v.m_dirtyHost = false)) ∧
    (∀ rhs, (NativeVectorT.assignStrings vk v rhs).m_dirtyVulkan = true ∧
      (NativeVectorT.assignStrings vk v rhs).m_dirtyHost = v.m_dirtyHost ∧
      ((NativeVectorT.assignStrings vk v rhs).Coherent ↔ v.m_dirtyHost = false)) := by
  constructor
  · intro rhs
    refine ⟨rfl, rfl, ?_⟩
    unfold NativeVectorT.Coherent NativeVectorT.assignList
    simp
  · intro rhs
    refine ⟨rfl, rfl, ?_⟩
    unfold NativeVectorT.Coherent NativeVectorT.assignStrings
    simp

/-- C36: the flags are not kept from being both set.  `MultiplyAndRoundEq` calls `ModEq`,
which sets `m_dirtyHost`, inside its loop and sets `m_dirtyVulkan` after it: it leaves
both flags set exactly when some element of the host copy is at most half the modulus,
as on the vector constructed with length 1 and modulus 8.  The assignments from an
initializer list set `m_dirtyVulkan` and leave `m_dirtyHost` as it is: after `ModEq`
they leave both flags set.  Every constructor establishes the invariant and every
other assignment and operation of the file preserves it, for the vector, its operand
and its result (the move constructor, the copy and move assignments of a vector to
itself and `SetModulus` keep the flags they find). -/
theorem MultiplyAndRoundEq_both_dirty :
    (∃ v, NativeVectorT.ofLengthModulus plainBackend 1 8 = Except.ok v ∧ v.Coherent ∧
      (NativeVectorT.MultiplyAndRoundEq plainBackend v 3 5).m_dirtyVulkan = true ∧
      (NativeVectorT.MultiplyAndRoundEq plainBackend v 3 5).m_dirtyHost = true) ∧
    (∃ v, NativeVectorT.ofLengthModulus plainBackend 1 8 = Except.ok v ∧
      (NativeVectorT.ModEq plainBackend v 8).Coherent ∧
      ((NativeVectorT.ModEq plainBackend v 8).assignList [1]).m_dirtyVulkan = true ∧
      ((NativeVectorT.ModEq plainBackend v 8).assignList [1]).m_dirtyHost = true) ∧
    (∀ (vk : VkhelBackend) (v : NativeVectorT) (p q : Nat),
      (NativeVectorT.MultiplyAndRoundEq vk v p q).m_dirtyVulkan = true ∧
      ((NativeVectorT.MultiplyAndRoundEq vk v p q).m_dirtyHost = true ↔
        ∃ x ∈ v.updateHost.m_data, x ≤ v.m_modulus >>> 1)) ∧
    (∀ (vk : VkhelBackend) (v : NativeVectorT),
      (∀ rhs, (v.assignList rhs).m_dirtyVulkan = true ∧
        (v.assignList rhs).m_dirtyHost = v.m_dirtyHost ∧
        ((v.assignList rhs).Coherent ↔ v.m_dirtyHost = false)) ∧
      (∀ rhs, (NativeVectorT.assignStrings vk v rhs).m_dirtyVulkan = true ∧
        (NativeVectorT.assignStrings vk v rhs).m_dirtyHost = v.m_dirtyHost ∧
        ((NativeVectorT.assignStrings vk v rhs).Coherent ↔ v.m_dirtyHost = false))) ∧
    (∀ vk : VkhelBackend,
      NativeVectorT.new.Coherent ∧
      (∀ length, (NativeVectorT.ofLength vk length).Coherent) ∧
      (∀ length modulus v, NativeVectorT.ofLengthModulus vk length modulus = Except.ok v →
        v.Coherent) ∧
      (∀ bigVector : NativeVectorT, bigVector.copy.1.Coherent ∧ bigVector.copy.2.Coherent) ∧
      (∀ bigVector : NativeVectorT, bigVector.Coherent →
        bigVector.moved.1.Coherent ∧ bigVector.moved.2.Coherent) ∧
      (∀ length modulus rhs v, NativeVectorT.ofStrings vk length modulus rhs = Except.ok v →
        v.Coherent) ∧
      (∀ length modulus rhs v, NativeVectorT.ofList vk length modulus rhs = Except.ok v →
        v.Coherent)) ∧
    (∀ (v rhs : NativeVectorT) (self : Bool), v.Coherent → rhs.Coherent →
      (v.assign rhs self).1.Coherent ∧ (v.assign rhs self).2.Coherent ∧
      (v.assignMoved rhs self).1.Coherent ∧ (v.assignMoved rhs self).2.Coherent) ∧
    (∀ (vk : VkhelBackend) (v : NativeVectorT) (b : Nat),
      (NativeVectorT.SwitchModulus vk v b).2.Coherent ∧
      (NativeVectorT.ModEq vk v b).Coherent ∧
      (v.ModAddEq b).Coherent ∧ (v.ModSubEq b).Coherent ∧
      (NativeVectorT.ModMulEq vk v b).Coherent ∧ (NativeVectorT.ModByTwoEq vk v).Coherent ∧
      (NativeVectorT.ModExpEq vk v b).Coherent ∧ (NativeVectorT.ModInverseEq vk v).Coherent ∧
      (NativeVectorT.DivideAndRoundEq vk v b).Coherent ∧
      (∀ w, NativeVectorT.SetModulus vk v b = Except.ok w → v.Coherent → w.Coherent) ∧
      (∀ i w, v.ModAddAtIndexEq i b = Except.ok w → w.Coherent)) ∧
    (∀ (vk : VkhelBackend) (v : NativeVectorT) (b c : Nat),
      ((NativeVectorT.Mod vk v b).1.Coherent ∧ (NativeVectorT.Mod vk v b).2.Coherent) ∧
      ((v.ModAdd b).1.Coherent ∧ (v.ModAdd b).2.Coherent) ∧
      ((v.ModSub b).1.Coherent ∧ (v.ModSub b).2.Coherent) ∧
      ((NativeVectorT.ModMul vk v b).1.Coherent ∧ (NativeVectorT.ModMul vk v b).2.Coherent) ∧
      ((NativeVectorT.ModByTwo vk v).1.Coherent ∧ (NativeVectorT.ModByTwo vk v).2.Coherent) ∧
      ((NativeVectorT.ModExp vk v b).1.Coherent ∧ (NativeVectorT.ModExp vk v b).2.Coherent) ∧
      ((NativeVectorT.ModInverse vk v).1.Coherent ∧
        (NativeVectorT.ModInverse vk v).2.Coherent) ∧
      ((NativeVectorT.MultiplyAndRound vk v b c).1.Coherent ∧
        (NativeVectorT.MultiplyAndRound vk v b c).2.Coherent) ∧
      ((NativeVectorT.DivideAndRound vk v b).1.Coherent ∧
        (NativeVectorT.DivideAndRound vk v b).2.Coherent) ∧
      ((NativeVectorT.GetDigitAtIndexForBase vk v b c).1.Coherent ∧
        (NativeVectorT.GetDigitAtIndexForBase vk v b c).2.Coherent) ∧
      (∀ i src ans, v.ModAddAtIndex i b = Except.ok (src, ans) →
        src.Coherent ∧ ans.Coherent)) ∧
    (∀ (vk : VkhelBackend) (v b : NativeVectorT),
      (∀ src b2 ans, v.ModAddVec b = Except.ok (src, b2, ans) →
        src.Coherent ∧ b2.Coherent ∧ ans.Coherent) ∧
      (∀ src b2 ans, v.ModSubVec b = Except.ok (src, b2, ans) →
        src.Coherent ∧ b2.Coherent ∧ ans.Coherent) ∧
      (∀ src b2 ans, NativeVectorT.ModMulVec vk v b = Except.ok (src, b2, ans) →
        src.Coherent ∧ b2.Coherent ∧ ans.Coherent) ∧
      (∀ src b2 ans, NativeVectorT.MultWithOutMod vk v b = Except.ok (src, b2, ans) →
        src.Coherent ∧ b2.Coherent ∧ ans.Coherent) ∧
      (∀ w b2, v.ModAddEqVec b = Except.ok (w, b2) → w.Coherent ∧ b2.Coherent) ∧
      (∀ w b2, v.ModSubEqVec b = Except.ok (w, b2) → w.Coherent ∧ b2.Coherent) ∧
      (∀ w b2, NativeVectorT.ModMulEqVec vk v b = Except.ok (w, b2) →
        w.Coherent ∧ b2.Coherent)) :=
  ⟨⟨_, rfl, by decide, rfl, rfl⟩, ⟨_, rfl, by decide, rfl, rfl⟩,
    fun vk v p q => MultiplyAndRoundEq_flags vk v p q,
    fun vk v => assignList_flags vk v,
    fun vk => constructors_coherent vk,
    fun v rhs self hv hr => assignments_coherent v rhs self hv hr,
    fun vk v b => inplace_coherent vk v b,
    fun vk v b c => const_coherent vk v b c,
    fun vk v b => binary_coherent vk v b⟩

/-! ## The bootstrap with the noise-free collaborators -/

set_option maxRecDepth 100000 in
/-- The bound on the rounding error is needed.  With `beta = 1` and the secret `[1, 1]`,
for which `1 + Σ sk < 2 * beta` fails, the other conditions hold for `q = 8` and the
input modulus 64; the ciphertext encrypts the encoded value 0, the componentwise
rounding moves the value to the boundary of the half, and `EvalSign` returns an
encryption of `q/2 = 4`.  With `beta = 2` it returns an encryption of 0. -/
theorem EvalSign_rounding_flip :
    phase [1, 1] ⟨⟨[3, 5], 64⟩, 8⟩ = 0 ∧
    (∃ (r : LWECiphertext) (s1 : Machine),
      EvalSign (BootstrapFunc idealCollaborators) idealCollaborators signParams
        [(4, ⟨some [1, 1], []⟩)] ⟨⟨[3, 5], 64⟩, 8⟩ 1 2 smallMachine = some (Except.ok r, s1) ∧
      phase [1, 1] r.obj = 4) ∧
    (∃ (r : LWECiphertext) (s1 : Machine),
      EvalSign (BootstrapFunc idealCollaborators) idealCollaborators signParams
        [(4, ⟨some [1, 1], []⟩)] ⟨⟨[3, 5], 64⟩, 8⟩ 2 3 smallMachine = some (Except.ok r, s1) ∧
      phase [1, 1] r.obj = 0) :=
  ⟨by rfl, ⟨_, _, rfl, by rfl⟩, ⟨_, _, rfl, by rfl⟩⟩

end lbcrypto
